import Mathlib

/-!
# BuildFEMatrix: a shallow embedding of the finite-element stiffness-matrix builder

Source: `src/Core/Algorithms/Legacy/FiniteElements/BuildMatrix/BuildFEMatrix.cc`
(`FEMBuilder` and `BuildFEMatrixAlgo::run`).

Conventions of the embedding.

* `double` is modelled by `ℚ` (exact arithmetic); index types by `Nat`; `int` values
  that may be negative (mesh dimensionality, basis order, tissue index) by `Int`.
* A C++ `std::vector` is a `List`.  Every indexed read or write that the language
  leaves undefined when out of range goes through `rd` / `wr`, which return `none`;
  a function returning `Option` returns `none` exactly when the source would
  perform such an access or dereference a null handle (the run is then outside the
  model).  Accesses to `rows_`, `allcols_`, `colidx_` and `success_` that are in range
  by construction use `List.set` and `List.getD`.
* C++ exceptions are modelled where the source catches them (`catch (...)` in
  `FEMBuilder::parallel`) for the two steps whose failure depends on the input: the
  `std::length_error` of `vector::assign` in `create_numerical_integration` and a
  failing `ASSERT`.  The handler's effect (error message, success flag cleared) is
  applied.  Memory exhaustion (`std::bad_alloc`) is not modelled.
* The worker threads of `Parallel::RunTasks` run in lock step: all workers finish a
  phase, the barrier is passed, all workers read the same success flags.
* Messages sent to `algo_->error/warning/remark` are appended to a log.
-/

namespace BuildFEMatrix

/-! ## Vectors -/

/-- Indexed read `v[i]`; `none` when `i` is out of range. -/
def rd {α : Type} (v : List α) (i : Nat) : Option α := v.get? i

/-- Indexed write `v[i] = x`; `none` when `i` is out of range. -/
def wr {α : Type} (v : List α) (i : Nat) (x : α) : Option (List α) :=
  if i < v.length then some (v.set i x) else none

/-! ## Tensor and dense matrix -/

/-- The class `Tensor` of `Core/GeometryPrimitives/Tensor.h` (declared in another file of the
repository): the member `double mat_[3][3]`. -/
@[ext]
structure Tensor where
  mat_ : Fin 3 → Fin 3 → ℚ

/-- Assignment `t.mat_[r][c] = v`. -/
def Tensor.set (t : Tensor) (r c : Fin 3) (v : ℚ) : Tensor :=
  ⟨fun i j => if i = r ∧ j = c then v else t.mat_ i j⟩

/-- A default-constructed `Tensor tensor;` (every entry is overwritten before use). -/
def Tensor.zero : Tensor := ⟨fun _ _ => 0⟩

/-- A dense matrix: `nrows()`, `ncols()` and the row-major buffer `data()`. -/
structure DenseMatrix where
  nrows : Nat
  ncols : Nat
  data : List ℚ
  size_eq : data.length = nrows * ncols

/-- In-range read `data[k + p*n]` for a row `p < nrows` and a column `k < ncols`. -/
def DenseMatrix.at (mat : DenseMatrix) (p : Fin mat.nrows) (k : Nat) (hk : k < mat.ncols) : ℚ :=
  mat.data.get ⟨k + p.val * mat.ncols, by
    rw [mat.size_eq]
    calc k + p.val * mat.ncols < mat.ncols + p.val * mat.ncols := Nat.add_lt_add_right hk _
      _ = (p.val + 1) * mat.ncols := by ring
      _ ≤ mat.nrows * mat.ncols := Nat.mul_le_mul_right _ p.isLt⟩

/-- The conductivity list `tensors_`: pairs of a name and a tensor. -/
abbrev TensorTable := List (String × Tensor)

/-- The body of the 1-column loop (lines 203-211): nine assignments to `tensor`. -/
def fill_isotropic (tensor : Tensor) (d0 : ℚ) : Tensor :=
  ((((((((tensor.set 0 0 d0).set 1 0 0).set 2 0 0).set 0 1 0).set 1 1 d0).set 2 1 0).set
    0 2 0).set 1 2 0).set 2 2 d0

/-- The body of the 6-column loop (lines 221-229). -/
def fill_compressed (tensor : Tensor) (d0 d1 d2 d3 d4 d5 : ℚ) : Tensor :=
  ((((((((tensor.set 0 0 d0).set 1 0 d1).set 2 0 d2).set 0 1 d1).set 1 1 d3).set 2 1 d4).set
    0 2 d2).set 1 2 d4).set 2 2 d5

/-- The body of the 9-column loop (lines 239-247): reads `data[0,1,2,4,5,8 + p*n]`. -/
def fill_full (tensor : Tensor) (d0 d1 d2 d4 d5 d8 : ℚ) : Tensor :=
  ((((((((tensor.set 0 0 d0).set 1 0 d1).set 2 0 d2).set 0 1 d1).set 1 1 d4).set 2 1 d5).set
    0 2 d2).set 1 2 d5).set 2 2 d8

/-- A loop `for (p = 0; p < m; p++) { body; tensors_.push_back(make_pair("", tensor)); }`
over the local `tensor` and the member `tensors_`. -/
def table_loop (m : Nat) (body : Tensor → Fin m → Tensor) (st : Tensor × TensorTable) :
    Tensor × TensorTable :=
  (List.finRange m).foldl (fun s p => (body s.1 p, s.2 ++ [("", body s.1 p)])) st

/-- The conversion of the conductivity table at the start of `FEMBuilder::build_matrix`
(lines 184-252): the new value of `tensors_`.  With a null table `tensors_` is left
as it is; otherwise it is cleared and the three column-count cases run in sequence. -/
def convert_table (tensors_ : TensorTable) (ctable : Option DenseMatrix) : TensorTable :=
  match ctable with
  | none => tensors_
  | some mat =>
    let s0 : Tensor × TensorTable := (Tensor.zero, [])
    let s1 := if h : mat.ncols = 1 then
        table_loop mat.nrows (fun t p => fill_isotropic t (mat.at p 0 (by omega))) s0
      else s0
    let s2 := if h : mat.ncols = 6 then
        table_loop mat.nrows (fun t p => fill_compressed t
          (mat.at p 0 (by omega)) (mat.at p 1 (by omega)) (mat.at p 2 (by omega))
          (mat.at p 3 (by omega)) (mat.at p 4 (by omega)) (mat.at p 5 (by omega))) s1
      else s1
    let s3 := if h : mat.ncols = 9 then
        table_loop mat.nrows (fun t p => fill_full t
          (mat.at p 0 (by omega)) (mat.at p 1 (by omega)) (mat.at p 2 (by omega))
          (mat.at p 4 (by omega)) (mat.at p 5 (by omega)) (mat.at p 8 (by omega))) s2
      else s2
    s3.2

/-! ## Messages, mesh and field -/

/-- A message sent to the algorithm object (`algo_->error`, `warning`, `remark`). -/
inductive Msg
  | error (s : String)
  | warning (s : String)
  | remark (s : String)
  deriving DecidableEq, Repr

/-- The query interface of the external mesh (`VMesh`) that the builder consumes.
`get_elems_node i` / `get_elems_edge e` are the two overloads of `get_elems`;
`num_nodes` is the value `mns` of `mesh_->size(mns)`; `get_gaussian_scheme k` is the
pair `(p, w)` written by `get_gaussian_scheme(p, w, k)`; `inverse_jacobian p c` is the
returned determinant together with the array `Ji[9]`. -/
structure VMesh where
  dimensionality : Int
  num_nodes_per_elem : Nat
  num_enodes_per_elem : Nat
  num_nodes : Nat
  num_enodes : Nat
  get_elems_node : Nat → List Nat
  get_elems_edge : Nat → List Nat
  get_nodes : Nat → List Nat
  get_edges : Nat → List Nat
  is_regularmesh : Bool
  is_quad_element : Bool
  is_hex_element : Bool
  is_prism_element : Bool
  get_element_size : ℚ
  get_gaussian_scheme : Nat → List (List ℚ) × List ℚ
  get_derivate_weights : List ℚ → List ℚ
  inverse_jacobian : List ℚ → Nat → ℚ × (Fin 9 → ℚ)
  generation : Int

/-- The query interface of the external field (`VField`): `get_value_tensor c` and
`get_value_int c` are the overloads `get_value(Tensor&, idx)` and `get_value(int&, idx)`. -/
structure VField where
  is_vector : Bool
  basis_order : Int
  get_value_tensor : Nat → Tensor
  get_value_int : Nat → Int

/-- A non-null `FieldHandle`: the field, its mesh and the property
`"conductivity_table"` (empty when the property is absent). -/
structure Field where
  vfield : VField
  vmesh : VMesh
  conductivity_table : TensorTable

/-! ## Sparse row matrix -/

/-- Modelled from the spec: the class `SparseRowMatrix` is declared in another file of
the repository.  Spec §3: a row-pointer array of length dimension+1, a column-index array of
length nnz and a value array of length nnz. -/
structure SparseRowMatrix where
  nrows : Nat
  ncols : Nat
  rows : List Nat
  cols : List Nat
  vals : List ℚ
  deriving DecidableEq

/-- Modelled from the spec: the constructor
`SparseRowMatrix(nrows, ncols, rows, cols, nnz)` called by worker 0; it takes the row and
column arrays as they are and holds `nnz` values (0 until the ZeroInit phase rewrites
them). -/
def SparseRowMatrix.create (nrows ncols : Nat) (rows cols : List Nat) (nnz : Nat) :
    SparseRowMatrix :=
  ⟨nrows, ncols, rows, cols.take nnz, List.replicate nnz 0⟩

/-- Modelled from the spec: position of cell `(row, col)` inside the compressed segment
`[rows[row], rows[row+1])` of the column array (spec §4.3: "value accumulation later
addresses cells by (row, column) lookup within the row's compressed segment"). -/
def SparseRowMatrix.find (M : SparseRowMatrix) (row col : Nat) : Option Nat := do
  let s ← rd M.rows row
  let e ← rd M.rows (row + 1)
  (List.range' s (e - s)).find? (fun k => decide (rd M.cols k = some col))

/-- Modelled from the spec: `coeffRef(row, col) += x`.  A cell that is not in the
pattern is outside the model. -/
def SparseRowMatrix.coeffRef_add (M : SparseRowMatrix) (row col : Nat) (x : ℚ) :
    Option SparseRowMatrix := do
  let k ← M.find row col
  let old ← rd M.vals k
  let vals ← wr M.vals k (old + x)
  some { M with vals := vals }

/-- Modelled from the spec: the value of cell `(i, j)`, 0 when it is not stored. -/
def SparseRowMatrix.coeff (M : SparseRowMatrix) (i j : Nat) : ℚ :=
  ((M.find i j).bind (rd M.vals)).getD 0

/-- Modelled from the spec: `0.5*(transpose + A)` (spec §4.5 Symmetrize).  Row `i` of
the sum stores, in ascending order, every column stored in row `i` of `A` or of its
transpose. -/
def SparseRowMatrix.symmetrize (A : SparseRowMatrix) : SparseRowMatrix :=
  let rowcols : Nat → List Nat := fun i =>
    (List.range A.ncols).filter (fun j => (A.find i j).isSome || (A.find j i).isSome)
  let segs := (List.range A.nrows).map rowcols
  { nrows := A.nrows
    ncols := A.ncols
    rows := (List.range (A.nrows + 1)).map (fun i => ((segs.take i).map List.length).sum)
    cols := segs.flatten
    vals := ((List.range A.nrows).map
      (fun i => (rowcols i).map (fun j => (1 / 2 : ℚ) * (A.coeff j i + A.coeff i j)))).flatten }

/-! ## The builder -/

/-- The members of `FEMBuilder`.  `mesh_` and `field_` are passed to the member
functions as the argument `input`.  `force_symmetry` is the algorithm parameter
`ForceSymmetry` read through `algo_`, `log` the messages sent to `algo_`, and
`assertions` tells whether the macro `ASSERT` (defined in another file of the
repository) is compiled to a throwing check. -/
structure FEMBuilder where
  numprocessors_ : Nat
  force_symmetry : Bool
  assertions : Bool
  log : List Msg
  fematrix_ : Option SparseRowMatrix
  success_ : List Bool
  rows_ : List Nat
  allcols_ : List Nat
  colidx_ : List Nat
  domain_dimension : Int
  local_dimension_nodes : Nat
  local_dimension_add_nodes : Nat
  local_dimension_derivatives : Nat
  local_dimension : Nat
  global_dimension_nodes : Nat
  global_dimension_add_nodes : Nat
  global_dimension_derivatives : Nat
  global_dimension : Nat
  tensors_ : TensorTable

/-- The constructor `FEMBuilder(algo)`; `cores` is `Parallel::NumCores()`, `log` the
messages the algorithm object holds so far. -/
def FEMBuilder.new (cores : Nat) (force_symmetry assertions : Bool) (log : List Msg) :
    FEMBuilder :=
  { numprocessors_ := cores, force_symmetry := force_symmetry, assertions := assertions,
    log := log, fematrix_ := none, success_ := [], rows_ := [], allcols_ := [],
    colidx_ := [], domain_dimension := 0, local_dimension_nodes := 0,
    local_dimension_add_nodes := 0, local_dimension_derivatives := 0, local_dimension := 0,
    global_dimension_nodes := 0, global_dimension_add_nodes := 0,
    global_dimension_derivatives := 0, global_dimension := 0, tensors_ := [] }

/-- The call `algo_->error(msg)`. -/
def FEMBuilder.error (b : FEMBuilder) (msg : String) : FEMBuilder :=
  { b with log := b.log ++ [Msg.error msg] }

/-- The call `algo_->warning(msg)`. -/
def FEMBuilder.warning (b : FEMBuilder) (msg : String) : FEMBuilder :=
  { b with log := b.log ++ [Msg.warning msg] }

/-- The call `v.resize(n, x)`. -/
def resize {α : Type} (v : List α) (n : Nat) (x : α) : List α :=
  v.take n ++ List.replicate (n - v.length) x

/-! ## Numerical integration -/

/-- Arithmetic on `size_t` is modulo `2^64`. -/
def size_t_modulus : Nat := 2 ^ 64

/-- The value of `std::vector<double>::max_size()`: a request for more elements throws
`std::length_error`. -/
def vector_max_size : Nat := 2 ^ 60 - 1

/-- One iteration of the loop of `create_numerical_integration` (lines 307-310):
`d[j]` receives the derivative weights, `pad_size` is computed in `size_t`, and
`d[j].assign(pad_size, 0.0)` replaces the content of `d[j]` by `pad_size` zeros; the
exception of `assign` is the error case. -/
def pad_derivatives (mesh : VMesh) (pj : List ℚ) : Except String (List ℚ) :=
  let dj := mesh.get_derivate_weights pj
  let pad_size :=
    ((size_t_modulus + 3 - pj.length % size_t_modulus) % size_t_modulus * dj.length)
      % size_t_modulus
  if pad_size ≤ vector_max_size then .ok (List.replicate pad_size 0)
  else .error "std::length_error"

/-- The loop `for (j = 0; j < p.size(); j++)` of `create_numerical_integration`. -/
def pad_all (mesh : VMesh) : List (List ℚ) → Except String (List (List ℚ))
  | [] => .ok []
  | pj :: ps =>
    match pad_derivatives mesh pj with
    | .error e => .error e
    | .ok dj =>
      match pad_all mesh ps with
      | .error e => .error e
      | .ok ds => .ok (dj :: ds)

/-- `FEMBuilder::create_numerical_integration`: the triple `(p, w, d)`. -/
def create_numerical_integration (mesh : VMesh) :
    Except String (List (List ℚ) × List ℚ × List (List ℚ)) :=
  let int_basis : Nat :=
    if mesh.is_quad_element || mesh.is_hex_element || mesh.is_prism_element then 2 else 1
  let pw := mesh.get_gaussian_scheme int_basis
  match pad_all mesh pw.1 with
  | .error e => .error e
  | .ok d => .ok (pw.1, pw.2, d)

/-! ## Local stiffness rows -/

/-- The tensor `T` read at the start of `build_local_matrix` and
`build_local_matrix_regular` (lines 328-337): the element's own value when `tensors_`
is empty, `tensors_[tensor_index].second` otherwise. -/
def resolve_tensor (tensors_ : TensorTable) (field : VField) (c_ind : Nat) : Option Tensor :=
  if tensors_.isEmpty then some (field.get_value_tensor c_ind)
  else
    let tensor_index := field.get_value_int c_ind
    if 0 ≤ tensor_index then (rd tensors_ tensor_index.toNat).map Prod.snd else none

/-- The loop `for (j = 0; j < local_dimension; j++) l_stiff[j] = 0.0;`. -/
def zero_row (local_dimension : Nat) (l_stiff : List ℚ) : Option (List ℚ) :=
  (List.range local_dimension).foldlM (fun l j => wr l j 0) l_stiff

/-- The contribution of one quadrature point to the row (lines 391-424, repeated at
524-557 and 582-607): `Ji` is the inverse Jacobian (`pc[0..8]`), `detJ` the scaled
determinant (`pc[9]`), `di` the derivative table `d[i]`, `C` the tensor. -/
def accumulate_point (local_dimension : Nat) (Ji : Fin 9 → ℚ) (detJ : ℚ) (C : Tensor)
    (di : List ℚ) (row : Nat) (l_stiff : List ℚ) : Option (List ℚ) := do
  let Ca := C.mat_ 0 0
  let Cb := C.mat_ 0 1
  let Cc := C.mat_ 0 2
  let Cd := C.mat_ 1 1
  let Ce := C.mat_ 1 2
  let Cf := C.mat_ 2 2
  let local_dimension2 := 2 * local_dimension
  let Nxip ← rd di row
  let Nyip ← rd di (local_dimension + row)
  let Nzip ← rd di (local_dimension2 + row)
  let uxp := detJ * (Nxip * Ji 0 + Nyip * Ji 1 + Nzip * Ji 2)
  let uyp := detJ * (Nxip * Ji 3 + Nyip * Ji 4 + Nzip * Ji 5)
  let uzp := detJ * (Nxip * Ji 6 + Nyip * Ji 7 + Nzip * Ji 8)
  let uxyzpabc := uxp * Ca + uyp * Cb + uzp * Cc
  let uxyzpbde := uxp * Cb + uyp * Cd + uzp * Ce
  let uxyzpcef := uxp * Cc + uyp * Ce + uzp * Cf
  (List.range local_dimension).foldlM (fun l j => do
    let Nxj ← rd di j
    let Nyj ← rd di (local_dimension + j)
    let Nzj ← rd di (local_dimension2 + j)
    let ux := Nxj * Ji 0 + Nyj * Ji 1 + Nzj * Ji 2
    let uy := Nxj * Ji 3 + Nyj * Ji 4 + Nzj * Ji 5
    let uz := Nxj * Ji 6 + Nyj * Ji 7 + Nzj * Ji 8
    let old ← rd l j
    wr l j (old + (ux * uxyzpabc + uy * uxyzpbde + uz * uxyzpcef))) l_stiff

/-- The test `(Ca==0) && (Cb==0) && (Cc==0) && (Cd==0) && (Ce==0) && (Cf==0)`. -/
def Tensor.all_zero (T : Tensor) : Bool :=
  decide (T.mat_ 0 0 = 0) && decide (T.mat_ 0 1 = 0) && decide (T.mat_ 0 2 = 0) &&
    decide (T.mat_ 1 1 = 0) && decide (T.mat_ 1 2 = 0) && decide (T.mat_ 2 2 = 0)

/-- The result of a local-matrix call: the returned flag, the row `l_stiff` and the
messages sent to `algo_`. -/
structure LocalRow where
  ok : Bool
  l_stiff : List ℚ
  msgs : List Msg

/-- The quadrature loop of `build_local_matrix` (lines 371-425) from index `i` on, over
the `n` remaining points. -/
def quadrature_loop (mesh : VMesh) (local_dimension : Nat) (C : Tensor) (c_ind row : Nat)
    (vol : ℚ) (p : List (List ℚ)) (w : List ℚ) (d : List (List ℚ)) :
    Nat → Nat → List ℚ → Option LocalRow
  | 0, _, l => some ⟨true, l, []⟩
  | n + 1, i, l => do
    let pi ← rd p i
    let J := mesh.inverse_jacobian pi c_ind
    if J.1 ≤ 0 then
      some ⟨false, l, [Msg.error
        "Mesh has elements with negative jacobians, check the order of the nodes that define an element"]⟩
    else do
      let wi ← rd w i
      let detJ := J.1 * (wi * vol)
      let di ← rd d i
      let l ← accumulate_point local_dimension J.2 detJ C di row l
      quadrature_loop mesh local_dimension C c_ind row vol p w d n (i + 1) l

/-- `FEMBuilder::build_local_matrix` (lines 317-429). -/
def build_local_matrix (tensors_ : TensorTable) (local_dimension : Nat) (input : Field)
    (c_ind row : Nat) (l_stiff : List ℚ) (p : List (List ℚ)) (w : List ℚ)
    (d : List (List ℚ)) : Option LocalRow := do
  let T ← resolve_tensor tensors_ input.vfield c_ind
  if T.all_zero then
    let l ← zero_row local_dimension l_stiff
    some ⟨true, l, []⟩
  else do
    let l ← zero_row local_dimension l_stiff
    let vol := input.vmesh.get_element_size
    let dim := input.vmesh.dimensionality
    if dim < 1 ∨ dim > 3 then
      some ⟨false, l, [Msg.error
        "Mesh dimension is 0 or larger than 3, for which no FE implementation is available"]⟩
    else
      quadrature_loop input.vmesh local_dimension T c_ind row vol p w d d.length 0 l

/-- The result of a call of `build_local_matrix_regular`: as `LocalRow`, with the new
content of the cache `precompute`. -/
structure RegularRow where
  ok : Bool
  l_stiff : List ℚ
  precompute : List (List ℚ)
  msgs : List Msg

/-- The ten entries `pc[0..9]` of a cache line: the inverse Jacobian and the scaled
determinant. -/
def read_pc (pc : List ℚ) : Option ((Fin 9 → ℚ) × ℚ) :=
  if h : 10 ≤ pc.length then
    some (fun k => pc.get ⟨k.val, by omega⟩, pc.get ⟨9, by omega⟩)
  else none

/-- The first-call loop of `build_local_matrix_regular` (lines 490-558): fills the cache
line of every quadrature point it passes. -/
def regular_fill_loop (mesh : VMesh) (local_dimension : Nat) (C : Tensor) (c_ind row : Nat)
    (vol : ℚ) (p : List (List ℚ)) (w : List ℚ) (d : List (List ℚ)) :
    Nat → Nat → List ℚ → List (List ℚ) → Option RegularRow
  | 0, _, l, pre => some ⟨true, l, pre, []⟩
  | n + 1, i, l, pre => do
    let _ ← rd pre i
    let pi ← rd p i
    let J := mesh.inverse_jacobian pi c_ind
    if J.1 ≤ 0 then
      some ⟨false, l, pre, [Msg.error
        "Mesh has elements with negative jacobians, check the order of the nodes that define an element"]⟩
    else do
      let wi ← rd w i
      let detJ := J.1 * (wi * vol)
      let pc : List ℚ := [J.2 0, J.2 1, J.2 2, J.2 3, J.2 4, J.2 5, J.2 6, J.2 7, J.2 8, detJ]
      let pre ← wr pre i pc
      let di ← rd d i
      let P ← read_pc pc
      let l ← accumulate_point local_dimension P.1 P.2 C di row l
      regular_fill_loop mesh local_dimension C c_ind row vol p w d n (i + 1) l pre

/-- The cached loop of `build_local_matrix_regular` (lines 567-608). -/
def regular_cached_loop (local_dimension : Nat) (C : Tensor) (row : Nat)
    (d : List (List ℚ)) (pre : List (List ℚ)) : Nat → Nat → List ℚ → Option (List ℚ)
  | 0, _, l => some l
  | n + 1, i, l => do
    let pc ← rd pre i
    let di ← rd d i
    let P ← read_pc pc
    let l ← accumulate_point local_dimension P.1 P.2 C di row l
    regular_cached_loop local_dimension C row d pre n (i + 1) l

/-- `FEMBuilder::build_local_matrix_regular` (lines 432-613). -/
def build_local_matrix_regular (tensors_ : TensorTable) (local_dimension : Nat)
    (input : Field) (c_ind row : Nat) (l_stiff : List ℚ) (p : List (List ℚ)) (w : List ℚ)
    (d : List (List ℚ)) (precompute : List (List ℚ)) : Option RegularRow := do
  let T ← resolve_tensor tensors_ input.vfield c_ind
  if T.all_zero then
    let l ← zero_row local_dimension l_stiff
    some ⟨true, l, precompute, []⟩
  else if precompute.isEmpty then do
    let pre : List (List ℚ) := List.replicate d.length (List.replicate 10 0)
    let l ← zero_row local_dimension l_stiff
    let vol := input.vmesh.get_element_size
    regular_fill_loop input.vmesh local_dimension T c_ind row vol p w d d.length 0 l pre
  else do
    let l ← zero_row local_dimension l_stiff
    let l ← regular_cached_loop local_dimension T row d precompute d.length 0 l
    some ⟨true, l, precompute, []⟩

/-- `FEMBuilder::add_lcl_gbl`: `fematrix_->coeffRef(row, cols[i]) += lcl_a[i]` for every
`i < lcl_a.size()`. -/
def add_lcl_gbl (M : SparseRowMatrix) (row : Nat) (cols : List Nat) (lcl_a : List ℚ) :
    Option SparseRowMatrix :=
  (List.range lcl_a.length).foldlM (fun M i => do
    let c ← rd cols i
    let a ← rd lcl_a i
    M.coeffRef_add row c a) M

/-! ## Setup -/

/-- `FEMBuilder::setup` (lines 616-684): the returned flag and the builder after the
call.  The `synchronize` calls only prepare the mesh's adjacency tables. -/
def setup (b : FEMBuilder) (input : Field) : Bool × FEMBuilder :=
  let mesh := input.vmesh
  let b := { b with domain_dimension := mesh.dimensionality }
  if b.domain_dimension < 1 then
    (false, b.error "This mesh type cannot be used for FE computations")
  else
    let b := { b with local_dimension_nodes := mesh.num_nodes_per_elem }
    let b := { b with local_dimension_add_nodes :=
      if input.vfield.basis_order = 2 then mesh.num_enodes_per_elem else 0 }
    let b := { b with local_dimension_derivatives := 0 }
    let b := { b with local_dimension :=
      b.local_dimension_nodes + b.local_dimension_add_nodes + b.local_dimension_derivatives }
    let mns := mesh.num_nodes
    let b := { b with global_dimension_nodes := mns }
    let b := { b with global_dimension_add_nodes :=
      if input.vfield.basis_order = 2 then mesh.num_enodes else 0 }
    let b := { b with global_dimension_derivatives := 0 }
    let b := { b with global_dimension :=
      b.global_dimension_nodes + b.global_dimension_add_nodes + b.global_dimension_derivatives }
    let b := if mns > 0 then b
      else { b.error "Mesh size < 0" with success_ := b.success_.set 0 false }
    let b := { b with rows_ := List.replicate (b.global_dimension + 1) 0 }
    let b := { b with colidx_ := resize b.colidx_ (b.numprocessors_ + 1) 0 }
    (true, b)

/-! ## The worker function `FEMBuilder::parallel` -/

/-- The thread-local variables of one call of `parallel` that live across phases. -/
structure Worker where
  mycols : List Nat
  ca : List Nat
  na : List Nat
  ea : List Nat
  neib_dofs : List Nat
  precompute : List (List ℚ)
  st : Nat

/-- The thread-local variables on entry of `parallel`. -/
def Worker.new : Worker := ⟨[], [], [], [], [], [], 0⟩

/-- The bound `start_gd` (line 723). -/
def start_gd (b : FEMBuilder) (proc_num : Nat) : Nat :=
  (b.global_dimension * proc_num) / b.numprocessors_

/-- The bound `end_gd` (line 724). -/
def end_gd (b : FEMBuilder) (proc_num : Nat) : Nat :=
  (b.global_dimension * (proc_num + 1)) / b.numprocessors_

/-- One phase of the fork-join run: worker 0, 1, ... execute `step` in turn on the shared
builder, each with its own thread-local variables. -/
def each_worker (step : Nat → FEMBuilder → Worker → FEMBuilder × Worker) :
    Nat → FEMBuilder → List Worker → FEMBuilder × List Worker
  | _, b, [] => (b, [])
  | proc_num, b, w :: ws =>
    let r := step proc_num b w
    let rs := each_worker step (proc_num + 1) r.1 ws
    (rs.1, r.2 :: rs.2)

/-- A phase as `each_worker`, for a step that can leave the model. -/
def each_worker_opt (step : Nat → FEMBuilder → Worker → Option (FEMBuilder × Worker)) :
    Nat → FEMBuilder → List Worker → Option (FEMBuilder × List Worker)
  | _, b, [] => some (b, [])
  | proc_num, b, w :: ws => do
    let r ← step proc_num b w
    let rs ← each_worker_opt step (proc_num + 1) r.1 ws
    some (rs.1, r.2 :: rs.2)

/-- The check that follows a barrier: the first `q < numprocessors_` with
`!success_[q]`, if there is one. -/
def first_failed (b : FEMBuilder) : Option Nat :=
  (List.range b.numprocessors_).find? (fun q => decide (rd b.success_ q = some false))

/-- Lines 693-706: the flag is set, and worker 0 stores the result of `setup()` in its
flag. -/
def phase_setup (input : Field) (proc_num : Nat) (b : FEMBuilder) (w : Worker) :
    FEMBuilder × Worker :=
  let b := { b with success_ := b.success_.set proc_num true }
  if proc_num = 0 then
    let r := setup b input
    ({ r.2 with success_ := r.2.success_.set proc_num r.1 }, w)
  else (b, w)

/-- Lines 749-766 and 959-977: the element list `ca` of DOF `i`, and whether the
warning branch was taken (then `ca` keeps its content). -/
def select_elems (b : FEMBuilder) (mesh : VMesh) (i : Nat) (ca : List Nat) : List Nat × Bool :=
  if i < b.global_dimension_nodes then (mesh.get_elems_node i, false)
  else if i < b.global_dimension_nodes + b.global_dimension_add_nodes then
    (mesh.get_elems_edge (i - b.global_dimension_nodes), false)
  else (ca, true)

/-- Lines 768-787: the loop over `ca` that appends the nodes (and, with additional
nodes, the edges shifted by `global_dimension`) of every element to `neib_dofs`. -/
def gather_neighbours (b : FEMBuilder) (mesh : VMesh) (w : Worker) : Worker :=
  w.ca.foldl (fun w c =>
    let na := mesh.get_nodes c
    let w := { w with na := na, neib_dofs := w.neib_dofs ++ na }
    if b.global_dimension_add_nodes ≠ 0 then
      let ea := mesh.get_edges c
      { w with ea := ea, neib_dofs := w.neib_dofs ++ ea.map (fun e => b.global_dimension + e) }
    else w) w

/-- Lines 791-797: the loop from index `j` on over the rest of the sorted `neib_dofs`;
an entry is appended to `mycols` when `j == 0` or it differs from `mycols.back()`. -/
def push_unique : Nat → List Nat → List Nat → List Nat
  | _, [], mycols => mycols
  | j, x :: xs, mycols =>
    push_unique (j + 1) xs (if j = 0 ∨ mycols.getLast? ≠ some x then mycols ++ [x] else mycols)

/-- One iteration of the first DOF loop (lines 745-797).  `rows_[i]` is in range:
`rows_` has `global_dimension+1` entries and `i < end_gd ≤ global_dimension`. -/
def discover_row (mesh : VMesh) (s : FEMBuilder × Worker) (i : Nat) : FEMBuilder × Worker :=
  let b := { s.1 with rows_ := s.1.rows_.set i s.2.mycols.length }
  let w := { s.2 with neib_dofs := [] }
  let sel := select_elems b mesh i w.ca
  let b := if sel.2 then b.warning "BuildFEMatrix only supports linear basis functions." else b
  let w := gather_neighbours b mesh { w with ca := sel.1 }
  let w := { w with neib_dofs := w.neib_dofs.insertionSort (fun x y => x ≤ y) }
  (b, { w with mycols := push_unique 0 w.neib_dofs w.mycols })

/-- Sparsity phase 1 of one worker (lines 722-817). -/
def phase_discover (input : Field) (proc_num : Nat) (b : FEMBuilder) (w : Worker) :
    FEMBuilder × Worker :=
  let start := start_gd b proc_num
  let s := (List.range' start (end_gd b proc_num - start)).foldl (discover_row input.vmesh) (b, w)
  ({ s.1 with colidx_ := s.1.colidx_.set proc_num s.2.mycols.length,
              success_ := s.1.success_.set proc_num true }, s.2)

/-- The loop of lines 841-846 over `colidx_` and the local `st`. -/
def prefix_sum (n : Nat) (colidx_ : List Nat) : List Nat × Nat :=
  (List.range n).foldl (fun s i =>
    let ns := s.1.getD i 0
    (s.1.set i s.2, s.2 + ns)) (colidx_, 0)

/-- Sparsity phase 2 (lines 831-863): worker 0 turns the counts into offsets and
allocates `allcols_`.  `colidx_` has `numprocessors_+1` entries. -/
def phase_offsets (proc_num : Nat) (b : FEMBuilder) (w : Worker) : FEMBuilder × Worker :=
  let w := { w with precompute := [], st := 0 }
  if proc_num = 0 then
    let ps := prefix_sum b.numprocessors_ b.colidx_
    let b := { b with colidx_ := ps.1.set b.numprocessors_ ps.2,
                      allcols_ := List.replicate ps.2 0 }
    ({ b with success_ := b.success_.set proc_num true }, { w with st := ps.2 })
  else ({ b with success_ := b.success_.set proc_num true }, w)

/-- Sparsity phase 3 of one worker (lines 875-893). -/
def phase_copy (proc_num : Nat) (b : FEMBuilder) (w : Worker) : FEMBuilder × Worker :=
  let s := b.colidx_.getD proc_num 0
  let allcols := (List.range w.mycols.length).foldl
    (fun a i => a.set (i + s) (w.mycols.getD i 0)) b.allcols_
  let start := start_gd b proc_num
  let rows := (List.range' start (end_gd b proc_num - start)).foldl
    (fun r i => r.set i (r.getD i 0 + s)) b.rows_
  ({ b with allcols_ := allcols, rows_ := rows, success_ := b.success_.set proc_num true }, w)

/-- The MatrixAlloc phase (lines 906-924): worker 0 builds `fematrix_`. -/
def phase_create (proc_num : Nat) (b : FEMBuilder) (w : Worker) : FEMBuilder × Worker :=
  if proc_num = 0 then
    let rows := b.rows_.set b.global_dimension w.st
    let b := { b with log := b.log ++ [Msg.remark "Creating fematrix on main thread."] }
    let M := SparseRowMatrix.create b.global_dimension b.global_dimension rows b.allcols_ w.st
    let b := { b with fematrix_ := some M }
    ({ b with rows_ := [], allcols_ := [], success_ := b.success_.set proc_num true }, w)
  else ({ b with success_ := b.success_.set proc_num true }, w)

/-- The state of one worker inside the `try` block of the Assembly phase: the builder,
the thread-local variables, the row buffer `lsml`, and whether an exception has left
the block. -/
structure Asm where
  b : FEMBuilder
  w : Worker
  lsml : List ℚ
  thrown : Bool

/-- Lines 1028-1029 (and 1039-1040): `build_local_matrix(c, row, lsml, ...)` followed by
`add_lcl_gbl(i, neib_dofs, lsml)`.  The flag returned by `build_local_matrix` is not
read. -/
def row_and_add (input : Field) (p : List (List ℚ)) (wt : List ℚ) (d : List (List ℚ))
    (i c row : Nat) (s : Asm) : Option Asm := do
  let r ← build_local_matrix s.b.tensors_ s.b.local_dimension input c row s.lsml p wt d
  let M ← s.b.fematrix_
  let M ← add_lcl_gbl M i s.w.neib_dofs r.l_stiff
  some { s with b := { s.b with fematrix_ := some M, log := s.b.log ++ r.msgs },
                lsml := r.l_stiff }

/-- Lines 996-997: `build_local_matrix_regular(c, row, lsml, ..., precompute)` followed
by `add_lcl_gbl(i, neib_dofs, lsml)`.  The returned flag is not read. -/
def row_and_add_regular (input : Field) (p : List (List ℚ)) (wt : List ℚ)
    (d : List (List ℚ)) (i c row : Nat) (s : Asm) : Option Asm := do
  let r ← build_local_matrix_regular s.b.tensors_ s.b.local_dimension input c row s.lsml
    p wt d s.w.precompute
  let M ← s.b.fematrix_
  let M ← add_lcl_gbl M i s.w.neib_dofs r.l_stiff
  some { s with b := { s.b with fematrix_ := some M, log := s.b.log ++ r.msgs },
                w := { s.w with precompute := r.precompute }, lsml := r.l_stiff }

/-- One iteration of the element loop on a regular mesh (lines 983-1000). -/
def assemble_elem_regular (input : Field) (p : List (List ℚ)) (wt : List ℚ)
    (d : List (List ℚ)) (i : Nat) (s : Asm) (c : Nat) : Option Asm :=
  if s.thrown then some s
  else
    let na := input.vmesh.get_nodes c
    let s := { s with w := { s.w with na := na, neib_dofs := na } }
    (List.range na.length).foldlM (fun s k =>
      if rd na k = some i then row_and_add_regular input p wt d i c k s else some s) s

/-- One iteration of the element loop on a general mesh (lines 1004-1044); a failing
`ASSERT` throws when assertions are compiled in. -/
def assemble_elem (input : Field) (p : List (List ℚ)) (wt : List ℚ) (d : List (List ℚ))
    (i : Nat) (s : Asm) (c : Nat) : Option Asm :=
  if s.thrown then some s
  else
    let na := input.vmesh.get_nodes c
    let quadratic : Bool := decide (s.b.global_dimension_add_nodes ≠ 0)
    let ea := if quadratic then input.vmesh.get_edges c else s.w.ea
    let neib := na ++ (if quadratic then ea.map (fun e => s.b.global_dimension + e) else [])
    let s := { s with w := { s.w with na := na, ea := ea, neib_dofs := neib } }
    if s.b.assertions && decide (neib.length ≠ s.b.local_dimension) then
      some { s with thrown := true }
    else do
      let s ← (List.range na.length).foldlM (fun s k =>
        if rd na k = some i then row_and_add input p wt d i c k s else some s) s
      if quadratic then
        (List.range ea.length).foldlM (fun s k =>
          if (rd ea k).map (fun e => s.b.global_dimension + e) = some i then
            row_and_add input p wt d i c (k + na.length) s
          else some s) s
      else some s

/-- One iteration of the second DOF loop (lines 957-1057). -/
def assemble_dof (input : Field) (p : List (List ℚ)) (wt : List ℚ) (d : List (List ℚ))
    (s : Asm) (i : Nat) : Option Asm :=
  if s.thrown then some s
  else
    let sel := select_elems s.b input.vmesh i s.w.ca
    let b := if sel.2 then s.b.warning "BuildFEMatrix only supports linear basis functions."
      else s.b
    let s := { s with b := b, w := { s.w with ca := sel.1 } }
    if input.vmesh.is_regularmesh then sel.1.foldlM (assemble_elem_regular input p wt d i) s
    else sel.1.foldlM (assemble_elem input p wt d i) s

/-- The handler `catch (...)` of the Assembly phase (lines 1060-1064). -/
def assembly_crashed (b : FEMBuilder) (proc_num : Nat) : FEMBuilder :=
  { b.error "BuildFEMatrix crashed while filling out stiffness matrix" with
    success_ := b.success_.set proc_num false }

/-- The ZeroInit and Assembly phases of one worker (lines 936-1064). -/
def phase_assemble (input : Field) (proc_num : Nat) (b : FEMBuilder) (w : Worker) :
    Option (FEMBuilder × Worker) := do
  let ns ← rd b.colidx_ proc_num
  let ne ← rd b.colidx_ (proc_num + 1)
  let M ← b.fematrix_
  let vals ← (List.range' ns (ne - ns)).foldlM (fun v k => wr v k 0) M.vals
  let b := { b with fematrix_ := some { M with vals := vals } }
  match create_numerical_integration input.vmesh with
  | .error _ => some (assembly_crashed b proc_num, w)
  | .ok ni =>
    let lsml : List ℚ := List.replicate b.local_dimension 0
    let start := start_gd b proc_num
    let s ← (List.range' start (end_gd b proc_num - start)).foldlM
      (assemble_dof input ni.1 ni.2.1 ni.2.2) ⟨b, w, lsml, false⟩
    if s.thrown then some (assembly_crashed s.b proc_num, s.w)
    else some ({ s.b with success_ := s.b.success_.set proc_num true }, s.w)

/-- The run `Parallel::RunTasks([this](int i) { parallel(i); }, numprocessors_)`:
the phases of `parallel` in sequence, each followed by the barrier and the check of
the success flags (after which every worker returns when a flag is false). -/
def run_tasks (b : FEMBuilder) (input : Field) : Option FEMBuilder :=
  let s := each_worker (phase_setup input) 0 b (List.replicate b.numprocessors_ Worker.new)
  match first_failed s.1 with
  | some q =>
    let msg := Msg.error ("FEMBuilder::setup failed in thread " ++ toString q)
    some { s.1 with log := s.1.log ++ List.replicate s.1.numprocessors_ msg }
  | none =>
    let s := each_worker (phase_discover input) 0 s.1 s.2
    if (first_failed s.1).isSome then some s.1
    else
      let s := each_worker phase_offsets 0 s.1 s.2
      if (first_failed s.1).isSome then some s.1
      else
        let s := each_worker phase_copy 0 s.1 s.2
        if (first_failed s.1).isSome then some s.1
        else
          let s := each_worker phase_create 0 s.1 s.2
          if (first_failed s.1).isSome then some s.1
          else (each_worker_opt (phase_assemble input) 0 s.1 s.2).map Prod.fst

/-! ## `FEMBuilder::build_matrix` -/

/-- `FEMBuilder::build_matrix` (lines 158-286): the returned flag, the builder after the
call and the handle `output`. -/
def build_matrix (b : FEMBuilder) (input : Field) (ctable : Option DenseMatrix)
    (output : Option SparseRowMatrix) :
    Option (Bool × FEMBuilder × Option SparseRowMatrix) := do
  let b := { b with tensors_ := convert_table b.tensors_ ctable }
  let b := { b with success_ := resize b.success_ b.numprocessors_ true }
  let b ← run_tasks b input
  match (List.range b.success_.length).find? (fun j => decide (rd b.success_ j = some false)) with
  | some j => some (false, b.error ("Algorithm failed in thread " ++ toString j), output)
  | none =>
    if b.force_symmetry then do
      let A ← b.fematrix_
      some (true, b, some A.symmetrize)
    else some (true, b, b.fematrix_)

/-! ## `BuildFEMatrixAlgo::run` -/

/-- The algorithm object: the parameters `ForceSymmetry` and `GenerateBasis`, the
number of cores reported by `Parallel::NumCores()`, whether `ASSERT` is compiled in,
the mutable members `generation_`, `basis_fematrix_`, `basis_values_`, and the messages
reported so far. -/
structure BuildFEMatrixAlgo where
  ForceSymmetry : Bool
  GenerateBasis : Bool
  cores : Nat
  assertions : Bool
  generation_ : Int
  basis_fematrix_ : Option SparseRowMatrix
  basis_values_ : List (List ℚ)
  log : List Msg

/-- The call `error(msg)` on the algorithm object. -/
def BuildFEMatrixAlgo.error (a : BuildFEMatrixAlgo) (msg : String) : BuildFEMatrixAlgo :=
  { a with log := a.log ++ [Msg.error msg] }

/-- The assignment `data[k] = v` on the buffer of a dense matrix. -/
def DenseMatrix.set_entry (mat : DenseMatrix) (k : Nat) (v : ℚ) : DenseMatrix :=
  ⟨mat.nrows, mat.ncols, mat.data.set k v, by rw [List.length_set]; exact mat.size_eq⟩

/-- The matrix `DenseMatrix(nconds, 1, 0.0)`. -/
def DenseMatrix.zeros (nconds : Nat) : DenseMatrix :=
  ⟨nconds, 1, List.replicate nconds 0, by simp⟩

/-- Lines 1133-1139: the one-column table built from the property
`"conductivity_table"`. -/
def DenseMatrix.of_tensors (tens : TensorTable) : DenseMatrix :=
  ⟨tens.length, 1, tens.map (fun t => t.2.mat_ 0 0), by simp⟩

/-- The loop over the tissue types (lines 1166-1190) from index `s` on, `n` iterations
left: the flag is false when the loop has left `run` with an error. -/
def basis_loop (input : Field) :
    Nat → Nat → FEMBuilder → DenseMatrix → List (List ℚ) →
      Option (Bool × FEMBuilder × List (List ℚ))
  | 0, _, b, _, bv => some (true, b, bv)
  | n + 1, s, b, con, bv => do
    let con := con.set_entry s 1
    let r ← build_matrix b input (some con) none
    if !r.1 then
      some (false, r.2.1.error "Build matrix method failed for one of the tissue types", bv)
    else
      match r.2.2 with
      | none =>
        some (false,
          r.2.1.error "Failed to build FEMatrix component for one of the tissue types", bv)
      | some temp => do
        let bv ← wr bv s temp.vals
        basis_loop input n (s + 1) r.2.1 (con.set_entry s 0) bv

/-- Lines 1207-1214: `sum[p] += weight * basis_values_[s][p]` over all tissue types
and slots. -/
def weighted_sum (nconds n : Nat) (cdata : List ℚ) (basis_values_ : List (List ℚ))
    (sum : List ℚ) : Option (List ℚ) :=
  (List.range nconds).foldlM (fun sum s => do
    let weight ← rd cdata (s * n)
    let bs ← rd basis_values_ s
    (List.range bs.length).foldlM (fun sum p => do
      let x ← rd bs p
      let old ← rd sum p
      wr sum p (old + weight * x)) sum) sum

/-- Lines 1146-1193: the cache of basis matrices is recomputed for a table of `nconds`
rows when the generation id of the mesh differs from the cached one or no basis matrix
is cached; the flag is false when the block has left `run` with an error. -/
def refresh_basis (a : BuildFEMatrixAlgo) (b : FEMBuilder) (input : Field) (nconds : Nat) :
    Option (Bool × BuildFEMatrixAlgo × FEMBuilder) :=
  if input.vmesh.generation ≠ a.generation_ ∨ a.basis_fematrix_ = none then do
    let con := DenseMatrix.zeros nconds
    let r ← build_matrix b input (some con) a.basis_fematrix_
    let a := { a with basis_fematrix_ := r.2.2 }
    if !r.1 then
      some (false, a,
        r.2.1.error "Build matrix method failed when building FEMatrix structure")
    else if a.basis_fematrix_ = none then
      some (false, a, r.2.1.error "Failed to build FEMatrix structure")
    else do
      let a := { a with basis_values_ := resize a.basis_values_ nconds [] }
      let l ← basis_loop input nconds 0 r.2.1 con a.basis_values_
      let a := { a with basis_values_ := l.2.2 }
      if !l.1 then some (false, a, l.2.1)
      else some (true, { a with generation_ := input.vmesh.generation }, l.2.1)
  else some (true, a, b)

/-- Lines 1201-1205: `sum[p] = 0.0` for every `p < basis_values_[0].size()`, when the
basis table is not empty. -/
def clear_sum (basis_values_ : List (List ℚ)) (sum : List ℚ) : Option (List ℚ) :=
  match basis_values_ with
  | [] => some sum
  | b0 :: _ => (List.range b0.length).foldlM (fun sum p => wr sum p 0) sum

/-- The block `if (get(GenerateBasis).toBool())` of `run` for a table `ct` (lines
1143-1216): the recomputation of the cache, then the clone of the cached pattern with
the weighted sum of the basis arrays as values; the flag is false when the block has
left `run` with an error. -/
def generate_basis (a : BuildFEMatrixAlgo) (b : FEMBuilder) (input : Field)
    (ct : DenseMatrix) (output : Option SparseRowMatrix) :
    Option (Bool × BuildFEMatrixAlgo × FEMBuilder × Option SparseRowMatrix) := do
  let r ← refresh_basis a b input ct.nrows
  if !r.1 then some (false, r.2.1, r.2.2, output)
  else do
    let a := r.2.1
    let out ← a.basis_fematrix_
    let sum ← clear_sum a.basis_values_ out.vals
    let sum ← weighted_sum ct.nrows ct.ncols ct.data a.basis_values_ sum
    some (true, a, r.2.2, some { out with vals := sum })

/-- `BuildFEMatrixAlgo::run` (lines 1081-1237): the returned flag, the algorithm object
after the call and the handle `output`.  A null handle is `none`. -/
def run (a : BuildFEMatrixAlgo) (input : Option Field) (ctable : Option DenseMatrix)
    (output : Option SparseRowMatrix) :
    Option (Bool × BuildFEMatrixAlgo × Option SparseRowMatrix) :=
  match input with
  | none => some (false, a.error "Could not obtain input field", output)
  | some input =>
    if input.vfield.is_vector then
      some (false,
        a.error "This function has not yet been defined for elements with vector data",
        output)
    else if input.vfield.basis_order ≠ 0 then
      some (false,
        a.error "This function has only been defined for data that is located at the elements",
        output)
    else if (ctable.any fun t => decide (t.ncols ≠ 1 ∧ t.ncols ≠ 6 ∧ t.ncols ≠ 9)) then
      some (false, a.error "Conductivity table needs to have 1, 6, or 9 columns", output)
    else if (ctable.any fun t => decide (t.nrows = 0)) then
      some (false, a.error "ConductivityTable is empty", output)
    else do
      let builder := FEMBuilder.new a.cores a.ForceSymmetry a.assertions a.log
      let g ←
        if a.GenerateBasis then
          let ctable :=
            match ctable with
            | some t => some t
            | none =>
              if input.conductivity_table.isEmpty then none
              else some (DenseMatrix.of_tensors input.conductivity_table)
          match ctable with
          | some ct =>
            (generate_basis a builder input ct output).map
              (fun r => (r.1, r.2.1, r.2.2.1, r.2.2.2, ctable))
          | none =>
            let msg := "No conductivity table present: The generate_basis option only works for indexed conductivities"
            some (false, a, builder.error msg, output, ctable)
        else some (true, a, builder, output, ctable)
      if !g.1 then some (false, { g.2.1 with log := g.2.2.1.log }, g.2.2.2.1)
      else do
        let r ← build_matrix g.2.2.1 input g.2.2.2.2 g.2.2.2.1
        let a := { g.2.1 with log := r.2.1.log }
        if !r.1 then
          some (false, a.error "Build matrix method failed to build output matrix", r.2.2)
        else if r.2.2 = none then
          some (false, a.error "Could not build output matrix", r.2.2)
        else some (true, a, r.2.2)

/-! ## Statements of the specification and concrete inputs -/

/-- The reading "stored raw" of the 9-column case: entry `(r, c)` of the tensor of row
`p` is `data[3r + c + p*n]`, for every row and all `r`, `c`. -/
def stored_raw (mat : DenseMatrix) : Prop :=
  ∀ p, p < mat.nrows → ∀ r c : Fin 3, ∃ T : Tensor,
    rd (convert_table [] (some mat)) p = some ("", T) ∧
    rd mat.data (3 * r.val + c.val + p * mat.ncols) = some (T.mat_ r c)

/-- A one-row table with nine columns whose only non-zero entry is `d1`. -/
def table_skew : DenseMatrix := ⟨1, 9, [0, 1, 0, 0, 0, 0, 0, 0, 0], rfl⟩

/-- A table with two rows and one column. -/
def table_iso : DenseMatrix := ⟨2, 1, [3, 5], rfl⟩

/-- A table with one row and six columns. -/
def table_six : DenseMatrix := ⟨1, 6, [1, 2, 3, 4, 5, 6], rfl⟩

/-- A table with one row and nine columns. -/
def table_nine : DenseMatrix := ⟨1, 9, [1, 2, 3, 4, 5, 6, 7, 8, 9], rfl⟩

/-- The table `table_nine` with other values in the columns 3, 6 and 7. -/
def table_nine_alt : DenseMatrix := ⟨1, 9, [1, 2, 3, 40, 5, 6, 70, 80, 9], rfl⟩

/-- The identity tensor. -/
def unit_tensor : Tensor := ⟨fun i j => if i = j then 1 else 0⟩

/-- A mesh of one tetrahedron (element 0 with the nodes 0..3) with one quadrature point
of three reference coordinates; `dim` is the reported dimensionality, `det` the
determinant returned by `inverse_jacobian`, `n` the number of nodes (4, or 0 for the
mesh without nodes and elements). -/
def tet_mesh (dim : Int) (det : ℚ) (n : Nat) : VMesh :=
  { dimensionality := dim
    num_nodes_per_elem := 4
    num_enodes_per_elem := 6
    num_nodes := n
    num_enodes := 6
    get_elems_node := fun i => if i < n then [0] else []
    get_elems_edge := fun _ => if 0 < n then [0] else []
    get_nodes := fun _ => [0, 1, 2, 3]
    get_edges := fun _ => [0, 1, 2, 3, 4, 5]
    is_regularmesh := false
    is_quad_element := false
    is_hex_element := false
    is_prism_element := false
    get_element_size := 1 / 6
    get_gaussian_scheme := fun _ => ([[1 / 4, 1 / 4, 1 / 4]], [1])
    get_derivate_weights := fun _ => [-1, 1, 0, 0, -1, 0, 1, 0, -1, 0, 0, 1]
    inverse_jacobian := fun _ _ => (det, fun k => if k = 0 ∨ k = 4 ∨ k = 8 then 1 else 0)
    generation := 1 }

/-- A scalar field with element data (basis order 0) on `tet_mesh`; every element
carries the identity tensor. -/
def tet_field (dim : Int) (det : ℚ) (n : Nat) : Field :=
  { vfield := { is_vector := false, basis_order := 0,
                get_value_tensor := fun _ => unit_tensor, get_value_int := fun _ => 0 }
    vmesh := tet_mesh dim det n
    conductivity_table := [] }

/-- An algorithm object with two cores, no forced symmetry, no basis generation, and
an empty cache. -/
def algo_plain : BuildFEMatrixAlgo :=
  { ForceSymmetry := false, GenerateBasis := false, cores := 2, assertions := true,
    generation_ := -1, basis_fematrix_ := none, basis_values_ := [], log := [] }

/-- The builder that `run` constructs for `algo_plain`. -/
def builder_plain : FEMBuilder := FEMBuilder.new 2 false true []


/-- A table with one row of five columns. -/
def table_five : DenseMatrix := ⟨1, 5, [1, 2, 3, 4, 5], rfl⟩

/-- A table with six columns and no row. -/
def table_empty : DenseMatrix := ⟨0, 6, [], rfl⟩

/-- The zero tensor as an element value: a field on `tet_mesh` whose elements all carry
the zero tensor. -/
def void_field : Field :=
  { vfield := { is_vector := false, basis_order := 0,
                get_value_tensor := fun _ => Tensor.zero, get_value_int := fun _ => 0 }
    vmesh := tet_mesh 3 1 4
    conductivity_table := [] }

/-- The pattern of the one-tetrahedron mesh: four rows holding the columns 0..3, with
the given values. -/
def tet_matrix (vals : List ℚ) : SparseRowMatrix :=
  ⟨4, 4, [0, 4, 8, 12, 16], [0, 1, 2, 3, 0, 1, 2, 3, 0, 1, 2, 3, 0, 1, 2, 3], vals⟩


/-! ## The sparsity pattern as a function of the mesh -/

/-- The elements queried for DOF `i` below `Gn + Ga` (lines 749-760): those of node `i`
for `i < Gn`, those of edge `i - Gn` otherwise. -/
def dof_elems (Gn : Nat) (mesh : VMesh) (i : Nat) : List Nat :=
  if i < Gn then mesh.get_elems_node i else mesh.get_elems_edge (i - Gn)

/-- The entries appended to `neib_dofs` for one element (lines 771-786): its nodes and,
with additional nodes (`Ga ≠ 0`), its edges shifted by `G = global_dimension`. -/
def elem_dofs (Ga G : Nat) (mesh : VMesh) (c : Nat) : List Nat :=
  mesh.get_nodes c ++ (if Ga ≠ 0 then (mesh.get_edges c).map (fun e => G + e) else [])

/-- The body of the loop of `gather_neighbours` for one element `c`. -/
def gather_step (b : FEMBuilder) (mesh : VMesh) (w : Worker) (c : Nat) : Worker :=
  let na := mesh.get_nodes c
  let w := { w with na := na, neib_dofs := w.neib_dofs ++ na }
  if b.global_dimension_add_nodes ≠ 0 then
    let ea := mesh.get_edges c
    { w with ea := ea, neib_dofs := w.neib_dofs ++ ea.map (fun e => b.global_dimension + e) }
  else w

/-- The entries of a list that differ from their predecessor, `last` being the
predecessor of the head. -/
def uniq_after (last : Nat) : List Nat → List Nat
  | [] => []
  | x :: xs => if last ≠ x then x :: uniq_after x xs else uniq_after last xs

/-- The head of a list followed by the entries that differ from their predecessor. -/
def uniq : List Nat → List Nat
  | [] => []
  | x :: xs => x :: uniq_after x xs

/-- The columns of row `i`: the sorted neighbour DOFs of `i` without repetition. -/
def row_cols (Gn Ga G : Nat) (mesh : VMesh) (i : Nat) : List Nat :=
  uniq (((dof_elems Gn mesh i).flatMap (elem_dofs Ga G mesh)).insertionSort (fun x y => x ≤ y))

/-- The number of additional (edge) DOFs that `setup` computes for a field. -/
def edge_dofs (input : Field) : Nat :=
  if input.vfield.basis_order = 2 then input.vmesh.num_enodes else 0

/-- The builder and the thread-local variables after the MatrixAlloc phase, when every
check of the success flags up to there passes: the phases Setup, SparsityPhase1-3 and
MatrixAlloc of `run_tasks` in sequence. -/
def after_create (b : FEMBuilder) (input : Field) : FEMBuilder × List Worker :=
  let s0 := each_worker (phase_setup input) 0 b (List.replicate b.numprocessors_ Worker.new)
  let s1 := each_worker (phase_discover input) 0 s0.1 s0.2
  let s2 := each_worker phase_offsets 0 s1.1 s1.2
  let s3 := each_worker phase_copy 0 s2.1 s2.2
  each_worker phase_create 0 s3.1 s3.2

/-- The cell `(i, j)` is stored in the pattern of `M`. -/
def SparseRowMatrix.stored (M : SparseRowMatrix) (i j : Nat) : Prop :=
  (M.find i j).isSome = true

/-- The segment of the column array between the row pointers `i` and `i+1`. -/
def SparseRowMatrix.row_segment (M : SparseRowMatrix) (i : Nat) : List Nat :=
  (M.cols.drop (M.rows.getD i 0)).take (M.rows.getD (i + 1) 0 - M.rows.getD i 0)

/-- The rows `L a, L (a+1), .., L (a+n-1)` one after the other. -/
def rows_concat (L : Nat → List Nat) (a n : Nat) : List Nat :=
  (List.range' a n).flatMap L

/-- The total length of the rows `L 0, .., L (i-1)`. -/
def rows_before (L : Nat → List Nat) (i : Nat) : Nat :=
  ((List.range i).map (fun k => (L k).length)).sum

/-- The dimensions that `setup` leaves in the builder: `Gn` node DOFs, `Ga` edge DOFs,
`global_dimension = Gn + Ga`, and `N` workers. -/
def Dims (b : FEMBuilder) (Gn Ga N : Nat) : Prop :=
  b.global_dimension_nodes = Gn ∧ b.global_dimension_add_nodes = Ga ∧
    b.global_dimension = Gn + Ga ∧ b.numprocessors_ = N

/-- The first DOF of worker `p` among `N` workers for `G` DOFs (`start_gd`; `end_gd` is
the value for `p + 1`). -/
def part_start (G N p : Nat) : Nat := (G * p) / N

/-- The state of the shared arrays when the workers below `p` have finished sparsity
phase 1: `colidx_[q]` holds the number of columns of worker `q`, and `rows_` holds, for
the DOFs of worker `q`, the offset of the row inside the columns of worker `q`. -/
def Discovered (mesh : VMesh) (Gn Ga N p : Nat) (b : FEMBuilder) : Prop :=
  Dims b Gn Ga N ∧ b.rows_.length = Gn + Ga + 1 ∧ b.colidx_.length = N + 1 ∧
  (∀ q, q < p → b.colidx_[q]? = some (rows_concat (row_cols Gn Ga (Gn + Ga) mesh)
    (part_start (Gn + Ga) N q)
    (part_start (Gn + Ga) N (q + 1) - part_start (Gn + Ga) N q)).length) ∧
  (∀ q, q < p → ∀ t, t < part_start (Gn + Ga) N (q + 1) - part_start (Gn + Ga) N q →
    b.rows_[part_start (Gn + Ga) N q + t]? = some (rows_concat
      (row_cols Gn Ga (Gn + Ga) mesh) (part_start (Gn + Ga) N q) t).length)

/-- The columns that worker `p` holds after sparsity phase 1: the rows of its DOFs. -/
def worker_cols (mesh : VMesh) (Gn Ga N p : Nat) : List Nat :=
  rows_concat (row_cols Gn Ga (Gn + Ga) mesh) (part_start (Gn + Ga) N p)
    (part_start (Gn + Ga) N (p + 1) - part_start (Gn + Ga) N p)

/-- The state of the shared arrays after sparsity phase 2: `colidx_[q]` holds the number
of columns of all rows before the first DOF of worker `q` (and the total for `q = N`),
`allcols_` has room for all columns, and `rows_` is as phase 1 left it. -/
def Offsets (mesh : VMesh) (Gn Ga N : Nat) (b : FEMBuilder) : Prop :=
  Dims b Gn Ga N ∧ b.rows_.length = Gn + Ga + 1 ∧ b.colidx_.length = N + 1 ∧
  (∀ q, q ≤ N → b.colidx_[q]? = some (rows_before (row_cols Gn Ga (Gn + Ga) mesh)
    (part_start (Gn + Ga) N q))) ∧
  (∀ q, q < N → ∀ t, t < part_start (Gn + Ga) N (q + 1) - part_start (Gn + Ga) N q →
    b.rows_[part_start (Gn + Ga) N q + t]? = some (rows_concat
      (row_cols Gn Ga (Gn + Ga) mesh) (part_start (Gn + Ga) N q) t).length) ∧
  b.allcols_.length = rows_before (row_cols Gn Ga (Gn + Ga) mesh) (Gn + Ga)

/-! ## The local stiffness row as a formula -/

/-- The value that one quadrature point adds to entry `j` of the row (lines 391-424)
when the reads of the derivative table `di` are in range. -/
def point_inc (local_dimension : Nat) (Ji : Fin 9 → ℚ) (detJ : ℚ) (C : Tensor)
    (di : List ℚ) (row j : Nat) : ℚ :=
  let Ca := C.mat_ 0 0
  let Cb := C.mat_ 0 1
  let Cc := C.mat_ 0 2
  let Cd := C.mat_ 1 1
  let Ce := C.mat_ 1 2
  let Cf := C.mat_ 2 2
  let local_dimension2 := 2 * local_dimension
  let Nxip := di.getD row 0
  let Nyip := di.getD (local_dimension + row) 0
  let Nzip := di.getD (local_dimension2 + row) 0
  let uxp := detJ * (Nxip * Ji 0 + Nyip * Ji 1 + Nzip * Ji 2)
  let uyp := detJ * (Nxip * Ji 3 + Nyip * Ji 4 + Nzip * Ji 5)
  let uzp := detJ * (Nxip * Ji 6 + Nyip * Ji 7 + Nzip * Ji 8)
  let uxyzpabc := uxp * Ca + uyp * Cb + uzp * Cc
  let uxyzpbde := uxp * Cb + uyp * Cd + uzp * Ce
  let uxyzpcef := uxp * Cc + uyp * Ce + uzp * Cf
  let Nxj := di.getD j 0
  let Nyj := di.getD (local_dimension + j) 0
  let Nzj := di.getD (local_dimension2 + j) 0
  let ux := Nxj * Ji 0 + Nyj * Ji 1 + Nzj * Ji 2
  let uy := Nxj * Ji 3 + Nyj * Ji 4 + Nzj * Ji 5
  let uz := Nxj * Ji 6 + Nyj * Ji 7 + Nzj * Ji 8
  ux * uxyzpabc + uy * uxyzpbde + uz * uxyzpcef

/-- The determinant returned by `inverse_jacobian` at quadrature point `q` of element
`c_ind`. -/
def det_at (mesh : VMesh) (c_ind : Nat) (p : List (List ℚ)) (q : Nat) : ℚ :=
  (mesh.inverse_jacobian (p.getD q []) c_ind).1

/-- The sum over the quadrature points `i, .., i+n-1` of the values added to entry `j`
of the row by the loop of lines 371-425. -/
def quad_sum (mesh : VMesh) (local_dimension : Nat) (C : Tensor) (c_ind row : Nat)
    (vol : ℚ) (p : List (List ℚ)) (w : List ℚ) (d : List (List ℚ)) (i n j : Nat) : ℚ :=
  ((List.range' i n).map (fun q =>
    point_inc local_dimension (mesh.inverse_jacobian (p.getD q []) c_ind).2
      (det_at mesh c_ind p q * (w.getD q 0 * vol)) C (d.getD q []) row j)).sum

/-- The reference gradient `∇N_k` of local basis function `k` at one quadrature point:
the entries of the derivative table at the offsets `k`, `local_dimension + k` and
`2·local_dimension + k`. -/
def ref_gradient (local_dimension : Nat) (di : List ℚ) (k : Nat) : Fin 3 → ℚ :=
  ![di.getD k 0, di.getD (local_dimension + k) 0, di.getD (2 * local_dimension + k) 0]

/-- The product `J⁻¹ g` of the inverse Jacobian, stored row by row in `Ji[0..8]`, with a
vector `g`. -/
def transformed_gradient (Ji : Fin 9 → ℚ) (g : Fin 3 → ℚ) : Fin 3 → ℚ :=
  ![Ji 0 * g 0 + Ji 1 * g 1 + Ji 2 * g 2,
    Ji 3 * g 0 + Ji 4 * g 1 + Ji 5 * g 2,
    Ji 6 * g 0 + Ji 7 * g 1 + Ji 8 * g 2]

/-- The symmetric matrix `C` with the entries `Ca..Cf` of a tensor:
rows `(Ca, Cb, Cc)`, `(Cb, Cd, Ce)`, `(Cc, Ce, Cf)`. -/
def sym_tensor (C : Tensor) : Fin 3 → Fin 3 → ℚ :=
  ![![C.mat_ 0 0, C.mat_ 0 1, C.mat_ 0 2],
    ![C.mat_ 0 1, C.mat_ 1 1, C.mat_ 1 2],
    ![C.mat_ 0 2, C.mat_ 1 2, C.mat_ 2 2]]

/-- The product `uᵀ · M · v`. -/
def bilinear (u : Fin 3 → ℚ) (M : Fin 3 → Fin 3 → ℚ) (v : Fin 3 → ℚ) : ℚ :=
  u 0 * (M 0 0 * v 0 + M 0 1 * v 1 + M 0 2 * v 2) +
  u 1 * (M 1 0 * v 0 + M 1 1 * v 1 + M 1 2 * v 2) +
  u 2 * (M 2 0 * v 0 + M 2 1 * v 1 + M 2 2 * v 2)

/-- The stiffness entry `(row, j)` of an element as the specification writes it:
`Σ_q (det_q·w_q·vol)·(J_q⁻¹∇N_row)ᵀ·C·(J_q⁻¹∇N_j)` over the quadrature points. -/
def stiffness_entry (mesh : VMesh) (local_dimension : Nat) (C : Tensor) (c_ind : Nat)
    (vol : ℚ) (p : List (List ℚ)) (w : List ℚ) (d : List (List ℚ)) (row j : Nat) : ℚ :=
  ((List.range d.length).map (fun q =>
    (det_at mesh c_ind p q * (w.getD q 0 * vol)) *
      bilinear
        (transformed_gradient (mesh.inverse_jacobian (p.getD q []) c_ind).2
          (ref_gradient local_dimension (d.getD q []) row))
        (sym_tensor C)
        (transformed_gradient (mesh.inverse_jacobian (p.getD q []) c_ind).2
          (ref_gradient local_dimension (d.getD q []) j)))).sum

/-- The derivative table of the linear tetrahedron: the reference gradients
`(-1,-1,-1)`, `(1,0,0)`, `(0,1,0)`, `(0,0,1)` of the four basis functions, stored
coordinate by coordinate. -/
def tet_gradients : List ℚ := [-1, 1, 0, 0, -1, 0, 1, 0, -1, 0, 0, 1]

/-! ## The cache of the regular variant -/

/-- The cache line that the first call of `build_local_matrix_regular` stores for
quadrature point `q` of element `c_ind` (lines 507-520): `Ji[0..8]` and the scaled
determinant. -/
def cache_line (mesh : VMesh) (c_ind : Nat) (vol : ℚ) (p : List (List ℚ)) (w : List ℚ)
    (q : Nat) : List ℚ :=
  let J := mesh.inverse_jacobian (p.getD q []) c_ind
  [J.2 0, J.2 1, J.2 2, J.2 3, J.2 4, J.2 5, J.2 6, J.2 7, J.2 8, J.1 * (w.getD q 0 * vol)]

/-- The cache with the lines of the quadrature points `0, .., n-1`. -/
def jacobian_cache (mesh : VMesh) (c_ind : Nat) (vol : ℚ) (p : List (List ℚ)) (w : List ℚ)
    (n : Nat) : List (List ℚ) :=
  (List.range n).map (cache_line mesh c_ind vol p w)

/-- The state of the shared arrays when the workers below `p` have finished sparsity
phase 3: their columns are in place in `allcols_` and the row pointers of their DOFs are
global; the row pointers of the other workers are still local. -/
def Copied (mesh : VMesh) (Gn Ga N p : Nat) (b : FEMBuilder) : Prop :=
  Dims b Gn Ga N ∧ b.rows_.length = Gn + Ga + 1 ∧ b.colidx_.length = N + 1 ∧
  (∀ q, q ≤ N → b.colidx_[q]? = some (rows_before (row_cols Gn Ga (Gn + Ga) mesh)
    (part_start (Gn + Ga) N q))) ∧
  b.allcols_.length = rows_before (row_cols Gn Ga (Gn + Ga) mesh) (Gn + Ga) ∧
  (∀ k, k < rows_before (row_cols Gn Ga (Gn + Ga) mesh) (part_start (Gn + Ga) N p) →
    b.allcols_[k]? = (rows_concat (row_cols Gn Ga (Gn + Ga) mesh) 0 (Gn + Ga))[k]?) ∧
  (∀ i, i < part_start (Gn + Ga) N p →
    b.rows_[i]? = some (rows_before (row_cols Gn Ga (Gn + Ga) mesh) i)) ∧
  (∀ q, p ≤ q → q < N → ∀ t, t < part_start (Gn + Ga) N (q + 1) - part_start (Gn + Ga) N q →
    b.rows_[part_start (Gn + Ga) N q + t]? = some (rows_concat
      (row_cols Gn Ga (Gn + Ga) mesh) (part_start (Gn + Ga) N q) t).length)

/-- The matrix that the MatrixAlloc phase creates for a mesh with `Gn` node DOFs and
`Ga` edge DOFs: row pointer `i` is the number of columns of the rows before `i`, the
column array holds the rows one after the other, and every value is 0. -/
def pattern_matrix (Gn Ga : Nat) (mesh : VMesh) : SparseRowMatrix :=
  { nrows := Gn + Ga
    ncols := Gn + Ga
    rows := (List.range (Gn + Ga + 1)).map (rows_before (row_cols Gn Ga (Gn + Ga) mesh))
    cols := rows_concat (row_cols Gn Ga (Gn + Ga) mesh) 0 (Gn + Ga)
    vals := List.replicate (rows_before (row_cols Gn Ga (Gn + Ga) mesh) (Gn + Ga)) 0 }

/-- A field of basis order 2 on a mesh of one line element with the nodes 0 and 1 and the
edge 0: two node DOFs and one additional edge DOF. -/
def quadratic_line : Field :=
  { vfield := { is_vector := false, basis_order := 2,
                get_value_tensor := fun _ => unit_tensor, get_value_int := fun _ => 0 }
    vmesh :=
      { dimensionality := 1
        num_nodes_per_elem := 2
        num_enodes_per_elem := 1
        num_nodes := 2
        num_enodes := 1
        get_elems_node := fun _ => [0]
        get_elems_edge := fun _ => [0]
        get_nodes := fun _ => [0, 1]
        get_edges := fun _ => [0]
        is_regularmesh := false
        is_quad_element := false
        is_hex_element := false
        is_prism_element := false
        get_element_size := 1
        get_gaussian_scheme := fun _ => ([[1 / 2]], [1])
        get_derivate_weights := fun _ => [-1, 1, 0]
        inverse_jacobian := fun _ _ => (1, fun k => if k = 0 ∨ k = 4 ∨ k = 8 then 1 else 0)
        generation := 1 }
    conductivity_table := [] }

/-- The one-tetrahedron field whose mesh knows the element 0 only: any other element
index has no node. -/
def single_tet : Field :=
  { tet_field 3 1 4 with
    vmesh := { tet_mesh 3 1 4 with get_nodes := fun c => if c = 0 then [0, 1, 2, 3] else [] } }

/-- The state of a worker inside the assembly whose matrix is still `M`, whose row
buffer holds zeros only, and whose builder has the symmetry flag `f`. -/
def Asm.zeroed (M : SparseRowMatrix) (f : Bool) (t : Asm) : Prop :=
  t.b.fematrix_ = some M ∧ (∀ x ∈ t.lsml, x = 0) ∧ t.b.force_symmetry = f

/-! ## Statements about the assembled values -/

/-- The flag and the output handle of a call of `build_matrix`. -/
def build_result (b : FEMBuilder) (input : Field) (ctable : Option DenseMatrix)
    (output : Option SparseRowMatrix) : Option (Bool × Option SparseRowMatrix) :=
  (build_matrix b input ctable output).map (fun r => (r.1, r.2.2))

/-- The table of `nconds` rows and one column that `run` passes to `build_matrix` for
tissue type `s` (lines 1150-1172): 1 in row `s`, 0 elsewhere. -/
def unit_table (nconds s : Nat) : DenseMatrix :=
  (DenseMatrix.zeros nconds).set_entry s 1

/-- The local dimension that `setup` computes for a field. -/
def local_dofs (input : Field) : Nat :=
  input.vmesh.num_nodes_per_elem +
    (if input.vfield.basis_order = 2 then input.vmesh.num_enodes_per_elem else 0)

/-- An algorithm object with basis generation switched on whose cache holds, for mesh
generation 1, the pattern of the one-tetrahedron mesh and one basis array of ones. -/
def algo_cached : BuildFEMatrixAlgo :=
  { ForceSymmetry := false, GenerateBasis := true, cores := 2, assertions := true,
    generation_ := 1, basis_fematrix_ := some (tet_matrix (List.replicate 16 0)),
    basis_values_ := [List.replicate 16 1], log := [] }

/-- A table with one row and one column holding the weight 2. -/
def table_two : DenseMatrix := ⟨1, 1, [2], rfl⟩

/-! ## Further concrete inputs -/

/-- A mesh of one triangle (element 0 with the nodes 0..2) with one quadrature point of
two reference coordinates; the derivative weights are the reference gradients `(-1,-1)`,
`(1,0)`, `(0,1)` of the three basis functions, stored coordinate by coordinate. -/
def tri_mesh : VMesh :=
  { dimensionality := 2
    num_nodes_per_elem := 3
    num_enodes_per_elem := 3
    num_nodes := 3
    num_enodes := 3
    get_elems_node := fun i => if i < 3 then [0] else []
    get_elems_edge := fun _ => [0]
    get_nodes := fun _ => [0, 1, 2]
    get_edges := fun _ => [0, 1, 2]
    is_regularmesh := false
    is_quad_element := false
    is_hex_element := false
    is_prism_element := false
    get_element_size := 1 / 2
    get_gaussian_scheme := fun _ => ([[1 / 3, 1 / 3]], [1])
    get_derivate_weights := fun _ => [-1, 1, 0, -1, 0, 1]
    inverse_jacobian := fun _ _ => (1, fun k => if k = 0 ∨ k = 4 ∨ k = 8 then 1 else 0)
    generation := 1 }

/-- A scalar field with element data (basis order 0) on `tri_mesh`; the element carries
the identity tensor. -/
def tri_field : Field :=
  { vfield := { is_vector := false, basis_order := 0,
                get_value_tensor := fun _ => unit_tensor, get_value_int := fun _ => 0 }
    vmesh := tri_mesh
    conductivity_table := [] }

/-- An algorithm object with two cores and basis generation switched on, before its
first call: the cache is empty. -/
def algo_basis : BuildFEMatrixAlgo :=
  { ForceSymmetry := false, GenerateBasis := true, cores := 2, assertions := true,
    generation_ := -1, basis_fematrix_ := none, basis_values_ := [], log := [] }

/-- A scalar field with element data (basis order 0) on a point cloud of three nodes:
every node is its own element, and the mesh reports dimensionality 0. -/
def point_cloud : Field :=
  { vfield := { is_vector := false, basis_order := 0,
                get_value_tensor := fun _ => unit_tensor, get_value_int := fun _ => 0 }
    vmesh :=
      { dimensionality := 0
        num_nodes_per_elem := 1
        num_enodes_per_elem := 0
        num_nodes := 3
        num_enodes := 0
        get_elems_node := fun i => [i]
        get_elems_edge := fun _ => []
        get_nodes := fun c => [c]
        get_edges := fun _ => []
        is_regularmesh := false
        is_quad_element := false
        is_hex_element := false
        is_prism_element := false
        get_element_size := 1
        get_gaussian_scheme := fun _ => ([[]], [1])
        get_derivate_weights := fun _ => []
        inverse_jacobian := fun _ _ => (1, fun _ => 0)
        generation := 1 }
    conductivity_table := [] }

/-! ## The states of the run at the checks of the success flags -/

/-- The builder at the call of `Parallel::RunTasks` in `build_matrix` (lines 184-254):
the conductivity table is converted and `success_` is resized to `numprocessors_`
entries. -/
def at_run_tasks (b : FEMBuilder) (ctable : Option DenseMatrix) : FEMBuilder :=
  { ({ b with tensors_ := convert_table b.tensors_ ctable } : FEMBuilder) with
    success_ := resize b.success_ b.numprocessors_ true }

/-- The builder and the thread-local variables at the check that follows the Setup
phase (lines 693-708). -/
def after_setup (b : FEMBuilder) (input : Field) : FEMBuilder × List Worker :=
  each_worker (phase_setup input) 0 b (List.replicate b.numprocessors_ Worker.new)

/-- The state at the check that follows sparsity phase 1 (lines 722-820), when the check
before passes. -/
def after_discover (b : FEMBuilder) (input : Field) : FEMBuilder × List Worker :=
  each_worker (phase_discover input) 0 (after_setup b input).1 (after_setup b input).2

/-- The state at the check that follows sparsity phase 2 (lines 831-866), when the
checks before pass. -/
def after_offsets (b : FEMBuilder) (input : Field) : FEMBuilder × List Worker :=
  each_worker phase_offsets 0 (after_discover b input).1 (after_discover b input).2

/-- The state at the check that follows sparsity phase 3 (lines 875-897), when the
checks before pass. -/
def after_copy (b : FEMBuilder) (input : Field) : FEMBuilder × List Worker :=
  each_worker phase_copy 0 (after_offsets b input).1 (after_offsets b input).2

/-- The state at check `k` of `parallel`: 0 after Setup, 1 to 3 after the sparsity
phases 1 to 3, 4 after MatrixAlloc. -/
def phase_state (b : FEMBuilder) (input : Field) (k : Nat) : FEMBuilder × List Worker :=
  match k with
  | 0 => after_setup b input
  | 1 => after_discover b input
  | 2 => after_offsets b input
  | 3 => after_copy b input
  | _ => after_create b input

/-! ## The end of `build_matrix` and further inputs -/

/-- Lines 258-285 of `build_matrix`: the part that follows `Parallel::RunTasks`, as a
function of the builder `r` that the run leaves and of the handle `output`. -/
def finish_build (r : FEMBuilder) (output : Option SparseRowMatrix) :
    Option (Bool × FEMBuilder × Option SparseRowMatrix) :=
  match (List.range r.success_.length).find? (fun j => decide (rd r.success_ j = some false)) with
  | some j => some (false, r.error ("Algorithm failed in thread " ++ toString j), output)
  | none =>
    if r.force_symmetry then do
      let A ← r.fematrix_
      some (true, r, some A.symmetrize)
    else some (true, r, r.fematrix_)

/-- A builder as the last step of `build_matrix` can find it: two workers, both success
flags true, and in `fematrix_` a matrix with the pattern of the one-tetrahedron mesh and
the values `1, 2, .., 16` (not symmetric). -/
def builder_assembled (force_symmetry : Bool) : FEMBuilder :=
  { FEMBuilder.new 2 force_symmetry true [] with
    success_ := [true, true]
    fematrix_ := some (tet_matrix [1, 2, 3, 4, 5, 6, 7, 8, 9, 10, 11, 12, 13, 14, 15, 16]) }

/-- The ZeroInit and Assembly phases of one worker (lines 936-1064) from the point where
`create_numerical_integration(ni_points, ni_weights, ni_derivatives)` has returned the
tables `ni`: the zeroing of the worker's slice, the row buffer `lsml`, the loop over the
DOFs of the worker and the handler. -/
def phase_assemble_tables (input : Field) (ni : List (List ℚ) × List ℚ × List (List ℚ))
    (proc_num : Nat) (b : FEMBuilder) (w : Worker) : Option (FEMBuilder × Worker) := do
  let ns ← rd b.colidx_ proc_num
  let ne ← rd b.colidx_ (proc_num + 1)
  let M ← b.fematrix_
  let vals ← (List.range' ns (ne - ns)).foldlM (fun v k => wr v k 0) M.vals
  let b := { b with fematrix_ := some { M with vals := vals } }
  let lsml : List ℚ := List.replicate b.local_dimension 0
  let start := start_gd b proc_num
  let s ← (List.range' start (end_gd b proc_num - start)).foldlM
    (assemble_dof input ni.1 ni.2.1 ni.2.2) ⟨b, w, lsml, false⟩
  if s.thrown then some (assembly_crashed s.b proc_num, s.w)
  else some ({ s.b with success_ := s.b.success_.set proc_num true }, s.w)

/-- The ZeroInit and Assembly phases of all workers on the tables `ni`, started in the
state that the MatrixAlloc phase leaves. -/
def assemble_tables (input : Field) (ni : List (List ℚ) × List ℚ × List (List ℚ))
    (b : FEMBuilder) : Option FEMBuilder :=
  (each_worker_opt (phase_assemble_tables input ni) 0 (after_create b input).1
    (after_create b input).2).map Prod.fst

/-- The row `build_local_matrix(c, k)` computed with the tables `ni` on a row buffer of
`L` entries; the empty row when the call is not defined. -/
def local_row_tables (tensors_ : TensorTable) (L : Nat) (input : Field)
    (ni : List (List ℚ) × List ℚ × List (List ℚ)) (c k : Nat) : List ℚ :=
  ((build_local_matrix tensors_ L input c k (List.replicate L 0) ni.1 ni.2.1 ni.2.2).map
    (fun r => r.l_stiff)).getD []

/-- The sum that the specification gives for cell `(i, j)`, with the local rows computed
on the tables `ni`: over every element `c` returned for node `i`, every local position
`k` with `nodes(c)[k] = i` and every local position `l` with `nodes(c)[l] = j`, entry
`l` of the local row of `(c, k)`. -/
def assembled_sum_tables (tensors_ : TensorTable) (input : Field)
    (ni : List (List ℚ) × List ℚ × List (List ℚ)) (i j : Nat) : ℚ :=
  ((input.vmesh.get_elems_node i).map (fun c =>
    (((List.range (input.vmesh.get_nodes c).length).filter
        (fun k => decide (rd (input.vmesh.get_nodes c) k = some i))).map (fun k =>
      (((List.range (input.vmesh.get_nodes c).length).filter
          (fun l => decide (rd (input.vmesh.get_nodes c) l = some j))).map (fun l =>
        (local_row_tables tensors_ (local_dofs input) input ni c k).getD l 0)).sum)).sum)).sum

/-- What the call `add_lcl_gbl(i, cols, lcl)` adds to slot `k` of the value array of a
matrix with the pattern of `M`, for a row `lcl` of `L` entries. -/
def row_contrib (M : SparseRowMatrix) (i : Nat) (cols : List Nat) (lcl : List ℚ) (L k : Nat) :
    ℚ :=
  ((List.range L).map (fun l =>
    if M.find i (cols.getD l 0) = some k then lcl.getD l 0 else 0)).sum

/-- What one iteration of the element loop of DOF `i` adds to slot `k` for element `c`. -/
def elem_contrib (M : SparseRowMatrix) (tensors_ : TensorTable) (L : Nat) (input : Field)
    (ni : List (List ℚ) × List ℚ × List (List ℚ)) (i c k : Nat) : ℚ :=
  ((List.range (input.vmesh.get_nodes c).length).map (fun kk =>
    if rd (input.vmesh.get_nodes c) kk = some i then
      row_contrib M i (input.vmesh.get_nodes c) (local_row_tables tensors_ L input ni c kk) L k
    else 0)).sum

/-- What the iteration of the second DOF loop for the node DOF `i` adds to slot `k`. -/
def dof_contrib (M : SparseRowMatrix) (tensors_ : TensorTable) (L : Nat) (input : Field)
    (ni : List (List ℚ) × List ℚ × List (List ℚ)) (i k : Nat) : ℚ :=
  ((input.vmesh.get_elems_node i).map (fun c => elem_contrib M tensors_ L input ni i c k)).sum

/-- Every call `build_local_matrix(c, kk)` of the iteration for the node DOF `i` is
defined on the tables `ni`. -/
def rows_defined (tensors_ : TensorTable) (L : Nat) (input : Field)
    (ni : List (List ℚ) × List ℚ × List (List ℚ)) (i : Nat) : Prop :=
  ∀ c, c ∈ input.vmesh.get_elems_node i → ∀ kk, rd (input.vmesh.get_nodes c) kk = some i →
    (build_local_matrix tensors_ L input c kk (List.replicate L 0) ni.1 ni.2.1 ni.2.2).isSome
      = true

/-- The state of a worker inside the assembly loop of a mesh with linear DOFs only: no
exception has left the block, the row buffer has `local_dimension` entries, the matrix
has the pattern of `M`, and the dimensions and the tensors are those of `b0`. -/
def Asm.linear (M : SparseRowMatrix) (b0 : FEMBuilder) (s : Asm) : Prop :=
  s.thrown = false ∧ s.lsml.length = b0.local_dimension ∧
  s.b.tensors_ = b0.tensors_ ∧ s.b.local_dimension = b0.local_dimension ∧
  s.b.global_dimension_nodes = b0.global_dimension_nodes ∧
  s.b.global_dimension_add_nodes = 0 ∧
  ∃ M1, s.b.fematrix_ = some M1 ∧ M1.nrows = M.nrows ∧ M1.ncols = M.ncols ∧
    M1.rows = M.rows ∧ M1.cols = M.cols ∧ M1.vals.length = M.vals.length

/-- The value at slot `k` of the matrix of a builder (0 when there is none). -/
def FEMBuilder.value (b : FEMBuilder) (k : Nat) : ℚ :=
  ((b.fematrix_.map (fun M => M.vals)).getD []).getD k 0

/-- The quadrature tables of the one-tetrahedron mesh with the derivative weights that
the mesh returns: one point, the weight 1 and the gradients of the linear
tetrahedron. -/
def tet_tables : List (List ℚ) × List ℚ × List (List ℚ) :=
  ([[1 / 4, 1 / 4, 1 / 4]], [1], [tet_gradients])

/-- The builder `b` holding the matrix `M` with the value array `vals`. -/
def FEMBuilder.with_values (b : FEMBuilder) (M : SparseRowMatrix) (vals : List ℚ) :
    FEMBuilder :=
  { b with fematrix_ := some { M with vals := vals } }

/-- The conditions under which `build_local_matrix_regular` computes the row of
`build_local_matrix` on the tables `ni` for rows of `L` entries: the dimensionality is
1, 2 or 3, the reads of the tables are in range, and the inverse Jacobian at each
quadrature point is the same for every element, with a positive determinant. -/
def regular_tables (input : Field) (ni : List (List ℚ) × List ℚ × List (List ℚ)) (L : Nat) :
    Prop :=
  (1 ≤ input.vmesh.dimensionality ∧ input.vmesh.dimensionality ≤ 3) ∧
  ni.2.2.length ≤ ni.1.length ∧ ni.2.2.length ≤ ni.2.1.length ∧
  (∀ q, q < ni.2.2.length → 3 * L ≤ (ni.2.2.getD q []).length) ∧
  (∀ q, q < ni.2.2.length → ∀ e, input.vmesh.inverse_jacobian (ni.1.getD q []) e
    = input.vmesh.inverse_jacobian (ni.1.getD q []) 0) ∧
  (∀ q, q < ni.2.2.length → 0 < det_at input.vmesh 0 ni.1 q)

/-- The cache `precompute` of a worker on a regular mesh: still empty, or filled with
the lines of the quadrature points. -/
def Asm.cached (input : Field) (ni : List (List ℚ) × List ℚ × List (List ℚ)) (s : Asm) :
    Prop :=
  s.w.precompute = [] ∨ s.w.precompute
    = jacobian_cache input.vmesh 0 input.vmesh.get_element_size ni.1 ni.2.1 ni.2.2.length

/-- The one-tetrahedron field with its mesh flagged regular: the Assembly phase takes
the cached variant `build_local_matrix_regular`. -/
def regular_tet : Field :=
  { tet_field 3 1 4 with vmesh := { tet_mesh 3 1 4 with is_regularmesh := true } }

/-! ## The run with failing allocations -/

/-- Sparsity phase 1 of one worker (lines 722-817) when allocations can fail: `env 1 p`
tells that `mycols.reserve(...)`, the first statement of the `try` block, throws
`std::bad_alloc` in worker `p`; the handler of lines 813-817 then reports the error and
clears the flag, and nothing else has been written. -/
def phase_discover_env (env : Nat → Nat → Bool) (input : Field) (proc_num : Nat)
    (b : FEMBuilder) (w : Worker) : FEMBuilder × Worker :=
  if env 1 proc_num then
    ({ b.error "BuildFEMatrix crashed mapping out stiffness matrix" with
        success_ := b.success_.set proc_num false }, w)
  else phase_discover input proc_num b w

/-- Sparsity phase 2 (lines 831-863) when allocations can fail: `env 2 0` tells that
`allcols_.reset(new index_type[st])` throws in worker 0, after the loop over `colidx_`
and the assignment of `colidx_[numprocessors_]`; the handler of lines 856-863 resets
`allcols_`, reports the error and clears the flag. -/
def phase_offsets_env (env : Nat → Nat → Bool) (proc_num : Nat) (b : FEMBuilder)
    (w : Worker) : FEMBuilder × Worker :=
  if proc_num = 0 ∧ env 2 0 = true then
    let w := { w with precompute := [], st := 0 }
    let ps := prefix_sum b.numprocessors_ b.colidx_
    let b := { b with colidx_ := ps.1.set b.numprocessors_ ps.2, allcols_ := [] }
    ({ b.error "Could not allocate enough memory" with
        success_ := b.success_.set proc_num false }, { w with st := ps.2 })
  else phase_offsets proc_num b w

/-- The MatrixAlloc phase (lines 906-924) when allocations can fail: `env 4 0` tells that
`new SparseRowMatrix(...)` throws in worker 0, after `rows_[global_dimension] = st` and
the remark; `fematrix_`, `rows_` and `allcols_` are not reset, and the handler of lines
920-924 reports the error and clears the flag. -/
def phase_create_env (env : Nat → Nat → Bool) (proc_num : Nat) (b : FEMBuilder)
    (w : Worker) : FEMBuilder × Worker :=
  if proc_num = 0 ∧ env 4 0 = true then
    let rows := b.rows_.set b.global_dimension w.st
    let b := { b with rows_ := rows,
                      log := b.log ++ [Msg.remark "Creating fematrix on main thread."] }
    ({ b.error "BuildFEMatrix crashed while creating final stiffness matrix" with
        success_ := b.success_.set proc_num false }, w)
  else phase_create proc_num b w

/-- The rest of `parallel` from the check that follows the MatrixAlloc phase (lines
926-1074), for the state `s` that the phase leaves. -/
def run_from_create (input : Field) (s : FEMBuilder × List Worker) : Option FEMBuilder :=
  if (first_failed s.1).isSome then some s.1
  else (each_worker_opt (phase_assemble input) 0 s.1 s.2).map Prod.fst

/-- The rest of `parallel` from the check that follows sparsity phase 3 (lines
896-1074). -/
def run_from_copy (env : Nat → Nat → Bool) (input : Field) (s : FEMBuilder × List Worker) :
    Option FEMBuilder :=
  if (first_failed s.1).isSome then some s.1
  else run_from_create input (each_worker (phase_create_env env) 0 s.1 s.2)

/-- The rest of `parallel` from the check that follows sparsity phase 2 (lines
865-1074). -/
def run_from_offsets (env : Nat → Nat → Bool) (input : Field)
    (s : FEMBuilder × List Worker) : Option FEMBuilder :=
  if (first_failed s.1).isSome then some s.1
  else run_from_copy env input (each_worker phase_copy 0 s.1 s.2)

/-- The rest of `parallel` from the check that follows sparsity phase 1 (lines
819-1074). -/
def run_from_discover (env : Nat → Nat → Bool) (input : Field)
    (s : FEMBuilder × List Worker) : Option FEMBuilder :=
  if (first_failed s.1).isSome then some s.1
  else run_from_offsets env input (each_worker (phase_offsets_env env) 0 s.1 s.2)

/-- The rest of `parallel` from the check that follows the Setup phase (lines
708-1074); at this check every worker reports the failure. -/
def run_from_setup (env : Nat → Nat → Bool) (input : Field)
    (s : FEMBuilder × List Worker) : Option FEMBuilder :=
  match first_failed s.1 with
  | some q =>
    let msg := Msg.error ("FEMBuilder::setup failed in thread " ++ toString q)
    some { s.1 with log := s.1.log ++ List.replicate s.1.numprocessors_ msg }
  | none => run_from_discover env input (each_worker (phase_discover_env env input) 0 s.1 s.2)

/-- The rest of `parallel` from check `k` on: 0 after Setup, 1 to 3 after the sparsity
phases 1 to 3, 4 after MatrixAlloc. -/
def run_from (env : Nat → Nat → Bool) (input : Field) (k : Nat)
    (s : FEMBuilder × List Worker) : Option FEMBuilder :=
  match k with
  | 0 => run_from_setup env input s
  | 1 => run_from_discover env input s
  | 2 => run_from_offsets env input s
  | 3 => run_from_copy env input s
  | _ => run_from_create input s

/-- The phase that follows check `k` when the check passes, for `k < 4`. -/
def next_phase (env : Nat → Nat → Bool) (input : Field) (k : Nat)
    (s : FEMBuilder × List Worker) : FEMBuilder × List Worker :=
  match k with
  | 0 => each_worker (phase_discover_env env input) 0 s.1 s.2
  | 1 => each_worker (phase_offsets_env env) 0 s.1 s.2
  | 2 => each_worker phase_copy 0 s.1 s.2
  | _ => each_worker (phase_create_env env) 0 s.1 s.2

/-- The run `Parallel::RunTasks(...)` when the allocations told by `env` fail. -/
def run_tasks_env (env : Nat → Nat → Bool) (b : FEMBuilder) (input : Field) :
    Option FEMBuilder :=
  run_from env input 0
    (each_worker (phase_setup input) 0 b (List.replicate b.numprocessors_ Worker.new))

/-- `FEMBuilder::build_matrix` when the allocations told by `env` fail in the run of the
workers. -/
def build_matrix_env (env : Nat → Nat → Bool) (b : FEMBuilder) (input : Field)
    (ctable : Option DenseMatrix) (output : Option SparseRowMatrix) :
    Option (Bool × FEMBuilder × Option SparseRowMatrix) :=
  (run_tasks_env env (at_run_tasks b ctable) input).bind (fun r => finish_build r output)

/-- No allocation fails. -/
def no_failure : Nat → Nat → Bool := fun _ _ => false

/-- The allocation of sparsity phase 1 fails in worker 1. -/
def reserve_fails : Nat → Nat → Bool := fun k p => decide (k = 1 ∧ p = 1)

/-- The allocation of the matrix fails (MatrixAlloc phase, worker 0). -/
def matrix_alloc_fails : Nat → Nat → Bool := fun k p => decide (k = 4 ∧ p = 0)

/-! # Theorems -/

/-! ## Conductivity table conversion -/

theorem rd_at (mat : DenseMatrix) (p : Fin mat.nrows) (k : Nat) (hk : k < mat.ncols) :
    rd mat.data (k + p.val * mat.ncols) = some (mat.at p k hk) := by
  unfold rd DenseMatrix.at
  exact List.get?_eq_get _

theorem table_loop_snd (m : Nat) (body : Tensor → Fin m → Tensor) (g : Fin m → Tensor)
    (hb : ∀ t p, body t p = g p) (st : Tensor × TensorTable) :
    (table_loop m body st).2 = st.2 ++ (List.finRange m).map (fun p => ("", g p)) := by
  have hbody : body = fun _ p => g p := by
    funext t p
    exact hb t p
  subst hbody
  unfold table_loop
  generalize List.finRange m = l
  induction l generalizing st with
  | nil => simp
  | cons x xs ih => simp [List.foldl_cons, ih]

theorem rd_map_finRange {β : Type} (m : Nat) (f : Fin m → β) (p : Nat) (hp : p < m) :
    rd ((List.finRange m).map f) p = some (f ⟨p, hp⟩) := by
  unfold rd
  rw [List.get?_eq_getElem?, List.getElem?_map,
    List.getElem?_eq_getElem (by simpa using hp)]
  simp

theorem convert_table_one (ts : TensorTable) (mat : DenseMatrix) (h : mat.ncols = 1) :
    convert_table ts (some mat) = (List.finRange mat.nrows).map
      (fun p => ("", fill_isotropic Tensor.zero (mat.at p 0 (by omega)))) := by
  have h6 : ¬ mat.ncols = 6 := by omega
  have h9 : ¬ mat.ncols = 9 := by omega
  simp only [convert_table]
  rw [dif_pos h, dif_neg h6, dif_neg h9]
  rw [table_loop_snd _ _ (fun p => fill_isotropic Tensor.zero (mat.at p 0 (by omega)))]
  · simp
  · intro t p; ext r c; fin_cases r <;> fin_cases c <;> simp [fill_isotropic, Tensor.set]

theorem convert_table_six (ts : TensorTable) (mat : DenseMatrix) (h : mat.ncols = 6) :
    convert_table ts (some mat) = (List.finRange mat.nrows).map
      (fun p => ("", fill_compressed Tensor.zero
        (mat.at p 0 (by omega)) (mat.at p 1 (by omega)) (mat.at p 2 (by omega))
        (mat.at p 3 (by omega)) (mat.at p 4 (by omega)) (mat.at p 5 (by omega)))) := by
  have h1 : ¬ mat.ncols = 1 := by omega
  have h9 : ¬ mat.ncols = 9 := by omega
  simp only [convert_table]
  rw [dif_neg h1, dif_pos h, dif_neg h9]
  rw [table_loop_snd _ _ (fun p => fill_compressed Tensor.zero
        (mat.at p 0 (by omega)) (mat.at p 1 (by omega)) (mat.at p 2 (by omega))
        (mat.at p 3 (by omega)) (mat.at p 4 (by omega)) (mat.at p 5 (by omega)))]
  · simp
  · intro t p; ext r c; fin_cases r <;> fin_cases c <;> simp [fill_compressed, Tensor.set]

theorem convert_table_nine (ts : TensorTable) (mat : DenseMatrix) (h : mat.ncols = 9) :
    convert_table ts (some mat) = (List.finRange mat.nrows).map
      (fun p => ("", fill_full Tensor.zero
        (mat.at p 0 (by omega)) (mat.at p 1 (by omega)) (mat.at p 2 (by omega))
        (mat.at p 4 (by omega)) (mat.at p 5 (by omega)) (mat.at p 8 (by omega)))) := by
  have h1 : ¬ mat.ncols = 1 := by omega
  have h6 : ¬ mat.ncols = 6 := by omega
  simp only [convert_table]
  rw [dif_neg h1, dif_neg h6, dif_pos h]
  rw [table_loop_snd _ _ (fun p => fill_full Tensor.zero
        (mat.at p 0 (by omega)) (mat.at p 1 (by omega)) (mat.at p 2 (by omega))
        (mat.at p 4 (by omega)) (mat.at p 5 (by omega)) (mat.at p 8 (by omega)))]
  · simp
  · intro t p; ext r c; fin_cases r <;> fin_cases c <;> simp [fill_full, Tensor.set]

/-- C3: a 1-column table with `m` rows is converted to exactly `m` tensors in row order,
and tensor `p` has the table value of row `p` on its three diagonal entries and 0 on its
six off-diagonal entries. -/
theorem isotropic_table_conversion (ts : TensorTable) (mat : DenseMatrix)
    (h : mat.ncols = 1) :
    (convert_table ts (some mat)).length = mat.nrows ∧
    ∀ p, p < mat.nrows → ∃ (T : Tensor) (v : ℚ),
      rd (convert_table ts (some mat)) p = some ("", T) ∧
      rd mat.data (0 + p * mat.ncols) = some v ∧
      ∀ r c : Fin 3, T.mat_ r c = if r = c then v else 0 := by
  rw [convert_table_one ts mat h]
  refine ⟨by simp, fun p hp => ?_⟩
  refine ⟨_, _, rd_map_finRange _ _ p hp, rd_at mat ⟨p, hp⟩ 0 (by omega), ?_⟩
  intro r c
  fin_cases r <;> fin_cases c <;> simp [fill_isotropic, Tensor.set]

theorem isotropic_table_conversion_witness :
    table_iso.ncols = 1 ∧
    ((convert_table [] (some table_iso)).length = table_iso.nrows ∧
    ∀ p, p < table_iso.nrows → ∃ (T : Tensor) (v : ℚ),
      rd (convert_table [] (some table_iso)) p = some ("", T) ∧
      rd table_iso.data (0 + p * table_iso.ncols) = some v ∧
      ∀ r c : Fin 3, T.mat_ r c = if r = c then v else 0) :=
  ⟨rfl, isotropic_table_conversion [] table_iso rfl⟩

/-- C4: a 6-column table with `m` rows is converted to exactly `m` tensors in row order;
for the row `(d0, .., d5)` the entries read by the local assembler are `Ca = d0`,
`Cb = d1`, `Cc = d2`, `Cd = d3`, `Ce = d4`, `Cf = d5` (entries (0,0), (0,1), (0,2), (1,1),
(1,2), (2,2)), and the tensor is symmetric. -/
theorem compressed_table_conversion (ts : TensorTable) (mat : DenseMatrix)
    (h : mat.ncols = 6) :
    (convert_table ts (some mat)).length = mat.nrows ∧
    ∀ p, p < mat.nrows → ∃ (T : Tensor) (d0 d1 d2 d3 d4 d5 : ℚ),
      rd (convert_table ts (some mat)) p = some ("", T) ∧
      rd mat.data (0 + p * mat.ncols) = some d0 ∧ rd mat.data (1 + p * mat.ncols) = some d1 ∧
      rd mat.data (2 + p * mat.ncols) = some d2 ∧ rd mat.data (3 + p * mat.ncols) = some d3 ∧
      rd mat.data (4 + p * mat.ncols) = some d4 ∧ rd mat.data (5 + p * mat.ncols) = some d5 ∧
      T.mat_ 0 0 = d0 ∧ T.mat_ 0 1 = d1 ∧ T.mat_ 0 2 = d2 ∧
      T.mat_ 1 1 = d3 ∧ T.mat_ 1 2 = d4 ∧ T.mat_ 2 2 = d5 ∧
      ∀ r c : Fin 3, T.mat_ r c = T.mat_ c r := by
  rw [convert_table_six ts mat h]
  refine ⟨by simp, fun p hp => ?_⟩
  refine ⟨_, _, _, _, _, _, _, rd_map_finRange _ _ p hp,
    rd_at mat ⟨p, hp⟩ 0 (by omega), rd_at mat ⟨p, hp⟩ 1 (by omega),
    rd_at mat ⟨p, hp⟩ 2 (by omega), rd_at mat ⟨p, hp⟩ 3 (by omega),
    rd_at mat ⟨p, hp⟩ 4 (by omega), rd_at mat ⟨p, hp⟩ 5 (by omega), ?_⟩
  refine ⟨?_, ?_, ?_, ?_, ?_, ?_, ?_⟩
  all_goals try simp [fill_compressed, Tensor.set]
  intro r c
  fin_cases r <;> fin_cases c <;> simp [fill_compressed, Tensor.set]

theorem compressed_table_conversion_witness :
    table_six.ncols = 6 ∧
    ((convert_table [] (some table_six)).length = table_six.nrows ∧
    ∀ p, p < table_six.nrows → ∃ (T : Tensor) (d0 d1 d2 d3 d4 d5 : ℚ),
      rd (convert_table [] (some table_six)) p = some ("", T) ∧
      rd table_six.data (0 + p * table_six.ncols) = some d0 ∧
      rd table_six.data (1 + p * table_six.ncols) = some d1 ∧
      rd table_six.data (2 + p * table_six.ncols) = some d2 ∧
      rd table_six.data (3 + p * table_six.ncols) = some d3 ∧
      rd table_six.data (4 + p * table_six.ncols) = some d4 ∧
      rd table_six.data (5 + p * table_six.ncols) = some d5 ∧
      T.mat_ 0 0 = d0 ∧ T.mat_ 0 1 = d1 ∧ T.mat_ 0 2 = d2 ∧
      T.mat_ 1 1 = d3 ∧ T.mat_ 1 2 = d4 ∧ T.mat_ 2 2 = d5 ∧
      ∀ r c : Fin 3, T.mat_ r c = T.mat_ c r) :=
  ⟨rfl, compressed_table_conversion [] table_six rfl⟩

theorem at_congr (mat mat2 : DenseMatrix) (p : Nat) (hp : p < mat.nrows)
    (hp2 : p < mat2.nrows) (hn : mat2.ncols = mat.ncols) (k : Nat) (hk : k < mat.ncols)
    (hk2 : k < mat2.ncols)
    (h : rd mat2.data (k + p * mat.ncols) = rd mat.data (k + p * mat.ncols)) :
    mat2.at ⟨p, hp2⟩ k hk2 = mat.at ⟨p, hp⟩ k hk := by
  have e1 := rd_at mat ⟨p, hp⟩ k hk
  have e2 := rd_at mat2 ⟨p, hp2⟩ k hk2
  simp only [hn] at e2
  rw [h, e1] at e2
  exact (Option.some.inj e2).symm

/-- C5: for a 9-column table the tensor of row `(d0, .., d8)` has the diagonal `d0`, `d4`,
`d8` and takes both members of each off-diagonal pair from `d1`, `d2`, `d5`, without
averaging; it is symmetric, and a table that differs only in the columns 3, 6 and 7
gives the same tensors. -/
theorem full_table_conversion (ts ts2 : TensorTable) (mat mat2 : DenseMatrix)
    (h : mat.ncols = 9) (h2 : mat2.ncols = 9) (hm : mat2.nrows = mat.nrows)
    (hagree : ∀ p, p < mat.nrows → ∀ k, k ∈ [0, 1, 2, 4, 5, 8] →
      rd mat2.data (k + p * mat.ncols) = rd mat.data (k + p * mat.ncols)) :
    (∀ p, p < mat.nrows → ∃ (T : Tensor) (d0 d1 d2 d4 d5 d8 : ℚ),
      rd (convert_table ts (some mat)) p = some ("", T) ∧
      rd mat.data (0 + p * mat.ncols) = some d0 ∧ rd mat.data (1 + p * mat.ncols) = some d1 ∧
      rd mat.data (2 + p * mat.ncols) = some d2 ∧ rd mat.data (4 + p * mat.ncols) = some d4 ∧
      rd mat.data (5 + p * mat.ncols) = some d5 ∧ rd mat.data (8 + p * mat.ncols) = some d8 ∧
      T.mat_ 0 0 = d0 ∧ T.mat_ 1 1 = d4 ∧ T.mat_ 2 2 = d8 ∧
      T.mat_ 0 1 = d1 ∧ T.mat_ 1 0 = d1 ∧ T.mat_ 0 2 = d2 ∧ T.mat_ 2 0 = d2 ∧
      T.mat_ 1 2 = d5 ∧ T.mat_ 2 1 = d5 ∧
      ∀ r c : Fin 3, T.mat_ r c = T.mat_ c r) ∧
    convert_table ts2 (some mat2) = convert_table ts (some mat) := by
  rw [convert_table_nine ts mat h, convert_table_nine ts2 mat2 h2]
  constructor
  · intro p hp
    refine ⟨_, _, _, _, _, _, _, rd_map_finRange _ _ p hp,
      rd_at mat ⟨p, hp⟩ 0 (by omega), rd_at mat ⟨p, hp⟩ 1 (by omega),
      rd_at mat ⟨p, hp⟩ 2 (by omega), rd_at mat ⟨p, hp⟩ 4 (by omega),
      rd_at mat ⟨p, hp⟩ 5 (by omega), rd_at mat ⟨p, hp⟩ 8 (by omega), ?_⟩
    refine ⟨?_, ?_, ?_, ?_, ?_, ?_, ?_, ?_, ?_, ?_⟩
    all_goals try simp [fill_full, Tensor.set]
    intro r c
    fin_cases r <;> fin_cases c <;> simp [fill_full, Tensor.set]
  · apply List.ext_get?
    intro i
    by_cases hi : i < mat.nrows
    · have e1 := rd_map_finRange mat.nrows (fun p => ("", fill_full Tensor.zero
        (mat.at p 0 (by omega)) (mat.at p 1 (by omega)) (mat.at p 2 (by omega))
        (mat.at p 4 (by omega)) (mat.at p 5 (by omega)) (mat.at p 8 (by omega)))) i hi
      have e2 := rd_map_finRange mat2.nrows (fun p => ("", fill_full Tensor.zero
        (mat2.at p 0 (by omega)) (mat2.at p 1 (by omega)) (mat2.at p 2 (by omega))
        (mat2.at p 4 (by omega)) (mat2.at p 5 (by omega)) (mat2.at p 8 (by omega)))) i
        (by omega)
      unfold rd at e1 e2
      rw [e1, e2]
      have hn : mat2.ncols = mat.ncols := by omega
      rw [at_congr mat mat2 i hi (by omega) hn 0 (by omega) (by omega) (hagree i hi 0 (by simp)),
        at_congr mat mat2 i hi (by omega) hn 1 (by omega) (by omega) (hagree i hi 1 (by simp)),
        at_congr mat mat2 i hi (by omega) hn 2 (by omega) (by omega) (hagree i hi 2 (by simp)),
        at_congr mat mat2 i hi (by omega) hn 4 (by omega) (by omega) (hagree i hi 4 (by simp)),
        at_congr mat mat2 i hi (by omega) hn 5 (by omega) (by omega) (hagree i hi 5 (by simp)),
        at_congr mat mat2 i hi (by omega) hn 8 (by omega) (by omega) (hagree i hi 8 (by simp))]
    · rw [List.get?_eq_none.mpr (by simpa using by omega),
        List.get?_eq_none.mpr (by simpa using by omega)]

theorem full_table_conversion_witness :
    (table_nine.ncols = 9 ∧ table_nine_alt.ncols = 9 ∧
      table_nine_alt.nrows = table_nine.nrows) ∧
    ((∀ p, p < table_nine.nrows → ∃ (T : Tensor) (d0 d1 d2 d4 d5 d8 : ℚ),
      rd (convert_table [] (some table_nine)) p = some ("", T) ∧
      rd table_nine.data (0 + p * table_nine.ncols) = some d0 ∧
      rd table_nine.data (1 + p * table_nine.ncols) = some d1 ∧
      rd table_nine.data (2 + p * table_nine.ncols) = some d2 ∧
      rd table_nine.data (4 + p * table_nine.ncols) = some d4 ∧
      rd table_nine.data (5 + p * table_nine.ncols) = some d5 ∧
      rd table_nine.data (8 + p * table_nine.ncols) = some d8 ∧
      T.mat_ 0 0 = d0 ∧ T.mat_ 1 1 = d4 ∧ T.mat_ 2 2 = d8 ∧
      T.mat_ 0 1 = d1 ∧ T.mat_ 1 0 = d1 ∧ T.mat_ 0 2 = d2 ∧ T.mat_ 2 0 = d2 ∧
      T.mat_ 1 2 = d5 ∧ T.mat_ 2 1 = d5 ∧
      ∀ r c : Fin 3, T.mat_ r c = T.mat_ c r) ∧
    convert_table [] (some table_nine_alt) = convert_table [] (some table_nine)) :=
  ⟨⟨rfl, rfl, rfl⟩, full_table_conversion [] [] table_nine table_nine_alt rfl rfl rfl (by
    intro p hp k hk
    have hp0 : p = 0 := by
      have : p < 1 := hp
      omega
    subst hp0
    simp only [List.mem_cons, List.mem_singleton, List.not_mem_nil, or_false] at hk
    rcases hk with rfl | rfl | rfl | rfl | rfl | rfl <;> rfl)⟩

/-- C6 (amended): for a 9-column table, entry `(r, c)` of the tensor of a row equals
`d[3r + c]` when `r ≤ c` and `d[3c + r]` when `r > c`, that is `d[3·min(r,c) + max(r,c)]`;
the tensor is symmetric also for a non-symmetric row. -/
theorem full_table_upper_triangle (ts : TensorTable) (mat : DenseMatrix)
    (h : mat.ncols = 9) :
    ∀ p, p < mat.nrows → ∃ T : Tensor,
      rd (convert_table ts (some mat)) p = some ("", T) ∧
      (∀ r c : Fin 3,
        rd mat.data (3 * min r.val c.val + max r.val c.val + p * mat.ncols)
          = some (T.mat_ r c)) ∧
      ∀ r c : Fin 3, T.mat_ r c = T.mat_ c r := by
  intro p hp
  rw [convert_table_nine ts mat h]
  refine ⟨_, rd_map_finRange _ _ p hp, ?_, ?_⟩
  · intro r c
    have a0 := rd_at mat ⟨p, hp⟩ 0 (by omega)
    have a1 := rd_at mat ⟨p, hp⟩ 1 (by omega)
    have a2 := rd_at mat ⟨p, hp⟩ 2 (by omega)
    have a4 := rd_at mat ⟨p, hp⟩ 4 (by omega)
    have a5 := rd_at mat ⟨p, hp⟩ 5 (by omega)
    have a8 := rd_at mat ⟨p, hp⟩ 8 (by omega)
    fin_cases r <;> fin_cases c <;> simp [fill_full, Tensor.set] <;>
      first
        | simpa using a0 | simpa using a1 | simpa using a2
        | simpa using a4 | simpa using a5 | simpa using a8
  · intro r c
    fin_cases r <;> fin_cases c <;> simp [fill_full, Tensor.set]

theorem full_table_upper_triangle_witness :
    table_skew.ncols = 9 ∧
    ∀ p, p < table_skew.nrows → ∃ T : Tensor,
      rd (convert_table [] (some table_skew)) p = some ("", T) ∧
      (∀ r c : Fin 3,
        rd table_skew.data (3 * min r.val c.val + max r.val c.val + p * table_skew.ncols)
          = some (T.mat_ r c)) ∧
      ∀ r c : Fin 3, T.mat_ r c = T.mat_ c r :=
  ⟨rfl, full_table_upper_triangle [] table_skew rfl⟩

/-- C6 (counterexample): the one-row table `(0, 1, 0, 0, 0, 0, 0, 0, 0)` is not stored
raw: entry `(1, 0)` of its tensor is `d1 = 1`, not `d3 = 0`. -/
theorem stored_raw_fails : ¬ stored_raw table_skew := by
  intro hraw
  obtain ⟨T, hT, hread⟩ := hraw 0 (by decide) 1 0
  rw [convert_table_nine [] table_skew rfl, rd_map_finRange _ _ 0 (by decide)] at hT
  have hTT := (Prod.mk.inj (Option.some.inj hT)).2
  have h10 : T.mat_ 1 0 = 1 := by
    rw [← hTT]
    simp [fill_full, Tensor.set]
    rfl
  have e2 : rd table_skew.data (3 * (1 : Fin 3).val + (0 : Fin 3).val + 0 * table_skew.ncols)
      = some 0 := rfl
  rw [e2, h10] at hread
  have h01 : (0 : ℚ) = 1 := Option.some.inj hread
  norm_num at h01

/-! ## Validation in `run` -/

/-- C1: for a non-null conductivity table whose column count is not 1, 6 or 9, `run`
returns false with the output handle as it was and the algorithm object changed only by
one error message; whenever the three checks on the input field pass, that message is
the column-count error.  The result depends on nothing the builder computes. -/
theorem run_rejects_column_count (a : BuildFEMatrixAlgo) (input : Option Field)
    (t : DenseMatrix) (output : Option SparseRowMatrix)
    (hc : t.ncols ≠ 1 ∧ t.ncols ≠ 6 ∧ t.ncols ≠ 9) :
    ∃ msg : String,
      run a input (some t) output = some (false, a.error msg, output) ∧
      (∀ f, input = some f → f.vfield.is_vector = false → f.vfield.basis_order = 0 →
        msg = "Conductivity table needs to have 1, 6, or 9 columns") := by
  cases input with
  | none => exact ⟨_, rfl, fun f hf => by cases hf⟩
  | some f =>
    by_cases hv : f.vfield.is_vector = true
    · refine ⟨"This function has not yet been defined for elements with vector data",
        by simp [run, hv], fun g hg hgv => ?_⟩
      cases hg
      simp [hv] at hgv
    · by_cases ho : f.vfield.basis_order = 0
      · exact ⟨"Conductivity table needs to have 1, 6, or 9 columns",
          by simp [run, hv, ho, hc], fun _ _ _ _ => rfl⟩
      · refine ⟨"This function has only been defined for data that is located at the elements",
          by simp [run, hv, ho], fun g hg _ hgo => ?_⟩
        cases hg
        exact absurd hgo ho

theorem run_rejects_column_count_witness :
    (table_five.ncols ≠ 1 ∧ table_five.ncols ≠ 6 ∧ table_five.ncols ≠ 9) ∧
    ∃ msg : String,
      run algo_plain (some (tet_field 3 1 4)) (some table_five) none
        = some (false, algo_plain.error msg, none) ∧
      (∀ f, some (tet_field 3 1 4) = some f → f.vfield.is_vector = false →
        f.vfield.basis_order = 0 →
        msg = "Conductivity table needs to have 1, 6, or 9 columns") :=
  ⟨by decide, run_rejects_column_count algo_plain (some (tet_field 3 1 4)) table_five none
    (by decide)⟩

/-- C2: for a non-null conductivity table with 1, 6 or 9 columns and no row, `run`
returns false with the output handle as it was and the algorithm object changed only by
one error message; whenever the three checks on the input field pass, that message is
the empty-table error. -/
theorem run_rejects_empty_table (a : BuildFEMatrixAlgo) (input : Option Field)
    (t : DenseMatrix) (output : Option SparseRowMatrix)
    (hc : t.ncols = 1 ∨ t.ncols = 6 ∨ t.ncols = 9) (hr : t.nrows = 0) :
    ∃ msg : String,
      run a input (some t) output = some (false, a.error msg, output) ∧
      (∀ f, input = some f → f.vfield.is_vector = false → f.vfield.basis_order = 0 →
        msg = "ConductivityTable is empty") := by
  have hc2 : ¬ (t.ncols ≠ 1 ∧ t.ncols ≠ 6 ∧ t.ncols ≠ 9) := by omega
  cases input with
  | none => exact ⟨_, rfl, fun f hf => by cases hf⟩
  | some f =>
    by_cases hv : f.vfield.is_vector = true
    · refine ⟨"This function has not yet been defined for elements with vector data",
        by simp [run, hv], fun g hg hgv => ?_⟩
      cases hg
      simp [hv] at hgv
    · by_cases ho : f.vfield.basis_order = 0
      · refine ⟨"ConductivityTable is empty", ?_, fun _ _ _ _ => rfl⟩
        simp only [run, hv, ho, Option.any, hc2, hr]
        simp
      · refine ⟨"This function has only been defined for data that is located at the elements",
          by simp [run, hv, ho], fun g hg _ hgo => ?_⟩
        cases hg
        exact absurd hgo ho

theorem run_rejects_empty_table_witness :
    ((table_empty.ncols = 1 ∨ table_empty.ncols = 6 ∨ table_empty.ncols = 9) ∧
      table_empty.nrows = 0) ∧
    ∃ msg : String,
      run algo_plain (some (tet_field 3 1 4)) (some table_empty) none
        = some (false, algo_plain.error msg, none) ∧
      (∀ f, some (tet_field 3 1 4) = some f → f.vfield.is_vector = false →
        f.vfield.basis_order = 0 → msg = "ConductivityTable is empty") :=
  ⟨⟨by decide, rfl⟩, run_rejects_empty_table algo_plain (some (tet_field 3 1 4)) table_empty
    none (by decide) rfl⟩

/-! ## The zero-tensor short circuit -/

theorem zero_row_eq (n : Nat) (l : List ℚ) (h : n ≤ l.length) :
    zero_row n l = some (List.replicate n 0 ++ l.drop n) := by
  unfold zero_row
  induction n with
  | zero => simp
  | succ n ih =>
    rw [List.range_succ, List.foldlM_append, ih (by omega)]
    have hlen : n < (List.replicate n (0 : ℚ) ++ List.drop n l).length := by
      simp; omega
    simp only [Option.some_bind, List.foldlM_cons, List.foldlM_nil, wr, if_pos hlen,
      Option.bind_eq_bind, Option.pure_def]
    congr 1
    rw [List.set_append_right _ _ (by simp)]
    simp only [List.length_replicate, Nat.sub_self, List.replicate_succ', List.append_assoc,
      List.singleton_append]
    rw [List.drop_eq_getElem_cons (by omega : n < l.length), List.set_cons_zero]

theorem zero_row_full (l : List ℚ) : zero_row l.length l = some (List.replicate l.length 0) := by
  rw [zero_row_eq _ _ (le_refl _)]
  simp

theorem all_zero_iff (T : Tensor) :
    T.all_zero = true ↔ (T.mat_ 0 0 = 0 ∧ T.mat_ 0 1 = 0 ∧ T.mat_ 0 2 = 0 ∧
      T.mat_ 1 1 = 0 ∧ T.mat_ 1 2 = 0 ∧ T.mat_ 2 2 = 0) := by
  simp [Tensor.all_zero, and_assoc]

theorem foldlM_fixed {α β : Type} (f : β → α → Option β) (b : β) (l : List α)
    (h : ∀ x ∈ l, f b x = some b) : l.foldlM f b = some b := by
  induction l with
  | nil => rfl
  | cons x xs ih =>
    rw [List.foldlM_cons, h x (by simp)]
    exact ih (fun y hy => h y (by simp [hy]))

theorem set_same {α : Type} : ∀ (l : List α) (i : Nat) (h : i < l.length),
    l.set i (l.get ⟨i, h⟩) = l
  | _ :: _, 0, _ => rfl
  | x :: xs, i + 1, h => by
    have ih := set_same xs i (by simpa using h)
    simpa [List.set] using ih

theorem coeffRef_add_zero (M : SparseRowMatrix) (row col pos : Nat)
    (hf : M.find row col = some pos) (hp : pos < M.vals.length) :
    M.coeffRef_add row col 0 = some M := by
  have hrd : rd M.vals pos = some (M.vals[pos]) := by
    unfold rd
    rw [List.get?_eq_getElem?, List.getElem?_eq_getElem hp]
  have hset : M.vals.set pos (M.vals[pos]) = M.vals := set_same M.vals pos hp
  simp [SparseRowMatrix.coeffRef_add, hf, hrd, wr, hp, hset]

/-- C7: when the resolved tensor of an element has `Ca = Cb = Cc = Cd = Ce = Cf = 0`,
`build_local_matrix` and `build_local_matrix_regular` return true with a row of
`local_dimension` zeros (the row buffer has `local_dimension` entries, as `lsml` has in
`parallel`), for every local row index and whatever the mesh (Jacobian, dimensionality)
is; the regular variant leaves its cache as it was; and scatter-adding
that row into cells of the pattern leaves the matrix as it was. -/
theorem zero_tensor_row (tensors_ : TensorTable) (field : VField) (c_ind row : Nat)
    (l_stiff : List ℚ) (T : Tensor)
    (hT : resolve_tensor tensors_ field c_ind = some T)
    (hz : T.mat_ 0 0 = 0 ∧ T.mat_ 0 1 = 0 ∧ T.mat_ 0 2 = 0 ∧
      T.mat_ 1 1 = 0 ∧ T.mat_ 1 2 = 0 ∧ T.mat_ 2 2 = 0) :
    (∀ (mesh : VMesh) (tbl : TensorTable) (p : List (List ℚ)) (w : List ℚ)
        (d pre : List (List ℚ)),
      build_local_matrix tensors_ l_stiff.length ⟨field, mesh, tbl⟩ c_ind row l_stiff p w d
        = some ⟨true, List.replicate l_stiff.length 0, []⟩ ∧
      build_local_matrix_regular tensors_ l_stiff.length ⟨field, mesh, tbl⟩ c_ind row l_stiff
        p w d pre = some ⟨true, List.replicate l_stiff.length 0, pre, []⟩) ∧
    (∀ (M : SparseRowMatrix) (i : Nat) (cols : List Nat),
      (∀ k, k < l_stiff.length → ∃ c pos, rd cols k = some c ∧ M.find i c = some pos ∧
        pos < M.vals.length) →
      add_lcl_gbl M i cols (List.replicate l_stiff.length 0) = some M) := by
  have hall : T.all_zero = true := (all_zero_iff T).mpr hz
  constructor
  · intro mesh tbl p w d pre
    constructor
    · simp [build_local_matrix, hT, hall, zero_row_full]
    · simp [build_local_matrix_regular, hT, hall, zero_row_full]
  · intro M i cols hcells
    unfold add_lcl_gbl
    apply foldlM_fixed
    intro k hk
    have hk2 : k < l_stiff.length := by simpa using hk
    obtain ⟨c, pos, hc, hf, hp⟩ := hcells k hk2
    have hz0 : rd (List.replicate l_stiff.length (0 : ℚ)) k = some 0 := by
      unfold rd
      rw [List.get?_eq_getElem?, List.getElem?_eq_getElem (by simpa using hk2)]
      simp
    simp [hc, hz0, coeffRef_add_zero M i c pos hf hp]

theorem zero_tensor_row_witness :
    resolve_tensor [] void_field.vfield 0 = some Tensor.zero ∧
    build_local_matrix [] 4 void_field 0 0 [7, 7, 7, 7] [] [] []
      = some ⟨true, [0, 0, 0, 0], []⟩ ∧
    build_local_matrix_regular [] 4 void_field 0 0 [7, 7, 7, 7] [] [] [] []
      = some ⟨true, [0, 0, 0, 0], [], []⟩ ∧
    add_lcl_gbl (tet_matrix (List.range 16)) 1 [0, 1, 2, 3] [0, 0, 0, 0]
      = some (tet_matrix (List.range 16)) :=
  have h := zero_tensor_row [] void_field.vfield 0 0 [7, 7, 7, 7] Tensor.zero rfl
    ⟨rfl, rfl, rfl, rfl, rfl, rfl⟩
  ⟨rfl, (h.1 void_field.vmesh [] [] [] [] []).1, (h.1 void_field.vmesh [] [] [] [] []).2,
    h.2 (tet_matrix (List.range 16)) 1 [0, 1, 2, 3] (by
      intro k hk
      have hk4 : k < 4 := hk
      interval_cases k
      · exact ⟨0, 4, rfl, by decide, by decide⟩
      · exact ⟨1, 5, rfl, by decide, by decide⟩
      · exact ⟨2, 6, rfl, by decide, by decide⟩
      · exact ⟨3, 7, rfl, by decide, by decide⟩)⟩

/-! ## Supporting facts on failure propagation -/

theorem rd_set_other {α : Type} (l : List α) (i j : Nat) (x : α) (h : i ≠ j) :
    rd (l.set i x) j = rd l j := by
  unfold rd
  rw [List.get?_eq_getElem?, List.get?_eq_getElem?, List.getElem?_set_ne h]

theorem rd_set_self {α : Type} (l : List α) (i : Nat) (x : α) (h : i < l.length) :
    rd (l.set i x) i = some x := by
  unfold rd
  rw [List.get?_eq_getElem?, List.getElem?_set_self]
  simp [h]

theorem each_worker_setup_tail (input : Field) :
    ∀ (ws : List Worker) (k : Nat) (b : FEMBuilder),
      (each_worker (phase_setup input) (k + 1) b ws).1.numprocessors_ = b.numprocessors_ ∧
      (each_worker (phase_setup input) (k + 1) b ws).1.success_.length = b.success_.length ∧
      rd (each_worker (phase_setup input) (k + 1) b ws).1.success_ 0 = rd b.success_ 0
  | [], _, _ => ⟨rfl, rfl, rfl⟩
  | w :: ws, k, b => by
    have ih := each_worker_setup_tail input ws (k + 1)
      (phase_setup input (k + 1) b w).1
    have h1 : (phase_setup input (k + 1) b w).1.numprocessors_ = b.numprocessors_ := by
      simp [phase_setup]
    have h2 : (phase_setup input (k + 1) b w).1.success_ = b.success_.set (k + 1) true := by
      simp [phase_setup]
    exact ⟨ih.1.trans h1, ih.2.1.trans (by rw [h2]; simp),
      ih.2.2.trans (by rw [h2]; exact rd_set_other _ _ _ _ (by omega))⟩

theorem find_range_isSome (n : Nat) (p : Nat → Bool) (h0 : 0 < n) (hp : p 0 = true) :
    ((List.range n).find? p).isSome = true := by
  rw [List.find?_isSome]
  exact ⟨0, by simpa using h0, hp⟩

/-- The part of C9 that the code keeps: a mesh of dimensionality below 1 makes `setup`
fail, worker 0's flag stays false, and `build_matrix` returns false with the output
handle as it was (for at least one worker). -/
theorem low_dimension_is_fatal (b : FEMBuilder) (input : Field)
    (ctable : Option DenseMatrix) (output : Option SparseRowMatrix)
    (hd : input.vmesh.dimensionality < 1) (hn : 0 < b.numprocessors_) :
    ∃ b2, build_matrix b input ctable output = some (false, b2, output) := by
  obtain ⟨n, hn1⟩ : ∃ n, b.numprocessors_ = n + 1 := ⟨b.numprocessors_ - 1, by omega⟩
  -- the builder at the call of RunTasks
  generalize hb1 : ({ ({ b with tensors_ := convert_table b.tensors_ ctable } : FEMBuilder) with
    success_ := resize b.success_ b.numprocessors_ true } : FEMBuilder) = b1
  have hb1n : b1.numprocessors_ = n + 1 := by rw [← hb1]; exact hn1
  have hb1len : b1.success_.length = n + 1 := by
    rw [← hb1]; simp [resize, hn1]; omega
  -- worker 0
  have hw0 : (phase_setup input 0 b1 Worker.new).1.numprocessors_ = n + 1 ∧
      (phase_setup input 0 b1 Worker.new).1.success_.length = n + 1 ∧
      rd (phase_setup input 0 b1 Worker.new).1.success_ 0 = some false := by
    simp only [phase_setup, setup, hd, if_true, FEMBuilder.error]
    refine ⟨hb1n, by simp [hb1len], ?_⟩
    exact rd_set_self _ _ _ (by simp [hb1len])
  have htail := each_worker_setup_tail input (List.replicate n Worker.new) 0
    (phase_setup input 0 b1 Worker.new).1
  have hall : (each_worker (phase_setup input) 0 b1
      (List.replicate b1.numprocessors_ Worker.new)).1
      = (each_worker (phase_setup input) (0 + 1) (phase_setup input 0 b1 Worker.new).1
          (List.replicate n Worker.new)).1 := by
    rw [hb1n, List.replicate_succ]
    simp [each_worker]
  generalize hs : (each_worker (phase_setup input) 0 b1
      (List.replicate b1.numprocessors_ Worker.new)) = s at hall
  have hsn : s.1.numprocessors_ = n + 1 := by rw [hall, htail.1, hw0.1]
  have hslen : s.1.success_.length = n + 1 := by rw [hall, htail.2.1, hw0.2.1]
  have hs0 : rd s.1.success_ 0 = some false := by rw [hall, htail.2.2, hw0.2.2]
  have hff : (first_failed s.1).isSome = true := by
    unfold first_failed
    exact find_range_isSome _ _ (by omega) (by simp [hs0])
  obtain ⟨q, hq⟩ := Option.isSome_iff_exists.mp hff
  have hrun : ∃ b2, run_tasks b1 input = some b2 ∧ b2.success_ = s.1.success_ := by
    simp [run_tasks, hs, hq]
  obtain ⟨b2, hrun2, hsucc⟩ := hrun
  have hfinal : ((List.range b2.success_.length).find?
      (fun j => decide (rd b2.success_ j = some false))).isSome = true := by
    rw [hsucc]
    exact find_range_isSome _ _ (by omega) (by simp [hs0])
  obtain ⟨j, hj⟩ := Option.isSome_iff_exists.mp hfinal
  have hres : build_matrix b input ctable output
      = some (false, b2.error ("Algorithm failed in thread " ++ toString j), output) := by
    simp only [build_matrix, hb1, hrun2, Option.bind_eq_bind, Option.some_bind, hj]
  exact ⟨_, hres⟩

/-- The flag returned by `build_local_matrix` reaches neither the success flags nor the
exception state of the worker: the general cause of C8 and C9. -/
theorem row_and_add_keeps_flags (input : Field) (p : List (List ℚ)) (wt : List ℚ)
    (d : List (List ℚ)) (i c row : Nat) (s s2 : Asm)
    (h : row_and_add input p wt d i c row s = some s2) :
    s2.thrown = s.thrown ∧ s2.b.success_ = s.b.success_ := by
  unfold row_and_add at h
  cases hr : build_local_matrix s.b.tensors_ s.b.local_dimension input c row s.lsml p wt d with
  | none => simp [hr] at h
  | some r =>
    cases hM : s.b.fematrix_ with
    | none => simp [hr, hM] at h
    | some M =>
      cases hA : add_lcl_gbl M i s.w.neib_dofs r.l_stiff with
      | none => simp [hr, hM, hA] at h
      | some M2 =>
        simp [hr, hM, hA] at h
        subst h
        exact ⟨rfl, rfl⟩

/-- The general cause of C10: whenever the mesh dimensionality is at least 1, worker 0's
flag after lines 693-706 is true, whatever the number of nodes is. -/
theorem setup_flag_overwritten (b : FEMBuilder) (input : Field) (w : Worker)
    (hd : 1 ≤ input.vmesh.dimensionality) (hl : 0 < b.success_.length) :
    rd (phase_setup input 0 b w).1.success_ 0 = some true := by
  have hd2 : ¬ input.vmesh.dimensionality < 1 := by omega
  simp only [phase_setup, setup, hd2, if_true, if_false]
  apply rd_set_self
  split <;> simp [FEMBuilder.error, hl]


/-! ## Failures that the run does not propagate -/

set_option maxRecDepth 100000 in
/-- C8 (the code at the failing input): on the one-tetrahedron mesh whose inverse
Jacobian has determinant -1 at the only quadrature point, `build_local_matrix` returns
false for the element, yet `build_matrix` returns true and assigns the output handle,
and `run` returns true with that matrix. -/
theorem inverted_element_is_accepted :
    ((tet_mesh 3 (-1) 4).inverse_jacobian [1 / 4, 1 / 4, 1 / 4] 0).1 ≤ 0 ∧
    (create_numerical_integration (tet_mesh 3 (-1) 4)).toOption
      = some ([[1 / 4, 1 / 4, 1 / 4]], [1], [[]]) ∧
    (build_local_matrix [] 4 (tet_field 3 (-1) 4) 0 0 [0, 0, 0, 0] [[1 / 4, 1 / 4, 1 / 4]]
      [1] [[]]).map (fun r => r.ok) = some false ∧
    (build_matrix builder_plain (tet_field 3 (-1) 4) none none).map (fun r => (r.1, r.2.2))
      = some (true, some (tet_matrix (List.replicate 16 0))) ∧
    (run algo_plain (some (tet_field 3 (-1) 4)) none none).map (fun r => (r.1, r.2.2))
      = some (true, some (tet_matrix (List.replicate 16 0))) := by
  refine ⟨?_, ?_, ?_, ?_, ?_⟩ <;> decide!

set_option maxRecDepth 100000 in
/-- C9 (the code at the failing input): on the one-tetrahedron mesh that reports
dimensionality 4, `setup` returns true, `build_local_matrix` reports the dimension error
and returns false, yet `build_matrix` returns true and assigns the output handle, and
`run` returns true with that matrix. -/
theorem dimension_four_is_accepted :
    (tet_mesh 4 1 4).dimensionality > 3 ∧
    (setup { builder_plain with success_ := [true, true] } (tet_field 4 1 4)).1 = true ∧
    (build_local_matrix [] 4 (tet_field 4 1 4) 0 0 [0, 0, 0, 0] [[1 / 4, 1 / 4, 1 / 4]]
      [1] [[]]).map (fun r => (r.ok, r.msgs)) = some (false, [Msg.error
        "Mesh dimension is 0 or larger than 3, for which no FE implementation is available"]) ∧
    (build_matrix builder_plain (tet_field 4 1 4) none none).map (fun r => (r.1, r.2.2))
      = some (true, some (tet_matrix (List.replicate 16 0))) ∧
    (run algo_plain (some (tet_field 4 1 4)) none none).map (fun r => (r.1, r.2.2))
      = some (true, some (tet_matrix (List.replicate 16 0))) := by
  refine ⟨?_, ?_, ?_, ?_, ?_⟩ <;> decide!

set_option maxRecDepth 100000 in
/-- C10 (the code at the failing input): on a three-dimensional mesh without nodes,
`setup` clears worker 0's flag but `parallel` overwrites it with the value true that
`setup` returns; no worker sees a false flag at the first check, `build_matrix` returns
true with an empty matrix, and so does `run`. -/
theorem empty_mesh_is_accepted :
    (tet_mesh 3 1 0).num_nodes = 0 ∧ (tet_mesh 3 1 0).dimensionality ≥ 1 ∧
    (setup { builder_plain with success_ := [true, true] } (tet_field 3 1 0)).2.success_
      = [false, true] ∧
    (phase_setup (tet_field 3 1 0) 0 { builder_plain with success_ := [true, true] }
      Worker.new).1.success_ = [true, true] ∧
    first_failed (each_worker (phase_setup (tet_field 3 1 0)) 0
      { builder_plain with success_ := [true, true] } [Worker.new, Worker.new]).1 = none ∧
    (build_matrix builder_plain (tet_field 3 1 0) none none).map (fun r => (r.1, r.2.2))
      = some (true, some ⟨0, 0, [0], [], []⟩) ∧
    (run algo_plain (some (tet_field 3 1 0)) none none).map (fun r => (r.1, r.2.2))
      = some (true, some ⟨0, 0, [0], [], []⟩) := by
  refine ⟨?_, ?_, ?_, ?_, ?_, ?_, ?_⟩ <;> decide!

/-! ## Validation of the input field -/

/-- C11: when the input field is null, vector-valued, or carries data that is not
located at the elements (basis order other than 0), `run` returns false with the output
handle as it was and the algorithm object changed only by one error message, which is
the message of the first failing field check; this holds for every conductivity table,
also one that the table checks would reject. -/
theorem run_rejects_field (a : BuildFEMatrixAlgo) (input : Option Field)
    (ctable : Option DenseMatrix) (output : Option SparseRowMatrix)
    (h : ∀ f, input = some f → f.vfield.is_vector = true ∨ f.vfield.basis_order ≠ 0) :
    ∃ msg : String,
      run a input ctable output = some (false, a.error msg, output) ∧
      (input = none → msg = "Could not obtain input field") ∧
      (∀ f, input = some f → f.vfield.is_vector = true →
        msg = "This function has not yet been defined for elements with vector data") ∧
      (∀ f, input = some f → f.vfield.is_vector = false →
        msg = "This function has only been defined for data that is located at the elements") := by
  cases input with
  | none =>
    exact ⟨"Could not obtain input field", rfl, fun _ => rfl, fun f hf => (by cases hf),
      fun f hf => (by cases hf)⟩
  | some f =>
    by_cases hv : f.vfield.is_vector = true
    · refine ⟨"This function has not yet been defined for elements with vector data",
        by simp [run, hv], fun hn => (by cases hn), fun _ _ _ => rfl, fun g hg hgv => ?_⟩
      cases hg
      simp [hv] at hgv
    · have ho : f.vfield.basis_order ≠ 0 := by
        rcases h f rfl with h1 | h1
        · exact absurd h1 hv
        · exact h1
      refine ⟨"This function has only been defined for data that is located at the elements",
        by simp [run, hv, ho], fun hn => (by cases hn), fun g hg hgv => ?_, fun _ _ _ => rfl⟩
      cases hg
      exact absurd hgv hv

theorem run_rejects_field_witness :
    (∀ f, (none : Option Field) = some f →
      f.vfield.is_vector = true ∨ f.vfield.basis_order ≠ 0) ∧
    ∃ msg : String,
      run algo_plain none (some table_five) none = some (false, algo_plain.error msg, none) ∧
      ((none : Option Field) = none → msg = "Could not obtain input field") ∧
      (∀ f, (none : Option Field) = some f → f.vfield.is_vector = true →
        msg = "This function has not yet been defined for elements with vector data") ∧
      (∀ f, (none : Option Field) = some f → f.vfield.is_vector = false →
        msg = "This function has only been defined for data that is located at the elements") :=
  ⟨fun f hf => (by cases hf),
    run_rejects_field algo_plain none (some table_five) none (fun f hf => (by cases hf))⟩

/-! ## The partition of the degrees of freedom -/

theorem start_le_end (b : FEMBuilder) (p : Nat) : start_gd b p ≤ end_gd b p := by
  unfold start_gd end_gd
  exact Nat.div_le_div_right (Nat.mul_le_mul_left _ (Nat.le_succ p))

theorem start_mono (b : FEMBuilder) {p q : Nat} (h : p ≤ q) : start_gd b p ≤ start_gd b q := by
  unfold start_gd
  exact Nat.div_le_div_right (Nat.mul_le_mul_left _ h)

theorem start_last (b : FEMBuilder) (h : 0 < b.numprocessors_) :
    start_gd b b.numprocessors_ = b.global_dimension := by
  unfold start_gd
  exact Nat.mul_div_cancel _ h

theorem start_zero (b : FEMBuilder) : start_gd b 0 = 0 := by
  simp [start_gd]

theorem dof_owner (b : FEMBuilder) (h : 0 < b.numprocessors_) (i : Nat)
    (hi : i < b.global_dimension) :
    ∃ p, p < b.numprocessors_ ∧ start_gd b p ≤ i ∧ i < start_gd b (p + 1) := by
  have key : ∀ n, i < start_gd b n → ∃ p, p < n ∧ start_gd b p ≤ i ∧ i < start_gd b (p + 1) := by
    intro n
    induction n with
    | zero => intro h0; rw [start_zero] at h0; omega
    | succ n ih =>
      intro hn
      by_cases hlt : i < start_gd b n
      · obtain ⟨p, hp, h1, h2⟩ := ih hlt
        exact ⟨p, by omega, h1, h2⟩
      · exact ⟨n, by omega, by omega, hn⟩
  exact key b.numprocessors_ (by rw [start_last b h]; exact hi)

/-- C15: for every global dimension `G` and worker count `N ≥ 1` the ranges
`[G·p/N, G·(p+1)/N)` of the workers `p < N` are contiguous, pairwise disjoint and cover
`[0, G)`: the first starts at 0, the last ends at `G`, the end of a range is the start
of the next, `start ≤ end`, and every DOF lies in the range of exactly one worker. -/
theorem dof_partition (b : FEMBuilder) (hN : 0 < b.numprocessors_) :
    start_gd b 0 = 0 ∧
    end_gd b (b.numprocessors_ - 1) = b.global_dimension ∧
    (∀ p, end_gd b p = start_gd b (p + 1)) ∧
    (∀ p, start_gd b p ≤ end_gd b p) ∧
    (∀ i, i < b.global_dimension →
      ∃ p, p < b.numprocessors_ ∧ start_gd b p ≤ i ∧ i < end_gd b p ∧
        ∀ q, q < b.numprocessors_ → start_gd b q ≤ i → i < end_gd b q → q = p) ∧
    (∀ p i, p < b.numprocessors_ → start_gd b p ≤ i → i < end_gd b p →
      i < b.global_dimension) := by
  have hend : ∀ p, end_gd b p = start_gd b (p + 1) := fun p => rfl
  refine ⟨start_zero b, ?_, hend, start_le_end b, ?_, ?_⟩
  · rw [hend, Nat.sub_add_cancel hN, start_last b hN]
  · intro i hi
    obtain ⟨p, hp, h1, h2⟩ := dof_owner b hN i hi
    refine ⟨p, hp, h1, by rw [hend]; exact h2, ?_⟩
    intro q _ hq1 hq2
    rw [hend] at hq2
    by_contra hne
    rcases Nat.lt_or_gt_of_ne hne with hlt | hgt
    · have := start_mono b (show q + 1 ≤ p by omega)
      omega
    · have := start_mono b (show p + 1 ≤ q by omega)
      omega
  · intro p i hp _ h2
    rw [hend] at h2
    have := start_mono b (show p + 1 ≤ b.numprocessors_ by omega)
    rw [start_last b hN] at this
    omega

theorem dof_partition_witness :
    0 < builder_plain.numprocessors_ ∧
    (start_gd builder_plain 0 = 0 ∧
    end_gd builder_plain (builder_plain.numprocessors_ - 1) = builder_plain.global_dimension ∧
    (∀ p, end_gd builder_plain p = start_gd builder_plain (p + 1)) ∧
    (∀ p, start_gd builder_plain p ≤ end_gd builder_plain p) ∧
    (∀ i, i < builder_plain.global_dimension →
      ∃ p, p < builder_plain.numprocessors_ ∧ start_gd builder_plain p ≤ i ∧
        i < end_gd builder_plain p ∧
        ∀ q, q < builder_plain.numprocessors_ → start_gd builder_plain q ≤ i →
          i < end_gd builder_plain q → q = p) ∧
    (∀ p i, p < builder_plain.numprocessors_ → start_gd builder_plain p ≤ i →
      i < end_gd builder_plain p → i < builder_plain.global_dimension)) :=
  ⟨by decide, dof_partition builder_plain (by decide)⟩

/-! ## Sparsity phase 1: one row -/

theorem push_unique_pos : ∀ (xs : List Nat) (j : Nat) (mc : List Nat) (l : Nat), 0 < j →
    push_unique j xs (mc ++ [l]) = mc ++ [l] ++ uniq_after l xs
  | [], _, _, _, _ => by simp [push_unique, uniq_after]
  | x :: xs, j, mc, l, hj => by
    have hj0 : ¬ j = 0 := by omega
    by_cases hx : l = x
    · subst hx
      simp only [push_unique, hj0, List.getLast?_concat, false_or, ne_eq, not_true_eq_false,
        if_false, uniq_after]
      exact push_unique_pos xs (j + 1) mc l (by omega)
    · have hne : ¬ (some l = some x) := fun h => hx (Option.some.inj h)
      simp only [push_unique, hj0, List.getLast?_concat, false_or, ne_eq, hne, not_false_eq_true,
        if_true, uniq_after, hx]
      rw [push_unique_pos xs (j + 1) (mc ++ [l]) x (by omega)]
      simp

theorem push_unique_zero (xs mc : List Nat) : push_unique 0 xs mc = mc ++ uniq xs := by
  cases xs with
  | nil => simp [push_unique, uniq]
  | cons x xs =>
    simp only [push_unique, true_or, if_true, uniq]
    rw [push_unique_pos xs 1 mc x (by omega)]
    simp

theorem gather_fold (b : FEMBuilder) (mesh : VMesh) (ca : List Nat) (w : Worker) :
    (ca.foldl (gather_step b mesh) w).neib_dofs
      = w.neib_dofs ++ ca.flatMap
          (elem_dofs b.global_dimension_add_nodes b.global_dimension mesh) ∧
    (ca.foldl (gather_step b mesh) w).mycols = w.mycols := by
  induction ca generalizing w with
  | nil => simp
  | cons c cs ih =>
    rw [List.foldl_cons]
    have h := ih (gather_step b mesh w c)
    by_cases hq : b.global_dimension_add_nodes = 0
    · have e1 : (gather_step b mesh w c).neib_dofs = w.neib_dofs ++ mesh.get_nodes c := by
        simp [gather_step, hq]
      have e2 : (gather_step b mesh w c).mycols = w.mycols := by
        simp [gather_step, hq]
      rw [h.1, h.2, e1, e2]
      simp [elem_dofs, hq]
    · have e1 : (gather_step b mesh w c).neib_dofs = (w.neib_dofs ++ mesh.get_nodes c) ++
          (mesh.get_edges c).map (fun e => b.global_dimension + e) := by
        simp [gather_step, hq]
      have e2 : (gather_step b mesh w c).mycols = w.mycols := by
        simp [gather_step, hq]
      rw [h.1, h.2, e1, e2]
      simp [elem_dofs, hq]

theorem gather_neighbours_eq (b : FEMBuilder) (mesh : VMesh) (w : Worker) :
    gather_neighbours b mesh w = w.ca.foldl (gather_step b mesh) w := rfl

theorem discover_row_eq (mesh : VMesh) (b : FEMBuilder) (w : Worker) (i : Nat)
    (hi : i < b.global_dimension_nodes + b.global_dimension_add_nodes) :
    (discover_row mesh (b, w) i).1 = { b with rows_ := b.rows_.set i w.mycols.length } ∧
    (discover_row mesh (b, w) i).2.mycols = w.mycols ++
      row_cols b.global_dimension_nodes b.global_dimension_add_nodes b.global_dimension mesh i := by
  have hsel : select_elems { b with rows_ := b.rows_.set i w.mycols.length } mesh i w.ca
      = (dof_elems b.global_dimension_nodes mesh i, false) := by
    unfold select_elems dof_elems
    by_cases h1 : i < b.global_dimension_nodes
    · simp [h1]
    · simp [h1, hi]
  constructor
  · simp only [discover_row, hsel]
    simp
  · simp only [discover_row, hsel, gather_neighbours_eq]
    have hg := gather_fold { b with rows_ := b.rows_.set i w.mycols.length } mesh
      (dof_elems b.global_dimension_nodes mesh i)
      { w with neib_dofs := [], ca := dof_elems b.global_dimension_nodes mesh i }
    simp only [List.nil_append] at hg
    simp only [Bool.false_eq_true, if_false]
    rw [push_unique_zero, hg.1, hg.2, row_cols]

/-! ## Concatenated rows and prefix sums -/

theorem rows_concat_zero (L : Nat → List Nat) (a : Nat) : rows_concat L a 0 = [] := by
  simp [rows_concat]

theorem rows_concat_succ (L : Nat → List Nat) (a n : Nat) :
    rows_concat L a (n + 1) = L a ++ rows_concat L (a + 1) n := by
  simp [rows_concat, List.range'_succ]

theorem rows_concat_append (L : Nat → List Nat) (a m n : Nat) :
    rows_concat L a m ++ rows_concat L (a + m) n = rows_concat L a (m + n) := by
  unfold rows_concat
  rw [← List.flatMap_append]
  congr 1
  have h := List.range'_append a m n 1
  rw [Nat.one_mul] at h
  rw [Nat.add_comm m n, ← h]

theorem rows_concat_succ_right (L : Nat → List Nat) (a n : Nat) :
    rows_concat L a (n + 1) = rows_concat L a n ++ L (a + n) := by
  rw [← rows_concat_append L a n 1, rows_concat_succ, rows_concat_zero]
  simp

theorem rows_before_zero (L : Nat → List Nat) : rows_before L 0 = 0 := by
  simp [rows_before]

theorem rows_before_succ (L : Nat → List Nat) (i : Nat) :
    rows_before L (i + 1) = rows_before L i + (L i).length := by
  simp [rows_before, List.range_succ]

theorem length_rows_concat (L : Nat → List Nat) (a n : Nat) :
    (rows_concat L a n).length + rows_before L a = rows_before L (a + n) := by
  induction n with
  | zero => simp [rows_concat_zero]
  | succ n ih =>
    rw [rows_concat_succ_right, List.length_append, ← Nat.add_assoc, rows_before_succ, ← ih]
    omega

theorem rows_before_mono (L : Nat → List Nat) {i j : Nat} (h : i ≤ j) :
    rows_before L i ≤ rows_before L j := by
  obtain ⟨n, rfl⟩ := Nat.exists_eq_add_of_le h
  rw [← length_rows_concat L i n]
  omega

/-! ## Sparsity phase 1: one worker -/

theorem discover_fold (mesh : VMesh) (Gn Ga N : Nat) :
    ∀ (len start : Nat) (b : FEMBuilder) (w : Worker), Dims b Gn Ga N →
      start + len ≤ Gn + Ga →
      ∃ R : List Nat,
        ((List.range' start len).foldl (discover_row mesh) (b, w)).1 = { b with rows_ := R } ∧
        R.length = b.rows_.length ∧
        ((List.range' start len).foldl (discover_row mesh) (b, w)).2.mycols
          = w.mycols ++ rows_concat (row_cols Gn Ga (Gn + Ga) mesh) start len ∧
        (∀ t, t < len → start + t < b.rows_.length →
          R[start + t]? = some (w.mycols.length
            + (rows_concat (row_cols Gn Ga (Gn + Ga) mesh) start t).length)) ∧
        (∀ i, (i < start ∨ start + len ≤ i) → R[i]? = b.rows_[i]?)
  | 0, start, b, w, _, _ => by
    refine ⟨b.rows_, rfl, rfl, by simp [rows_concat_zero], ?_, fun _ _ => rfl⟩
    intro t ht
    omega
  | len + 1, start, b, w, hd, hle => by
    obtain ⟨h1, h2, h3, h4⟩ := hd
    have hrow := discover_row_eq mesh b w start (by rw [h1, h2]; omega)
    have hrow2 := hrow.2
    rw [h1, h2, h3] at hrow2
    have hd1 : Dims (discover_row mesh (b, w) start).1 Gn Ga N := by
      rw [hrow.1]; exact ⟨h1, h2, h3, h4⟩
    obtain ⟨R, hR1, hR2, hR3, hR4, hR5⟩ := discover_fold mesh Gn Ga N len (start + 1)
      (discover_row mesh (b, w) start).1 (discover_row mesh (b, w) start).2 hd1 (by omega)
    rw [List.range'_succ, List.foldl_cons]
    refine ⟨R, ?_, ?_, ?_, ?_, ?_⟩
    · rw [hR1, hrow.1]
    · rw [hR2, hrow.1]; simp
    · rw [hR3, hrow2, rows_concat_succ, List.append_assoc]
    · intro t ht hlt
      cases t with
      | zero =>
        simp only [Nat.add_zero] at hlt ⊢
        rw [hR5 start (Or.inl (by omega)), hrow.1]
        simp only
        rw [List.getElem?_set_self hlt]
        simp [rows_concat_zero]
      | succ t =>
        have := hR4 t (by omega) (by rw [hrow.1]; simpa using (by omega : start + 1 + t < b.rows_.length))
        rw [show start + (t + 1) = start + 1 + t by omega, this, hrow2, rows_concat_succ]
        simp [Nat.add_assoc]
    · intro i hi
      rw [hR5 i (by omega), hrow.1]
      simp only
      rw [List.getElem?_set_ne (by omega)]

/-! ## Phases over all workers -/

theorem each_worker_ind (step : Nat → FEMBuilder → Worker → FEMBuilder × Worker) (N : Nat)
    (Inv : Nat → FEMBuilder → Prop) (Win Wout : Nat → Worker → Prop)
    (hstep : ∀ p b w, p < N → Inv p b → Win p w →
      Inv (p + 1) (step p b w).1 ∧ Wout p (step p b w).2) :
    ∀ (ws : List Worker) (p : Nat) (b : FEMBuilder), p + ws.length = N → Inv p b →
      (∀ (k : Nat) (w : Worker), ws[k]? = some w → Win (p + k) w) →
      Inv N (each_worker step p b ws).1 ∧
      (each_worker step p b ws).2.length = ws.length ∧
      ∀ (k : Nat) (w : Worker), (each_worker step p b ws).2[k]? = some w → Wout (p + k) w
  | [], p, b, hlen, hinv, _ => by
    have hp : p = N := by simpa using hlen
    subst hp
    exact ⟨hinv, rfl, fun k w hk => by simp [each_worker] at hk⟩
  | w :: ws, p, b, hlen, hinv, hw => by
    have hpN : p < N := by simp at hlen; omega
    have hs := hstep p b w hpN hinv (hw 0 w (by simp))
    have ih := each_worker_ind step N Inv Win Wout hstep ws (p + 1) (step p b w).1
      (by simp at hlen; omega) hs.1
      (fun k v hk => by
        have := hw (k + 1) v (by simpa using hk)
        rwa [show p + (k + 1) = p + 1 + k by omega] at this)
    refine ⟨ih.1, by simp [each_worker, ih.2.1], ?_⟩
    intro k v hk
    cases k with
    | zero =>
      simp [each_worker] at hk
      rw [← hk]
      exact hs.2
    | succ k =>
      have := ih.2.2 k v (by simpa [each_worker] using hk)
      rwa [show p + 1 + k = p + (k + 1) by omega] at this

theorem part_start_mono (G N : Nat) {p q : Nat} (h : p ≤ q) :
    part_start G N p ≤ part_start G N q := by
  unfold part_start
  exact Nat.div_le_div_right (Nat.mul_le_mul_left _ h)

theorem part_start_last (G N : Nat) (h : 0 < N) : part_start G N N = G := by
  unfold part_start
  exact Nat.mul_div_cancel _ h

theorem part_start_zero (G N : Nat) : part_start G N 0 = 0 := by
  simp [part_start]

theorem part_start_le (G N : Nat) (h : 0 < N) {p : Nat} (hp : p ≤ N) :
    part_start G N p ≤ G := by
  have := part_start_mono G N hp
  rwa [part_start_last G N h] at this

theorem start_gd_eq (b : FEMBuilder) (Gn Ga N : Nat) (hd : Dims b Gn Ga N) (p : Nat) :
    start_gd b p = part_start (Gn + Ga) N p ∧ end_gd b p = part_start (Gn + Ga) N (p + 1) := by
  obtain ⟨_, _, h3, h4⟩ := hd
  simp [start_gd, end_gd, part_start, h3, h4]

theorem phase_discover_step (input : Field) (Gn Ga N : Nat) (hN : 0 < N) (p : Nat)
    (b : FEMBuilder) (w : Worker) (hp : p < N)
    (hinv : Discovered input.vmesh Gn Ga N p b) (hw : w.mycols = []) :
    Discovered input.vmesh Gn Ga N (p + 1) (phase_discover input p b w).1 ∧
    (phase_discover input p b w).2.mycols = worker_cols input.vmesh Gn Ga N p := by
  obtain ⟨hd, hrl, hcl, hcol, hrow⟩ := hinv
  obtain ⟨hs, he⟩ := start_gd_eq b Gn Ga N hd p
  have hmono := part_start_mono (Gn + Ga) N (show p ≤ p + 1 by omega)
  have hle := part_start_le (Gn + Ga) N hN (show p + 1 ≤ N by omega)
  obtain ⟨R, hR1, hR2, hR3, hR4, hR5⟩ := discover_fold input.vmesh Gn Ga N
    (part_start (Gn + Ga) N (p + 1) - part_start (Gn + Ga) N p) (part_start (Gn + Ga) N p)
    b w hd (by omega)
  have hmy : (phase_discover input p b w).2.mycols = worker_cols input.vmesh Gn Ga N p := by
    simp only [phase_discover, hs, he]
    rw [hR3, hw]
    rfl
  have hb : (phase_discover input p b w).1
      = { b with rows_ := R,
                 colidx_ := b.colidx_.set p (worker_cols input.vmesh Gn Ga N p).length,
                 success_ := b.success_.set p true } := by
    have hmy2 := hmy
    simp only [phase_discover, hs, he] at hmy2 ⊢
    rw [hmy2, hR1]
  refine ⟨?_, hmy⟩
  rw [hb]
  refine ⟨hd, by simpa [hR2] using hrl, by simpa using hcl, ?_, ?_⟩
  · intro q hq
    simp only
    by_cases hqp : q = p
    · subst hqp
      rw [List.getElem?_set_self (by omega)]
      rfl
    · rw [List.getElem?_set_ne (by omega)]
      exact hcol q (by omega)
  · intro q hq t ht
    simp only
    by_cases hqp : q = p
    · subst hqp
      rw [hR4 t ht (by omega), hw]
      simp
    · have hq1 := part_start_mono (Gn + Ga) N (show q + 1 ≤ p by omega)
      rw [hR5 _ (Or.inl (by omega))]
      exact hrow q (by omega) t ht

theorem phase_discover_all (input : Field) (Gn Ga N : Nat) (hN : 0 < N) (b : FEMBuilder)
    (ws : List Worker) (hlen : ws.length = N)
    (hws : ∀ (k : Nat) (w : Worker), ws[k]? = some w → w.mycols = [])
    (hd : Dims b Gn Ga N) (hrl : b.rows_.length = Gn + Ga + 1)
    (hcl : b.colidx_.length = N + 1) :
    Discovered input.vmesh Gn Ga N N (each_worker (phase_discover input) 0 b ws).1 ∧
    (each_worker (phase_discover input) 0 b ws).2.length = N ∧
    ∀ (k : Nat) (w : Worker), (each_worker (phase_discover input) 0 b ws).2[k]? = some w →
      w.mycols = worker_cols input.vmesh Gn Ga N k := by
  have h := each_worker_ind (phase_discover input) N (Discovered input.vmesh Gn Ga N)
    (fun _ w => w.mycols = []) (fun p w => w.mycols = worker_cols input.vmesh Gn Ga N p)
    (fun p b w hp hinv hw => phase_discover_step input Gn Ga N hN p b w hp hinv hw)
    ws 0 b (by simpa using hlen)
    ⟨hd, hrl, hcl, fun q hq => by omega, fun q hq => by omega⟩
    (fun k w hk => hws k w hk)
  refine ⟨h.1, by rw [h.2.1, hlen], fun k w hk => ?_⟩
  have := h.2.2 k w hk
  simpa using this

/-! ## Sparsity phase 2 -/

theorem prefix_sum_spec : ∀ (n : Nat) (cs : List Nat), n ≤ cs.length →
    (prefix_sum n cs).1.length = cs.length ∧
    (prefix_sum n cs).2 = (cs.take n).sum ∧
    (∀ q, q < n → ((prefix_sum n cs).1)[q]? = some ((cs.take q).sum)) ∧
    (∀ q, n ≤ q → ((prefix_sum n cs).1)[q]? = cs[q]?)
  | 0, cs, _ => by simp [prefix_sum]
  | n + 1, cs, h => by
    obtain ⟨h1, h2, h3, h4⟩ := prefix_sum_spec n cs (by omega)
    have hstep : prefix_sum (n + 1) cs
        = ((prefix_sum n cs).1.set n (prefix_sum n cs).2,
            (prefix_sum n cs).2 + (prefix_sum n cs).1.getD n 0) := by
      simp [prefix_sum, List.range_succ, List.foldl_append]
    have hn : (prefix_sum n cs).1.getD n 0 = cs[n] := by
      rw [List.getD_eq_getElem?_getD, h4 n (le_refl _), List.getElem?_eq_getElem (by omega)]
      rfl
    rw [hstep]
    refine ⟨by simpa using h1, ?_, ?_, ?_⟩
    · simp only
      rw [h2, hn, List.take_succ, List.getElem?_eq_getElem (show n < cs.length by omega)]
      simp only [Option.toList_some, List.sum_append, List.sum_cons, List.sum_nil, Nat.add_zero]
    · intro q hq
      simp only
      by_cases hqn : q = n
      · subst hqn
        rw [List.getElem?_set_self (by omega), h2]
      · rw [List.getElem?_set_ne (by omega)]
        exact h3 q (by omega)
    · intro q hq
      simp only
      rw [List.getElem?_set_ne (by omega)]
      exact h4 q (by omega)

theorem length_worker_cols (mesh : VMesh) (Gn Ga N : Nat) (p : Nat) :
    (worker_cols mesh Gn Ga N p).length
      + rows_before (row_cols Gn Ga (Gn + Ga) mesh) (part_start (Gn + Ga) N p)
      = rows_before (row_cols Gn Ga (Gn + Ga) mesh) (part_start (Gn + Ga) N (p + 1)) := by
  unfold worker_cols
  rw [length_rows_concat]
  congr 1
  have := part_start_mono (Gn + Ga) N (show p ≤ p + 1 by omega)
  omega

theorem counts_sum (mesh : VMesh) (Gn Ga N : Nat) (cs : List Nat) (hc : cs.length = N + 1)
    (hcol : ∀ q, q < N → cs[q]? = some ((worker_cols mesh Gn Ga N q).length)) :
    ∀ q, q ≤ N → (cs.take q).sum
      = rows_before (row_cols Gn Ga (Gn + Ga) mesh) (part_start (Gn + Ga) N q)
  | 0, _ => by simp [part_start_zero, rows_before_zero]
  | q + 1, hq => by
    have ih := counts_sum mesh Gn Ga N cs hc hcol q (by omega)
    rw [List.take_succ, hcol q (by omega)]
    simp only [Option.toList_some, List.sum_append, List.sum_cons, List.sum_nil, Nat.add_zero]
    rw [ih, ← length_worker_cols]
    omega

theorem phase_offsets_step (mesh : VMesh) (Gn Ga N : Nat) (hN : 0 < N) (p : Nat)
    (b : FEMBuilder) (w : Worker) (_hp : p < N)
    (hinv : if p = 0 then Discovered mesh Gn Ga N N b else Offsets mesh Gn Ga N b)
    (hw : w.mycols = worker_cols mesh Gn Ga N p) :
    (if p + 1 = 0 then Discovered mesh Gn Ga N N (phase_offsets p b w).1
      else Offsets mesh Gn Ga N (phase_offsets p b w).1) ∧
    ((phase_offsets p b w).2.mycols = worker_cols mesh Gn Ga N p ∧
      (p = 0 → (phase_offsets p b w).2.st
        = rows_before (row_cols Gn Ga (Gn + Ga) mesh) (Gn + Ga))) := by
  have hp1 : ¬ p + 1 = 0 := by omega
  rw [if_neg hp1]
  by_cases hp0 : p = 0
  · subst hp0
    rw [if_pos rfl] at hinv
    obtain ⟨hd, hrl, hcl, hcol, hrow⟩ := hinv
    obtain ⟨h1, h2, h3, h4⟩ := hd
    obtain ⟨q1, q2, q3, q4⟩ := prefix_sum_spec N b.colidx_ (by omega)
    have hsum := counts_sum mesh Gn Ga N b.colidx_ hcl hcol
    have htot : (prefix_sum b.numprocessors_ b.colidx_).2
        = rows_before (row_cols Gn Ga (Gn + Ga) mesh) (Gn + Ga) := by
      rw [h4, q2, hsum N (le_refl _), part_start_last _ _ hN]
    refine ⟨⟨⟨h1, h2, h3, h4⟩, hrl, ?_, ?_, hrow, ?_⟩, ?_, ?_⟩
    · simp [phase_offsets, h4, q1, hcl]
    · intro q hq
      simp only [phase_offsets, if_true]
      by_cases hqN : q = N
      · subst hqN
        rw [h4, List.getElem?_set_self (by omega), ← h4, htot, h4, part_start_last _ _ hN]
      · rw [h4, List.getElem?_set_ne (by omega), q3 q (by omega), hsum q (by omega)]
    · simp only [phase_offsets, if_true, List.length_replicate]
      exact htot
    · simp [phase_offsets, hw]
    · intro _
      simp only [phase_offsets, if_true]
      exact htot
  · rw [if_neg hp0] at hinv
    obtain ⟨hd, hrl, hcl, hcol, hrow, hall⟩ := hinv
    have hb : (phase_offsets p b w).1 = { b with success_ := b.success_.set p true } := by
      simp [phase_offsets, hp0]
    rw [hb]
    refine ⟨⟨hd, hrl, hcl, hcol, hrow, hall⟩, ?_, fun h => absurd h hp0⟩
    simp [phase_offsets, hp0, hw]

theorem phase_offsets_all (mesh : VMesh) (Gn Ga N : Nat) (hN : 0 < N) (b : FEMBuilder)
    (ws : List Worker) (hlen : ws.length = N)
    (hws : ∀ (k : Nat) (w : Worker), ws[k]? = some w → w.mycols = worker_cols mesh Gn Ga N k)
    (hinv : Discovered mesh Gn Ga N N b) :
    Offsets mesh Gn Ga N (each_worker phase_offsets 0 b ws).1 ∧
    (each_worker phase_offsets 0 b ws).2.length = N ∧
    ∀ (k : Nat) (w : Worker), ((each_worker phase_offsets 0 b ws).2)[k]? = some w →
      w.mycols = worker_cols mesh Gn Ga N k ∧
      (k = 0 → w.st = rows_before (row_cols Gn Ga (Gn + Ga) mesh) (Gn + Ga)) := by
  have h := each_worker_ind phase_offsets N
    (fun p b => if p = 0 then Discovered mesh Gn Ga N N b else Offsets mesh Gn Ga N b)
    (fun p w => w.mycols = worker_cols mesh Gn Ga N p)
    (fun p w => w.mycols = worker_cols mesh Gn Ga N p ∧
      (p = 0 → w.st = rows_before (row_cols Gn Ga (Gn + Ga) mesh) (Gn + Ga)))
    (fun p b w hp hinv hw => phase_offsets_step mesh Gn Ga N hN p b w hp hinv hw)
    ws 0 b (by simpa using hlen) (by simpa using hinv)
    (fun k w hk => by simpa using hws k w hk)
  have hN0 : ¬ N = 0 := by omega
  refine ⟨by simpa [hN0] using h.1, by rw [h.2.1, hlen], fun k w hk => ?_⟩
  simpa using h.2.2 k w hk

/-! ## Rows without repetition -/

theorem uniq_after_mem : ∀ (xs : List Nat) (l x : Nat), x ∈ uniq_after l xs → x ∈ xs
  | [], _, _, h => by simp [uniq_after] at h
  | y :: ys, l, x, h => by
    by_cases hl : l = y
    · subst hl
      simp only [uniq_after, ne_eq, not_true_eq_false, if_false] at h
      exact List.mem_cons_of_mem _ (uniq_after_mem ys l x h)
    · simp only [uniq_after, ne_eq, hl, not_false_eq_true, if_true, List.mem_cons] at h
      rcases h with h | h
      · subst h
        exact List.mem_cons_self _ _
      · exact List.mem_cons_of_mem _ (uniq_after_mem ys y x h)

theorem mem_uniq_after : ∀ (xs : List Nat) (l x : Nat), x ∈ xs → x ∈ uniq_after l xs ∨ x = l
  | [], _, _, h => by simp at h
  | y :: ys, l, x, h => by
    by_cases hl : l = y
    · subst hl
      simp only [uniq_after, ne_eq, not_true_eq_false, if_false]
      rcases List.mem_cons.mp h with h | h
      · exact Or.inr h
      · exact mem_uniq_after ys l x h
    · simp only [uniq_after, ne_eq, hl, not_false_eq_true, if_true, List.mem_cons]
      rcases List.mem_cons.mp h with h | h
      · exact Or.inl (Or.inl h)
      · rcases mem_uniq_after ys y x h with h2 | h2
        · exact Or.inl (Or.inr h2)
        · exact Or.inl (Or.inl h2)

theorem mem_uniq (xs : List Nat) (x : Nat) : x ∈ uniq xs ↔ x ∈ xs := by
  cases xs with
  | nil => simp [uniq]
  | cons y ys =>
    simp only [uniq, List.mem_cons]
    constructor
    · rintro (h | h)
      · exact Or.inl h
      · exact Or.inr (uniq_after_mem ys y x h)
    · rintro (h | h)
      · exact Or.inl h
      · rcases mem_uniq_after ys y x h with h2 | h2
        · exact Or.inr h2
        · exact Or.inl h2

theorem uniq_after_sorted : ∀ (xs : List Nat) (l : Nat), (∀ x ∈ xs, l ≤ x) →
    xs.Pairwise (fun x y => x ≤ y) →
    (uniq_after l xs).Pairwise (fun x y => x < y) ∧ ∀ y ∈ uniq_after l xs, l < y
  | [], _, _, _ => by simp [uniq_after]
  | x :: xs, l, hl, hs => by
    have hx : ∀ y ∈ xs, x ≤ y := (List.pairwise_cons.mp hs).1
    have hs2 : xs.Pairwise (fun x y => x ≤ y) := (List.pairwise_cons.mp hs).2
    by_cases hlx : l = x
    · subst hlx
      simp only [uniq_after, ne_eq, not_true_eq_false, if_false]
      exact uniq_after_sorted xs l hx hs2
    · have hlt : l < x := lt_of_le_of_ne (hl x (List.mem_cons_self _ _)) hlx
      have ih := uniq_after_sorted xs x hx hs2
      simp only [uniq_after, ne_eq, hlx, not_false_eq_true, if_true]
      refine ⟨List.pairwise_cons.mpr ⟨ih.2, ih.1⟩, ?_⟩
      intro y hy
      rcases List.mem_cons.mp hy with h | h
      · rw [h]; exact hlt
      · exact lt_trans hlt (ih.2 y h)

theorem uniq_sorted (xs : List Nat) (hs : xs.Pairwise (fun x y => x ≤ y)) :
    (uniq xs).Pairwise (fun x y => x < y) := by
  cases xs with
  | nil => simp [uniq]
  | cons x xs =>
    have h := uniq_after_sorted xs x (List.pairwise_cons.mp hs).1 (List.pairwise_cons.mp hs).2
    simp only [uniq]
    exact List.pairwise_cons.mpr ⟨h.2, h.1⟩

theorem sort_sorted (xs : List Nat) :
    (xs.insertionSort (fun x y => x ≤ y)).Pairwise (fun x y => x ≤ y) :=
  List.sorted_insertionSort (fun x y : Nat => x ≤ y) xs

theorem mem_sort (xs : List Nat) (x : Nat) :
    x ∈ xs.insertionSort (fun x y => x ≤ y) ↔ x ∈ xs :=
  (List.perm_insertionSort (fun x y : Nat => x ≤ y) xs).mem_iff

theorem row_cols_sorted (Gn Ga G : Nat) (mesh : VMesh) (i : Nat) :
    (row_cols Gn Ga G mesh i).Pairwise (fun x y => x < y) :=
  uniq_sorted _ (sort_sorted _)

theorem mem_row_cols (Gn Ga G : Nat) (mesh : VMesh) (i j : Nat) :
    j ∈ row_cols Gn Ga G mesh i ↔ ∃ c, c ∈ dof_elems Gn mesh i ∧ j ∈ elem_dofs Ga G mesh c := by
  unfold row_cols
  rw [mem_uniq, mem_sort, List.mem_flatMap]

/-- C28: on a mesh with linear DOFs (no additional edge DOFs), one iteration of the
first DOF loop for a node DOF `i` appends to the worker's local column buffer a list
that is strictly ascending (so without duplicate) and whose members are exactly the
nodes of the elements returned by the node-to-element query for `i`; the offset stored
in `rows_[i]` is the size of the buffer before the row was appended. -/
theorem row_is_sorted_node_set (mesh : VMesh) (b : FEMBuilder) (w : Worker) (i : Nat)
    (hlin : b.global_dimension_add_nodes = 0) (hi : i < b.global_dimension_nodes)
    (hr : i < b.rows_.length) :
    ∃ cols : List Nat,
      (discover_row mesh (b, w) i).2.mycols = w.mycols ++ cols ∧
      cols.Pairwise (fun x y => x < y) ∧
      (∀ n, n ∈ cols ↔ ∃ c, c ∈ mesh.get_elems_node i ∧ n ∈ mesh.get_nodes c) ∧
      rd (discover_row mesh (b, w) i).1.rows_ i = some w.mycols.length := by
  have h := discover_row_eq mesh b w i (by omega)
  refine ⟨_, h.2, row_cols_sorted _ _ _ _ _, ?_, ?_⟩
  · intro n
    rw [mem_row_cols]
    simp [dof_elems, elem_dofs, hi, hlin]
  · rw [h.1]
    exact rd_set_self _ _ _ hr

set_option maxRecDepth 100000 in
theorem row_is_sorted_node_set_witness :
    ∃ cols : List Nat,
      (discover_row (tet_mesh 3 1 4)
        ({ builder_plain with global_dimension_nodes := 4, global_dimension := 4,
                              rows_ := [0, 0, 0, 0, 0] },
          { Worker.new with mycols := [0, 1, 2, 3] }) 1).2.mycols = [0, 1, 2, 3] ++ cols ∧
      cols.Pairwise (fun x y => x < y) ∧
      (∀ n, n ∈ cols ↔ ∃ c, c ∈ (tet_mesh 3 1 4).get_elems_node 1 ∧
        n ∈ (tet_mesh 3 1 4).get_nodes c) ∧
      rd (discover_row (tet_mesh 3 1 4)
        ({ builder_plain with global_dimension_nodes := 4, global_dimension := 4,
                              rows_ := [0, 0, 0, 0, 0] },
          { Worker.new with mycols := [0, 1, 2, 3] }) 1).1.rows_ 1 = some 4 :=
  row_is_sorted_node_set (tet_mesh 3 1 4)
    { builder_plain with global_dimension_nodes := 4, global_dimension := 4,
                         rows_ := [0, 0, 0, 0, 0] }
    { Worker.new with mycols := [0, 1, 2, 3] } 1 (by decide) (by decide) (by decide)

/-! ## Sparsity phase 2: the offset table -/

theorem phase_offsets_other (p : Nat) (b : FEMBuilder) (w : Worker) (hp : p ≠ 0) :
    (phase_offsets p b w).1.colidx_ = b.colidx_ ∧
    (phase_offsets p b w).1.allcols_ = b.allcols_ := by
  simp [phase_offsets, hp]

theorem each_worker_offsets_tail : ∀ (ws : List Worker) (p : Nat) (b : FEMBuilder), p ≠ 0 →
    (each_worker phase_offsets p b ws).1.colidx_ = b.colidx_ ∧
    (each_worker phase_offsets p b ws).1.allcols_ = b.allcols_
  | [], _, _, _ => by simp [each_worker]
  | w :: ws, p, b, hp => by
    have h := each_worker_offsets_tail ws (p + 1) (phase_offsets p b w).1 (by omega)
    have h2 := phase_offsets_other p b w hp
    simp only [each_worker]
    exact ⟨h.1.trans h2.1, h.2.trans h2.2⟩

/-- C29: after sparsity phase 2 run by `N ≥ 1` workers on an offset table holding the
per-worker column counts `n_0..n_{N-1}` in its first `N` of `N+1` entries, entry `i` of
the table is the sum of the counts below `i`, for every `i ≤ N` (so entry `N` is the
total), and the global column array has been allocated with that total as its
size. -/
theorem offsets_are_prefix_sums (b : FEMBuilder) (ws : List Worker)
    (hN : 0 < b.numprocessors_) (hws : ws.length = b.numprocessors_)
    (hlen : b.colidx_.length = b.numprocessors_ + 1) :
    (∀ i, i ≤ b.numprocessors_ →
      rd (each_worker phase_offsets 0 b ws).1.colidx_ i = some ((b.colidx_.take i).sum)) ∧
    (each_worker phase_offsets 0 b ws).1.allcols_.length
      = (b.colidx_.take b.numprocessors_).sum := by
  cases ws with
  | nil => simp at hws; omega
  | cons w ws =>
    obtain ⟨q1, q2, q3, q4⟩ := prefix_sum_spec b.numprocessors_ b.colidx_ (by omega)
    have ht := each_worker_offsets_tail ws (0 + 1) (phase_offsets 0 b w).1 (by omega)
    simp only [each_worker]
    rw [ht.1, ht.2]
    constructor
    · intro i hi
      simp only [phase_offsets, if_true, rd, List.get?_eq_getElem?]
      by_cases hiN : i = b.numprocessors_
      · subst hiN
        rw [List.getElem?_set_self (by omega), q2]
      · rw [List.getElem?_set_ne (fun h => hiN h.symm), q3 i (by omega)]
    · simp only [phase_offsets, if_true, List.length_replicate]
      exact q2

set_option maxRecDepth 100000 in
theorem offsets_are_prefix_sums_witness :
    (∀ i, i ≤ 2 →
      rd (each_worker phase_offsets 0 { builder_plain with colidx_ := [4, 3, 0] }
        [Worker.new, Worker.new]).1.colidx_ i = some (([4, 3, 0].take i).sum)) ∧
    (each_worker phase_offsets 0 { builder_plain with colidx_ := [4, 3, 0] }
        [Worker.new, Worker.new]).1.allcols_.length = ([4, 3, 0].take 2).sum :=
  offsets_are_prefix_sums { builder_plain with colidx_ := [4, 3, 0] }
    [Worker.new, Worker.new] (by decide) (by decide) (by decide)

/-! ## The output handle on failure -/

theorem build_matrix_failure_keeps_output (b : FEMBuilder) (input : Field)
    (ctable : Option DenseMatrix) (output : Option SparseRowMatrix) (b2 : FEMBuilder)
    (O : Option SparseRowMatrix)
    (h : build_matrix b input ctable output = some (false, b2, O)) : O = output := by
  unfold build_matrix at h
  simp only [Option.bind_eq_bind, Option.bind_eq_some] at h
  obtain ⟨b1, _, h⟩ := h
  split at h
  · simp only [Option.some.injEq, Prod.mk.injEq] at h
    exact h.2.2.symm
  · split at h
    · simp only [Option.bind_eq_some] at h
      obtain ⟨A, _, h⟩ := h
      simp at h
    · simp at h

/-! ## The local stiffness row -/

theorem rd_getD {α : Type} (v : List α) (i : Nat) (x : α) (h : i < v.length) :
    rd v i = some (v.getD i x) := by
  unfold rd
  rw [List.get?_eq_getElem?, List.getD_eq_getElem?_getD, List.getElem?_eq_getElem h]
  rfl

theorem fold_add_spec (step : List ℚ → Nat → Option (List ℚ)) (f : Nat → ℚ) (n : Nat)
    (hstep : ∀ (l : List ℚ) (j : Nat), j < n → j < l.length →
      step l j = some (l.set j (l.getD j 0 + f j))) :
    ∀ (m : Nat), m ≤ n → ∀ (l : List ℚ), n ≤ l.length →
      ∃ l2, (List.range m).foldlM step l = some l2 ∧ l2.length = l.length ∧
        ∀ j, l2.getD j 0 = if j < m then l.getD j 0 + f j else l.getD j 0
  | 0, _, l, _ => ⟨l, by simp, rfl, fun j => by simp⟩
  | m + 1, hm, l, hl => by
    obtain ⟨l1, h1, h2, h3⟩ := fold_add_spec step f n hstep m (by omega) l hl
    refine ⟨l1.set m (l1.getD m 0 + f m), ?_, by simp [h2], ?_⟩
    · rw [List.range_succ, List.foldlM_append, h1]
      simp [hstep l1 m (by omega) (by omega)]
    · intro j
      by_cases hj : j = m
      · subst hj
        have hlt : j < l1.length := by omega
        rw [List.getD_eq_getElem?_getD, List.getElem?_set_self hlt, h3 j]
        simp
      · rw [List.getD_eq_getElem?_getD, List.getElem?_set_ne (fun h => hj h.symm),
          ← List.getD_eq_getElem?_getD, h3 j]
        by_cases hjm : j < m
        · simp [hjm, show j < m + 1 by omega]
        · simp [hjm, show ¬ j < m + 1 by omega]

theorem accumulate_point_spec (L : Nat) (Ji : Fin 9 → ℚ) (detJ : ℚ) (C : Tensor)
    (di : List ℚ) (row : Nat) (l : List ℚ) (hrow : row < L) (hdi : 3 * L ≤ di.length)
    (hl : L ≤ l.length) :
    ∃ l2, accumulate_point L Ji detJ C di row l = some l2 ∧ l2.length = l.length ∧
      ∀ j, l2.getD j 0 = if j < L then l.getD j 0 + point_inc L Ji detJ C di row j
        else l.getD j 0 := by
  simp only [accumulate_point, rd_getD di row 0 (by omega), rd_getD di (L + row) 0 (by omega),
    rd_getD di (2 * L + row) 0 (by omega), Option.bind_eq_bind, Option.some_bind]
  refine fold_add_spec _ (point_inc L Ji detJ C di row) L ?_ L (le_refl _) l hl
  intro l1 j hj hjl
  simp only [rd_getD di j 0 (by omega), rd_getD di (L + j) 0 (by omega),
    rd_getD di (2 * L + j) 0 (by omega), rd_getD l1 j 0 hjl, Option.some_bind, wr, if_pos hjl]
  rfl

theorem qloop_spec (mesh : VMesh) (L : Nat) (C : Tensor) (c_ind row : Nat) (vol : ℚ)
    (p : List (List ℚ)) (w : List ℚ) (d : List (List ℚ)) (hrow : row < L) :
    ∀ (n i : Nat) (l : List ℚ), L ≤ l.length → i + n ≤ p.length → i + n ≤ w.length →
      i + n ≤ d.length → (∀ q, q < d.length → 3 * L ≤ (d.getD q []).length) →
      ∃ r, quadrature_loop mesh L C c_ind row vol p w d n i l = some r ∧
        r.l_stiff.length = l.length ∧
        ((r.ok = true ∧ r.msgs = [] ∧ (∀ q, i ≤ q → q < i + n → 0 < det_at mesh c_ind p q) ∧
            ∀ j, r.l_stiff.getD j 0 = if j < L then
              l.getD j 0 + quad_sum mesh L C c_ind row vol p w d i n j else l.getD j 0) ∨
         (r.ok = false ∧ r.msgs = [Msg.error
            "Mesh has elements with negative jacobians, check the order of the nodes that define an element"] ∧
            ∃ m, m < n ∧ det_at mesh c_ind p (i + m) ≤ 0 ∧
              (∀ q, i ≤ q → q < i + m → 0 < det_at mesh c_ind p q) ∧
              ∀ j, r.l_stiff.getD j 0 = if j < L then
                l.getD j 0 + quad_sum mesh L C c_ind row vol p w d i m j else l.getD j 0))
  | 0, i, l, _, _, _, _, _ => by
    refine ⟨⟨true, l, []⟩, rfl, rfl, Or.inl ⟨rfl, rfl, fun q h1 h2 => by omega, fun j => ?_⟩⟩
    simp [quad_sum]
  | n + 1, i, l, hl, hp, hw, hd, hdl => by
    unfold quadrature_loop
    rw [rd_getD p i [] (by omega)]
    simp only [Option.bind_eq_bind, Option.some_bind]
    by_cases hdet : (mesh.inverse_jacobian (p.getD i []) c_ind).1 ≤ 0
    · rw [if_pos hdet]
      refine ⟨_, rfl, rfl, Or.inr ⟨rfl, rfl, 0, by omega, by simpa [det_at] using hdet,
        fun q h1 h2 => by omega, fun j => ?_⟩⟩
      simp [quad_sum]
    · rw [if_neg hdet, rd_getD w i 0 (by omega), rd_getD d i [] (by omega)]
      simp only [Option.some_bind]
      obtain ⟨l2, h1, h2, h3⟩ := accumulate_point_spec L
        (mesh.inverse_jacobian (p.getD i []) c_ind).2
        ((mesh.inverse_jacobian (p.getD i []) c_ind).1 * (w.getD i 0 * vol)) C (d.getD i [])
        row l hrow (hdl i (by omega)) hl
      rw [h1]
      simp only [Option.some_bind]
      obtain ⟨r, hr1, hr2, hr3⟩ := qloop_spec mesh L C c_ind row vol p w d hrow n (i + 1) l2
        (by omega) (by omega) (by omega) (by omega) hdl
      have hpos : 0 < det_at mesh c_ind p i := by
        simpa [det_at] using lt_of_not_le hdet
      have hsum : ∀ (m j : Nat), quad_sum mesh L C c_ind row vol p w d i (m + 1) j
          = point_inc L (mesh.inverse_jacobian (p.getD i []) c_ind).2
              ((mesh.inverse_jacobian (p.getD i []) c_ind).1 * (w.getD i 0 * vol)) C
              (d.getD i []) row j
            + quad_sum mesh L C c_ind row vol p w d (i + 1) m j := by
        intro m j
        simp [quad_sum, List.range'_succ, det_at]
      refine ⟨r, hr1, by rw [hr2, h2], ?_⟩
      rcases hr3 with ⟨a1, a2, a3, a4⟩ | ⟨a1, a2, m, a3, a4, a5, a6⟩
      · refine Or.inl ⟨a1, a2, fun q hq1 hq2 => ?_, fun j => ?_⟩
        · by_cases hqi : q = i
          · rw [hqi]; exact hpos
          · exact a3 q (by omega) (by omega)
        · rw [a4 j, h3 j, hsum]
          by_cases hj : j < L
          · simp only [hj, if_true]; ring
          · simp only [hj, if_false]
      · refine Or.inr ⟨a1, a2, m + 1, by omega, ?_, fun q hq1 hq2 => ?_, fun j => ?_⟩
        · rw [show i + (m + 1) = i + 1 + m by omega]; exact a4
        · by_cases hqi : q = i
          · rw [hqi]; exact hpos
          · exact a5 q (by omega) (by omega)
        · rw [a6 j, h3 j, hsum]
          by_cases hj : j < L
          · simp only [hj, if_true]; ring
          · simp only [hj, if_false]

theorem point_inc_eq (L : Nat) (Ji : Fin 9 → ℚ) (detJ : ℚ) (C : Tensor) (di : List ℚ)
    (row j : Nat) :
    point_inc L Ji detJ C di row j
      = detJ * bilinear (transformed_gradient Ji (ref_gradient L di row)) (sym_tensor C)
          (transformed_gradient Ji (ref_gradient L di j)) := by
  simp only [point_inc, bilinear, transformed_gradient, ref_gradient, sym_tensor,
    Matrix.cons_val_zero, Matrix.cons_val_one, Matrix.head_cons, Matrix.cons_val_two,
    Matrix.tail_cons]
  ring

theorem quad_sum_eq (mesh : VMesh) (L : Nat) (C : Tensor) (c_ind row : Nat) (vol : ℚ)
    (p : List (List ℚ)) (w : List ℚ) (d : List (List ℚ)) (j : Nat) :
    quad_sum mesh L C c_ind row vol p w d 0 d.length j
      = stiffness_entry mesh L C c_ind vol p w d row j := by
  unfold quad_sum stiffness_entry
  rw [← List.range_eq_range']
  congr 1
  apply List.map_congr_left
  intro q _
  exact point_inc_eq _ _ _ _ _ _ _

theorem list_sum_getD : ∀ (l : List ℚ),
    l.sum = ((List.range l.length).map (fun j => l.getD j 0)).sum
  | [] => by simp
  | x :: xs => by
    rw [List.length_cons, List.range_succ_eq_map, List.map_cons, List.sum_cons, List.sum_cons,
      List.map_map, list_sum_getD xs]
    rfl

theorem sum_map_range (f : Nat → ℚ) (n : Nat) :
    ((List.range n).map f).sum = Finset.sum (Finset.range n) f := by
  induction n with
  | zero => simp
  | succ n ih => rw [List.range_succ, List.map_append, List.sum_append, ih,
      Finset.sum_range_succ]; simp

theorem point_inc_linear (L : Nat) (Ji : Fin 9 → ℚ) (detJ : ℚ) (C : Tensor) (di : List ℚ)
    (row : Nat) : ∃ A B D : ℚ, ∀ j, point_inc L Ji detJ C di row j
      = di.getD j 0 * A + di.getD (L + j) 0 * B + di.getD (2 * L + j) 0 * D := by
  refine ⟨(Ji 0 * (detJ * (di.getD row 0 * Ji 0 + di.getD (L + row) 0 * Ji 1
          + di.getD (2 * L + row) 0 * Ji 2) * C.mat_ 0 0
        + detJ * (di.getD row 0 * Ji 3 + di.getD (L + row) 0 * Ji 4
          + di.getD (2 * L + row) 0 * Ji 5) * C.mat_ 0 1
        + detJ * (di.getD row 0 * Ji 6 + di.getD (L + row) 0 * Ji 7
          + di.getD (2 * L + row) 0 * Ji 8) * C.mat_ 0 2)
      + Ji 3 * (detJ * (di.getD row 0 * Ji 0 + di.getD (L + row) 0 * Ji 1
          + di.getD (2 * L + row) 0 * Ji 2) * C.mat_ 0 1
        + detJ * (di.getD row 0 * Ji 3 + di.getD (L + row) 0 * Ji 4
          + di.getD (2 * L + row) 0 * Ji 5) * C.mat_ 1 1
        + detJ * (di.getD row 0 * Ji 6 + di.getD (L + row) 0 * Ji 7
          + di.getD (2 * L + row) 0 * Ji 8) * C.mat_ 1 2)
      + Ji 6 * (detJ * (di.getD row 0 * Ji 0 + di.getD (L + row) 0 * Ji 1
          + di.getD (2 * L + row) 0 * Ji 2) * C.mat_ 0 2
        + detJ * (di.getD row 0 * Ji 3 + di.getD (L + row) 0 * Ji 4
          + di.getD (2 * L + row) 0 * Ji 5) * C.mat_ 1 2
        + detJ * (di.getD row 0 * Ji 6 + di.getD (L + row) 0 * Ji 7
          + di.getD (2 * L + row) 0 * Ji 8) * C.mat_ 2 2)),
    (Ji 1 * (detJ * (di.getD row 0 * Ji 0 + di.getD (L + row) 0 * Ji 1
          + di.getD (2 * L + row) 0 * Ji 2) * C.mat_ 0 0
        + detJ * (di.getD row 0 * Ji 3 + di.getD (L + row) 0 * Ji 4
          + di.getD (2 * L + row) 0 * Ji 5) * C.mat_ 0 1
        + detJ * (di.getD row 0 * Ji 6 + di.getD (L + row) 0 * Ji 7
          + di.getD (2 * L + row) 0 * Ji 8) * C.mat_ 0 2)
      + Ji 4 * (detJ * (di.getD row 0 * Ji 0 + di.getD (L + row) 0 * Ji 1
          + di.getD (2 * L + row) 0 * Ji 2) * C.mat_ 0 1
        + detJ * (di.getD row 0 * Ji 3 + di.getD (L + row) 0 * Ji 4
          + di.getD (2 * L + row) 0 * Ji 5) * C.mat_ 1 1
        + detJ * (di.getD row 0 * Ji 6 + di.getD (L + row) 0 * Ji 7
          + di.getD (2 * L + row) 0 * Ji 8) * C.mat_ 1 2)
      + Ji 7 * (detJ * (di.getD row 0 * Ji 0 + di.getD (L + row) 0 * Ji 1
          + di.getD (2 * L + row) 0 * Ji 2) * C.mat_ 0 2
        + detJ * (di.getD row 0 * Ji 3 + di.getD (L + row) 0 * Ji 4
          + di.getD (2 * L + row) 0 * Ji 5) * C.mat_ 1 2
        + detJ * (di.getD row 0 * Ji 6 + di.getD (L + row) 0 * Ji 7
          + di.getD (2 * L + row) 0 * Ji 8) * C.mat_ 2 2)),
    (Ji 2 * (detJ * (di.getD row 0 * Ji 0 + di.getD (L + row) 0 * Ji 1
          + di.getD (2 * L + row) 0 * Ji 2) * C.mat_ 0 0
        + detJ * (di.getD row 0 * Ji 3 + di.getD (L + row) 0 * Ji 4
          + di.getD (2 * L + row) 0 * Ji 5) * C.mat_ 0 1
        + detJ * (di.getD row 0 * Ji 6 + di.getD (L + row) 0 * Ji 7
          + di.getD (2 * L + row) 0 * Ji 8) * C.mat_ 0 2)
      + Ji 5 * (detJ * (di.getD row 0 * Ji 0 + di.getD (L + row) 0 * Ji 1
          + di.getD (2 * L + row) 0 * Ji 2) * C.mat_ 0 1
        + detJ * (di.getD row 0 * Ji 3 + di.getD (L + row) 0 * Ji 4
          + di.getD (2 * L + row) 0 * Ji 5) * C.mat_ 1 1
        + detJ * (di.getD row 0 * Ji 6 + di.getD (L + row) 0 * Ji 7
          + di.getD (2 * L + row) 0 * Ji 8) * C.mat_ 1 2)
      + Ji 8 * (detJ * (di.getD row 0 * Ji 0 + di.getD (L + row) 0 * Ji 1
          + di.getD (2 * L + row) 0 * Ji 2) * C.mat_ 0 2
        + detJ * (di.getD row 0 * Ji 3 + di.getD (L + row) 0 * Ji 4
          + di.getD (2 * L + row) 0 * Ji 5) * C.mat_ 1 2
        + detJ * (di.getD row 0 * Ji 6 + di.getD (L + row) 0 * Ji 7
          + di.getD (2 * L + row) 0 * Ji 8) * C.mat_ 2 2)), ?_⟩
  intro j
  simp only [point_inc]
  ring

theorem point_inc_sum (L : Nat) (Ji : Fin 9 → ℚ) (detJ : ℚ) (C : Tensor) (di : List ℚ)
    (row : Nat)
    (hsum : ∀ a : Fin 3, ((List.range L).map (fun k => ref_gradient L di k a)).sum = 0) :
    Finset.sum (Finset.range L) (fun j => point_inc L Ji detJ C di row j) = 0 := by
  obtain ⟨A, B, D, h⟩ := point_inc_linear L Ji detJ C di row
  have h0 := hsum 0
  have h1 := hsum 1
  have h2 := hsum 2
  rw [sum_map_range] at h0 h1 h2
  simp only [ref_gradient, Matrix.cons_val_zero, Matrix.cons_val_one, Matrix.head_cons,
    Matrix.cons_val_two, Matrix.tail_cons] at h0 h1 h2
  simp only [h, Finset.sum_add_distrib, ← Finset.sum_mul, h0, h1, h2]
  ring

theorem build_local_zero (tensors_ : TensorTable) (L : Nat) (input : Field)
    (c_ind row : Nat) (l_stiff : List ℚ) (p : List (List ℚ)) (w : List ℚ)
    (d : List (List ℚ)) (T : Tensor)
    (hT : resolve_tensor tensors_ input.vfield c_ind = some T) (hl : L ≤ l_stiff.length)
    (hz : T.all_zero = true ∨ input.vmesh.dimensionality < 1 ∨ input.vmesh.dimensionality > 3) :
    ∃ r, build_local_matrix tensors_ L input c_ind row l_stiff p w d = some r ∧
      r.l_stiff = List.replicate L 0 ++ l_stiff.drop L := by
  unfold build_local_matrix
  rw [hT]
  simp only [Option.bind_eq_bind, Option.some_bind, zero_row_eq L l_stiff hl]
  by_cases hz1 : T.all_zero = true
  · rw [if_pos hz1]
    exact ⟨_, rfl, rfl⟩
  · rw [if_neg hz1]
    have hz2 : input.vmesh.dimensionality < 1 ∨ input.vmesh.dimensionality > 3 := by
      rcases hz with h | h
      · exact absurd h hz1
      · exact h
    rw [if_pos hz2]
    exact ⟨_, rfl, rfl⟩

theorem build_local_loop (tensors_ : TensorTable) (L : Nat) (input : Field)
    (c_ind row : Nat) (l_stiff : List ℚ) (p : List (List ℚ)) (w : List ℚ)
    (d : List (List ℚ)) (T : Tensor)
    (hT : resolve_tensor tensors_ input.vfield c_ind = some T) (hnz : T.all_zero = false)
    (hdim : 1 ≤ input.vmesh.dimensionality ∧ input.vmesh.dimensionality ≤ 3)
    (hl : L ≤ l_stiff.length) :
    build_local_matrix tensors_ L input c_ind row l_stiff p w d
      = quadrature_loop input.vmesh L T c_ind row input.vmesh.get_element_size p w d
          d.length 0 (List.replicate L 0 ++ l_stiff.drop L) := by
  unfold build_local_matrix
  rw [hT]
  have hd2 : ¬ (input.vmesh.dimensionality < 1 ∨ input.vmesh.dimensionality > 3) := by omega
  simp only [Option.bind_eq_bind, Option.some_bind, zero_row_eq L l_stiff hl, hnz,
    Bool.false_eq_true, if_false, hd2]

theorem getD_zeros (L : Nat) (l : List ℚ) (j : Nat) (hj : j < L) :
    (List.replicate L (0 : ℚ) ++ l).getD j 0 = 0 := by
  rw [List.getD_eq_getElem?_getD, List.getElem?_append_left (by simpa using hj)]
  simp [hj]

/-- C27: for an element with a non-zero tensor on a mesh of dimensionality 1, 2 or 3,
with the reads of the quadrature tables in range, `build_local_matrix` returns, and it
returns false exactly when the determinant of the inverse Jacobian is `≤ 0` at some
quadrature point; it then stops at the first such point `m`: it reports the
error once and the row holds the contributions of the points before `m` only. -/
theorem nonpositive_determinant_fails (tensors_ : TensorTable) (L : Nat) (input : Field)
    (c_ind row : Nat) (l_stiff : List ℚ) (p : List (List ℚ)) (w : List ℚ)
    (d : List (List ℚ)) (T : Tensor)
    (hT : resolve_tensor tensors_ input.vfield c_ind = some T) (hnz : T.all_zero = false)
    (hdim : 1 ≤ input.vmesh.dimensionality ∧ input.vmesh.dimensionality ≤ 3)
    (hrow : row < L) (hl : L ≤ l_stiff.length) (hp : d.length ≤ p.length)
    (hw : d.length ≤ w.length) (hd : ∀ q, q < d.length → 3 * L ≤ (d.getD q []).length) :
    ∃ r, build_local_matrix tensors_ L input c_ind row l_stiff p w d = some r ∧
      (r.ok = false ↔ ∃ q, q < d.length ∧ det_at input.vmesh c_ind p q ≤ 0) ∧
      (r.ok = false → ∃ m, m < d.length ∧ det_at input.vmesh c_ind p m ≤ 0 ∧
        (∀ q, q < m → 0 < det_at input.vmesh c_ind p q) ∧
        r.msgs = [Msg.error
          "Mesh has elements with negative jacobians, check the order of the nodes that define an element"] ∧
        ∀ j, j < L → r.l_stiff.getD j 0
          = quad_sum input.vmesh L T c_ind row input.vmesh.get_element_size p w d 0 m j) := by
  rw [build_local_loop tensors_ L input c_ind row l_stiff p w d T hT hnz hdim hl]
  obtain ⟨r, h1, _, h3⟩ := qloop_spec input.vmesh L T c_ind row input.vmesh.get_element_size
    p w d hrow d.length 0 (List.replicate L 0 ++ l_stiff.drop L) (by simp)
    (by omega) (by omega) (by omega) hd
  refine ⟨r, h1, ?_, ?_⟩
  · rcases h3 with ⟨a1, _, a3, _⟩ | ⟨a1, _, m, a3, a4, _, _⟩
    · constructor
      · intro h; rw [a1] at h; cases h
      · rintro ⟨q, hq, hle⟩
        exact absurd (a3 q (by omega) (by omega)) (not_lt.mpr hle)
    · exact ⟨fun _ => ⟨m, a3, by simpa using a4⟩, fun _ => a1⟩
  · intro hf
    rcases h3 with ⟨a1, _, _, _⟩ | ⟨_, a2, m, a3, a4, a5, a6⟩
    · rw [a1] at hf; cases hf
    · refine ⟨m, a3, by simpa using a4, fun q hq => a5 q (by omega) (by omega), a2, ?_⟩
      intro j hj
      rw [a6 j, if_pos hj, getD_zeros L _ j hj]
      ring

set_option maxRecDepth 100000 in
theorem nonpositive_determinant_fails_witness :
    ∃ r, build_local_matrix [] 4 (tet_field 3 (-1) 4) 0 0 [0, 0, 0, 0]
        [[1 / 4, 1 / 4, 1 / 4]] [1] [tet_gradients] = some r ∧
      (r.ok = false ↔ ∃ q, q < [tet_gradients].length ∧
        det_at (tet_field 3 (-1) 4).vmesh 0 [[1 / 4, 1 / 4, 1 / 4]] q ≤ 0) ∧
      (r.ok = false → ∃ m, m < [tet_gradients].length ∧
        det_at (tet_field 3 (-1) 4).vmesh 0 [[1 / 4, 1 / 4, 1 / 4]] m ≤ 0 ∧
        (∀ q, q < m → 0 < det_at (tet_field 3 (-1) 4).vmesh 0 [[1 / 4, 1 / 4, 1 / 4]] q) ∧
        r.msgs = [Msg.error
          "Mesh has elements with negative jacobians, check the order of the nodes that define an element"] ∧
        ∀ j, j < 4 → r.l_stiff.getD j 0
          = quad_sum (tet_field 3 (-1) 4).vmesh 4 unit_tensor 0 0
              (tet_field 3 (-1) 4).vmesh.get_element_size [[1 / 4, 1 / 4, 1 / 4]] [1]
              [tet_gradients] 0 m j) :=
  nonpositive_determinant_fails [] 4 (tet_field 3 (-1) 4) 0 0 [0, 0, 0, 0]
    [[1 / 4, 1 / 4, 1 / 4]] [1] [tet_gradients] unit_tensor rfl (by decide!)
    (by decide) (by decide) (by decide) (by decide) (by decide) (by decide)

/-- C26: for an element with a non-zero tensor `C` on a mesh of dimensionality 1, 2 or
3 whose determinants are positive at every quadrature point, with the reads of the
quadrature tables in range, `build_local_matrix(c, row)` returns true with the row
whose entry `j` is `Σ_q (det_q·w_q·vol)·(J_q⁻¹∇N_row)ᵀ·C·(J_q⁻¹∇N_j)`, the reference
gradient `∇N_k` being read from the derivative table at the offsets `k`,
`local_dimension + k`, `2·local_dimension + k`. -/
theorem local_row_formula (tensors_ : TensorTable) (L : Nat) (input : Field)
    (c_ind row : Nat) (l_stiff : List ℚ) (p : List (List ℚ)) (w : List ℚ)
    (d : List (List ℚ)) (T : Tensor)
    (hT : resolve_tensor tensors_ input.vfield c_ind = some T) (hnz : T.all_zero = false)
    (hdim : 1 ≤ input.vmesh.dimensionality ∧ input.vmesh.dimensionality ≤ 3)
    (hrow : row < L) (hl : L ≤ l_stiff.length) (hp : d.length ≤ p.length)
    (hw : d.length ≤ w.length) (hd : ∀ q, q < d.length → 3 * L ≤ (d.getD q []).length)
    (hdet : ∀ q, q < d.length → 0 < det_at input.vmesh c_ind p q) :
    ∃ r, build_local_matrix tensors_ L input c_ind row l_stiff p w d = some r ∧
      r.ok = true ∧ r.l_stiff.length = l_stiff.length ∧
      ∀ j, j < L → r.l_stiff.getD j 0
        = stiffness_entry input.vmesh L T c_ind input.vmesh.get_element_size p w d row j := by
  rw [build_local_loop tensors_ L input c_ind row l_stiff p w d T hT hnz hdim hl]
  obtain ⟨r, h1, h2, h3⟩ := qloop_spec input.vmesh L T c_ind row input.vmesh.get_element_size
    p w d hrow d.length 0 (List.replicate L 0 ++ l_stiff.drop L) (by simp)
    (by omega) (by omega) (by omega) hd
  refine ⟨r, h1, ?_⟩
  rcases h3 with ⟨a1, _, _, a4⟩ | ⟨_, _, m, a3, a4, _, _⟩
  · refine ⟨a1, by rw [h2]; simp; omega, fun j hj => ?_⟩
    rw [a4 j, if_pos hj, getD_zeros L _ j hj, quad_sum_eq]
    ring
  · exact absurd (hdet m a3) (not_lt.mpr (by simpa using a4))

set_option maxRecDepth 100000 in
theorem local_row_formula_witness :
    ∃ r, build_local_matrix [] 4 (tet_field 3 1 4) 0 1 [0, 0, 0, 0]
        [[1 / 4, 1 / 4, 1 / 4]] [1] [tet_gradients] = some r ∧
      r.ok = true ∧ r.l_stiff.length = [(0 : ℚ), 0, 0, 0].length ∧
      ∀ j, j < 4 → r.l_stiff.getD j 0
        = stiffness_entry (tet_field 3 1 4).vmesh 4 unit_tensor 0
            (tet_field 3 1 4).vmesh.get_element_size [[1 / 4, 1 / 4, 1 / 4]] [1]
            [tet_gradients] 1 j :=
  local_row_formula [] 4 (tet_field 3 1 4) 0 1 [0, 0, 0, 0]
    [[1 / 4, 1 / 4, 1 / 4]] [1] [tet_gradients] unit_tensor rfl (by decide!)
    (by decide) (by decide) (by decide) (by decide) (by decide) (by decide) (by decide!)

/-- C22: for every element, local row index and conductivity tensor, with a row buffer
of `local_dimension` entries and the reads of the quadrature tables in range: if at
each quadrature point the reference derivative weights of the local basis functions sum
to zero in each of the three coordinate directions and every determinant is positive,
then `build_local_matrix` returns a row whose entries sum to zero. -/
theorem local_row_sums_to_zero (tensors_ : TensorTable) (L : Nat) (input : Field)
    (c_ind row : Nat) (l_stiff : List ℚ) (p : List (List ℚ)) (w : List ℚ)
    (d : List (List ℚ)) (T : Tensor)
    (hT : resolve_tensor tensors_ input.vfield c_ind = some T)
    (hrow : row < L) (hl : l_stiff.length = L) (hp : d.length ≤ p.length)
    (hw : d.length ≤ w.length) (hd : ∀ q, q < d.length → 3 * L ≤ (d.getD q []).length)
    (hdet : ∀ q, q < d.length → 0 < det_at input.vmesh c_ind p q)
    (hsum : ∀ q, q < d.length → ∀ a : Fin 3,
      ((List.range L).map (fun k => ref_gradient L (d.getD q []) k a)).sum = 0) :
    ∃ r, build_local_matrix tensors_ L input c_ind row l_stiff p w d = some r ∧
      r.l_stiff.sum = 0 := by
  by_cases hz : T.all_zero = true ∨ input.vmesh.dimensionality < 1 ∨
      input.vmesh.dimensionality > 3
  · obtain ⟨r, h1, h2⟩ := build_local_zero tensors_ L input c_ind row l_stiff p w d T hT
      (by omega) hz
    refine ⟨r, h1, ?_⟩
    rw [h2, List.drop_of_length_le (by omega)]
    simp
  · have hnz : T.all_zero = false := by
      cases h : T.all_zero
      · rfl
      · exact absurd (Or.inl h) hz
    have hdim : 1 ≤ input.vmesh.dimensionality ∧ input.vmesh.dimensionality ≤ 3 := by
      constructor
      · by_contra h; exact hz (Or.inr (Or.inl (by omega)))
      · by_contra h; exact hz (Or.inr (Or.inr (by omega)))
    rw [build_local_loop tensors_ L input c_ind row l_stiff p w d T hT hnz hdim (by omega)]
    obtain ⟨r, h1, h2, h3⟩ := qloop_spec input.vmesh L T c_ind row
      input.vmesh.get_element_size p w d hrow d.length 0
      (List.replicate L 0 ++ l_stiff.drop L) (by simp) (by omega) (by omega) (by omega) hd
    refine ⟨r, h1, ?_⟩
    rcases h3 with ⟨_, _, _, a4⟩ | ⟨_, _, m, a3, a4, _, _⟩
    · have hlen : r.l_stiff.length = L := by rw [h2]; simp; omega
      rw [list_sum_getD, hlen, sum_map_range]
      have hentry : ∀ j ∈ Finset.range L, r.l_stiff.getD j 0
          = Finset.sum (Finset.range d.length) (fun q =>
              point_inc L (input.vmesh.inverse_jacobian (p.getD q []) c_ind).2
                (det_at input.vmesh c_ind p q * (w.getD q 0 * input.vmesh.get_element_size))
                T (d.getD q []) row j) := by
        intro j hj
        have hj2 : j < L := Finset.mem_range.mp hj
        rw [a4 j, if_pos hj2, getD_zeros L _ j hj2, quad_sum, ← List.range_eq_range',
          sum_map_range]
        ring
      rw [Finset.sum_congr rfl hentry, Finset.sum_comm]
      apply Finset.sum_eq_zero
      intro q hq
      exact point_inc_sum L _ _ T (d.getD q []) row (hsum q (Finset.mem_range.mp hq))
    · exact absurd (hdet m a3) (not_lt.mpr (by simpa using a4))

set_option maxRecDepth 100000 in
theorem local_row_sums_to_zero_witness :
    ∃ r, build_local_matrix [] 4 (tet_field 3 1 4) 0 1 [0, 0, 0, 0]
        [[1 / 4, 1 / 4, 1 / 4]] [1] [tet_gradients] = some r ∧ r.l_stiff.sum = 0 :=
  local_row_sums_to_zero [] 4 (tet_field 3 1 4) 0 1 [0, 0, 0, 0]
    [[1 / 4, 1 / 4, 1 / 4]] [1] [tet_gradients] unit_tensor rfl
    (by decide) (by decide) (by decide) (by decide) (by decide) (by decide!) (by decide!)

/-! ## The regular variant against the general one -/

theorem read_pc_line (J : Fin 9 → ℚ) (x : ℚ) :
    read_pc [J 0, J 1, J 2, J 3, J 4, J 5, J 6, J 7, J 8, x] = some (J, x) := by
  unfold read_pc
  rw [dif_pos (by simp)]
  congr 1
  refine Prod.ext ?_ rfl
  funext k
  fin_cases k <;> rfl

theorem set_fold_spec (f : Nat → List ℚ) : ∀ (n i : Nat) (pre : List (List ℚ)),
    ((List.range' i n).foldl (fun pre q => pre.set q (f q)) pre).length = pre.length ∧
    ∀ k, ((List.range' i n).foldl (fun pre q => pre.set q (f q)) pre)[k]?
      = if i ≤ k ∧ k < i + n ∧ k < pre.length then some (f k) else pre[k]?
  | 0, i, pre => by
    refine ⟨rfl, fun k => ?_⟩
    have : ¬ (i ≤ k ∧ k < i + 0 ∧ k < pre.length) := by omega
    rw [if_neg this]
    rfl
  | n + 1, i, pre => by
    obtain ⟨h1, h2⟩ := set_fold_spec f n (i + 1) (pre.set i (f i))
    rw [List.range'_succ, List.foldl_cons]
    refine ⟨by rw [h1]; simp, fun k => ?_⟩
    rw [h2 k]
    simp only [List.length_set]
    by_cases hk : k = i
    · subst hk
      have h3 : ¬ (k + 1 ≤ k ∧ k < k + 1 + n ∧ k < pre.length) := by omega
      rw [if_neg h3]
      by_cases hlen : k < pre.length
      · rw [List.getElem?_set_self hlen, if_pos ⟨le_refl _, by omega, hlen⟩]
      · have h4 : ¬ (k ≤ k ∧ k < k + (n + 1) ∧ k < pre.length) := by omega
        rw [if_neg h4, List.getElem?_eq_none (by simpa using hlen),
          List.getElem?_eq_none (by simpa using hlen)]
    · rw [List.getElem?_set_ne (fun h => hk h.symm)]
      by_cases hc : i + 1 ≤ k ∧ k < i + 1 + n ∧ k < pre.length
      · rw [if_pos hc, if_pos ⟨by omega, by omega, hc.2.2⟩]
      · rw [if_neg hc, if_neg (by omega)]

theorem fill_cache_eq (f : Nat → List ℚ) (n : Nat) (x : List ℚ) :
    (List.range' 0 n).foldl (fun pre q => pre.set q (f q)) (List.replicate n x)
      = (List.range n).map f := by
  obtain ⟨h1, h2⟩ := set_fold_spec f n 0 (List.replicate n x)
  apply List.ext_getElem?
  intro k
  rw [h2 k]
  by_cases hk : k < n
  · rw [if_pos ⟨by omega, by omega, by simpa using hk⟩]
    simp [hk]
  · rw [if_neg (by omega), List.getElem?_eq_none (by simpa using hk),
      List.getElem?_eq_none (by simpa using hk)]

theorem fill_loop_eq (mesh : VMesh) (L : Nat) (C : Tensor) (c_ind row : Nat) (vol : ℚ)
    (p : List (List ℚ)) (w : List ℚ) (d : List (List ℚ)) :
    ∀ (n i : Nat) (l : List ℚ) (pre : List (List ℚ)), i + n ≤ pre.length →
      (∀ q, i ≤ q → q < i + n → 0 < det_at mesh c_ind p q) →
      regular_fill_loop mesh L C c_ind row vol p w d n i l pre
        = (quadrature_loop mesh L C c_ind row vol p w d n i l).map (fun r =>
            ⟨r.ok, r.l_stiff,
              (List.range' i n).foldl (fun pre q => pre.set q (cache_line mesh c_ind vol p w q))
                pre, r.msgs⟩)
  | 0, i, l, pre, _, _ => by simp [regular_fill_loop, quadrature_loop]
  | n + 1, i, l, pre, hpre, hdet => by
    have hpos := hdet i (le_refl _) (by omega)
    unfold regular_fill_loop quadrature_loop
    rw [rd_getD pre i [] (by omega)]
    simp only [Option.bind_eq_bind, Option.some_bind]
    by_cases hp : i < p.length
    · rw [rd_getD p i [] hp]
      simp only [Option.some_bind]
      have hnot : ¬ (mesh.inverse_jacobian (p.getD i []) c_ind).1 ≤ 0 := by
        simpa [det_at] using hpos
      rw [if_neg hnot, if_neg hnot]
      by_cases hw : i < w.length
      · rw [rd_getD w i 0 hw]
        simp only [Option.some_bind, wr, if_pos (show i < pre.length by omega)]
        by_cases hd : i < d.length
        · rw [rd_getD d i [] hd]
          simp only [Option.some_bind, read_pc_line]
          cases hacc : accumulate_point L (mesh.inverse_jacobian (p.getD i []) c_ind).2
              ((mesh.inverse_jacobian (p.getD i []) c_ind).1 * (w.getD i 0 * vol)) C
              (d.getD i []) row l with
          | none => simp
          | some l2 =>
            simp only [Option.some_bind]
            rw [fill_loop_eq mesh L C c_ind row vol p w d n (i + 1) l2 _ (by simp; omega)
              (fun q h1 h2 => hdet q (by omega) (by omega))]
            rw [List.range'_succ, List.foldl_cons]
            rfl
        · have : rd d i = none := by
            unfold rd; rw [List.get?_eq_getElem?]; exact List.getElem?_eq_none (by omega)
          simp [this]
      · have : rd w i = none := by
          unfold rd; rw [List.get?_eq_getElem?]; exact List.getElem?_eq_none (by omega)
        simp [this]
    · have : rd p i = none := by
        unfold rd; rw [List.get?_eq_getElem?]; exact List.getElem?_eq_none (by omega)
      simp [this]

theorem cached_loop_eq (mesh : VMesh) (L : Nat) (C : Tensor) (c_ind row : Nat) (vol : ℚ)
    (p : List (List ℚ)) (w : List ℚ) (d : List (List ℚ)) (pre : List (List ℚ)) :
    ∀ (n i : Nat) (l : List ℚ), i + n ≤ p.length → i + n ≤ w.length →
      (∀ q, i ≤ q → q < i + n → rd pre q = some (cache_line mesh c_ind vol p w q)) →
      (∀ q, i ≤ q → q < i + n → 0 < det_at mesh c_ind p q) →
      regular_cached_loop L C row d pre n i l
        = (quadrature_loop mesh L C c_ind row vol p w d n i l).map (fun r => r.l_stiff)
  | 0, i, l, _, _, _, _ => by simp [regular_cached_loop, quadrature_loop]
  | n + 1, i, l, hp, hw, hpre, hdet => by
    have hpos := hdet i (le_refl _) (by omega)
    have hnot : ¬ (mesh.inverse_jacobian (p.getD i []) c_ind).1 ≤ 0 := by
      simpa [det_at] using hpos
    unfold regular_cached_loop quadrature_loop
    rw [hpre i (le_refl _) (by omega), rd_getD p i [] (by omega), rd_getD w i 0 (by omega)]
    simp only [Option.bind_eq_bind, Option.some_bind, if_neg hnot]
    cases hd : rd d i with
    | none => simp
    | some di =>
      simp only [Option.some_bind, cache_line, read_pc_line]
      cases hacc : accumulate_point L (mesh.inverse_jacobian (p.getD i []) c_ind).2
          ((mesh.inverse_jacobian (p.getD i []) c_ind).1 * (w.getD i 0 * vol)) C di row l with
      | none => simp
      | some l2 =>
        simp only [Option.some_bind]
        exact cached_loop_eq mesh L C c_ind row vol p w d pre n (i + 1) l2 (by omega) (by omega)
          (fun q h1 h2 => hpre q (by omega) (by omega))
          (fun q h1 h2 => hdet q (by omega) (by omega))

theorem rd_jacobian_cache (mesh : VMesh) (c_ind : Nat) (vol : ℚ) (p : List (List ℚ))
    (w : List ℚ) (n q : Nat) (hq : q < n) :
    rd (jacobian_cache mesh c_ind vol p w n) q = some (cache_line mesh c_ind vol p w q) := by
  unfold rd jacobian_cache
  rw [List.get?_eq_getElem?]
  simp [hq]

theorem regular_first_call (tensors_ : TensorTable) (L : Nat) (input : Field)
    (c_ind row : Nat) (l_stiff : List ℚ) (p : List (List ℚ)) (w : List ℚ)
    (d : List (List ℚ)) (T : Tensor)
    (hT : resolve_tensor tensors_ input.vfield c_ind = some T)
    (hdim : 1 ≤ input.vmesh.dimensionality ∧ input.vmesh.dimensionality ≤ 3)
    (hrow : row < L) (hl : L ≤ l_stiff.length) (hp : d.length ≤ p.length)
    (hw : d.length ≤ w.length) (hd : ∀ q, q < d.length → 3 * L ≤ (d.getD q []).length)
    (hdet : ∀ q, q < d.length → 0 < det_at input.vmesh c_ind p q) :
    ∃ g, build_local_matrix tensors_ L input c_ind row l_stiff p w d = some g ∧
      build_local_matrix_regular tensors_ L input c_ind row l_stiff p w d []
        = some ⟨g.ok, g.l_stiff,
            if T.all_zero then []
            else jacobian_cache input.vmesh c_ind input.vmesh.get_element_size p w d.length,
            g.msgs⟩ := by
  by_cases hz : T.all_zero = true
  · refine ⟨⟨true, List.replicate L 0 ++ l_stiff.drop L, []⟩, ?_, ?_⟩
    · simp [build_local_matrix, hT, hz, zero_row_eq L l_stiff hl]
    · simp [build_local_matrix_regular, hT, hz, zero_row_eq L l_stiff hl]
  · have hnz : T.all_zero = false := by
      cases h : T.all_zero
      · rfl
      · exact absurd h hz
    rw [build_local_loop tensors_ L input c_ind row l_stiff p w d T hT hnz hdim hl]
    obtain ⟨r, h1, _, _⟩ := qloop_spec input.vmesh L T c_ind row
      input.vmesh.get_element_size p w d hrow d.length 0
      (List.replicate L 0 ++ l_stiff.drop L) (by simp) (by omega) (by omega) (by omega) hd
    refine ⟨r, h1, ?_⟩
    unfold build_local_matrix_regular
    rw [hT]
    simp only [Option.bind_eq_bind, Option.some_bind, hnz, Bool.false_eq_true, if_false,
      List.isEmpty_nil, if_true, zero_row_eq L l_stiff hl]
    rw [fill_loop_eq input.vmesh L T c_ind row input.vmesh.get_element_size p w d d.length 0
      _ _ (by simp) (fun q _ h2 => hdet q (by omega)), h1, fill_cache_eq]
    rfl

theorem regular_later_call (tensors_ : TensorTable) (L : Nat) (input : Field)
    (c0 c_ind row : Nat) (l_stiff : List ℚ) (p : List (List ℚ)) (w : List ℚ)
    (d : List (List ℚ)) (T : Tensor)
    (hT : resolve_tensor tensors_ input.vfield c_ind = some T)
    (hdim : 1 ≤ input.vmesh.dimensionality ∧ input.vmesh.dimensionality ≤ 3)
    (hrow : row < L) (hl : L ≤ l_stiff.length) (hp : d.length ≤ p.length)
    (hw : d.length ≤ w.length) (hd : ∀ q, q < d.length → 3 * L ≤ (d.getD q []).length)
    (huni : ∀ q, q < d.length → ∀ e, input.vmesh.inverse_jacobian (p.getD q []) e
      = input.vmesh.inverse_jacobian (p.getD q []) c0)
    (hdet : ∀ q, q < d.length → 0 < det_at input.vmesh c0 p q) :
    ∃ g, build_local_matrix tensors_ L input c_ind row l_stiff p w d = some g ∧
      build_local_matrix_regular tensors_ L input c_ind row l_stiff p w d
          (jacobian_cache input.vmesh c0 input.vmesh.get_element_size p w d.length)
        = some ⟨g.ok, g.l_stiff,
            jacobian_cache input.vmesh c0 input.vmesh.get_element_size p w d.length,
            g.msgs⟩ := by
  have hdet2 : ∀ q, q < d.length → 0 < det_at input.vmesh c_ind p q := by
    intro q hq
    have := hdet q hq
    unfold det_at at this ⊢
    rwa [huni q hq c_ind]
  have hline : ∀ q, q < d.length →
      cache_line input.vmesh c0 input.vmesh.get_element_size p w q
        = cache_line input.vmesh c_ind input.vmesh.get_element_size p w q := by
    intro q hq
    unfold cache_line
    rw [huni q hq c_ind]
  by_cases hz : T.all_zero = true
  · refine ⟨⟨true, List.replicate L 0 ++ l_stiff.drop L, []⟩, ?_, ?_⟩
    · simp [build_local_matrix, hT, hz, zero_row_eq L l_stiff hl]
    · simp [build_local_matrix_regular, hT, hz, zero_row_eq L l_stiff hl]
  · have hnz : T.all_zero = false := by
      cases h : T.all_zero
      · rfl
      · exact absurd h hz
    by_cases hn : d.length = 0
    · obtain ⟨g, h1, h2⟩ := regular_first_call tensors_ L input c_ind row l_stiff p w d T hT
        hdim hrow hl hp hw hd hdet2
      refine ⟨g, h1, ?_⟩
      rw [hn] at h2 ⊢
      simpa [jacobian_cache, hnz] using h2
    · rw [build_local_loop tensors_ L input c_ind row l_stiff p w d T hT hnz hdim hl]
      obtain ⟨r, h1, _, h3⟩ := qloop_spec input.vmesh L T c_ind row
        input.vmesh.get_element_size p w d hrow d.length 0
        (List.replicate L 0 ++ l_stiff.drop L) (by simp) (by omega) (by omega) (by omega) hd
      refine ⟨r, h1, ?_⟩
      have hne : (jacobian_cache input.vmesh c0 input.vmesh.get_element_size p w
          d.length).isEmpty = false := by
        cases hd0 : d.length with
        | zero => exact absurd hd0 hn
        | succ m => simp [jacobian_cache, List.range_succ_eq_map]
      unfold build_local_matrix_regular
      rw [hT]
      simp only [Option.bind_eq_bind, Option.some_bind, hnz, Bool.false_eq_true, if_false, hne,
        zero_row_eq L l_stiff hl]
      rw [cached_loop_eq input.vmesh L T c_ind row input.vmesh.get_element_size p w d _
        d.length 0 _ (by omega) (by omega)
        (fun q _ h2 => by
          rw [rd_jacobian_cache _ _ _ _ _ _ _ (by omega), hline q (by omega)])
        (fun q _ h2 => hdet2 q (by omega)), h1]
      rcases h3 with ⟨a1, a2, _, _⟩ | ⟨_, _, m, a3, a4, _, _⟩
      · simp [a1, a2]
      · exact absurd (hdet2 m a3) (not_lt.mpr (by simpa using a4))

/-- The part of C23 that holds: on a mesh of dimensionality 1, 2 or 3 whose inverse
Jacobian at each quadrature point is the same for every element, with a positive
determinant, and with
the reads of the quadrature tables in range, `build_local_matrix_regular` returns the
same flag, row and messages as `build_local_matrix`: on a first call (empty cache) for
any element `c0` and local row `row0`, which fills the cache with one line of `Ji[0..8]`
and the scaled determinant per quadrature point when the tensor of `c0` is non-zero, and
on a later call for any element `c` and local row `row` that reuses this cache and
leaves it as it is. -/
theorem regular_matches_general (tensors_ : TensorTable) (L : Nat) (input : Field)
    (c0 row0 c row : Nat) (l0 l_stiff : List ℚ) (p : List (List ℚ)) (w : List ℚ)
    (d : List (List ℚ)) (T0 T : Tensor)
    (hT0 : resolve_tensor tensors_ input.vfield c0 = some T0)
    (hT : resolve_tensor tensors_ input.vfield c = some T)
    (hdim : 1 ≤ input.vmesh.dimensionality ∧ input.vmesh.dimensionality ≤ 3)
    (hrow0 : row0 < L) (hrow : row < L) (hl0 : L ≤ l0.length) (hl : L ≤ l_stiff.length)
    (hp : d.length ≤ p.length) (hw : d.length ≤ w.length)
    (hd : ∀ q, q < d.length → 3 * L ≤ (d.getD q []).length)
    (huni : ∀ q, q < d.length → ∀ e, input.vmesh.inverse_jacobian (p.getD q []) e
      = input.vmesh.inverse_jacobian (p.getD q []) c0)
    (hdet : ∀ q, q < d.length → 0 < det_at input.vmesh c0 p q) :
    (∃ g, build_local_matrix tensors_ L input c0 row0 l0 p w d = some g ∧
      build_local_matrix_regular tensors_ L input c0 row0 l0 p w d []
        = some ⟨g.ok, g.l_stiff,
            if T0.all_zero then []
            else jacobian_cache input.vmesh c0 input.vmesh.get_element_size p w d.length,
            g.msgs⟩) ∧
    (∃ g, build_local_matrix tensors_ L input c row l_stiff p w d = some g ∧
      build_local_matrix_regular tensors_ L input c row l_stiff p w d
          (jacobian_cache input.vmesh c0 input.vmesh.get_element_size p w d.length)
        = some ⟨g.ok, g.l_stiff,
            jacobian_cache input.vmesh c0 input.vmesh.get_element_size p w d.length,
            g.msgs⟩) :=
  ⟨regular_first_call tensors_ L input c0 row0 l0 p w d T0 hT0 hdim hrow0 hl0 hp hw hd hdet,
    regular_later_call tensors_ L input c0 c row l_stiff p w d T hT hdim hrow hl hp hw hd
      huni hdet⟩

set_option maxRecDepth 100000 in
theorem regular_matches_general_witness :
    (∃ g, build_local_matrix [] 4 (tet_field 3 1 4) 0 0 [0, 0, 0, 0]
        [[1 / 4, 1 / 4, 1 / 4]] [1] [tet_gradients] = some g ∧
      build_local_matrix_regular [] 4 (tet_field 3 1 4) 0 0 [0, 0, 0, 0]
          [[1 / 4, 1 / 4, 1 / 4]] [1] [tet_gradients] []
        = some ⟨g.ok, g.l_stiff,
            if unit_tensor.all_zero then []
            else jacobian_cache (tet_field 3 1 4).vmesh 0
              (tet_field 3 1 4).vmesh.get_element_size [[1 / 4, 1 / 4, 1 / 4]] [1]
              [tet_gradients].length,
            g.msgs⟩) ∧
    (∃ g, build_local_matrix [] 4 (tet_field 3 1 4) 5 2 [7, 7, 7, 7]
        [[1 / 4, 1 / 4, 1 / 4]] [1] [tet_gradients] = some g ∧
      build_local_matrix_regular [] 4 (tet_field 3 1 4) 5 2 [7, 7, 7, 7]
          [[1 / 4, 1 / 4, 1 / 4]] [1] [tet_gradients]
          (jacobian_cache (tet_field 3 1 4).vmesh 0
            (tet_field 3 1 4).vmesh.get_element_size [[1 / 4, 1 / 4, 1 / 4]] [1]
            [tet_gradients].length)
        = some ⟨g.ok, g.l_stiff,
            jacobian_cache (tet_field 3 1 4).vmesh 0
              (tet_field 3 1 4).vmesh.get_element_size [[1 / 4, 1 / 4, 1 / 4]] [1]
              [tet_gradients].length,
            g.msgs⟩) :=
  regular_matches_general [] 4 (tet_field 3 1 4) 0 0 5 2 [0, 0, 0, 0] [7, 7, 7, 7]
    [[1 / 4, 1 / 4, 1 / 4]] [1] [tet_gradients] unit_tensor unit_tensor rfl rfl
    (by decide) (by decide) (by decide) (by decide) (by decide) (by decide) (by decide)
    (by decide) (fun _ _ _ => rfl) (by decide!)

set_option maxRecDepth 100000 in
/-- C23 (the code at the failing input): on a mesh that reports dimensionality 4, with
the same inverse Jacobian and the determinant 1 for every element, `build_local_matrix`
reports the dimension error and returns false with the zero row, while
`build_local_matrix_regular`, which lacks the dimension test of lines 366-370, returns
true with the computed row. -/
theorem regular_differs_in_dimension_four :
    (build_local_matrix [] 4 (tet_field 4 1 4) 0 0 [0, 0, 0, 0] [[1 / 4, 1 / 4, 1 / 4]] [1]
      [tet_gradients]).map (fun r => (r.ok, r.l_stiff)) = some (false, [0, 0, 0, 0]) ∧
    (build_local_matrix_regular [] 4 (tet_field 4 1 4) 0 0 [0, 0, 0, 0]
      [[1 / 4, 1 / 4, 1 / 4]] [1] [tet_gradients] []).map (fun r => (r.ok, r.l_stiff))
      = some (true, [1 / 2, -1 / 6, -1 / 6, -1 / 6]) := by
  refine ⟨?_, ?_⟩ <;> decide!

/-! ## Sparsity phase 3 -/

theorem copy_fold_spec (m : List Nat) (s : Nat) : ∀ (n : Nat) (a : List Nat),
    ((List.range n).foldl (fun a i => a.set (i + s) (m.getD i 0)) a).length = a.length ∧
    ∀ k, ((List.range n).foldl (fun a i => a.set (i + s) (m.getD i 0)) a)[k]?
      = if s ≤ k ∧ k < s + n ∧ k < a.length then some (m.getD (k - s) 0) else a[k]?
  | 0, a => by
    refine ⟨rfl, fun k => ?_⟩
    have : ¬ (s ≤ k ∧ k < s + 0 ∧ k < a.length) := by omega
    rw [if_neg this]
    rfl
  | n + 1, a => by
    obtain ⟨h1, h2⟩ := copy_fold_spec m s n a
    rw [List.range_succ, List.foldl_append]
    simp only [List.foldl_cons, List.foldl_nil]
    refine ⟨by rw [List.length_set, h1], fun k => ?_⟩
    by_cases hk : k = n + s
    · subst hk
      by_cases hlen : n + s < a.length
      · rw [List.getElem?_set_self (by rw [h1]; exact hlen),
          if_pos ⟨by omega, by omega, hlen⟩]
        simp
      · rw [List.getElem?_eq_none (by rw [List.length_set, h1]; omega), if_neg (by omega),
          List.getElem?_eq_none (by omega)]
    · rw [List.getElem?_set_ne (fun h => hk h.symm), h2 k]
      by_cases hc : s ≤ k ∧ k < s + n ∧ k < a.length
      · rw [if_pos hc, if_pos ⟨hc.1, by omega, hc.2.2⟩]
      · rw [if_neg hc, if_neg (by omega)]

theorem shift_fold_spec (s : Nat) : ∀ (len start : Nat) (r : List Nat),
    ((List.range' start len).foldl (fun r i => r.set i (r.getD i 0 + s)) r).length = r.length ∧
    ∀ k, ((List.range' start len).foldl (fun r i => r.set i (r.getD i 0 + s)) r)[k]?
      = if start ≤ k ∧ k < start + len then (r[k]?).map (fun x => x + s) else r[k]?
  | 0, start, r => by
    refine ⟨rfl, fun k => ?_⟩
    have : ¬ (start ≤ k ∧ k < start + 0) := by omega
    rw [if_neg this]
    rfl
  | len + 1, start, r => by
    obtain ⟨h1, h2⟩ := shift_fold_spec s len (start + 1) (r.set start (r.getD start 0 + s))
    rw [List.range'_succ, List.foldl_cons]
    refine ⟨by rw [h1, List.length_set], fun k => ?_⟩
    rw [h2 k]
    by_cases hk : k = start
    · subst hk
      rw [if_neg (by omega), if_pos ⟨le_refl _, by omega⟩]
      by_cases hlen : k < r.length
      · rw [List.getElem?_set_self hlen, List.getD_eq_getElem?_getD,
          List.getElem?_eq_getElem hlen]
        rfl
      · rw [List.getElem?_eq_none (by rw [List.length_set]; omega),
          List.getElem?_eq_none (by omega)]
        rfl
    · rw [List.getElem?_set_ne (fun h => hk h.symm)]
      by_cases hc : start + 1 ≤ k ∧ k < start + 1 + len
      · rw [if_pos hc, if_pos ⟨by omega, by omega⟩]
      · rw [if_neg hc, if_neg (by omega)]

theorem length_rows_concat_zero (L : Nat → List Nat) (a : Nat) :
    (rows_concat L 0 a).length = rows_before L a := by
  have := length_rows_concat L 0 a
  rw [rows_before_zero] at this
  simpa using this

theorem concat_index (L : Nat → List Nat) (G a n t : Nat) (han : a + n ≤ G)
    (ht : t < (rows_concat L a n).length) :
    (rows_concat L 0 G)[rows_before L a + t]? = (rows_concat L a n)[t]? := by
  have e1 : rows_concat L 0 G = rows_concat L 0 a ++ rows_concat L a (G - a) := by
    have := rows_concat_append L 0 a (G - a)
    rw [Nat.zero_add] at this
    rw [this]
    congr 1
    omega
  have e2 : rows_concat L a (G - a) = rows_concat L a n ++ rows_concat L (a + n) (G - a - n) := by
    rw [rows_concat_append]
    congr 1
    omega
  rw [e1, e2, List.getElem?_append_right (by rw [length_rows_concat_zero]; omega),
    length_rows_concat_zero, Nat.add_sub_cancel_left, List.getElem?_append_left ht]

theorem phase_copy_step (mesh : VMesh) (Gn Ga N : Nat) (hN : 0 < N) (p : Nat)
    (b : FEMBuilder) (w : Worker) (hp : p < N)
    (hinv : Copied mesh Gn Ga N p b) (hw : w.mycols = worker_cols mesh Gn Ga N p) :
    Copied mesh Gn Ga N (p + 1) (phase_copy p b w).1 ∧ (phase_copy p b w).2 = w := by
  obtain ⟨hd, hrl, hcl, hcol, hal, hpre, hrow, hloc⟩ := hinv
  obtain ⟨hs, he⟩ := start_gd_eq b Gn Ga N hd p
  have hmono := part_start_mono (Gn + Ga) N (show p ≤ p + 1 by omega)
  have hle := part_start_le (Gn + Ga) N hN (show p + 1 ≤ N by omega)
  have hs0 : b.colidx_.getD p 0
      = rows_before (row_cols Gn Ga (Gn + Ga) mesh) (part_start (Gn + Ga) N p) := by
    rw [List.getD_eq_getElem?_getD, hcol p (by omega)]
    rfl
  have hlenw := length_worker_cols mesh Gn Ga N p
  have htot := rows_before_mono (row_cols Gn Ga (Gn + Ga) mesh) hle
  obtain ⟨c1, c2⟩ := copy_fold_spec w.mycols (b.colidx_.getD p 0) w.mycols.length b.allcols_
  obtain ⟨r1, r2⟩ := shift_fold_spec (b.colidx_.getD p 0)
    (part_start (Gn + Ga) N (p + 1) - part_start (Gn + Ga) N p) (part_start (Gn + Ga) N p)
    b.rows_
  refine ⟨?_, rfl⟩
  simp only [phase_copy, hs, he]
  refine ⟨hd, by rw [r1]; exact hrl, hcl, hcol, by rw [c1]; exact hal, ?_, ?_, ?_⟩
  · intro k hk
    rw [c2 k]
    by_cases hks : k < rows_before (row_cols Gn Ga (Gn + Ga) mesh) (part_start (Gn + Ga) N p)
    · rw [if_neg (by rw [hs0]; omega)]
      exact hpre k hks
    · have hwl : w.mycols.length
          + rows_before (row_cols Gn Ga (Gn + Ga) mesh) (part_start (Gn + Ga) N p)
          = rows_before (row_cols Gn Ga (Gn + Ga) mesh) (part_start (Gn + Ga) N (p + 1)) := by
        rw [hw]; exact hlenw
      rw [if_pos ⟨by rw [hs0]; omega, by rw [hs0]; omega, by omega⟩, hs0]
      have hci := concat_index (row_cols Gn Ga (Gn + Ga) mesh) (Gn + Ga)
        (part_start (Gn + Ga) N p)
        (part_start (Gn + Ga) N (p + 1) - part_start (Gn + Ga) N p)
        (k - rows_before (row_cols Gn Ga (Gn + Ga) mesh) (part_start (Gn + Ga) N p))
        (by omega) (by unfold worker_cols at hlenw; omega)
      rw [show rows_before (row_cols Gn Ga (Gn + Ga) mesh) (part_start (Gn + Ga) N p)
          + (k - rows_before (row_cols Gn Ga (Gn + Ga) mesh) (part_start (Gn + Ga) N p)) = k
        by omega] at hci
      rw [hci, List.getD_eq_getElem?_getD, hw]
      unfold worker_cols at hlenw ⊢
      rw [List.getElem?_eq_getElem (by omega)]
      rfl
  · intro i hi
    rw [r2 i]
    by_cases hip : i < part_start (Gn + Ga) N p
    · rw [if_neg (by omega)]
      exact hrow i hip
    · rw [if_pos ⟨by omega, by omega⟩]
      have := hloc p (le_refl _) hp (i - part_start (Gn + Ga) N p) (by omega)
      rw [show part_start (Gn + Ga) N p + (i - part_start (Gn + Ga) N p) = i by omega] at this
      rw [this, hs0]
      simp only [Option.map_some']
      congr 1
      have h3 := length_rows_concat (row_cols Gn Ga (Gn + Ga) mesh)
        (part_start (Gn + Ga) N p) (i - part_start (Gn + Ga) N p)
      rw [show part_start (Gn + Ga) N p + (i - part_start (Gn + Ga) N p) = i by omega] at h3
      exact h3
  · intro q hq1 hq2 t ht
    have hq3 := part_start_mono (Gn + Ga) N (show p + 1 ≤ q by omega)
    rw [r2, if_neg (by omega)]
    exact hloc q (by omega) hq2 t ht

theorem phase_copy_all (mesh : VMesh) (Gn Ga N : Nat) (hN : 0 < N) (b : FEMBuilder)
    (ws : List Worker) (hlen : ws.length = N)
    (hws : ∀ (k : Nat) (w : Worker), ws[k]? = some w → w.mycols = worker_cols mesh Gn Ga N k ∧
      (k = 0 → w.st = rows_before (row_cols Gn Ga (Gn + Ga) mesh) (Gn + Ga)))
    (hinv : Offsets mesh Gn Ga N b) :
    Copied mesh Gn Ga N N (each_worker phase_copy 0 b ws).1 ∧
    (each_worker phase_copy 0 b ws).2.length = N ∧
    ∀ (k : Nat) (w : Worker), ((each_worker phase_copy 0 b ws).2)[k]? = some w →
      (k = 0 → w.st = rows_before (row_cols Gn Ga (Gn + Ga) mesh) (Gn + Ga)) := by
  obtain ⟨hd, hrl, hcl, hcol, hrow, hal⟩ := hinv
  have h := each_worker_ind phase_copy N (Copied mesh Gn Ga N)
    (fun p w => w.mycols = worker_cols mesh Gn Ga N p ∧
      (p = 0 → w.st = rows_before (row_cols Gn Ga (Gn + Ga) mesh) (Gn + Ga)))
    (fun p w => p = 0 → w.st = rows_before (row_cols Gn Ga (Gn + Ga) mesh) (Gn + Ga))
    (fun p b w hp hinv hw => by
      have := phase_copy_step mesh Gn Ga N hN p b w hp hinv hw.1
      exact ⟨this.1, by rw [this.2]; exact hw.2⟩)
    ws 0 b (by simpa using hlen)
    ⟨hd, hrl, hcl, hcol, hal,
      fun k hk => by rw [part_start_zero, rows_before_zero] at hk; omega,
      fun i hi => by rw [part_start_zero] at hi; omega,
      fun q _ hq t ht => hrow q hq t ht⟩
    (fun k w hk => by simpa using hws k w hk)
  refine ⟨h.1, by rw [h.2.1, hlen], fun k w hk => ?_⟩
  simpa using h.2.2 k w hk

/-! ## The success flags of the phases before the assembly -/

theorem first_failed_none (b : FEMBuilder)
    (h : ∀ q, q < b.numprocessors_ → b.success_[q]? = some true) : first_failed b = none := by
  unfold first_failed
  rw [List.find?_eq_none]
  intro q hq
  have hq2 : q < b.numprocessors_ := List.mem_range.mp hq
  simp [rd, h q hq2]

theorem each_worker_flags (step : Nat → FEMBuilder → Worker → FEMBuilder × Worker) (N : Nat)
    (hstep : ∀ p b w, (step p b w).1.success_ = b.success_.set p true ∧
      (step p b w).1.numprocessors_ = b.numprocessors_)
    (ws : List Worker) (b : FEMBuilder) (hlen : ws.length = N) (hn : b.numprocessors_ = N)
    (hs : b.success_.length = N) :
    first_failed (each_worker step 0 b ws).1 = none ∧
    (each_worker step 0 b ws).1.success_.length = N ∧
    (each_worker step 0 b ws).1.numprocessors_ = N := by
  have h := each_worker_ind step N
    (fun p b => b.numprocessors_ = N ∧ b.success_.length = N ∧
      ∀ q, q < p → b.success_[q]? = some true)
    (fun _ _ => True) (fun _ _ => True)
    (fun p b w hp hinv _ => by
      obtain ⟨h1, h2, h3⟩ := hinv
      obtain ⟨s1, s2⟩ := hstep p b w
      refine ⟨⟨by rw [s2, h1], by rw [s1, List.length_set, h2], fun q hq => ?_⟩, trivial⟩
      rw [s1]
      by_cases hqp : q = p
      · subst hqp
        rw [List.getElem?_set_self (by omega)]
      · rw [List.getElem?_set_ne (fun h => hqp h.symm)]
        exact h3 q (by omega))
    ws 0 b (by simpa using hlen) ⟨hn, hs, fun q hq => by omega⟩ (fun _ _ _ => trivial)
  obtain ⟨⟨h1, h2, h3⟩, _, _⟩ := h
  exact ⟨first_failed_none _ (fun q hq => h3 q (by rw [h1] at hq; exact hq)), h2, h1⟩

theorem phase_setup_flags (input : Field) (hd : 1 ≤ input.vmesh.dimensionality) (p : Nat)
    (b : FEMBuilder) (w : Worker) :
    (phase_setup input p b w).1.success_ = b.success_.set p true ∧
    (phase_setup input p b w).1.numprocessors_ = b.numprocessors_ := by
  have hd2 : ¬ input.vmesh.dimensionality < 1 := by omega
  by_cases hp : p = 0
  · subst hp
    simp only [phase_setup, setup, hd2, if_true, if_false]
    constructor
    · split <;> simp [FEMBuilder.error, List.set_set]
    · split <;> simp [FEMBuilder.error]
  · simp [phase_setup, hp]

theorem discover_fold_keeps (mesh : VMesh) : ∀ (l : List Nat) (s : FEMBuilder × Worker),
    (l.foldl (discover_row mesh) s).1.success_ = s.1.success_ ∧
    (l.foldl (discover_row mesh) s).1.numprocessors_ = s.1.numprocessors_
  | [], _ => ⟨rfl, rfl⟩
  | i :: l, s => by
    have ih := discover_fold_keeps mesh l (discover_row mesh s i)
    have h1 : (discover_row mesh s i).1.success_ = s.1.success_ ∧
        (discover_row mesh s i).1.numprocessors_ = s.1.numprocessors_ := by
      simp only [discover_row]
      split <;> exact ⟨rfl, rfl⟩
    rw [List.foldl_cons]
    exact ⟨ih.1.trans h1.1, ih.2.trans h1.2⟩

theorem phase_discover_flags (input : Field) (p : Nat) (b : FEMBuilder) (w : Worker) :
    (phase_discover input p b w).1.success_ = b.success_.set p true ∧
    (phase_discover input p b w).1.numprocessors_ = b.numprocessors_ := by
  have h := discover_fold_keeps input.vmesh
    (List.range' (start_gd b p) (end_gd b p - start_gd b p)) (b, w)
  simp only [phase_discover]
  exact ⟨by rw [h.1], h.2⟩

theorem phase_offsets_flags (p : Nat) (b : FEMBuilder) (w : Worker) :
    (phase_offsets p b w).1.success_ = b.success_.set p true ∧
    (phase_offsets p b w).1.numprocessors_ = b.numprocessors_ := by
  simp only [phase_offsets]
  split <;> exact ⟨rfl, rfl⟩

theorem phase_copy_flags (p : Nat) (b : FEMBuilder) (w : Worker) :
    (phase_copy p b w).1.success_ = b.success_.set p true ∧
    (phase_copy p b w).1.numprocessors_ = b.numprocessors_ := ⟨rfl, rfl⟩

theorem phase_create_flags (p : Nat) (b : FEMBuilder) (w : Worker) :
    (phase_create p b w).1.success_ = b.success_.set p true ∧
    (phase_create p b w).1.numprocessors_ = b.numprocessors_ := by
  simp only [phase_create]
  split <;> exact ⟨rfl, rfl⟩

/-! ## Setup and MatrixAlloc over all workers -/

theorem phase_setup_all (input : Field) (N : Nat) (hN : 0 < N) (b : FEMBuilder)
    (hn : b.numprocessors_ = N) (hd : 1 ≤ input.vmesh.dimensionality) (ws : List Worker)
    (hlen : ws.length = N) (hws : ∀ (k : Nat) (w : Worker), ws[k]? = some w → w.mycols = []) :
    Dims (each_worker (phase_setup input) 0 b ws).1 input.vmesh.num_nodes (edge_dofs input) N ∧
    (each_worker (phase_setup input) 0 b ws).1.rows_.length
      = input.vmesh.num_nodes + edge_dofs input + 1 ∧
    (each_worker (phase_setup input) 0 b ws).1.colidx_.length = N + 1 ∧
    (each_worker (phase_setup input) 0 b ws).2.length = N ∧
    ∀ (k : Nat) (w : Worker), ((each_worker (phase_setup input) 0 b ws).2)[k]? = some w →
      w.mycols = [] := by
  have hd2 : ¬ input.vmesh.dimensionality < 1 := by omega
  have h := each_worker_ind (phase_setup input) N
    (fun p b1 => if p = 0 then b1 = b else
      (Dims b1 input.vmesh.num_nodes (edge_dofs input) N ∧
        b1.rows_.length = input.vmesh.num_nodes + edge_dofs input + 1 ∧
        b1.colidx_.length = N + 1))
    (fun _ w => w.mycols = []) (fun _ w => w.mycols = [])
    (fun p b1 w hp hinv hw => by
      have hp1 : ¬ p + 1 = 0 := by omega
      dsimp only at hinv hw ⊢
      rw [if_neg hp1]
      by_cases hp0 : p = 0
      · subst hp0
        rw [if_pos rfl] at hinv
        subst hinv
        refine ⟨?_, by simpa [phase_setup] using hw⟩
        simp only [phase_setup, setup, hd2, if_true, if_false]
        refine ⟨⟨?_, ?_, ?_, ?_⟩, ?_, ?_⟩ <;>
          split <;> simp [FEMBuilder.error, edge_dofs, resize, hn] <;> omega
      · rw [if_neg hp0] at hinv
        have hb : (phase_setup input p b1 w) = ({ b1 with success_ := b1.success_.set p true }, w) := by
          simp [phase_setup, hp0]
        rw [hb]
        exact ⟨hinv, hw⟩)
    ws 0 b (by simpa using hlen) (by simp) (fun k w hk => by simpa using hws k w hk)
  have hN0 : ¬ N = 0 := by omega
  dsimp only at h
  rw [if_neg hN0] at h
  refine ⟨h.1.1, h.1.2.1, h.1.2.2, by rw [h.2.1, hlen], fun k w hk => ?_⟩
  simpa using h.2.2 k w hk

theorem phase_create_all (mesh : VMesh) (Gn Ga N : Nat) (hN : 0 < N) (b : FEMBuilder)
    (ws : List Worker) (hlen : ws.length = N)
    (hws : ∀ (k : Nat) (w : Worker), ws[k]? = some w →
      (k = 0 → w.st = rows_before (row_cols Gn Ga (Gn + Ga) mesh) (Gn + Ga)))
    (hinv : Copied mesh Gn Ga N N b) :
    (each_worker phase_create 0 b ws).1.fematrix_ = some (pattern_matrix Gn Ga mesh) := by
  have h := each_worker_ind phase_create N
    (fun p b1 => if p = 0 then Copied mesh Gn Ga N N b1
      else b1.fematrix_ = some (pattern_matrix Gn Ga mesh))
    (fun p w => p = 0 → w.st = rows_before (row_cols Gn Ga (Gn + Ga) mesh) (Gn + Ga))
    (fun _ _ => True)
    (fun p b1 w hp hinv hw => by
      have hp1 : ¬ p + 1 = 0 := by omega
      dsimp only at hinv hw ⊢
      rw [if_neg hp1]
      refine ⟨?_, trivial⟩
      by_cases hp0 : p = 0
      · subst hp0
        rw [if_pos rfl] at hinv
        obtain ⟨hd, hrl, _, _, hal, hpre, hrow, _⟩ := hinv
        obtain ⟨_, _, h3, _⟩ := hd
        rw [part_start_last _ _ hN] at hpre hrow
        have hst := hw rfl
        simp only [phase_create, if_true, SparseRowMatrix.create, pattern_matrix, h3, hst]
        congr 2
        · apply List.ext_getElem?
          intro i
          by_cases hi : i = Gn + Ga
          · subst hi
            rw [List.getElem?_set_self (by omega)]
            simp
          · rw [List.getElem?_set_ne (fun h => hi h.symm)]
            by_cases hi2 : i < Gn + Ga
            · rw [hrow i hi2]
              simp [show i < Gn + Ga + 1 by omega]
            · rw [List.getElem?_eq_none (by omega), List.getElem?_eq_none (by simp; omega)]
        · rw [List.take_of_length_le (by omega)]
          apply List.ext_getElem?
          intro k
          by_cases hk : k < rows_before (row_cols Gn Ga (Gn + Ga) mesh) (Gn + Ga)
          · exact hpre k hk
          · rw [List.getElem?_eq_none (by omega),
              List.getElem?_eq_none (by rw [length_rows_concat_zero]; omega)]
      · rw [if_neg hp0] at hinv
        simpa [phase_create, hp0] using hinv)
    ws 0 b (by simpa using hlen) (by simpa using hinv) (fun k w hk => by simpa using hws k w hk)
  have hN0 : ¬ N = 0 := by omega
  dsimp only at h
  rw [if_neg hN0] at h
  exact h.1

/-- The pattern after the MatrixAlloc phase: for at least one worker and a mesh of
dimensionality at least 1, the matrix that worker 0 creates is `pattern_matrix`, whatever
the number of workers and the state of the builder before the run are. -/
theorem after_create_spec (b : FEMBuilder) (input : Field) (hN : 0 < b.numprocessors_)
    (hd : 1 ≤ input.vmesh.dimensionality) :
    (after_create b input).1.fematrix_
      = some (pattern_matrix input.vmesh.num_nodes (edge_dofs input) input.vmesh) := by
  obtain ⟨a1, a2, a3, a4, a5⟩ := phase_setup_all input b.numprocessors_ hN b rfl hd
    (List.replicate b.numprocessors_ Worker.new) (by simp)
    (fun k w hk => by
      rw [List.getElem?_replicate] at hk
      split at hk
      · cases hk; rfl
      · cases hk)
  obtain ⟨b1, b2, b3⟩ := phase_discover_all input input.vmesh.num_nodes (edge_dofs input)
    b.numprocessors_ hN _ _ a4 a5 a1 a2 a3
  obtain ⟨c1, c2, c3⟩ := phase_offsets_all input.vmesh input.vmesh.num_nodes (edge_dofs input)
    b.numprocessors_ hN _ _ b2 b3 b1
  obtain ⟨d1, d2, d3⟩ := phase_copy_all input.vmesh input.vmesh.num_nodes (edge_dofs input)
    b.numprocessors_ hN _ _ c2 c3 c1
  exact phase_create_all input.vmesh input.vmesh.num_nodes (edge_dofs input)
    b.numprocessors_ hN _ _ d2 d3 d1

theorem each_worker_length (step : Nat → FEMBuilder → Worker → FEMBuilder × Worker) :
    ∀ (ws : List Worker) (p : Nat) (b : FEMBuilder),
      (each_worker step p b ws).2.length = ws.length
  | [], _, _ => rfl
  | w :: ws, p, b => by
    simp [each_worker, each_worker_length step ws (p + 1) (step p b w).1]

theorem phase_passes (step : Nat → FEMBuilder → Worker → FEMBuilder × Worker) (N : Nat)
    (hstep : ∀ p b w, (step p b w).1.success_ = b.success_.set p true ∧
      (step p b w).1.numprocessors_ = b.numprocessors_)
    (ws : List Worker) (b : FEMBuilder) (hlen : ws.length = N) (hn : b.numprocessors_ = N)
    (hs : b.success_.length = N) :
    first_failed (each_worker step 0 b ws).1 = none ∧
    (each_worker step 0 b ws).2.length = N ∧
    (each_worker step 0 b ws).1.numprocessors_ = N ∧
    (each_worker step 0 b ws).1.success_.length = N := by
  obtain ⟨h1, h2, h3⟩ := each_worker_flags step N hstep ws b hlen hn hs
  exact ⟨h1, by rw [each_worker_length, hlen], h3, h2⟩

theorem run_tasks_eq (b : FEMBuilder) (input : Field)
    (hs : b.success_.length = b.numprocessors_) (hd : 1 ≤ input.vmesh.dimensionality) :
    run_tasks b input = (each_worker_opt (phase_assemble input) 0 (after_create b input).1
      (after_create b input).2).map Prod.fst := by
  obtain ⟨f0, l0, n0, s0⟩ := phase_passes (phase_setup input) b.numprocessors_
    (phase_setup_flags input hd) (List.replicate b.numprocessors_ Worker.new) b (by simp) rfl hs
  obtain ⟨f1, l1, n1, s1⟩ := phase_passes (phase_discover input) b.numprocessors_
    (phase_discover_flags input) _ _ l0 n0 s0
  obtain ⟨f2, l2, n2, s2⟩ := phase_passes phase_offsets b.numprocessors_
    phase_offsets_flags _ _ l1 n1 s1
  obtain ⟨f3, l3, n3, s3⟩ := phase_passes phase_copy b.numprocessors_
    phase_copy_flags _ _ l2 n2 s2
  obtain ⟨f4, _, _, _⟩ := phase_passes phase_create b.numprocessors_
    phase_create_flags _ _ l3 n3 s3
  simp only [run_tasks, f0, f1, f2, f3, f4, Option.isSome_none, Bool.false_eq_true, if_false,
    after_create]

/-! ## The pattern of the assembled matrix -/

theorem concat_segment (L : Nat → List Nat) (G i : Nat) (hi : i < G) :
    ((rows_concat L 0 G).drop (rows_before L i)).take (rows_before L (i + 1) - rows_before L i)
      = L i := by
  have e1 : rows_concat L 0 G = rows_concat L 0 i ++ (L i ++ rows_concat L (i + 1) (G - i - 1)) := by
    rw [← rows_concat_succ]
    have := rows_concat_append L 0 i (G - i - 1 + 1)
    rw [Nat.zero_add] at this
    rw [this]
    congr 1
    omega
  rw [e1, List.drop_left' (length_rows_concat_zero L i), rows_before_succ,
    Nat.add_sub_cancel_left, List.take_left' rfl]

theorem pattern_rows_getD (Gn Ga : Nat) (mesh : VMesh) (i : Nat) (hi : i ≤ Gn + Ga) :
    (pattern_matrix Gn Ga mesh).rows.getD i 0
      = rows_before (row_cols Gn Ga (Gn + Ga) mesh) i := by
  simp [pattern_matrix, List.getD_eq_getElem?_getD, show i < Gn + Ga + 1 by omega]

theorem pattern_row_segment (Gn Ga : Nat) (mesh : VMesh) (i : Nat) (hi : i < Gn + Ga) :
    (pattern_matrix Gn Ga mesh).row_segment i = row_cols Gn Ga (Gn + Ga) mesh i := by
  unfold SparseRowMatrix.row_segment
  rw [pattern_rows_getD Gn Ga mesh i (by omega), pattern_rows_getD Gn Ga mesh (i + 1) (by omega)]
  exact concat_segment _ _ _ hi

theorem worker_counts_sum (mesh : VMesh) (Gn Ga N : Nat) (hN : 0 < N) (ws : List Worker)
    (hlen : ws.length = N)
    (hws : ∀ (k : Nat) (w : Worker), ws[k]? = some w → w.mycols = worker_cols mesh Gn Ga N k) :
    (ws.map (fun w => w.mycols.length)).sum
      = rows_before (row_cols Gn Ga (Gn + Ga) mesh) (Gn + Ga) := by
  have h := counts_sum mesh Gn Ga N (ws.map (fun w => w.mycols.length) ++ [0]) (by simp [hlen])
    (fun q hq => by
      rw [List.getElem?_append_left (by simpa [hlen] using hq), List.getElem?_map,
        List.getElem?_eq_getElem (by omega)]
      simp only [Option.map_some']
      rw [hws q ws[q] (List.getElem?_eq_getElem (by omega))])
    N (le_refl _)
  rw [part_start_last _ _ hN] at h
  rw [← h, List.take_left' (by simp [hlen])]

theorem gather_mycols (b : FEMBuilder) (mesh : VMesh) (w : Worker) :
    (gather_neighbours b mesh w).mycols = w.mycols := by
  rw [gather_neighbours_eq]
  exact (gather_fold b mesh w.ca w).2

theorem discover_row_sorted (mesh : VMesh) (b : FEMBuilder) (w : Worker) (i : Nat) :
    ∃ cols : List Nat, (discover_row mesh (b, w) i).2.mycols = w.mycols ++ cols ∧
      cols.Pairwise (fun x y => x < y) := by
  simp only [discover_row]
  rw [gather_mycols]
  exact ⟨_, push_unique_zero _ _, uniq_sorted _ (sort_sorted _)⟩

/-- C14: for at least one worker and a mesh that passes `setup`, after sparsity phases
1-3 and the MatrixAlloc phase the created matrix has a row-pointer array of
`global_dimension + 1` entries that starts with 0, is monotonically nondecreasing and
ends with the number of nonzeros, which is the size of the column array and of the value
array and the sum of the column counts of the workers after phase 1; and for every DOF
`i` the segment of the column array between the row pointers `i` and `i + 1` is the list
that phase 1 appends for `i`. -/
theorem pattern_after_create (b : FEMBuilder) (input : Field) (hN : 0 < b.numprocessors_)
    (hd : 1 ≤ input.vmesh.dimensionality) :
    ∃ M, (after_create b input).1.fematrix_ = some M ∧
      (each_worker (phase_setup input) 0 b
        (List.replicate b.numprocessors_ Worker.new)).1.global_dimension = M.nrows ∧
      M.rows.length = M.nrows + 1 ∧ rd M.rows 0 = some 0 ∧
      (∀ i j, i ≤ j → j ≤ M.nrows → M.rows.getD i 0 ≤ M.rows.getD j 0) ∧
      rd M.rows M.nrows = some M.cols.length ∧
      M.vals.length = M.cols.length ∧
      M.cols.length = ((each_worker (phase_discover input) 0
        (each_worker (phase_setup input) 0 b (List.replicate b.numprocessors_ Worker.new)).1
        (each_worker (phase_setup input) 0 b (List.replicate b.numprocessors_ Worker.new)).2).2.map
          (fun w => w.mycols.length)).sum ∧
      ∀ i, i < M.nrows → ∀ w : Worker,
        (discover_row input.vmesh ((each_worker (phase_setup input) 0 b
          (List.replicate b.numprocessors_ Worker.new)).1, w) i).2.mycols
          = w.mycols ++ M.row_segment i := by
  obtain ⟨a1, a2, a3, a4, a5⟩ := phase_setup_all input b.numprocessors_ hN b rfl hd
    (List.replicate b.numprocessors_ Worker.new) (by simp)
    (fun k w hk => by
      rw [List.getElem?_replicate] at hk
      split at hk
      · cases hk; rfl
      · cases hk)
  obtain ⟨_, b2, b3⟩ := phase_discover_all input input.vmesh.num_nodes (edge_dofs input)
    b.numprocessors_ hN _ _ a4 a5 a1 a2 a3
  refine ⟨_, after_create_spec b input hN hd, a1.2.2.1, by simp [pattern_matrix], ?_, ?_, ?_,
    by simp [pattern_matrix, length_rows_concat_zero], ?_, ?_⟩
  · simp [pattern_matrix, rd, rows_before_zero]
  · intro i j hij hj
    rw [pattern_rows_getD _ _ _ i (le_trans hij hj), pattern_rows_getD _ _ _ j hj]
    exact rows_before_mono _ hij
  · simp [pattern_matrix, rd, length_rows_concat_zero]
  · rw [worker_counts_sum input.vmesh _ _ _ hN _ b2 b3]
    simp [pattern_matrix, length_rows_concat_zero]
  · intro i hi w
    have hi2 : i < input.vmesh.num_nodes + edge_dofs input := hi
    rw [pattern_row_segment _ _ _ i hi2]
    have h := (discover_row_eq input.vmesh _ w i (by rw [a1.1, a1.2.1]; exact hi2)).2
    rw [a1.1, a1.2.1, a1.2.2.1] at h
    exact h

set_option maxRecDepth 100000 in
theorem pattern_after_create_witness :
    ∃ M, (after_create builder_plain (tet_field 3 1 4)).1.fematrix_ = some M ∧
      (each_worker (phase_setup (tet_field 3 1 4)) 0 builder_plain
        (List.replicate builder_plain.numprocessors_ Worker.new)).1.global_dimension = M.nrows ∧
      M.rows.length = M.nrows + 1 ∧ rd M.rows 0 = some 0 ∧
      (∀ i j, i ≤ j → j ≤ M.nrows → M.rows.getD i 0 ≤ M.rows.getD j 0) ∧
      rd M.rows M.nrows = some M.cols.length ∧
      M.vals.length = M.cols.length ∧
      M.cols.length = ((each_worker (phase_discover (tet_field 3 1 4)) 0
        (each_worker (phase_setup (tet_field 3 1 4)) 0 builder_plain
          (List.replicate builder_plain.numprocessors_ Worker.new)).1
        (each_worker (phase_setup (tet_field 3 1 4)) 0 builder_plain
          (List.replicate builder_plain.numprocessors_ Worker.new)).2).2.map
          (fun w => w.mycols.length)).sum ∧
      ∀ i, i < M.nrows → ∀ w : Worker,
        (discover_row (tet_field 3 1 4).vmesh ((each_worker (phase_setup (tet_field 3 1 4)) 0
          builder_plain (List.replicate builder_plain.numprocessors_ Worker.new)).1, w) i).2.mycols
          = w.mycols ++ M.row_segment i :=
  pattern_after_create builder_plain (tet_field 3 1 4) (by decide) (by decide)

/-- C12: for every mesh, every state of a worker and every DOF `i`, the list that
sparsity phase 1 appends to the worker's columns for row `i` is strictly ascending (so
without duplicate); and for at least one worker and a mesh that passes `setup`, every
segment of the final column array between the row pointers `i` and `i + 1` is strictly
ascending. -/
theorem rows_strictly_ascending (b : FEMBuilder) (input : Field) (hN : 0 < b.numprocessors_)
    (hd : 1 ≤ input.vmesh.dimensionality) :
    (∀ (b1 : FEMBuilder) (w : Worker) (i : Nat), ∃ cols : List Nat,
      (discover_row input.vmesh (b1, w) i).2.mycols = w.mycols ++ cols ∧
      cols.Pairwise (fun x y => x < y)) ∧
    ∃ M, (after_create b input).1.fematrix_ = some M ∧
      ∀ i, i < M.nrows → (M.row_segment i).Pairwise (fun x y => x < y) := by
  refine ⟨fun b1 w i => discover_row_sorted input.vmesh b1 w i,
    _, after_create_spec b input hN hd, fun i hi => ?_⟩
  rw [pattern_row_segment _ _ _ i hi]
  exact row_cols_sorted _ _ _ _ _

set_option maxRecDepth 100000 in
theorem rows_strictly_ascending_witness :
    (∀ (b1 : FEMBuilder) (w : Worker) (i : Nat), ∃ cols : List Nat,
      (discover_row (tet_field 3 1 4).vmesh (b1, w) i).2.mycols = w.mycols ++ cols ∧
      cols.Pairwise (fun x y => x < y)) ∧
    ∃ M, (after_create builder_plain (tet_field 3 1 4)).1.fematrix_ = some M ∧
      ∀ i, i < M.nrows → (M.row_segment i).Pairwise (fun x y => x < y) :=
  rows_strictly_ascending builder_plain (tet_field 3 1 4) (by decide) (by decide)

theorem find_isSome_iff (M : SparseRowMatrix) (i j s e : Nat) (hs : rd M.rows i = some s)
    (he : rd M.rows (i + 1) = some e) :
    (M.find i j).isSome = true ↔ j ∈ (M.cols.drop s).take (e - s) := by
  unfold SparseRowMatrix.find
  rw [hs, he]
  simp only [Option.bind_eq_bind, Option.some_bind, List.find?_isSome, List.mem_range'_1,
    decide_eq_true_eq, rd, List.get?_eq_getElem?]
  rw [List.mem_iff_getElem?]
  constructor
  · rintro ⟨k, ⟨hk1, hk2⟩, hk⟩
    refine ⟨k - s, ?_⟩
    rw [List.getElem?_take_of_lt (by omega), List.getElem?_drop,
      show s + (k - s) = k by omega]
    exact hk
  · rintro ⟨t, ht⟩
    have htl : t < e - s := by
      by_contra hcon
      rw [List.getElem?_take_eq_none (by omega)] at ht
      cases ht
    rw [List.getElem?_take_of_lt htl, List.getElem?_drop] at ht
    exact ⟨s + t, ⟨by omega, by omega⟩, ht⟩

theorem pattern_stored_iff (Gn Ga : Nat) (mesh : VMesh) (i j : Nat) (hi : i < Gn + Ga) :
    (pattern_matrix Gn Ga mesh).stored i j ↔ j ∈ row_cols Gn Ga (Gn + Ga) mesh i := by
  unfold SparseRowMatrix.stored
  have hs : rd (pattern_matrix Gn Ga mesh).rows i
      = some (rows_before (row_cols Gn Ga (Gn + Ga) mesh) i) := by
    simp [pattern_matrix, rd, show i < Gn + Ga + 1 by omega]
  have he : rd (pattern_matrix Gn Ga mesh).rows (i + 1)
      = some (rows_before (row_cols Gn Ga (Gn + Ga) mesh) (i + 1)) := by
    simp [pattern_matrix, rd, hi]
  rw [find_isSome_iff _ i j _ _ hs he]
  have := concat_segment (row_cols Gn Ga (Gn + Ga) mesh) (Gn + Ga) i hi
  simp only [pattern_matrix]
  rw [this]

/-- C13: for a mesh with linear DOFs (no additional edge DOFs) that passes `setup` and
whose node-to-element query is consistent with the element-to-node query (element `c`
is returned for node `i` exactly when `i` is among the nodes of `c`), the pattern of the
created matrix is structurally symmetric: for all DOFs `i` and `j`, column `j` is stored
in row `i` if and only if column `i` is stored in row `j`. -/
theorem pattern_is_symmetric (b : FEMBuilder) (input : Field) (hN : 0 < b.numprocessors_)
    (hd : 1 ≤ input.vmesh.dimensionality) (hlin : edge_dofs input = 0)
    (hcons : ∀ c i, i < input.vmesh.num_nodes →
      (c ∈ input.vmesh.get_elems_node i ↔ i ∈ input.vmesh.get_nodes c)) :
    ∃ M, (after_create b input).1.fematrix_ = some M ∧
      M.nrows = input.vmesh.num_nodes ∧
      ∀ i j, i < M.nrows → j < M.nrows → (M.stored i j ↔ M.stored j i) := by
  refine ⟨_, after_create_spec b input hN hd, by simp [pattern_matrix, hlin], ?_⟩
  rw [hlin]
  intro i j hi hj
  have hi2 : i < input.vmesh.num_nodes := by simpa [pattern_matrix] using hi
  have hj2 : j < input.vmesh.num_nodes := by simpa [pattern_matrix] using hj
  rw [pattern_stored_iff _ _ _ i j (by omega), pattern_stored_iff _ _ _ j i (by omega),
    mem_row_cols, mem_row_cols]
  simp only [dof_elems, hi2, hj2, if_true, elem_dofs, ne_eq, not_true_eq_false, if_false,
    List.append_nil]
  constructor
  · rintro ⟨c, hc1, hc2⟩
    exact ⟨c, (hcons c j hj2).mpr hc2, (hcons c i hi2).mp hc1⟩
  · rintro ⟨c, hc1, hc2⟩
    exact ⟨c, (hcons c i hi2).mpr hc2, (hcons c j hj2).mp hc1⟩

set_option maxRecDepth 100000 in
theorem pattern_is_symmetric_witness :
    ∃ M, (after_create builder_plain single_tet).1.fematrix_ = some M ∧
      M.nrows = single_tet.vmesh.num_nodes ∧
      ∀ i j, i < M.nrows → j < M.nrows → (M.stored i j ↔ M.stored j i) :=
  pattern_is_symmetric builder_plain single_tet (by decide) (by decide) (by decide)
    (fun c i hi => by
      have hi4 : i < 4 := hi
      by_cases hc : c = 0
      · simp [single_tet, tet_field, tet_mesh, hi4, hc]
        omega
      · simp [single_tet, tet_field, tet_mesh, hi4, hc])

/-! ## The range of the column indices -/

theorem mem_rows_concat (L : Nat → List Nat) (a n j : Nat) :
    j ∈ rows_concat L a n ↔ ∃ i, a ≤ i ∧ i < a + n ∧ j ∈ L i := by
  unfold rows_concat
  rw [List.mem_flatMap]
  constructor
  · rintro ⟨i, hi, hj⟩
    rw [List.mem_range'_1] at hi
    exact ⟨i, hi.1, hi.2, hj⟩
  · rintro ⟨i, h1, h2, hj⟩
    exact ⟨i, List.mem_range'_1.mpr ⟨h1, h2⟩, hj⟩

/-- With linear DOFs only and a node query that returns valid nodes, every column of the
created pattern is a DOF below `global_dimension`. -/
theorem linear_columns_in_range (b : FEMBuilder) (input : Field) (hN : 0 < b.numprocessors_)
    (hd : 1 ≤ input.vmesh.dimensionality) (hlin : edge_dofs input = 0)
    (hvalid : ∀ c n, n ∈ input.vmesh.get_nodes c → n < input.vmesh.num_nodes) :
    ∃ M, (after_create b input).1.fematrix_ = some M ∧ ∀ j, j ∈ M.cols → j < M.nrows := by
  refine ⟨_, after_create_spec b input hN hd, ?_⟩
  rw [hlin]
  intro j hj
  simp only [pattern_matrix] at hj ⊢
  rw [mem_rows_concat] at hj
  obtain ⟨i, _, _, hji⟩ := hj
  rw [mem_row_cols] at hji
  obtain ⟨c, _, hjc⟩ := hji
  simp only [elem_dofs, ne_eq, not_true_eq_false, if_false, List.append_nil] at hjc
  have := hvalid c j hjc
  omega

set_option maxRecDepth 100000 in
/-- The edge branch of sparsity phase 1 (lines 780-786), which no field that `run`
accepts reaches: on a builder that is handed a field of basis order 2 on one line element
with the nodes 0, 1 and the edge 0, `setup` computes 2 node DOFs, 1 edge DOF and
`global_dimension = 3`, and the branch appends the edge 0 as `global_dimension + 0 = 3`,
so every row of the created pattern holds the column 3. -/
theorem edge_column_out_of_range :
    (each_worker (phase_setup quadratic_line) 0 builder_plain
      [Worker.new, Worker.new]).1.global_dimension_nodes = 2 ∧
    (each_worker (phase_setup quadratic_line) 0 builder_plain
      [Worker.new, Worker.new]).1.global_dimension_add_nodes = 1 ∧
    (each_worker (phase_setup quadratic_line) 0 builder_plain
      [Worker.new, Worker.new]).1.global_dimension = 3 ∧
    quadratic_line.vmesh.get_edges 0 = [0] ∧
    (discover_row quadratic_line.vmesh ((each_worker (phase_setup quadratic_line) 0
      builder_plain [Worker.new, Worker.new]).1, Worker.new) 0).2.mycols = [0, 1, 3] ∧
    (after_create builder_plain quadratic_line).1.fematrix_
      = some ⟨3, 3, [0, 3, 6, 9], [0, 1, 3, 0, 1, 3, 0, 1, 3], List.replicate 9 0⟩ := by
  refine ⟨?_, ?_, ?_, ?_, ?_, ?_⟩ <;> decide!

/-! ## The assembly phase on the derivative table that it receives -/

theorem foldlM_inv {α β : Type} (P : β → Prop) (f : β → α → Option β)
    (hf : ∀ b x b2, P b → f b x = some b2 → P b2) :
    ∀ (l : List α) (b b2 : β), P b → l.foldlM f b = some b2 → P b2
  | [], b, b2, hb, h => by
    simp at h
    rw [← h]; exact hb
  | x :: xs, b, b2, hb, h => by
    rw [List.foldlM_cons] at h
    cases hfx : f b x with
    | none => rw [hfx] at h; simp at h
    | some b1 =>
      rw [hfx] at h
      exact foldlM_inv P f hf xs b1 b2 (hf b x b1 hb hfx) h

theorem rd_mem {α : Type} (v : List α) (i : Nat) (x : α) (h : rd v i = some x) : x ∈ v := by
  unfold rd at h
  rw [List.get?_eq_getElem?] at h
  obtain ⟨hi, hx⟩ := List.getElem?_eq_some_iff.mp h
  rw [← hx]
  exact List.getElem_mem hi

theorem wr_same {α : Type} (l : List α) (j : Nat) (x : α) (l2 : List α)
    (h : wr l j x = some l2) (hx : rd l j = some x) : l2 = l := by
  unfold wr at h
  split at h
  · rename_i hj
    simp only [Option.some.injEq] at h
    rw [← h]
    unfold rd at hx
    rw [List.get?_eq_getElem?, List.getElem?_eq_getElem hj] at hx
    simp only [Option.some.injEq] at hx
    rw [← hx]
    exact set_same l j hj
  · cases h

theorem wr_zero (l : List ℚ) (j : Nat) (l2 : List ℚ) (hz : ∀ x ∈ l, x = 0)
    (h : wr l j 0 = some l2) : l2 = l := by
  have hj : j < l.length := by
    unfold wr at h
    split at h
    · assumption
    · cases h
  refine wr_same l j 0 l2 h ?_
  rw [rd_getD l j 0 hj]
  congr 1
  exact hz _ (by
    rw [List.getD_eq_getElem?_getD, List.getElem?_eq_getElem hj]
    exact List.getElem_mem hj)

theorem pad_all_zero (mesh : VMesh) : ∀ (ps : List (List ℚ)) (d : List (List ℚ)),
    pad_all mesh ps = .ok d → ∀ di ∈ d, ∀ x ∈ di, x = 0
  | [], d, h => by
    simp only [pad_all, Except.ok.injEq] at h
    rw [← h]
    intro di hdi
    cases hdi
  | pj :: ps, d, h => by
    unfold pad_all at h
    cases hp : pad_derivatives mesh pj with
    | error e => rw [hp] at h; cases h
    | ok dj =>
      rw [hp] at h
      cases hq : pad_all mesh ps with
      | error e => rw [hq] at h; cases h
      | ok ds =>
        rw [hq] at h
        simp only [Except.ok.injEq] at h
        rw [← h]
        intro di hdi
        rcases List.mem_cons.mp hdi with hdi | hdi
        · rw [hdi]
          unfold pad_derivatives at hp
          simp only at hp
          split at hp
          · simp only [Except.ok.injEq] at hp
            rw [← hp]
            intro x hx
            exact (List.mem_replicate.mp hx).2
          · cases hp
        · exact pad_all_zero mesh ps ds hq di hdi

theorem accumulate_point_zero (L : Nat) (Ji : Fin 9 → ℚ) (detJ : ℚ) (C : Tensor)
    (di : List ℚ) (row : Nat) (l l2 : List ℚ) (hz : ∀ x ∈ di, x = 0)
    (h : accumulate_point L Ji detJ C di row l = some l2) : l2 = l := by
  simp only [accumulate_point, Option.bind_eq_bind, Option.bind_eq_some] at h
  obtain ⟨a1, _, a2, _, a3, _, h⟩ := h
  refine foldlM_inv (fun l1 => l1 = l) _ ?_ _ l l2 rfl h
  intro l1 j l3 hl1 hstep
  simp only [Option.bind_eq_some] at hstep
  obtain ⟨x1, hx1, x2, hx2, x3, hx3, old, hold, hw⟩ := hstep
  have e1 := hz x1 (rd_mem _ _ _ hx1)
  have e2 := hz x2 (rd_mem _ _ _ hx2)
  have e3 := hz x3 (rd_mem _ _ _ hx3)
  subst e1 e2 e3
  simp only [zero_mul, add_zero] at hw
  rw [wr_same l1 j old l3 hw hold, hl1]

theorem quadrature_loop_zero (mesh : VMesh) (L : Nat) (C : Tensor) (c_ind row : Nat) (vol : ℚ)
    (p : List (List ℚ)) (w : List ℚ) (d : List (List ℚ)) (hz : ∀ di ∈ d, ∀ x ∈ di, x = 0) :
    ∀ (n i : Nat) (l : List ℚ) (r : LocalRow),
      quadrature_loop mesh L C c_ind row vol p w d n i l = some r → r.l_stiff = l
  | 0, _, l, r, h => by
    simp only [quadrature_loop, Option.some.injEq] at h
    rw [← h]
  | n + 1, i, l, r, h => by
    unfold quadrature_loop at h
    simp only [Option.bind_eq_bind, Option.bind_eq_some] at h
    obtain ⟨pi, _, h⟩ := h
    split at h
    · simp only [Option.some.injEq] at h
      rw [← h]
    · simp only [Option.bind_eq_some] at h
      obtain ⟨wi, _, di, hdi, l2, hacc, h⟩ := h
      have := accumulate_point_zero L _ _ C di row l l2 (hz di (rd_mem _ _ _ hdi)) hacc
      rw [← this]
      exact quadrature_loop_zero mesh L C c_ind row vol p w d hz n (i + 1) l2 r h

theorem zero_row_zero (L : Nat) (l l2 : List ℚ) (hz : ∀ x ∈ l, x = 0)
    (h : zero_row L l = some l2) : l2 = l := by
  unfold zero_row at h
  refine foldlM_inv (fun l1 => l1 = l) _ ?_ _ l l2 rfl h
  intro l1 j l3 hl1 hstep
  rw [hl1] at hstep
  exact wr_zero l j l3 hz hstep

theorem build_local_matrix_zero (tensors_ : TensorTable) (L : Nat) (input : Field)
    (c_ind row : Nat) (l_stiff : List ℚ) (p : List (List ℚ)) (w : List ℚ)
    (d : List (List ℚ)) (r : LocalRow) (hz : ∀ di ∈ d, ∀ x ∈ di, x = 0)
    (hl : ∀ x ∈ l_stiff, x = 0)
    (h : build_local_matrix tensors_ L input c_ind row l_stiff p w d = some r) :
    r.l_stiff = l_stiff := by
  unfold build_local_matrix at h
  simp only [Option.bind_eq_bind, Option.bind_eq_some] at h
  obtain ⟨T, _, h⟩ := h
  split at h
  · simp only [Option.bind_eq_some, Option.some.injEq] at h
    obtain ⟨l2, hl2, h⟩ := h
    rw [← h]
    exact zero_row_zero L l_stiff l2 hl hl2
  · simp only [Option.bind_eq_some] at h
    obtain ⟨l2, hl2, h⟩ := h
    have e := zero_row_zero L l_stiff l2 hl hl2
    split at h
    · simp only [Option.some.injEq] at h
      rw [← h]
      exact e
    · rw [← e]
      exact quadrature_loop_zero _ L T c_ind row _ p w d hz _ _ l2 r h

theorem regular_fill_loop_zero (mesh : VMesh) (L : Nat) (C : Tensor) (c_ind row : Nat)
    (vol : ℚ) (p : List (List ℚ)) (w : List ℚ) (d : List (List ℚ))
    (hz : ∀ di ∈ d, ∀ x ∈ di, x = 0) :
    ∀ (n i : Nat) (l : List ℚ) (pre : List (List ℚ)) (r : RegularRow),
      regular_fill_loop mesh L C c_ind row vol p w d n i l pre = some r → r.l_stiff = l
  | 0, _, l, pre, r, h => by
    simp only [regular_fill_loop, Option.some.injEq] at h
    rw [← h]
  | n + 1, i, l, pre, r, h => by
    unfold regular_fill_loop at h
    simp only [Option.bind_eq_bind, Option.bind_eq_some] at h
    obtain ⟨_, _, pi, _, h⟩ := h
    split at h
    · simp only [Option.some.injEq] at h
      rw [← h]
    · simp only [Option.bind_eq_some] at h
      obtain ⟨wi, _, pre2, _, di, hdi, P, _, l2, hacc, h⟩ := h
      have := accumulate_point_zero L _ _ C di row l l2 (hz di (rd_mem _ _ _ hdi)) hacc
      rw [← this]
      exact regular_fill_loop_zero mesh L C c_ind row vol p w d hz n (i + 1) l2 pre2 r h

theorem regular_cached_loop_zero (L : Nat) (C : Tensor) (row : Nat) (d : List (List ℚ))
    (pre : List (List ℚ)) (hz : ∀ di ∈ d, ∀ x ∈ di, x = 0) :
    ∀ (n i : Nat) (l l3 : List ℚ),
      regular_cached_loop L C row d pre n i l = some l3 → l3 = l
  | 0, _, l, l3, h => by
    simp only [regular_cached_loop, Option.some.injEq] at h
    rw [← h]
  | n + 1, i, l, l3, h => by
    unfold regular_cached_loop at h
    simp only [Option.bind_eq_bind, Option.bind_eq_some] at h
    obtain ⟨pc, _, di, hdi, P, _, l2, hacc, h⟩ := h
    have := accumulate_point_zero L _ _ C di row l l2 (hz di (rd_mem _ _ _ hdi)) hacc
    rw [← this]
    exact regular_cached_loop_zero L C row d pre hz n (i + 1) l2 l3 h

theorem build_local_matrix_regular_zero (tensors_ : TensorTable) (L : Nat) (input : Field)
    (c_ind row : Nat) (l_stiff : List ℚ) (p : List (List ℚ)) (w : List ℚ)
    (d : List (List ℚ)) (pre : List (List ℚ)) (r : RegularRow)
    (hz : ∀ di ∈ d, ∀ x ∈ di, x = 0) (hl : ∀ x ∈ l_stiff, x = 0)
    (h : build_local_matrix_regular tensors_ L input c_ind row l_stiff p w d pre = some r) :
    r.l_stiff = l_stiff := by
  unfold build_local_matrix_regular at h
  simp only [Option.bind_eq_bind, Option.bind_eq_some] at h
  obtain ⟨T, _, h⟩ := h
  split at h
  · simp only [Option.bind_eq_some, Option.some.injEq] at h
    obtain ⟨l2, hl2, h⟩ := h
    rw [← h]
    exact zero_row_zero L l_stiff l2 hl hl2
  · split at h
    · simp only [Option.bind_eq_some] at h
      obtain ⟨l2, hl2, h⟩ := h
      rw [← zero_row_zero L l_stiff l2 hl hl2]
      exact regular_fill_loop_zero _ L T c_ind row _ p w d hz _ _ l2 _ r h
    · simp only [Option.bind_eq_some, Option.some.injEq] at h
      obtain ⟨l2, hl2, l3, hl3, h⟩ := h
      rw [← h]
      simp only
      rw [regular_cached_loop_zero L T row d pre hz _ _ l2 l3 hl3]
      exact zero_row_zero L l_stiff l2 hl hl2

theorem coeffRef_add_zero_eq (M M2 : SparseRowMatrix) (row col : Nat)
    (h : M.coeffRef_add row col 0 = some M2) : M2 = M := by
  unfold SparseRowMatrix.coeffRef_add at h
  simp only [Option.bind_eq_bind, Option.bind_eq_some, Option.some.injEq] at h
  obtain ⟨k, _, old, hold, vals, hvals, h⟩ := h
  rw [add_zero] at hvals
  rw [← h, wr_same M.vals k old vals hvals hold]

theorem add_lcl_gbl_zero (M M2 : SparseRowMatrix) (row : Nat) (cols : List Nat)
    (lcl : List ℚ) (hz : ∀ x ∈ lcl, x = 0) (h : add_lcl_gbl M row cols lcl = some M2) :
    M2 = M := by
  unfold add_lcl_gbl at h
  refine foldlM_inv (fun M1 => M1 = M) _ ?_ _ M M2 rfl h
  intro M1 i M3 hM1 hstep
  simp only [Option.bind_eq_bind, Option.bind_eq_some] at hstep
  obtain ⟨c, _, a, ha, hstep⟩ := hstep
  rw [hz a (rd_mem _ _ _ ha)] at hstep
  rw [coeffRef_add_zero_eq M1 M3 row c hstep, hM1]

theorem row_and_add_zero (input : Field) (p : List (List ℚ)) (wt : List ℚ)
    (d : List (List ℚ)) (i c row : Nat) (s s2 : Asm) (M : SparseRowMatrix) (f : Bool)
    (hz : ∀ di ∈ d, ∀ x ∈ di, x = 0)
    (hs : Asm.zeroed M f s)
    (h : row_and_add input p wt d i c row s = some s2) :
    Asm.zeroed M f s2 := by
  unfold row_and_add at h
  simp only [Option.bind_eq_bind, Option.bind_eq_some, Option.some.injEq] at h
  obtain ⟨r, hr, M1, hM1, M2, hM2, h⟩ := h
  have e1 := build_local_matrix_zero _ _ input c row s.lsml p wt d r hz hs.2.1 hr
  rw [hs.1] at hM1
  cases hM1
  have e2 := add_lcl_gbl_zero M M2 i s.w.neib_dofs r.l_stiff (by rw [e1]; exact hs.2.1) hM2
  rw [← h]
  exact ⟨by simp only; rw [e2], by simp only; rw [e1]; exact hs.2.1, hs.2.2⟩

theorem row_and_add_regular_zero (input : Field) (p : List (List ℚ)) (wt : List ℚ)
    (d : List (List ℚ)) (i c row : Nat) (s s2 : Asm) (M : SparseRowMatrix) (f : Bool)
    (hz : ∀ di ∈ d, ∀ x ∈ di, x = 0)
    (hs : Asm.zeroed M f s)
    (h : row_and_add_regular input p wt d i c row s = some s2) :
    Asm.zeroed M f s2 := by
  unfold row_and_add_regular at h
  simp only [Option.bind_eq_bind, Option.bind_eq_some, Option.some.injEq] at h
  obtain ⟨r, hr, M1, hM1, M2, hM2, h⟩ := h
  have e1 := build_local_matrix_regular_zero _ _ input c row s.lsml p wt d _ r hz hs.2.1 hr
  rw [hs.1] at hM1
  cases hM1
  have e2 := add_lcl_gbl_zero M M2 i s.w.neib_dofs r.l_stiff (by rw [e1]; exact hs.2.1) hM2
  rw [← h]
  exact ⟨by simp only; rw [e2], by simp only; rw [e1]; exact hs.2.1, hs.2.2⟩

theorem ite_some_inv {α : Type} (P : α → Prop) (c : Prop) [Decidable c] (x y : Option α)
    (z : α) (h : (if c then x else y) = some z) (hx : x = some z → P z)
    (hy : y = some z → P z) : P z := by
  split at h
  · exact hx h
  · exact hy h

theorem some_inv {α : Type} (P : α → Prop) (x z : α) (h : some x = some z) (hx : P x) : P z := by
  cases h
  exact hx

theorem assemble_elem_zero (input : Field) (p : List (List ℚ)) (wt : List ℚ)
    (d : List (List ℚ)) (i : Nat) (s : Asm) (c : Nat) (s2 : Asm) (M : SparseRowMatrix)
    (f : Bool) (hz : ∀ di ∈ d, ∀ x ∈ di, x = 0)
    (hs : Asm.zeroed M f s)
    (h : assemble_elem input p wt d i s c = some s2) :
    Asm.zeroed M f s2 := by
  unfold assemble_elem at h
  refine ite_some_inv
    (Asm.zeroed M f)
    _ _ _ _ h (fun h1 => some_inv _ _ _ h1 hs) (fun h2 => ?_)
  refine ite_some_inv
    (Asm.zeroed M f)
    _ _ _ _ h2 (fun h1 => some_inv _ _ _ h1 hs) (fun h3 => ?_)
  obtain ⟨s1, hs1, h4⟩ := Option.bind_eq_some.mp h3
  have h1 : Asm.zeroed M f s1 := by
    refine foldlM_inv
      (Asm.zeroed M f)
      (fun t k => if rd (input.vmesh.get_nodes c) k = some i
        then row_and_add input p wt d i c k t else some t)
      (fun t k t2 ht hstep => ite_some_inv _ _ _ _ _ hstep
        (fun h5 => row_and_add_zero input p wt d i c k t t2 M f hz ht h5)
        (fun h5 => some_inv _ _ _ h5 ht)) _ _ s1 ?_ hs1
    exact hs
  refine ite_some_inv
    (Asm.zeroed M f)
    _ _ _ _ h4 (fun h5 => ?_) (fun h5 => some_inv _ _ _ h5 h1)
  exact foldlM_inv
    (Asm.zeroed M f)
    (fun t k => if (rd (if decide (s.b.global_dimension_add_nodes ≠ 0) = true
          then input.vmesh.get_edges c else s.w.ea) k).map (fun e => t.b.global_dimension + e)
          = some i
      then row_and_add input p wt d i c (k + (input.vmesh.get_nodes c).length) t else some t)
    (fun t k t2 ht hstep => ite_some_inv _ _ _ _ _ hstep
      (fun h6 => row_and_add_zero input p wt d i c _ t t2 M f hz ht h6)
      (fun h6 => some_inv _ _ _ h6 ht)) _ _ s2 h1 h5

theorem assemble_elem_regular_zero (input : Field) (p : List (List ℚ)) (wt : List ℚ)
    (d : List (List ℚ)) (i : Nat) (s : Asm) (c : Nat) (s2 : Asm) (M : SparseRowMatrix)
    (f : Bool) (hz : ∀ di ∈ d, ∀ x ∈ di, x = 0)
    (hs : Asm.zeroed M f s)
    (h : assemble_elem_regular input p wt d i s c = some s2) :
    Asm.zeroed M f s2 := by
  unfold assemble_elem_regular at h
  refine ite_some_inv
    (Asm.zeroed M f)
    _ _ _ _ h (fun h1 => some_inv _ _ _ h1 hs) (fun h2 => ?_)
  refine foldlM_inv
    (Asm.zeroed M f)
    (fun t k => if rd (input.vmesh.get_nodes c) k = some i
      then row_and_add_regular input p wt d i c k t else some t)
    (fun t k t2 ht hstep => ite_some_inv _ _ _ _ _ hstep
      (fun h5 => row_and_add_regular_zero input p wt d i c k t t2 M f hz ht h5)
      (fun h5 => some_inv _ _ _ h5 ht)) _ _ s2 ?_ h2
  exact hs

theorem assemble_dof_zero (input : Field) (p : List (List ℚ)) (wt : List ℚ)
    (d : List (List ℚ)) (s : Asm) (i : Nat) (s2 : Asm) (M : SparseRowMatrix) (f : Bool)
    (hz : ∀ di ∈ d, ∀ x ∈ di, x = 0)
    (hs : Asm.zeroed M f s)
    (h : assemble_dof input p wt d s i = some s2) :
    Asm.zeroed M f s2 := by
  unfold assemble_dof at h
  refine ite_some_inv
    (Asm.zeroed M f)
    _ _ _ _ h (fun h1 => some_inv _ _ _ h1 hs) (fun h2 => ?_)
  have hs0 : (if (select_elems s.b input.vmesh i s.w.ca).2 = true then
        s.b.warning "BuildFEMatrix only supports linear basis functions." else s.b).fematrix_
        = some M ∧
      (if (select_elems s.b input.vmesh i s.w.ca).2 = true then
        s.b.warning "BuildFEMatrix only supports linear basis functions."
        else s.b).force_symmetry = f := by
    split
    · exact ⟨hs.1, hs.2.2⟩
    · exact ⟨hs.1, hs.2.2⟩
  refine ite_some_inv
    (Asm.zeroed M f)
    _ _ _ _ h2 (fun h3 => ?_) (fun h3 => ?_)
  · refine foldlM_inv
      (Asm.zeroed M f)
      (assemble_elem_regular input p wt d i)
      (fun t c t2 ht hstep => assemble_elem_regular_zero input p wt d i t c t2 M f hz ht hstep)
      _ _ s2 ?_ h3
    exact ⟨hs0.1, hs.2.1, hs0.2⟩
  · refine foldlM_inv
      (Asm.zeroed M f)
      (assemble_elem input p wt d i)
      (fun t c t2 ht hstep => assemble_elem_zero input p wt d i t c t2 M f hz ht hstep)
      _ _ s2 ?_ h3
    exact ⟨hs0.1, hs.2.1, hs0.2⟩

theorem phase_assemble_zero (input : Field) (proc_num : Nat) (b : FEMBuilder) (w : Worker)
    (r : FEMBuilder × Worker) (M : SparseRowMatrix) (hM : b.fematrix_ = some M)
    (hv : ∀ x ∈ M.vals, x = 0) (h : phase_assemble input proc_num b w = some r) :
    r.1.fematrix_ = some M ∧ r.1.force_symmetry = b.force_symmetry := by
  unfold phase_assemble at h
  simp only [Option.bind_eq_bind, Option.bind_eq_some] at h
  obtain ⟨ns, _, ne, _, M1, hM1, vals, hvals, h⟩ := h
  rw [hM] at hM1
  cases hM1
  have hvals2 : vals = M.vals := by
    refine foldlM_inv (fun v => v = M.vals) _ ?_ _ M.vals vals rfl hvals
    intro v k v2 hv1 hstep
    rw [hv1] at hstep
    exact wr_zero M.vals k v2 hv hstep
  rw [hvals2] at h
  cases hni : create_numerical_integration input.vmesh with
  | error e =>
    rw [hni] at h
    simp only [Option.some.injEq] at h
    rw [← h]
    exact ⟨rfl, rfl⟩
  | ok ni =>
    rw [hni] at h
    simp only [Option.bind_eq_some] at h
    obtain ⟨s, hs, h⟩ := h
    have hz : ∀ di ∈ ni.2.2, ∀ x ∈ di, x = 0 := by
      unfold create_numerical_integration at hni
      simp only at hni
      cases hpad : pad_all input.vmesh
          (input.vmesh.get_gaussian_scheme
            (if (input.vmesh.is_quad_element || input.vmesh.is_hex_element ||
              input.vmesh.is_prism_element) = true then 2 else 1)).1 with
      | error e => rw [hpad] at hni; cases hni
      | ok d =>
        rw [hpad] at hni
        simp only [Except.ok.injEq] at hni
        rw [← hni]
        exact pad_all_zero _ _ d hpad
    have hfin := foldlM_inv
      (Asm.zeroed M b.force_symmetry)
      _ (fun t i t2 ht hstep => assemble_dof_zero input ni.1 ni.2.1 ni.2.2 t i t2 M
        b.force_symmetry hz ht hstep)
      _ _ s ⟨rfl, fun x hx => (List.mem_replicate.mp hx).2, rfl⟩ hs
    split at h
    · simp only [Option.some.injEq] at h
      rw [← h]
      exact ⟨hfin.1, hfin.2.2⟩
    · simp only [Option.some.injEq] at h
      rw [← h]
      exact ⟨hfin.1, hfin.2.2⟩

theorem each_worker_opt_zero (input : Field) (M : SparseRowMatrix)
    (hv : ∀ x ∈ M.vals, x = 0) :
    ∀ (ws : List Worker) (p : Nat) (b : FEMBuilder) (r : FEMBuilder × List Worker),
      b.fematrix_ = some M → each_worker_opt (phase_assemble input) p b ws = some r →
      r.1.fematrix_ = some M ∧ r.1.force_symmetry = b.force_symmetry
  | [], _, b, r, hM, h => by
    simp only [each_worker_opt, Option.some.injEq] at h
    rw [← h]
    exact ⟨hM, rfl⟩
  | w :: ws, p, b, r, hM, h => by
    simp only [each_worker_opt, Option.bind_eq_bind, Option.bind_eq_some,
      Option.some.injEq] at h
    obtain ⟨r1, hr1, rs, hrs, h⟩ := h
    have h1 := phase_assemble_zero input p b w r1 M hM hv hr1
    have h2 := each_worker_opt_zero input M hv ws (p + 1) r1.1 rs h1.1 hrs
    rw [← h]
    exact ⟨h2.1, h2.2.trans h1.2⟩

theorem each_worker_force (step : Nat → FEMBuilder → Worker → FEMBuilder × Worker)
    (hstep : ∀ p b w, (step p b w).1.force_symmetry = b.force_symmetry) :
    ∀ (ws : List Worker) (p : Nat) (b : FEMBuilder),
      (each_worker step p b ws).1.force_symmetry = b.force_symmetry
  | [], _, _ => rfl
  | w :: ws, p, b => by
    simp only [each_worker]
    rw [each_worker_force step hstep ws (p + 1) (step p b w).1, hstep]

theorem discover_fold_force (mesh : VMesh) : ∀ (l : List Nat) (s : FEMBuilder × Worker),
    (l.foldl (discover_row mesh) s).1.force_symmetry = s.1.force_symmetry
  | [], _ => rfl
  | i :: l, s => by
    rw [List.foldl_cons, discover_fold_force mesh l (discover_row mesh s i)]
    simp only [discover_row]
    split <;> rfl

theorem after_create_force (b : FEMBuilder) (input : Field) :
    (after_create b input).1.force_symmetry = b.force_symmetry := by
  unfold after_create
  simp only
  rw [each_worker_force phase_create (fun p b w => by simp only [phase_create]; split <;> rfl),
    each_worker_force phase_copy (fun p b w => rfl),
    each_worker_force phase_offsets (fun p b w => by simp only [phase_offsets]; split <;> rfl),
    each_worker_force (phase_discover input) (fun p b w => by
      simp only [phase_discover]
      exact discover_fold_force input.vmesh _ _),
    each_worker_force (phase_setup input) (fun p b w => by
      simp only [phase_setup, setup]
      split
      · split
        · rfl
        · split <;> rfl
      · rfl)]

theorem pattern_vals_zero (Gn Ga : Nat) (mesh : VMesh) :
    ∀ x ∈ (pattern_matrix Gn Ga mesh).vals, x = 0 := by
  intro x hx
  exact (List.mem_replicate.mp hx).2

theorem length_resize {α : Type} (v : List α) (n : Nat) (x : α) : (resize v n x).length = n := by
  simp [resize]
  omega

/-- The output of a successful `build_matrix`: for at least one worker, whenever the call
returns true the output handle holds the pattern of the mesh with every value 0
(symmetrised when `ForceSymmetry` is set), whatever the conductivity table, the element
tensors and the number of workers are.  The values are 0 because the derivative table
that `create_numerical_integration` passes to the local-matrix functions holds zeros
only. -/
theorem build_matrix_output (b : FEMBuilder) (input : Field) (ctable : Option DenseMatrix)
    (output : Option SparseRowMatrix) (b2 : FEMBuilder) (O : Option SparseRowMatrix)
    (hN : 0 < b.numprocessors_)
    (h : build_matrix b input ctable output = some (true, b2, O)) :
    O = some (if b.force_symmetry then
        (pattern_matrix input.vmesh.num_nodes (edge_dofs input) input.vmesh).symmetrize
      else pattern_matrix input.vmesh.num_nodes (edge_dofs input) input.vmesh) := by
  have hd : 1 ≤ input.vmesh.dimensionality := by
    by_contra hcon
    obtain ⟨b3, hb3⟩ := low_dimension_is_fatal b input ctable output (by omega) hN
    rw [hb3] at h
    simp at h
  unfold build_matrix at h
  simp only [Option.bind_eq_bind, Option.bind_eq_some] at h
  obtain ⟨bR, hrun, h⟩ := h
  rw [run_tasks_eq _ input (by simp only; rw [length_resize]) hd] at hrun
  simp only [Option.map_eq_some'] at hrun
  obtain ⟨r, hr, hr1⟩ := hrun
  have hpat := after_create_spec
    { ({ b with tensors_ := convert_table b.tensors_ ctable } : FEMBuilder) with
      success_ := resize b.success_ b.numprocessors_ true } input hN hd
  have hfor := after_create_force
    { ({ b with tensors_ := convert_table b.tensors_ ctable } : FEMBuilder) with
      success_ := resize b.success_ b.numprocessors_ true } input
  have hz := each_worker_opt_zero input _ (pattern_vals_zero _ _ _) _ 0 _ r hpat hr
  rw [hr1] at hz
  rw [hfor] at hz
  simp only at hz
  split at h
  · simp at h
  · rw [hz.2] at h
    by_cases hf : b.force_symmetry = true
    · rw [if_pos hf] at h ⊢
      simp only [Option.bind_eq_some, Option.some.injEq, Prod.mk.injEq, true_and] at h
      obtain ⟨A, hA, _, hO⟩ := h
      rw [hz.1] at hA
      cases hA
      exact hO.symm
    · rw [if_neg hf] at h ⊢
      simp only [Option.some.injEq, Prod.mk.injEq, true_and] at h
      rw [← h.2, hz.1]

/-! ## Properties of the assembled matrix -/

theorem build_result_output (b : FEMBuilder) (input : Field) (ctable : Option DenseMatrix)
    (output : Option SparseRowMatrix) (O : Option SparseRowMatrix)
    (hN : 0 < b.numprocessors_)
    (h : build_result b input ctable output = some (true, O)) :
    O = some (if b.force_symmetry then
        (pattern_matrix input.vmesh.num_nodes (edge_dofs input) input.vmesh).symmetrize
      else pattern_matrix input.vmesh.num_nodes (edge_dofs input) input.vmesh) := by
  unfold build_result at h
  simp only [Option.map_eq_some', Prod.mk.injEq] at h
  obtain ⟨r, hr, h1, h2⟩ := h
  refine build_matrix_output b input ctable output r.2.1 O hN ?_
  rw [hr, ← h1, ← h2]

theorem coeff_zero (A : SparseRowMatrix) (hz : ∀ x ∈ A.vals, x = 0) (i j : Nat) :
    A.coeff i j = 0 := by
  unfold SparseRowMatrix.coeff
  cases hf : A.find i j with
  | none => rfl
  | some k =>
    cases hv : rd A.vals k with
    | none => simp [hv]
    | some x => simp [hv, hz x (rd_mem _ _ _ hv)]

theorem symmetrize_vals_zero (A : SparseRowMatrix) (hz : ∀ x ∈ A.vals, x = 0) :
    ∀ x ∈ A.symmetrize.vals, x = 0 := by
  intro x hx
  simp only [SparseRowMatrix.symmetrize, List.mem_flatten, List.mem_map] at hx
  obtain ⟨l, ⟨i, _, hl⟩, hxl⟩ := hx
  rw [← hl] at hxl
  simp only [List.mem_map] at hxl
  obtain ⟨j, _, hj⟩ := hxl
  rw [← hj, coeff_zero A hz, coeff_zero A hz]
  norm_num

theorem output_vals_zero (f : Bool) (Gn Ga : Nat) (mesh : VMesh) :
    ∀ x ∈ (if f then (pattern_matrix Gn Ga mesh).symmetrize
      else pattern_matrix Gn Ga mesh).vals, x = 0 := by
  cases f
  · exact pattern_vals_zero Gn Ga mesh
  · exact symmetrize_vals_zero _ (pattern_vals_zero Gn Ga mesh)

theorem getD_of_zero (l : List ℚ) (hz : ∀ x ∈ l, x = 0) (p : Nat) : l.getD p 0 = 0 := by
  rw [List.getD_eq_getElem?_getD]
  cases h : l[p]? with
  | none => rfl
  | some x =>
    obtain ⟨hi, hx⟩ := List.getElem?_eq_some_iff.mp h
    simp only [Option.getD_some]
    exact hz x (by rw [← hx]; exact List.getElem_mem hi)

theorem symmetrize_lengths (A : SparseRowMatrix) :
    A.symmetrize.vals.length = A.symmetrize.cols.length := by
  simp [SparseRowMatrix.symmetrize, List.length_flatten, Function.comp_def]

/-- C25: for a fixed mesh, basis order, worker count (at least 1) and symmetry flag, the
pattern that `build_matrix` produces is the same for any two conductivity inputs (tables
and element tensors): the same row-pointer array and the same column array, and both
value arrays have the length of that column array. -/
theorem pattern_ignores_conductivity (b1 b2 : FEMBuilder) (input1 input2 : Field)
    (ct1 ct2 : Option DenseMatrix) (out1 out2 O1 O2 : Option SparseRowMatrix)
    (hmesh : input1.vmesh = input2.vmesh)
    (hord : input1.vfield.basis_order = input2.vfield.basis_order)
    (hN : 0 < b1.numprocessors_) (hw : b1.numprocessors_ = b2.numprocessors_)
    (hf : b1.force_symmetry = b2.force_symmetry)
    (e1 : build_result b1 input1 ct1 out1 = some (true, O1))
    (e2 : build_result b2 input2 ct2 out2 = some (true, O2)) :
    ∃ M1 M2, O1 = some M1 ∧ O2 = some M2 ∧ M1.rows = M2.rows ∧ M1.cols = M2.cols ∧
      M1.vals.length = M1.cols.length ∧ M2.vals.length = M1.cols.length := by
  have r1 := build_result_output b1 input1 ct1 out1 O1 hN e1
  have r2 := build_result_output b2 input2 ct2 out2 O2 (by omega) e2
  have he : edge_dofs input1 = edge_dofs input2 := by
    unfold edge_dofs
    rw [hmesh, hord]
  rw [hf, hmesh, he] at r1
  refine ⟨_, _, r1, r2, rfl, rfl, ?_, ?_⟩ <;>
  · cases b2.force_symmetry
    · simp [pattern_matrix, length_rows_concat_zero]
    · exact symmetrize_lengths _

set_option maxRecDepth 100000 in
theorem pattern_ignores_conductivity_witness :
    ∃ M1 M2, some (tet_matrix (List.replicate 16 0)) = some M1 ∧
      some (tet_matrix (List.replicate 16 0)) = some M2 ∧ M1.rows = M2.rows ∧
      M1.cols = M2.cols ∧ M1.vals.length = M1.cols.length ∧
      M2.vals.length = M1.cols.length :=
  pattern_ignores_conductivity builder_plain builder_plain (tet_field 3 (-1) 4)
    { tet_field 3 (-1) 4 with conductivity_table := [("", Tensor.zero)] }
    none (some table_two) none none (some (tet_matrix (List.replicate 16 0)))
    (some (tet_matrix (List.replicate 16 0))) rfl rfl (by decide) rfl rfl
    (by decide!) (by decide!)

theorem integration_table_zero (mesh : VMesh) (ni : List (List ℚ) × List ℚ × List (List ℚ))
    (h : create_numerical_integration mesh = .ok ni) : ∀ di ∈ ni.2.2, ∀ x ∈ di, x = 0 := by
  unfold create_numerical_integration at h
  simp only at h
  cases hpad : pad_all mesh
      (mesh.get_gaussian_scheme
        (if (mesh.is_quad_element || mesh.is_hex_element || mesh.is_prism_element) = true
          then 2 else 1)).1 with
  | error e => rw [hpad] at h; cases h
  | ok d =>
    rw [hpad] at h
    simp only [Except.ok.injEq] at h
    rw [← h]
    exact pad_all_zero _ _ d hpad

/-! ## The basis cache of `run` -/

set_option maxRecDepth 100000 in
/-- C24 (the code at the failing input): with basis generation on and a cache for the
mesh generation, `run` assigns the reconstructed matrix to the output handle and then
calls `build_matrix`, which fails on a mesh of dimensionality 0 and leaves the handle as
it received it; `run` returns false while the handle, null on entry, holds the
reconstructed matrix. -/
theorem failed_run_exposes_matrix :
    (build_matrix (FEMBuilder.new 2 false true []) (tet_field 0 1 4) (some table_two)
      (some (tet_matrix (List.replicate 16 2)))).map (fun r => (r.1, r.2.2))
      = some (false, some (tet_matrix (List.replicate 16 2))) ∧
    (run algo_cached (some (tet_field 0 1 4)) (some table_two) none).map
      (fun r => (r.1, r.2.2)) = some (false, some (tet_matrix (List.replicate 16 2))) := by
  refine ⟨?_, ?_⟩ <;> decide!

theorem flat_length {α : Type} (L : Nat → List Nat) (V : Nat → List α)
    (hlen : ∀ k, (V k).length = (L k).length) (n : Nat) :
    (((List.range n).map V).flatten).length = rows_before L n := by
  induction n with
  | zero => simp [rows_before]
  | succ n ih =>
    rw [List.range_succ, List.map_append, List.flatten_append, List.length_append, ih,
      rows_before_succ]
    simp [hlen]

theorem flat_index {α : Type} (L : Nat → List Nat) (V : Nat → List α)
    (hlen : ∀ k, (V k).length = (L k).length) :
    ∀ (n i t : Nat), i < n → t < (L i).length →
      (((List.range n).map V).flatten)[rows_before L i + t]? = (V i)[t]?
  | 0, _, _, hi, _ => by omega
  | n + 1, i, t, hi, ht => by
    rw [List.range_succ, List.map_append, List.flatten_append]
    by_cases hin : i < n
    · have hmono := rows_before_mono L (show i + 1 ≤ n by omega)
      rw [rows_before_succ] at hmono
      rw [List.getElem?_append_left (by rw [flat_length L V hlen]; omega)]
      exact flat_index L V hlen n i t hin ht
    · have hi2 : i = n := by omega
      subst hi2
      rw [List.getElem?_append_right (by rw [flat_length L V hlen]; omega),
        flat_length L V hlen, Nat.add_sub_cancel_left]
      simp

theorem take_map_range {α : Type} (F : Nat → α) (n i : Nat) (hi : i ≤ n) :
    ((List.range n).map F).take i = (List.range i).map F := by
  rw [← List.map_take, List.take_range, Nat.min_eq_left hi]

/-- The columns that `symmetrize` stores in row `i`. -/
theorem symmetrize_rows (A : SparseRowMatrix) (i : Nat) (hi : i ≤ A.nrows) :
    rd A.symmetrize.rows i = some (rows_before (fun i => (List.range A.ncols).filter
      (fun j => (A.find i j).isSome || (A.find j i).isSome)) i) := by
  simp only [SparseRowMatrix.symmetrize, rd, List.get?_eq_getElem?]
  rw [List.getElem?_map, List.getElem?_range (by omega)]
  simp only [Option.map_some', Option.some.injEq]
  rw [take_map_range _ _ _ hi, List.map_map]
  rfl

theorem csr_coeff (S : SparseRowMatrix) (R : Nat → List Nat) (g : Nat → Nat → ℚ) (n : Nat)
    (hrows : ∀ i, i ≤ n → rd S.rows i = some (rows_before R i))
    (hcols : S.cols = ((List.range n).map R).flatten)
    (hvals : S.vals = ((List.range n).map (fun i => (R i).map (g i))).flatten)
    (i j : Nat) (hi : i < n) :
    S.coeff i j = if j ∈ R i then g i j else 0 := by
  have hc : ∀ t, t < (R i).length → S.cols[rows_before R i + t]? = (R i)[t]? := fun t ht => by
    rw [hcols]
    exact flat_index R R (fun _ => rfl) n i t hi ht
  have hv : ∀ t, t < (R i).length →
      S.vals[rows_before R i + t]? = ((R i).map (g i))[t]? := fun t ht => by
    rw [hvals]
    exact flat_index R (fun i => (R i).map (g i)) (fun _ => by simp) n i t hi ht
  unfold SparseRowMatrix.coeff
  cases hf : S.find i j with
  | some k =>
    unfold SparseRowMatrix.find at hf
    rw [hrows i (by omega), hrows (i + 1) (by omega)] at hf
    simp only [Option.bind_eq_bind, Option.some_bind, rows_before_succ,
      Nat.add_sub_cancel_left] at hf
    have hk := List.mem_of_find?_eq_some hf
    have hp := List.find?_some hf
    rw [List.mem_range'_1] at hk
    simp only [decide_eq_true_eq, rd, List.get?_eq_getElem?] at hp
    obtain ⟨t, ht0⟩ : ∃ t, k = rows_before R i + t := ⟨k - rows_before R i, by omega⟩
    subst ht0
    have ht : t < (R i).length := by omega
    rw [hc t ht, List.getElem?_eq_getElem ht] at hp
    simp only [Option.some.injEq] at hp
    have hmem : j ∈ R i := by rw [← hp]; exact List.getElem_mem ht
    rw [if_pos hmem]
    simp only [Option.some_bind, rd, List.get?_eq_getElem?]
    rw [hv t ht, List.getElem?_map, List.getElem?_eq_getElem ht]
    simp only [Option.map_some', Option.getD_some, hp]
  | none =>
    unfold SparseRowMatrix.find at hf
    rw [hrows i (by omega), hrows (i + 1) (by omega)] at hf
    simp only [Option.bind_eq_bind, Option.some_bind, rows_before_succ,
      Nat.add_sub_cancel_left, List.find?_eq_none, List.mem_range'_1, decide_eq_true_eq,
      rd, List.get?_eq_getElem?] at hf
    have hnot : j ∉ R i := by
      intro hmem
      obtain ⟨t, ht, htj⟩ := List.getElem_of_mem hmem
      refine hf _ ⟨Nat.le_add_right _ t, by omega⟩ ?_
      rw [hc t ht, List.getElem?_eq_getElem ht, htj]
    rw [if_neg hnot]
    rfl

theorem coeff_of_find_none (A : SparseRowMatrix) (i j : Nat) (h : (A.find i j).isSome = false) :
    A.coeff i j = 0 := by
  unfold SparseRowMatrix.coeff
  have : A.find i j = none := by simpa using h
  rw [this]
  rfl

theorem symmetrize_coeff (A : SparseRowMatrix) (i j : Nat) (hi : i < A.nrows)
    (hj : j < A.ncols) :
    A.symmetrize.coeff i j = (1 / 2 : ℚ) * (A.coeff j i + A.coeff i j) := by
  rw [csr_coeff A.symmetrize
    (fun i => (List.range A.ncols).filter (fun j => (A.find i j).isSome || (A.find j i).isSome))
    (fun i j => (1 / 2 : ℚ) * (A.coeff j i + A.coeff i j)) A.nrows
    (fun k hk => symmetrize_rows A k hk) rfl rfl i j hi]
  by_cases hmem : j ∈ (List.range A.ncols).filter
      (fun j => (A.find i j).isSome || (A.find j i).isSome)
  · rw [if_pos hmem]
  · rw [if_neg hmem]
    have hboth : (A.find i j).isSome = false ∧ (A.find j i).isSome = false := by
      have : ¬ ((A.find i j).isSome || (A.find j i).isSome) = true := by
        intro hc
        exact hmem (List.mem_filter.mpr ⟨List.mem_range.mpr hj, hc⟩)
      simpa using this
    rw [coeff_of_find_none A i j hboth.1, coeff_of_find_none A j i hboth.2]
    norm_num

theorem build_matrix_state (b : FEMBuilder) (input : Field) (ctable : Option DenseMatrix)
    (output : Option SparseRowMatrix) (b2 : FEMBuilder) (O : Option SparseRowMatrix)
    (hN : 0 < b.numprocessors_)
    (h : build_matrix b input ctable output = some (true, b2, O)) :
    b2.force_symmetry = b.force_symmetry ∧ ∃ A, b2.fematrix_ = some A ∧
      O = some (if b.force_symmetry then A.symmetrize else A) := by
  have hd : 1 ≤ input.vmesh.dimensionality := by
    by_contra hcon
    obtain ⟨b3, hb3⟩ := low_dimension_is_fatal b input ctable output (by omega) hN
    rw [hb3] at h
    simp at h
  have hO := build_matrix_output b input ctable output b2 O hN h
  unfold build_matrix at h
  simp only [Option.bind_eq_bind, Option.bind_eq_some] at h
  obtain ⟨bR, hrun, h⟩ := h
  rw [run_tasks_eq _ input (by simp only; rw [length_resize]) hd] at hrun
  simp only [Option.map_eq_some'] at hrun
  obtain ⟨r, hr, hr1⟩ := hrun
  have hpat := after_create_spec
    { ({ b with tensors_ := convert_table b.tensors_ ctable } : FEMBuilder) with
      success_ := resize b.success_ b.numprocessors_ true } input hN hd
  have hfor := after_create_force
    { ({ b with tensors_ := convert_table b.tensors_ ctable } : FEMBuilder) with
      success_ := resize b.success_ b.numprocessors_ true } input
  have hz := each_worker_opt_zero input _ (pattern_vals_zero _ _ _) _ 0 _ r hpat hr
  rw [hr1, hfor] at hz
  simp only at hz
  have hb2 : b2 = bR := by
    split at h
    · simp at h
    · split at h
      · simp only [Option.bind_eq_some, Option.some.injEq, Prod.mk.injEq, true_and] at h
        obtain ⟨A, _, hb, _⟩ := h
        exact hb.symm
      · simp only [Option.some.injEq, Prod.mk.injEq, true_and] at h
        exact h.1.symm
  rw [hb2]
  exact ⟨hz.2, _, hz.1, hO⟩

/-! ## Symmetry of the local stiffness matrix -/

theorem point_inc_symm (L : Nat) (Ji : Fin 9 → ℚ) (detJ : ℚ) (C : Tensor) (di : List ℚ)
    (a b : Nat) : point_inc L Ji detJ C di a b = point_inc L Ji detJ C di b a := by
  simp only [point_inc]
  ring

theorem quad_sum_symm (mesh : VMesh) (L : Nat) (C : Tensor) (c_ind : Nat) (vol : ℚ)
    (p : List (List ℚ)) (w : List ℚ) (d : List (List ℚ)) (i n a b : Nat) :
    quad_sum mesh L C c_ind a vol p w d i n b = quad_sum mesh L C c_ind b vol p w d i n a := by
  unfold quad_sum
  congr 1
  apply List.map_congr_left
  intro q _
  exact point_inc_symm _ _ _ _ _ _ _

/-- C33: for every element, every tensor and every pair of local indices `a`, `b` below
`local_dimension`, with the reads of the quadrature tables in range, the calls
`build_local_matrix(c, a)` and `build_local_matrix(c, b)` return, with the same flag, and
entry `b` of the row of `a` equals entry `a` of the row of `b`: the local stiffness
matrix is symmetric, whatever the entries of the tensor below its diagonal are.  With
positive determinants both calls return true. -/
theorem local_matrix_symmetric (tensors_ : TensorTable) (L : Nat) (input : Field)
    (c_ind a b : Nat) (la lb : List ℚ) (p : List (List ℚ)) (w : List ℚ)
    (d : List (List ℚ)) (T : Tensor)
    (hT : resolve_tensor tensors_ input.vfield c_ind = some T)
    (ha : a < L) (hb : b < L) (hla : L ≤ la.length) (hlb : L ≤ lb.length)
    (hp : d.length ≤ p.length) (hw : d.length ≤ w.length)
    (hd : ∀ q, q < d.length → 3 * L ≤ (d.getD q []).length) :
    ∃ ra rb, build_local_matrix tensors_ L input c_ind a la p w d = some ra ∧
      build_local_matrix tensors_ L input c_ind b lb p w d = some rb ∧
      ra.ok = rb.ok ∧ ra.l_stiff.getD b 0 = rb.l_stiff.getD a 0 ∧
      ((∀ q, q < d.length → 0 < det_at input.vmesh c_ind p q) →
        1 ≤ input.vmesh.dimensionality ∧ input.vmesh.dimensionality ≤ 3 →
        ra.ok = true ∧ rb.ok = true) := by
  by_cases hz : T.all_zero = true
  · unfold build_local_matrix
    rw [hT]
    simp only [Option.bind_eq_bind, Option.some_bind, zero_row_eq L la hla,
      zero_row_eq L lb hlb, if_pos hz]
    refine ⟨_, _, rfl, rfl, rfl, ?_, fun _ _ => ⟨rfl, rfl⟩⟩
    simp only
    rw [getD_zeros L _ b hb, getD_zeros L _ a ha]
  · have hnz : T.all_zero = false := by
      cases h : T.all_zero
      · rfl
      · exact absurd h hz
    by_cases hdim : 1 ≤ input.vmesh.dimensionality ∧ input.vmesh.dimensionality ≤ 3
    · rw [build_local_loop tensors_ L input c_ind a la p w d T hT hnz hdim hla,
        build_local_loop tensors_ L input c_ind b lb p w d T hT hnz hdim hlb]
      obtain ⟨ra, ha1, _, ha3⟩ := qloop_spec input.vmesh L T c_ind a
        input.vmesh.get_element_size p w d ha d.length 0
        (List.replicate L 0 ++ la.drop L) (by simp) (by omega) (by omega) (by omega) hd
      obtain ⟨rb, hb1, _, hb3⟩ := qloop_spec input.vmesh L T c_ind b
        input.vmesh.get_element_size p w d hb d.length 0
        (List.replicate L 0 ++ lb.drop L) (by simp) (by omega) (by omega) (by omega) hd
      refine ⟨ra, rb, ha1, hb1, ?_⟩
      rcases ha3 with ⟨a1, _, a3, a4⟩ | ⟨a1, _, m, a3, a4, a5, a6⟩
      · rcases hb3 with ⟨b1, _, _, b4⟩ | ⟨_, _, n, b3, b4, _, _⟩
        · refine ⟨by rw [a1, b1], ?_, fun _ _ => ⟨a1, b1⟩⟩
          rw [a4 b, b4 a, if_pos hb, if_pos ha, getD_zeros L _ b hb, getD_zeros L _ a ha,
            quad_sum_symm]
        · exact absurd (a3 (0 + n) (by omega) (by omega)) (not_lt.mpr b4)
      · rcases hb3 with ⟨_, _, b3, _⟩ | ⟨b1, _, n, b3, b4, b5, b6⟩
        · exact absurd (b3 (0 + m) (by omega) (by omega)) (not_lt.mpr a4)
        · have hmn : m = n := by
            rcases Nat.lt_trichotomy m n with h | h | h
            · exact absurd (b5 (0 + m) (by omega) (by omega)) (not_lt.mpr a4)
            · exact h
            · exact absurd (a5 (0 + n) (by omega) (by omega)) (not_lt.mpr b4)
          subst hmn
          refine ⟨by rw [a1, b1], ?_, fun hdet _ => ?_⟩
          · rw [a6 b, b6 a, if_pos hb, if_pos ha, getD_zeros L _ b hb, getD_zeros L _ a ha,
              quad_sum_symm]
          · exact absurd (hdet m a3) (not_lt.mpr (by simpa using a4))
    · have hd2 : input.vmesh.dimensionality < 1 ∨ input.vmesh.dimensionality > 3 := by omega
      unfold build_local_matrix
      rw [hT]
      simp only [Option.bind_eq_bind, Option.some_bind, zero_row_eq L la hla,
        zero_row_eq L lb hlb, hnz, Bool.false_eq_true, if_false, if_pos hd2]
      refine ⟨_, _, rfl, rfl, rfl, ?_, fun _ h => absurd h hdim⟩
      simp only
      rw [getD_zeros L _ b hb, getD_zeros L _ a ha]

set_option maxRecDepth 100000 in
theorem local_matrix_symmetric_witness :
    ∃ ra rb, build_local_matrix [] 4 (tet_field 3 1 4) 0 1 [0, 0, 0, 0]
        [[1 / 4, 1 / 4, 1 / 4]] [1] [tet_gradients] = some ra ∧
      build_local_matrix [] 4 (tet_field 3 1 4) 0 2 [0, 0, 0, 0]
        [[1 / 4, 1 / 4, 1 / 4]] [1] [tet_gradients] = some rb ∧
      ra.ok = rb.ok ∧ ra.l_stiff.getD 2 0 = rb.l_stiff.getD 1 0 ∧
      ((∀ q, q < [tet_gradients].length →
          0 < det_at (tet_field 3 1 4).vmesh 0 [[1 / 4, 1 / 4, 1 / 4]] q) →
        1 ≤ (tet_field 3 1 4).vmesh.dimensionality ∧
          (tet_field 3 1 4).vmesh.dimensionality ≤ 3 →
        ra.ok = true ∧ rb.ok = true) :=
  local_matrix_symmetric [] 4 (tet_field 3 1 4) 0 1 2 [0, 0, 0, 0] [0, 0, 0, 0]
    [[1 / 4, 1 / 4, 1 / 4]] [1] [tet_gradients] unit_tensor rfl
    (by decide) (by decide) (by decide) (by decide) (by decide) (by decide) (by decide!)

/-! ## The derivative table of `create_numerical_integration` -/

theorem pad_derivatives_length (mesh : VMesh) (pj dj : List ℚ)
    (h : pad_derivatives mesh pj = .ok dj) :
    dj.length = ((size_t_modulus + 3 - pj.length % size_t_modulus) % size_t_modulus
      * (mesh.get_derivate_weights pj).length) % size_t_modulus ∧ ∀ x ∈ dj, x = 0 := by
  unfold pad_derivatives at h
  simp only at h
  split at h
  · simp only [Except.ok.injEq] at h
    rw [← h]
    exact ⟨by simp, fun x hx => (List.mem_replicate.mp hx).2⟩
  · cases h

set_option maxRecDepth 100000 in
/-- C35 (the code at the failing input): on the one-tetrahedron mesh the mesh returns
the twelve derivative weights of the linear tetrahedron (three coordinate blocks of
`local_dimension = 4` entries) for the quadrature point, and
`create_numerical_integration` returns the empty list as `d[0]`: the weights are gone
and the read at offset `row` is out of range, in `build_local_matrix` and so in
`build_matrix`.  On the one-triangle mesh the mesh returns six weights and `d[0]` holds
six zeros: neither the weights nor three blocks of three entries, and the read at
offset `2·local_dimension + row` is out of range. -/
theorem derivative_table_is_replaced :
    (tet_mesh 3 1 4).get_derivate_weights [1 / 4, 1 / 4, 1 / 4] = tet_gradients ∧
    tet_gradients.length = 3 * (tet_mesh 3 1 4).num_nodes_per_elem ∧
    (create_numerical_integration (tet_mesh 3 1 4)).toOption
      = some ([[1 / 4, 1 / 4, 1 / 4]], [1], [[]]) ∧
    (build_local_matrix [] 4 (tet_field 3 1 4) 0 0 [0, 0, 0, 0] [[1 / 4, 1 / 4, 1 / 4]]
      [1] [[]]).isNone = true ∧
    build_result builder_plain (tet_field 3 1 4) none none = none ∧
    tri_mesh.get_derivate_weights [1 / 3, 1 / 3] = [-1, 1, 0, -1, 0, 1] ∧
    (create_numerical_integration tri_mesh).toOption
      = some ([[1 / 3, 1 / 3]], [1], [[0, 0, 0, 0, 0, 0]]) ∧
    (build_local_matrix [] 3 tri_field 0 0 [0, 0, 0] [[1 / 3, 1 / 3]]
      [1] [[0, 0, 0, 0, 0, 0]]).isNone = true ∧
    build_result builder_plain tri_field none none = none := by
  refine ⟨?_, ?_, ?_, ?_, ?_, ?_, ?_, ?_, ?_⟩ <;> decide!

/-! ## The basis table on a cache hit -/

theorem foldlM_none_at {α β : Type} (f : β → α → Option β) (m : α)
    (hm : ∀ x, f x m = none) : ∀ (l : List α) (x : β), m ∈ l → l.foldlM f x = none
  | [], _, h => by cases h
  | a :: l, x, h => by
    rw [List.foldlM_cons]
    cases hfa : f x a with
    | none => rfl
    | some y =>
      rcases List.mem_cons.mp h with h | h
      · rw [← h, hm] at hfa
        cases hfa
      · simp only [Option.bind_eq_bind, Option.some_bind]
        exact foldlM_none_at f m hm l y h

theorem weighted_sum_short (nconds n : Nat) (cdata : List ℚ) (bv : List (List ℚ))
    (sum : List ℚ) (h : bv.length < nconds) : weighted_sum nconds n cdata bv sum = none := by
  unfold weighted_sum
  refine foldlM_none_at _ bv.length ?_ _ _ (List.mem_range.mpr h)
  intro x
  have hb : rd bv bv.length = none := by
    unfold rd
    rw [List.get?_eq_getElem?]
    exact List.getElem?_eq_none (le_refl _)
  cases hc : rd cdata (bv.length * n) with
  | none => rfl
  | some weight => simp only [hb, Option.bind_eq_bind, Option.some_bind, Option.none_bind]

/-- The reconstruction on a cache hit with a longer table: when the mesh generation is
the cached one, a basis matrix is cached, and the basis table holds fewer arrays than the
conductivity table has rows, the block `GenerateBasis` of `run` reads `basis_values_[s]`
out of range (for `s = basis_values_.size()`), whatever the mesh and the builder are. -/
theorem stale_cache_out_of_range (a : BuildFEMatrixAlgo) (b : FEMBuilder) (input : Field)
    (ct : DenseMatrix) (output : Option SparseRowMatrix)
    (hg : input.vmesh.generation = a.generation_) (hc : a.basis_fematrix_ ≠ none)
    (hlen : a.basis_values_.length < ct.nrows) :
    generate_basis a b input ct output = none := by
  have hr : refresh_basis a b input ct.nrows = some (true, a, b) := by
    unfold refresh_basis
    rw [if_neg (by
      rintro (h | h)
      · exact h hg
      · exact hc h)]
  unfold generate_basis
  rw [hr]
  simp only [Option.bind_eq_bind, Option.some_bind, Bool.not_true, Bool.false_eq_true, if_false]
  cases hout : a.basis_fematrix_ with
  | none => rfl
  | some out =>
    simp only [Option.some_bind]
    cases hs : clear_sum a.basis_values_ out.vals with
    | none => rfl
    | some sum =>
      simp only [Option.some_bind, weighted_sum_short _ _ _ _ _ hlen, Option.none_bind]

set_option maxRecDepth 100000 in
/-- C36 (the code at the failing input): a first call of `run` with basis generation on
and a table of one row fills the cache for mesh generation 1 with one basis array; a
second call on the same algorithm object and the same mesh with a table of two rows is a
cache hit, so the basis table keeps its one array, and the reconstruction loop reads
`basis_values_[1]` out of range.  In the other order (two rows, then one row) the second
call runs with a basis table of two arrays for a table of one row. -/
theorem cache_hit_with_longer_table :
    (run algo_basis (some (tet_field 3 (-1) 4)) (some table_two) none).map
      (fun r => (r.1, r.2.1.generation_, r.2.1.basis_fematrix_.isSome,
        r.2.1.basis_values_.length)) = some (true, 1, true, 1) ∧
    (tet_field 3 (-1) 4).vmesh.generation = 1 ∧ table_two.nrows = 1 ∧ table_iso.nrows = 2 ∧
    ((run algo_basis (some (tet_field 3 (-1) 4)) (some table_two) none).bind
      (fun r => run r.2.1 (some (tet_field 3 (-1) 4)) (some table_iso) none)).isNone = true ∧
    ((run algo_basis (some (tet_field 3 (-1) 4)) (some table_iso) none).bind
      (fun r => run r.2.1 (some (tet_field 3 (-1) 4)) (some table_two) none)).map
      (fun r => (r.1, r.2.1.basis_values_.length)) = some (true, 2) := by
  refine ⟨?_, ?_, ?_, ?_, ?_, ?_⟩ <;> decide!

/-! ## Fields of basis order 0 have linear DOFs only -/

theorem row_and_add_worker (input : Field) (p : List (List ℚ)) (wt : List ℚ)
    (d : List (List ℚ)) (i c row : Nat) (s s2 : Asm)
    (h : row_and_add input p wt d i c row s = some s2) :
    s2.w = s.w ∧ s2.thrown = s.thrown ∧
      s2.b.global_dimension_add_nodes = s.b.global_dimension_add_nodes := by
  unfold row_and_add at h
  simp only [Option.bind_eq_bind, Option.bind_eq_some, Option.some.injEq] at h
  obtain ⟨r, _, M1, _, M2, _, h⟩ := h
  rw [← h]
  exact ⟨rfl, rfl, rfl⟩

set_option maxRecDepth 100000 in
/-- C37 (counterexample): a field with element data on a point cloud passes the
validation of `run` (not a vector field, basis order 0), and `setup` returns false at its
test of the dimensionality before it computes any dimension: `local_dimension` is 0, not
the number 1 of nodes per element, and `global_dimension` is 0, not the number 3 of mesh
nodes; `run` returns false with the error of `setup`. -/
theorem point_cloud_dimensions_not_computed :
    point_cloud.vfield.is_vector = false ∧ point_cloud.vfield.basis_order = 0 ∧
    point_cloud.vmesh.dimensionality < 1 ∧
    (setup builder_plain point_cloud).1 = false ∧
    (setup builder_plain point_cloud).2.local_dimension = 0 ∧
    point_cloud.vmesh.num_nodes_per_elem = 1 ∧
    (setup builder_plain point_cloud).2.global_dimension = 0 ∧
    point_cloud.vmesh.num_nodes = 3 ∧
    (run algo_plain (some point_cloud) none none).map
      (fun r => (r.1, r.2.2, r.2.1.log.head?)) = some (false, none,
        some (Msg.error "This mesh type cannot be used for FE computations")) := by
  refine ⟨?_, ?_, ?_, ?_, ?_, ?_, ?_, ?_, ?_⟩ <;> decide!

/-- C37 (amended): for a field of basis order 0 and a builder without additional DOFs
whose `global_dimension` is its number of node DOFs (as the constructor leaves it, and as
`setup` leaves it), `setup` leaves the local and the global number of additional DOFs at
0 and `global_dimension` equal to the number of node DOFs; when the mesh has
dimensionality at least 1, `setup` returns true with `local_dimension` equal to the
number of nodes per element and `global_dimension` equal to the number of mesh nodes;
when the dimensionality is below 1 it returns false and leaves both dimensions as they
were.  For every builder with such dimensions (no additional DOFs, `global_dimension`
equal to the number of node DOFs): every DOF of a worker's range takes the node branch of
the element query, not the edge branch and not the warning branch; the discovery loop
appends the nodes of the elements only and never fetches the edges; and an element of the
assembly loop leaves the edge list untouched and has the nodes of the element as its
neighbour list. -/
theorem linear_dofs_only (b : FEMBuilder) (input : Field)
    (h0 : input.vfield.basis_order = 0)
    (hb : b.local_dimension_add_nodes = 0 ∧ b.global_dimension_add_nodes = 0 ∧
      b.global_dimension = b.global_dimension_nodes) :
    (setup b input).2.local_dimension_add_nodes = 0 ∧
    (setup b input).2.global_dimension_add_nodes = 0 ∧
    (setup b input).2.global_dimension = (setup b input).2.global_dimension_nodes ∧
    (1 ≤ input.vmesh.dimensionality →
      (setup b input).1 = true ∧
      (setup b input).2.local_dimension = input.vmesh.num_nodes_per_elem ∧
      (setup b input).2.global_dimension_nodes = input.vmesh.num_nodes ∧
      (setup b input).2.global_dimension = input.vmesh.num_nodes) ∧
    (input.vmesh.dimensionality < 1 →
      (setup b input).1 = false ∧
      (setup b input).2.local_dimension = b.local_dimension ∧
      (setup b input).2.global_dimension = b.global_dimension) ∧
    ∀ b2 : FEMBuilder, b2.global_dimension_add_nodes = 0 →
      b2.global_dimension = b2.global_dimension_nodes →
      (∀ p, p < b2.numprocessors_ → ∀ i, start_gd b2 p ≤ i → i < end_gd b2 p → ∀ ca,
        select_elems b2 input.vmesh i ca = (input.vmesh.get_elems_node i, false)) ∧
      (∀ w, (gather_neighbours b2 input.vmesh w).neib_dofs
          = w.neib_dofs ++ w.ca.flatMap input.vmesh.get_nodes ∧
        (gather_neighbours b2 input.vmesh w).ea = w.ea) ∧
      (∀ (p : List (List ℚ)) (wt : List ℚ) (d : List (List ℚ)) (i c : Nat) (s s2 : Asm),
        s.b = b2 → s.thrown = false → assemble_elem input p wt d i s c = some s2 →
        s2.w.ea = s.w.ea ∧ s2.w.neib_dofs = input.vmesh.get_nodes c) := by
  have h2 : ¬ input.vfield.basis_order = 2 := by rw [h0]; decide
  refine ⟨?_, ?_, ?_, ?_, ?_, ?_⟩
  · simp only [setup, h2, if_false]
    split
    · exact hb.1
    · split <;> rfl
  · simp only [setup, h2, if_false]
    split
    · exact hb.2.1
    · split <;> rfl
  · simp only [setup, h2, if_false]
    split
    · exact hb.2.2
    · split <;> simp [FEMBuilder.error]
  · intro hd
    have hd2 : ¬ input.vmesh.dimensionality < 1 := by omega
    simp only [setup, h2, if_false, hd2]
    split <;> simp [FEMBuilder.error]
  · intro hd
    simp [setup, hd, FEMBuilder.error]
  · intro b2 hga hg
    refine ⟨?_, ?_, ?_⟩
    · intro p hp i _ hi ca
      have hN : 0 < b2.numprocessors_ := by omega
      have hle : end_gd b2 p ≤ b2.global_dimension := by
        have := start_mono b2 (show p + 1 ≤ b2.numprocessors_ by omega)
        rw [start_last b2 hN] at this
        exact this
      have hin : i < b2.global_dimension_nodes := by omega
      simp [select_elems, hin]
    · intro w
      rw [gather_neighbours_eq]
      have key : ∀ (ca : List Nat) (w : Worker),
          (ca.foldl (gather_step b2 input.vmesh) w).neib_dofs
            = w.neib_dofs ++ ca.flatMap input.vmesh.get_nodes ∧
          (ca.foldl (gather_step b2 input.vmesh) w).ea = w.ea := by
        intro ca
        induction ca with
        | nil => intro w; simp
        | cons c cs ih =>
          intro w
          rw [List.foldl_cons]
          have h := ih (gather_step b2 input.vmesh w c)
          have e1 : (gather_step b2 input.vmesh w c).neib_dofs
              = w.neib_dofs ++ input.vmesh.get_nodes c := by
            simp [gather_step, hga]
          have e2 : (gather_step b2 input.vmesh w c).ea = w.ea := by
            simp [gather_step, hga]
          rw [h.1, h.2, e1, e2]
          simp
      exact key w.ca w
    · intro p wt d i c s s2 hs hth h
      have hq : s.b.global_dimension_add_nodes = 0 := by rw [hs]; exact hga
      unfold assemble_elem at h
      rw [if_neg (by rw [hth]; decide)] at h
      simp only [hq, ne_eq, not_true_eq_false, decide_False, Bool.false_eq_true, if_false,
        List.append_nil, Option.bind_eq_bind, Option.bind_some] at h
      have key : ∀ t : Asm, (if (t.b.assertions &&
            decide (¬ (input.vmesh.get_nodes c).length = t.b.local_dimension)) = true
          then some { t with thrown := true }
          else (List.range (input.vmesh.get_nodes c).length).foldlM (fun s k =>
            if rd (input.vmesh.get_nodes c) k = some i then row_and_add input p wt d i c k s
            else some s) t) = some s2 → s2.w = t.w := by
        intro t ht
        refine ite_some_inv (fun u : Asm => u.w = t.w) _ _ _ s2 ht
          (fun e => some_inv (fun u : Asm => u.w = t.w) _ _ e rfl) (fun e => ?_)
        refine foldlM_inv (fun u : Asm => u.w = t.w) _ ?_ _ _ s2 rfl e
        intro t1 k t2 hinv hstep
        refine ite_some_inv (fun u : Asm => u.w = t.w) _ _ _ t2 hstep (fun e2 => ?_)
          (fun e2 => some_inv (fun u : Asm => u.w = t.w) _ _ e2 hinv)
        show t2.w = t.w
        rw [(row_and_add_worker input p wt d i c k t1 t2 e2).1]
        exact hinv
      have hw := key { s with w := { s.w with na := input.vmesh.get_nodes c,
                                              neib_dofs := input.vmesh.get_nodes c } } h
      rw [hw]
      exact ⟨rfl, rfl⟩

set_option maxRecDepth 100000 in
theorem linear_dofs_only_witness :
    (setup builder_plain (tet_field 3 1 4)).2.local_dimension_add_nodes = 0 ∧
    (setup builder_plain (tet_field 3 1 4)).2.global_dimension_add_nodes = 0 ∧
    (setup builder_plain (tet_field 3 1 4)).2.global_dimension
      = (setup builder_plain (tet_field 3 1 4)).2.global_dimension_nodes ∧
    (1 ≤ (tet_field 3 1 4).vmesh.dimensionality →
      (setup builder_plain (tet_field 3 1 4)).1 = true ∧
      (setup builder_plain (tet_field 3 1 4)).2.local_dimension
        = (tet_field 3 1 4).vmesh.num_nodes_per_elem ∧
      (setup builder_plain (tet_field 3 1 4)).2.global_dimension_nodes
        = (tet_field 3 1 4).vmesh.num_nodes ∧
      (setup builder_plain (tet_field 3 1 4)).2.global_dimension
        = (tet_field 3 1 4).vmesh.num_nodes) ∧
    ((tet_field 3 1 4).vmesh.dimensionality < 1 →
      (setup builder_plain (tet_field 3 1 4)).1 = false ∧
      (setup builder_plain (tet_field 3 1 4)).2.local_dimension
        = builder_plain.local_dimension ∧
      (setup builder_plain (tet_field 3 1 4)).2.global_dimension
        = builder_plain.global_dimension) ∧
    ∀ b2 : FEMBuilder, b2.global_dimension_add_nodes = 0 →
      b2.global_dimension = b2.global_dimension_nodes →
      (∀ p, p < b2.numprocessors_ → ∀ i, start_gd b2 p ≤ i → i < end_gd b2 p → ∀ ca,
        select_elems b2 (tet_field 3 1 4).vmesh i ca
          = ((tet_field 3 1 4).vmesh.get_elems_node i, false)) ∧
      (∀ w, (gather_neighbours b2 (tet_field 3 1 4).vmesh w).neib_dofs
          = w.neib_dofs ++ w.ca.flatMap (tet_field 3 1 4).vmesh.get_nodes ∧
        (gather_neighbours b2 (tet_field 3 1 4).vmesh w).ea = w.ea) ∧
      (∀ (p : List (List ℚ)) (wt : List ℚ) (d : List (List ℚ)) (i c : Nat) (s s2 : Asm),
        s.b = b2 → s.thrown = false →
        assemble_elem (tet_field 3 1 4) p wt d i s c = some s2 →
        s2.w.ea = s.w.ea ∧ s2.w.neib_dofs = (tet_field 3 1 4).vmesh.get_nodes c) :=
  linear_dofs_only builder_plain (tet_field 3 1 4) (by decide)
    ⟨by decide, by decide, by decide⟩

/-! ## The cells addressed by the scatter-add -/

theorem find_bounds (M : SparseRowMatrix) (i j k : Nat) (h : M.find i j = some k) :
    ∃ s e, rd M.rows i = some s ∧ rd M.rows (i + 1) = some e ∧ s ≤ k ∧ k < e ∧
      rd M.cols k = some j := by
  unfold SparseRowMatrix.find at h
  simp only [Option.bind_eq_bind, Option.bind_eq_some] at h
  obtain ⟨s, hs, e, he, h⟩ := h
  have hmem := List.mem_of_find?_eq_some h
  have hp := List.find?_some h
  rw [List.mem_range'_1] at hmem
  exact ⟨s, e, hs, he, hmem.1, by omega, by simpa using hp⟩

theorem find_congr (M M1 : SparseRowMatrix) (hr : M1.rows = M.rows) (hc : M1.cols = M.cols)
    (i j : Nat) : M1.find i j = M.find i j := by
  unfold SparseRowMatrix.find
  rw [hr, hc]

theorem coeffRef_add_frame (M M2 : SparseRowMatrix) (row col : Nat) (x : ℚ) (s e : Nat)
    (hs : rd M.rows row = some s) (he : rd M.rows (row + 1) = some e)
    (h : M.coeffRef_add row col x = some M2) :
    M2.rows = M.rows ∧ M2.cols = M.cols ∧ M2.vals.length = M.vals.length ∧
      ∀ k, (k < s ∨ e ≤ k) → M2.vals[k]? = M.vals[k]? := by
  unfold SparseRowMatrix.coeffRef_add at h
  simp only [Option.bind_eq_bind, Option.bind_eq_some, Option.some.injEq] at h
  obtain ⟨pos, hpos, old, _, vals, hvals, h⟩ := h
  obtain ⟨s1, e1, hs1, he1, h1, h2, _⟩ := find_bounds M row col pos hpos
  rw [hs] at hs1
  rw [he] at he1
  cases hs1
  cases he1
  unfold wr at hvals
  split at hvals
  · simp only [Option.some.injEq] at hvals
    rw [← h, ← hvals]
    refine ⟨rfl, rfl, by simp, fun k hk => ?_⟩
    simp only
    rw [List.getElem?_set_ne (by omega)]
  · cases hvals

theorem add_lcl_gbl_frame (M M2 : SparseRowMatrix) (row : Nat) (cols : List Nat)
    (lcl : List ℚ) (s e : Nat)
    (hs : rd M.rows row = some s) (he : rd M.rows (row + 1) = some e)
    (h : add_lcl_gbl M row cols lcl = some M2) :
    M2.rows = M.rows ∧ M2.cols = M.cols ∧ M2.vals.length = M.vals.length ∧
      ∀ k, (k < s ∨ e ≤ k) → M2.vals[k]? = M.vals[k]? := by
  unfold add_lcl_gbl at h
  refine foldlM_inv
    (fun M1 : SparseRowMatrix => M1.rows = M.rows ∧ M1.cols = M.cols ∧
      M1.vals.length = M.vals.length ∧ ∀ k, (k < s ∨ e ≤ k) → M1.vals[k]? = M.vals[k]?)
    _ ?_ _ M M2 ⟨rfl, rfl, rfl, fun _ _ => rfl⟩ h
  intro M1 i M3 hM1 hstep
  simp only [Option.bind_eq_bind, Option.bind_eq_some] at hstep
  obtain ⟨c, _, a, _, hstep⟩ := hstep
  obtain ⟨f1, f2, f3, f4⟩ := coeffRef_add_frame M1 M3 row c a s e
    (by rw [hM1.1]; exact hs) (by rw [hM1.1]; exact he) hstep
  exact ⟨f1.trans hM1.1, f2.trans hM1.2.1, f3.trans hM1.2.2.1,
    fun k hk => (f4 k hk).trans (hM1.2.2.2 k hk)⟩

theorem foldlM_defined {α β : Type} (P : β → Prop) (f : β → α → Option β) :
    ∀ (l : List α) (x : β), P x →
      (∀ (x : β) (a : α), a ∈ l → P x → ∃ y, f x a = some y ∧ P y) →
      ∃ z, l.foldlM f x = some z ∧ P z
  | [], x, hx, _ => ⟨x, rfl, hx⟩
  | a :: l, x, hx, hf => by
    obtain ⟨y, hy, hPy⟩ := hf x a (List.mem_cons_self _ _) hx
    obtain ⟨z, hz, hPz⟩ := foldlM_defined P f l y hPy
      (fun x1 a1 ha1 hx1 => hf x1 a1 (List.mem_cons_of_mem _ ha1) hx1)
    refine ⟨z, ?_, hPz⟩
    rw [List.foldlM_cons, hy]
    exact hz

theorem coeffRef_add_defined (M : SparseRowMatrix) (row col : Nat) (x : ℚ) (e : Nat)
    (hst : (M.find row col).isSome = true) (he : rd M.rows (row + 1) = some e)
    (hle : e ≤ M.vals.length) :
    ∃ M2, M.coeffRef_add row col x = some M2 ∧ M2.rows = M.rows ∧ M2.cols = M.cols ∧
      M2.vals.length = M.vals.length := by
  obtain ⟨pos, hpos⟩ := Option.isSome_iff_exists.mp hst
  obtain ⟨s1, e1, _, he1, _, h2, _⟩ := find_bounds M row col pos hpos
  rw [he] at he1
  cases he1
  have hlt : pos < M.vals.length := by omega
  unfold SparseRowMatrix.coeffRef_add
  rw [hpos]
  simp only [Option.bind_eq_bind, Option.some_bind, rd_getD M.vals pos 0 hlt, wr, if_pos hlt]
  exact ⟨_, rfl, rfl, rfl, by simp⟩

theorem add_lcl_gbl_defined (M : SparseRowMatrix) (row : Nat) (cols : List Nat)
    (lcl : List ℚ) (e : Nat) (he : rd M.rows (row + 1) = some e) (hle : e ≤ M.vals.length)
    (hst : ∀ j, j ∈ cols → (M.find row j).isSome = true) (hlen : lcl.length ≤ cols.length) :
    ∃ M2, add_lcl_gbl M row cols lcl = some M2 ∧ M2.rows = M.rows ∧ M2.cols = M.cols ∧
      M2.vals.length = M.vals.length := by
  unfold add_lcl_gbl
  refine foldlM_defined
    (fun M1 : SparseRowMatrix => M1.rows = M.rows ∧ M1.cols = M.cols ∧
      M1.vals.length = M.vals.length) _ _ M ⟨rfl, rfl, rfl⟩ ?_
  intro M1 i hi hM1
  have hi2 : i < lcl.length := List.mem_range.mp hi
  rw [rd_getD cols i 0 (by omega), rd_getD lcl i 0 hi2]
  simp only [Option.bind_eq_bind, Option.some_bind]
  have hmem : cols.getD i 0 ∈ cols := by
    rw [List.getD_eq_getElem?_getD, List.getElem?_eq_getElem (by omega)]
    exact List.getElem_mem _
  obtain ⟨M2, h1, h2, h3, h4⟩ := coeffRef_add_defined M1 row (cols.getD i 0) (lcl.getD i 0) e
    (by rw [find_congr M M1 hM1.1 hM1.2.1]; exact hst _ hmem)
    (by rw [hM1.1]; exact he) (by rw [hM1.2.2]; exact hle)
  exact ⟨M2, h1, h2.trans hM1.1, h3.trans hM1.2.1, h4.trans hM1.2.2⟩

theorem pattern_rd_rows (Gn Ga : Nat) (mesh : VMesh) (i : Nat) (hi : i ≤ Gn + Ga) :
    rd (pattern_matrix Gn Ga mesh).rows i
      = some (rows_before (row_cols Gn Ga (Gn + Ga) mesh) i) := by
  simp [pattern_matrix, rd, show i < Gn + Ga + 1 by omega]

/-- C34: for a mesh with linear DOFs (no additional edge DOFs) that passes `setup`, with
at least one worker, and the matrix `M` that sparsity phases 1-3 and the MatrixAlloc
phase create: for every node DOF `i` and every element `c` returned for `i`, every node
of `c` is a column stored in row `i` of `M`; and on every matrix with the row-pointer
and column arrays of `M`, the scatter-add `add_lcl_gbl(i, nodes(c), lsml)` of a row
buffer with at most as many entries as `c` has nodes finds every cell it addresses (it
is defined, and leaves the row-pointer and column arrays as they are). -/
theorem scatter_cells_exist (b : FEMBuilder) (input : Field) (hN : 0 < b.numprocessors_)
    (hd : 1 ≤ input.vmesh.dimensionality) (hlin : edge_dofs input = 0) :
    ∃ M, (after_create b input).1.fematrix_ = some M ∧
      ∀ i, i < input.vmesh.num_nodes → ∀ c, c ∈ input.vmesh.get_elems_node i →
        (∀ j, j ∈ input.vmesh.get_nodes c → M.stored i j) ∧
        ∀ (M1 : SparseRowMatrix) (lcl : List ℚ), M1.rows = M.rows → M1.cols = M.cols →
          M1.vals.length = M.vals.length →
          lcl.length ≤ (input.vmesh.get_nodes c).length →
          ∃ M2, add_lcl_gbl M1 i (input.vmesh.get_nodes c) lcl = some M2 ∧
            M2.rows = M1.rows ∧ M2.cols = M1.cols ∧ M2.vals.length = M1.vals.length := by
  refine ⟨_, after_create_spec b input hN hd, ?_⟩
  rw [hlin]
  intro i hi c hc
  have hstored : ∀ j, j ∈ input.vmesh.get_nodes c →
      (pattern_matrix input.vmesh.num_nodes 0 input.vmesh).stored i j := by
    intro j hj
    rw [pattern_stored_iff _ _ _ i j (by omega), mem_row_cols]
    refine ⟨c, by simpa [dof_elems, hi] using hc, ?_⟩
    simpa [elem_dofs] using hj
  refine ⟨hstored, ?_⟩
  intro M1 lcl hr hcs hv hlen
  refine add_lcl_gbl_defined M1 i (input.vmesh.get_nodes c) lcl
    (rows_before (row_cols input.vmesh.num_nodes 0 (input.vmesh.num_nodes + 0) input.vmesh)
      (i + 1)) ?_ ?_ ?_ hlen
  · rw [hr]
    exact pattern_rd_rows _ _ _ (i + 1) (by omega)
  · rw [hv]
    simp only [pattern_matrix, List.length_replicate]
    exact rows_before_mono _ (by omega)
  · intro j hj
    rw [find_congr _ M1 hr hcs]
    exact hstored j hj

set_option maxRecDepth 100000 in
theorem scatter_cells_exist_witness :
    ∃ M, (after_create builder_plain (tet_field 3 1 4)).1.fematrix_ = some M ∧
      ∀ i, i < (tet_field 3 1 4).vmesh.num_nodes →
        ∀ c, c ∈ (tet_field 3 1 4).vmesh.get_elems_node i →
        (∀ j, j ∈ (tet_field 3 1 4).vmesh.get_nodes c → M.stored i j) ∧
        ∀ (M1 : SparseRowMatrix) (lcl : List ℚ), M1.rows = M.rows → M1.cols = M.cols →
          M1.vals.length = M.vals.length →
          lcl.length ≤ ((tet_field 3 1 4).vmesh.get_nodes c).length →
          ∃ M2, add_lcl_gbl M1 i ((tet_field 3 1 4).vmesh.get_nodes c) lcl = some M2 ∧
            M2.rows = M1.rows ∧ M2.cols = M1.cols ∧ M2.vals.length = M1.vals.length :=
  scatter_cells_exist builder_plain (tet_field 3 1 4) (by decide) (by decide) (by decide)

/-! ## The checks of the success flags -/

theorem each_worker_keeps {γ : Type} (f : FEMBuilder → γ)
    (step : Nat → FEMBuilder → Worker → FEMBuilder × Worker)
    (hstep : ∀ p b w, f (step p b w).1 = f b) :
    ∀ (ws : List Worker) (p : Nat) (b : FEMBuilder), f (each_worker step p b ws).1 = f b
  | [], _, _ => rfl
  | w :: ws, p, b => by
    simp only [each_worker]
    rw [each_worker_keeps f step hstep ws (p + 1) (step p b w).1, hstep]

theorem each_worker_opt_keeps {γ : Type} (f : FEMBuilder → γ)
    (step : Nat → FEMBuilder → Worker → Option (FEMBuilder × Worker))
    (hstep : ∀ p b w r, step p b w = some r → f r.1 = f b) :
    ∀ (ws : List Worker) (p : Nat) (b : FEMBuilder) (r : FEMBuilder × List Worker),
      each_worker_opt step p b ws = some r → f r.1 = f b
  | [], _, b, r, h => by
    simp only [each_worker_opt, Option.some.injEq] at h
    rw [← h]
  | w :: ws, p, b, r, h => by
    simp only [each_worker_opt, Option.bind_eq_bind, Option.bind_eq_some,
      Option.some.injEq] at h
    obtain ⟨r1, hr1, rs, hrs, h⟩ := h
    rw [← h]
    exact (each_worker_opt_keeps f step hstep ws (p + 1) r1.1 rs hrs).trans
      (hstep p b w r1 hr1)

theorem row_and_add_static {γ : Type} (f : FEMBuilder → γ)
    (hf : ∀ (b : FEMBuilder) (M : Option SparseRowMatrix) (l : List Msg),
      f { b with fematrix_ := M, log := l } = f b)
    (input : Field) (p : List (List ℚ)) (wt : List ℚ) (d : List (List ℚ)) (i c row : Nat)
    (s s2 : Asm) (h : row_and_add input p wt d i c row s = some s2) : f s2.b = f s.b := by
  unfold row_and_add at h
  simp only [Option.bind_eq_bind, Option.bind_eq_some, Option.some.injEq] at h
  obtain ⟨r, _, M1, _, M2, _, h⟩ := h
  rw [← h]
  exact hf s.b _ _

theorem row_and_add_regular_static {γ : Type} (f : FEMBuilder → γ)
    (hf : ∀ (b : FEMBuilder) (M : Option SparseRowMatrix) (l : List Msg),
      f { b with fematrix_ := M, log := l } = f b)
    (input : Field) (p : List (List ℚ)) (wt : List ℚ) (d : List (List ℚ)) (i c row : Nat)
    (s s2 : Asm) (h : row_and_add_regular input p wt d i c row s = some s2) :
    f s2.b = f s.b := by
  unfold row_and_add_regular at h
  simp only [Option.bind_eq_bind, Option.bind_eq_some, Option.some.injEq] at h
  obtain ⟨r, _, M1, _, M2, _, h⟩ := h
  rw [← h]
  exact hf s.b _ _

theorem assemble_elem_static {γ : Type} (f : FEMBuilder → γ)
    (hf : ∀ (b : FEMBuilder) (M : Option SparseRowMatrix) (l : List Msg),
      f { b with fematrix_ := M, log := l } = f b)
    (input : Field) (p : List (List ℚ)) (wt : List ℚ) (d : List (List ℚ)) (i : Nat)
    (s : Asm) (c : Nat) (s2 : Asm) (h : assemble_elem input p wt d i s c = some s2) :
    f s2.b = f s.b := by
  unfold assemble_elem at h
  refine ite_some_inv (fun t : Asm => f t.b = f s.b) _ _ _ _ h
    (fun h1 => some_inv (fun t : Asm => f t.b = f s.b) _ _ h1 rfl) (fun h2 => ?_)
  refine ite_some_inv (fun t : Asm => f t.b = f s.b) _ _ _ _ h2
    (fun h1 => some_inv (fun t : Asm => f t.b = f s.b) _ _ h1 rfl) (fun h3 => ?_)
  obtain ⟨s1, hs1, h4⟩ := Option.bind_eq_some.mp h3
  have h1 : f s1.b = f s.b := by
    refine foldlM_inv (fun t : Asm => f t.b = f s.b)
      (fun t k => if rd (input.vmesh.get_nodes c) k = some i
        then row_and_add input p wt d i c k t else some t)
      (fun t k t2 ht hstep => ite_some_inv (fun t : Asm => f t.b = f s.b) _ _ _ _ hstep
        (fun h5 => (row_and_add_static f hf input p wt d i c k t t2 h5).trans ht)
        (fun h5 => some_inv (fun t : Asm => f t.b = f s.b) _ _ h5 ht)) _ _ s1 ?_ hs1
    exact rfl
  refine ite_some_inv (fun t : Asm => f t.b = f s.b) _ _ _ _ h4 (fun h5 => ?_)
    (fun h5 => some_inv (fun t : Asm => f t.b = f s.b) _ _ h5 h1)
  exact foldlM_inv (fun t : Asm => f t.b = f s.b)
    (fun t k => if (rd (if decide (s.b.global_dimension_add_nodes ≠ 0) = true
          then input.vmesh.get_edges c else s.w.ea) k).map (fun e => t.b.global_dimension + e)
          = some i
      then row_and_add input p wt d i c (k + (input.vmesh.get_nodes c).length) t else some t)
    (fun t k t2 ht hstep => ite_some_inv (fun t : Asm => f t.b = f s.b) _ _ _ _ hstep
      (fun h6 => (row_and_add_static f hf input p wt d i c _ t t2 h6).trans ht)
      (fun h6 => some_inv (fun t : Asm => f t.b = f s.b) _ _ h6 ht)) _ _ s2 h1 h5

theorem assemble_elem_regular_static {γ : Type} (f : FEMBuilder → γ)
    (hf : ∀ (b : FEMBuilder) (M : Option SparseRowMatrix) (l : List Msg),
      f { b with fematrix_ := M, log := l } = f b)
    (input : Field) (p : List (List ℚ)) (wt : List ℚ) (d : List (List ℚ)) (i : Nat)
    (s : Asm) (c : Nat) (s2 : Asm) (h : assemble_elem_regular input p wt d i s c = some s2) :
    f s2.b = f s.b := by
  unfold assemble_elem_regular at h
  refine ite_some_inv (fun t : Asm => f t.b = f s.b) _ _ _ _ h
    (fun h1 => some_inv (fun t : Asm => f t.b = f s.b) _ _ h1 rfl) (fun h2 => ?_)
  refine foldlM_inv (fun t : Asm => f t.b = f s.b)
    (fun t k => if rd (input.vmesh.get_nodes c) k = some i
      then row_and_add_regular input p wt d i c k t else some t)
    (fun t k t2 ht hstep => ite_some_inv (fun t : Asm => f t.b = f s.b) _ _ _ _ hstep
      (fun h5 => (row_and_add_regular_static f hf input p wt d i c k t t2 h5).trans ht)
      (fun h5 => some_inv (fun t : Asm => f t.b = f s.b) _ _ h5 ht)) _ _ s2 ?_ h2
  exact rfl

theorem assemble_dof_static {γ : Type} (f : FEMBuilder → γ)
    (hf : ∀ (b : FEMBuilder) (M : Option SparseRowMatrix) (l : List Msg),
      f { b with fematrix_ := M, log := l } = f b)
    (input : Field) (p : List (List ℚ)) (wt : List ℚ) (d : List (List ℚ))
    (s : Asm) (i : Nat) (s2 : Asm) (h : assemble_dof input p wt d s i = some s2) :
    f s2.b = f s.b := by
  unfold assemble_dof at h
  refine ite_some_inv (fun t : Asm => f t.b = f s.b) _ _ _ _ h
    (fun h1 => some_inv (fun t : Asm => f t.b = f s.b) _ _ h1 rfl) (fun h2 => ?_)
  have hs0 : f (if (select_elems s.b input.vmesh i s.w.ca).2 = true then
        s.b.warning "BuildFEMatrix only supports linear basis functions." else s.b)
        = f s.b := by
    split
    · exact hf s.b s.b.fematrix_ _
    · rfl
  refine ite_some_inv (fun t : Asm => f t.b = f s.b) _ _ _ _ h2 (fun h3 => ?_) (fun h3 => ?_)
  · refine foldlM_inv (fun t : Asm => f t.b = f s.b)
      (assemble_elem_regular input p wt d i)
      (fun t c t2 ht hstep =>
        (assemble_elem_regular_static f hf input p wt d i t c t2 hstep).trans ht)
      _ _ s2 ?_ h3
    exact hs0
  · refine foldlM_inv (fun t : Asm => f t.b = f s.b)
      (assemble_elem input p wt d i)
      (fun t c t2 ht hstep => (assemble_elem_static f hf input p wt d i t c t2 hstep).trans ht)
      _ _ s2 ?_ h3
    exact hs0

/-- The fields of the builder that the ZeroInit and Assembly phases of a worker leave as
they are (every field but `fematrix_`, `log` and `success_`), and the flag of the worker
as the only entry of `success_` that is written. -/
theorem phase_assemble_static {γ : Type} (f : FEMBuilder → γ)
    (hf : ∀ (b : FEMBuilder) (M : Option SparseRowMatrix) (l : List Msg) (sc : List Bool),
      f { b with fematrix_ := M, log := l, success_ := sc } = f b)
    (input : Field) (proc_num : Nat) (b : FEMBuilder) (w : Worker)
    (r : FEMBuilder × Worker) (h : phase_assemble input proc_num b w = some r) :
    f r.1 = f b ∧ ∃ flag, r.1.success_ = b.success_.set proc_num flag := by
  have hf2 : ∀ (b : FEMBuilder) (M : Option SparseRowMatrix) (l : List Msg),
      f { b with fematrix_ := M, log := l } = f b := fun b M l => hf b M l b.success_
  have hg2 : ∀ (b : FEMBuilder) (M : Option SparseRowMatrix) (l : List Msg),
      (fun b : FEMBuilder => b.success_) { b with fematrix_ := M, log := l }
        = (fun b : FEMBuilder => b.success_) b := fun _ _ _ => rfl
  unfold phase_assemble at h
  simp only [Option.bind_eq_bind, Option.bind_eq_some] at h
  obtain ⟨ns, _, ne, _, M1, _, vals, _, h⟩ := h
  cases hni : create_numerical_integration input.vmesh with
  | error e =>
    rw [hni] at h
    simp only [Option.some.injEq] at h
    rw [← h]
    exact ⟨hf b _ _ _, false, rfl⟩
  | ok ni =>
    rw [hni] at h
    simp only [Option.bind_eq_some] at h
    obtain ⟨s, hs, h⟩ := h
    have e1 := foldlM_inv
      (fun t : Asm => f t.b = f b ∧ t.b.success_ = b.success_) _
      (fun t i t2 ht hstep =>
        ⟨(assemble_dof_static f hf2 input ni.1 ni.2.1 ni.2.2 t i t2 hstep).trans ht.1,
         (assemble_dof_static (fun b : FEMBuilder => b.success_) hg2 input ni.1 ni.2.1 ni.2.2
            t i t2 hstep).trans ht.2⟩)
      _ _ s ⟨hf b _ b.log b.success_, rfl⟩ hs
    split at h
    · simp only [Option.some.injEq] at h
      rw [← h]
      refine ⟨(hf s.b _ _ _).trans e1.1, false, ?_⟩
      simp only [assembly_crashed, FEMBuilder.error]
      rw [e1.2]
    · simp only [Option.some.injEq] at h
      rw [← h]
      refine ⟨(hf s.b s.b.fematrix_ s.b.log _).trans e1.1, true, ?_⟩
      simp only
      rw [e1.2]

theorem build_matrix_eq (b : FEMBuilder) (input : Field) (ctable : Option DenseMatrix)
    (output : Option SparseRowMatrix) :
    build_matrix b input ctable output =
      (run_tasks (at_run_tasks b ctable) input).bind (fun r =>
        match (List.range r.success_.length).find?
            (fun j => decide (rd r.success_ j = some false)) with
        | some j => some (false, r.error ("Algorithm failed in thread " ++ toString j), output)
        | none =>
          if r.force_symmetry then r.fematrix_.bind (fun A => some (true, r, some A.symmetrize))
          else some (true, r, r.fematrix_)) := rfl

theorem phase_setup_lengths (input : Field) (p : Nat) (b : FEMBuilder) (w : Worker) :
    (phase_setup input p b w).1.success_.length = b.success_.length ∧
    (phase_setup input p b w).1.numprocessors_ = b.numprocessors_ := by
  by_cases hp : p = 0
  · subst hp
    simp only [phase_setup, setup, if_true]
    split
    · simp [FEMBuilder.error]
    · split <;> simp [FEMBuilder.error]
  · simp [phase_setup, hp]

theorem run_tasks_flags (b : FEMBuilder) (input : Field) (r : FEMBuilder)
    (h : run_tasks b input = some r) :
    r.success_.length = b.success_.length ∧ r.numprocessors_ = b.numprocessors_ := by
  have k0 := each_worker_keeps
    (fun b : FEMBuilder => (b.success_.length, b.numprocessors_)) (phase_setup input)
    (fun p b w => by
      have := phase_setup_lengths input p b w
      simp only [this.1, this.2])
    (List.replicate b.numprocessors_ Worker.new) 0 b
  have keep : ∀ (step : Nat → FEMBuilder → Worker → FEMBuilder × Worker),
      (∀ p b w, (step p b w).1.success_ = b.success_.set p true ∧
        (step p b w).1.numprocessors_ = b.numprocessors_) →
      ∀ (ws : List Worker) (b1 : FEMBuilder),
        (fun b : FEMBuilder => (b.success_.length, b.numprocessors_)) (each_worker step 0 b1 ws).1
          = (fun b : FEMBuilder => (b.success_.length, b.numprocessors_)) b1 := by
    intro step hstep ws b1
    exact each_worker_keeps
      (fun b : FEMBuilder => (b.success_.length, b.numprocessors_)) step
      (fun p b w => by
        have := hstep p b w
        simp only [this.1, this.2, List.length_set]) ws 0 b1
  have k1 := keep (phase_discover input) (phase_discover_flags input)
    (each_worker (phase_setup input) 0 b (List.replicate b.numprocessors_ Worker.new)).2
    (each_worker (phase_setup input) 0 b (List.replicate b.numprocessors_ Worker.new)).1
  have k2 := keep phase_offsets phase_offsets_flags
    (after_discover b input).2 (after_discover b input).1
  have k3 := keep phase_copy phase_copy_flags (after_offsets b input).2 (after_offsets b input).1
  have k4 := keep phase_create phase_create_flags (after_copy b input).2 (after_copy b input).1
  simp only [after_copy, after_offsets, after_discover, after_setup, Prod.mk.injEq] at k0 k1 k2 k3 k4
  unfold run_tasks at h
  simp only at h
  split at h
  · simp only [Option.some.injEq] at h
    rw [← h]
    exact ⟨k0.1, k0.2⟩
  · split at h
    · simp only [Option.some.injEq] at h
      rw [← h]
      exact ⟨k1.1.trans k0.1, k1.2.trans k0.2⟩
    · split at h
      · simp only [Option.some.injEq] at h
        rw [← h]
        exact ⟨k2.1.trans (k1.1.trans k0.1), k2.2.trans (k1.2.trans k0.2)⟩
      · split at h
        · simp only [Option.some.injEq] at h
          rw [← h]
          exact ⟨k3.1.trans (k2.1.trans (k1.1.trans k0.1)),
            k3.2.trans (k2.2.trans (k1.2.trans k0.2))⟩
        · split at h
          · simp only [Option.some.injEq] at h
            rw [← h]
            exact ⟨k4.1.trans (k3.1.trans (k2.1.trans (k1.1.trans k0.1))),
              k4.2.trans (k3.2.trans (k2.2.trans (k1.2.trans k0.2)))⟩
          · simp only [Option.map_eq_some'] at h
            obtain ⟨rr, hrr, hrr1⟩ := h
            have k5 := each_worker_opt_keeps
              (fun b : FEMBuilder => (b.success_.length, b.numprocessors_))
              (phase_assemble input)
              (fun p b1 w r1 hr1 => by
                obtain ⟨e1, flag, e2⟩ := phase_assemble_static
                  (fun b : FEMBuilder => b.numprocessors_) (fun _ _ _ _ => rfl)
                  input p b1 w r1 hr1
                have e3 : r1.1.numprocessors_ = b1.numprocessors_ := e1
                simp only [e3, e2, List.length_set]) _ 0 _ rr hrr
            simp only [Prod.mk.injEq] at k5
            rw [← hrr1]
            exact ⟨k5.1.trans (k4.1.trans (k3.1.trans (k2.1.trans (k1.1.trans k0.1)))),
              k5.2.trans (k4.2.trans (k3.2.trans (k2.2.trans (k1.2.trans k0.2))))⟩

theorem run_stops_at_check (b : FEMBuilder) (input : Field) (k : Nat) (hk : k ≤ 4)
    (hpass : ∀ j, j < k → first_failed (phase_state b input j).1 = none)
    (hfail : (first_failed (phase_state b input k).1).isSome = true) :
    ∃ l, run_tasks b input = some { (phase_state b input k).1 with log := l } := by
  interval_cases k
  · obtain ⟨q, hq⟩ := Option.isSome_iff_exists.mp hfail
    simp only [phase_state, after_setup] at hq ⊢
    refine ⟨(each_worker (phase_setup input) 0 b
        (List.replicate b.numprocessors_ Worker.new)).1.log ++
      List.replicate (each_worker (phase_setup input) 0 b
        (List.replicate b.numprocessors_ Worker.new)).1.numprocessors_
        (Msg.error ("FEMBuilder::setup failed in thread " ++ toString q)), ?_⟩
    simp only [run_tasks, hq]
  · have h0 := hpass 0 (by omega)
    simp only [phase_state, after_discover, after_setup] at h0 hfail ⊢
    have e : run_tasks b input = some (each_worker (phase_discover input) 0
        (each_worker (phase_setup input) 0 b (List.replicate b.numprocessors_ Worker.new)).1
        (each_worker (phase_setup input) 0 b (List.replicate b.numprocessors_ Worker.new)).2).1 := by
      simp only [run_tasks, h0, hfail, if_true]
    exact ⟨_, e⟩
  · have h0 := hpass 0 (by omega)
    have h1 := hpass 1 (by omega)
    simp only [phase_state, after_offsets, after_discover, after_setup] at h0 h1 hfail ⊢
    have e : run_tasks b input = some (each_worker phase_offsets 0
        (each_worker (phase_discover input) 0
          (each_worker (phase_setup input) 0 b (List.replicate b.numprocessors_ Worker.new)).1
          (each_worker (phase_setup input) 0 b (List.replicate b.numprocessors_ Worker.new)).2).1
        (each_worker (phase_discover input) 0
          (each_worker (phase_setup input) 0 b (List.replicate b.numprocessors_ Worker.new)).1
          (each_worker (phase_setup input) 0 b
            (List.replicate b.numprocessors_ Worker.new)).2).2).1 := by
      simp only [run_tasks, h0, h1, hfail, Option.isSome_none, Bool.false_eq_true, if_false,
        if_true]
    exact ⟨_, e⟩
  · have h0 := hpass 0 (by omega)
    have h1 := hpass 1 (by omega)
    have h2 := hpass 2 (by omega)
    have e : run_tasks b input = some (after_copy b input).1 := by
      simp only [phase_state, after_copy, after_offsets, after_discover, after_setup]
        at h0 h1 h2 hfail ⊢
      simp only [run_tasks, h0, h1, h2, hfail, Option.isSome_none, Bool.false_eq_true,
        if_false, if_true]
    exact ⟨_, e⟩
  · have h0 := hpass 0 (by omega)
    have h1 := hpass 1 (by omega)
    have h2 := hpass 2 (by omega)
    have h3 := hpass 3 (by omega)
    have e : run_tasks b input = some (after_create b input).1 := by
      simp only [phase_state, after_create, after_copy, after_offsets, after_discover,
        after_setup] at h0 h1 h2 h3 hfail ⊢
      simp only [run_tasks, h0, h1, h2, h3, hfail, Option.isSome_none, Bool.false_eq_true,
        if_false, if_true]
    exact ⟨_, e⟩

theorem run_reaches_assembly (b : FEMBuilder) (input : Field)
    (hpass : ∀ j, j ≤ 4 → first_failed (phase_state b input j).1 = none) :
    run_tasks b input = (each_worker_opt (phase_assemble input) 0 (phase_state b input 4).1
      (phase_state b input 4).2).map Prod.fst := by
  have h0 := hpass 0 (by omega)
  have h1 := hpass 1 (by omega)
  have h2 := hpass 2 (by omega)
  have h3 := hpass 3 (by omega)
  have h4 := hpass 4 (by omega)
  simp only [phase_state, after_create, after_copy, after_offsets, after_discover,
    after_setup] at h0 h1 h2 h3 h4 ⊢
  simp only [run_tasks, h0, h1, h2, h3, h4, Option.isSome_none, Bool.false_eq_true, if_false]

theorem find_flag (sc : List Bool) :
    ((List.range sc.length).find? (fun j => decide (rd sc j = some false))).isSome = true ↔
      ∃ j, j < sc.length ∧ rd sc j = some false := by
  rw [List.find?_isSome]
  constructor
  · rintro ⟨j, hj, hp⟩
    exact ⟨j, List.mem_range.mp hj, by simpa using hp⟩
  · rintro ⟨j, hj, hp⟩
    exact ⟨j, List.mem_range.mpr hj, by simpa using hp⟩

/-! ## The slices of the value array -/

theorem after_create_layout (b : FEMBuilder) (input : Field) (hN : 0 < b.numprocessors_)
    (hd : 1 ≤ input.vmesh.dimensionality) :
    Dims (after_create b input).1 input.vmesh.num_nodes (edge_dofs input) b.numprocessors_ ∧
    ∀ q, q ≤ b.numprocessors_ → rd (after_create b input).1.colidx_ q
      = some (rows_before (row_cols input.vmesh.num_nodes (edge_dofs input)
          (input.vmesh.num_nodes + edge_dofs input) input.vmesh)
        (part_start (input.vmesh.num_nodes + edge_dofs input) b.numprocessors_ q)) := by
  obtain ⟨a1, a2, a3, a4, a5⟩ := phase_setup_all input b.numprocessors_ hN b rfl hd
    (List.replicate b.numprocessors_ Worker.new) (by simp)
    (fun k w hk => by
      rw [List.getElem?_replicate] at hk
      split at hk
      · cases hk; rfl
      · cases hk)
  obtain ⟨b1, b2, b3⟩ := phase_discover_all input input.vmesh.num_nodes (edge_dofs input)
    b.numprocessors_ hN _ _ a4 a5 a1 a2 a3
  obtain ⟨c1, c2, c3⟩ := phase_offsets_all input.vmesh input.vmesh.num_nodes (edge_dofs input)
    b.numprocessors_ hN _ _ b2 b3 b1
  obtain ⟨d1, _, _⟩ := phase_copy_all input.vmesh input.vmesh.num_nodes (edge_dofs input)
    b.numprocessors_ hN _ _ c2 c3 c1
  have k := each_worker_keeps
    (fun b : FEMBuilder => (b.colidx_, b.global_dimension_nodes, b.global_dimension_add_nodes,
      b.global_dimension, b.numprocessors_)) phase_create
    (fun p b w => by
      simp only [phase_create]
      split <;> rfl)
    (after_copy b input).2 0 (after_copy b input).1
  simp only [Prod.mk.injEq] at k
  obtain ⟨k1, k2, k3, k4, k5⟩ := k
  obtain ⟨⟨e1, e2, e3, e4⟩, _, _, e5, _⟩ := d1
  refine ⟨⟨?_, ?_, ?_, ?_⟩, ?_⟩
  · exact k2.trans e1
  · exact k3.trans e2
  · exact k4.trans e3
  · exact k5.trans e4
  · intro q hq
    have := e5 q hq
    unfold rd
    rw [List.get?_eq_getElem?]
    exact (congrArg (fun l : List Nat => l[q]?) k1).trans this

theorem zero_fold_spec : ∀ (n ns : Nat) (v v2 : List ℚ),
    (List.range' ns n).foldlM (fun v k => wr v k 0) v = some v2 →
    v2.length = v.length ∧ (∀ k, (k < ns ∨ ns + n ≤ k) → v2[k]? = v[k]?) ∧
      ∀ k, ns ≤ k → k < ns + n → v2[k]? = some 0
  | 0, ns, v, v2, h => by
    simp only [List.range'_zero, List.foldlM_nil, Option.pure_def, Option.some.injEq] at h
    rw [← h]
    exact ⟨rfl, fun _ _ => rfl, fun k h1 h2 => by omega⟩
  | n + 1, ns, v, v2, h => by
    rw [List.range'_succ, List.foldlM_cons] at h
    simp only [Option.bind_eq_bind, Option.bind_eq_some] at h
    obtain ⟨v1, hv1, h⟩ := h
    have hw : ns < v.length ∧ v1 = v.set ns 0 := by
      unfold wr at hv1
      split at hv1
      · rename_i hlt
        simp only [Option.some.injEq] at hv1
        exact ⟨hlt, hv1.symm⟩
      · cases hv1
    obtain ⟨i1, i2, i3⟩ := zero_fold_spec n (ns + 1) v1 v2 h
    refine ⟨by rw [i1, hw.2, List.length_set], fun k hk => ?_, fun k hk1 hk2 => ?_⟩
    · rw [i2 k (by omega), hw.2, List.getElem?_set_ne (by omega)]
    · by_cases hks : k = ns
      · subst hks
        rw [i2 k (by omega), hw.2, List.getElem?_set_self hw.1]
      · exact i3 k (by omega) (by omega)

/-- The ZeroInit and Assembly phases of worker `proc_num` on any content of the value
array: the row-pointer and column arrays stay, the slots outside
`[colidx[proc_num], colidx[proc_num+1])` keep their values, and the slots inside hold 0
after the phase (they are zeroed first, and the rows that are accumulated hold zeros
only). -/
theorem phase_assemble_frame (input : Field) (proc_num : Nat) (b : FEMBuilder) (w : Worker)
    (r : FEMBuilder × Worker) (M : SparseRowMatrix) (ns ne : Nat)
    (hns : rd b.colidx_ proc_num = some ns) (hne : rd b.colidx_ (proc_num + 1) = some ne)
    (hM : b.fematrix_ = some M) (h : phase_assemble input proc_num b w = some r) :
    ∃ vals, r.1.fematrix_ = some { M with vals := vals } ∧ vals.length = M.vals.length ∧
      (∀ k, (k < ns ∨ ne ≤ k) → vals[k]? = M.vals[k]?) ∧
      ∀ k, ns ≤ k → k < ne → vals[k]? = some 0 := by
  unfold phase_assemble at h
  simp only [Option.bind_eq_bind, Option.bind_eq_some] at h
  obtain ⟨ns1, hns1, ne1, hne1, M1, hM1, vals, hvals, h⟩ := h
  rw [hns] at hns1
  rw [hne] at hne1
  rw [hM] at hM1
  cases hns1
  cases hne1
  cases hM1
  obtain ⟨z1, z2, z3⟩ := zero_fold_spec (ne - ns) ns M.vals vals hvals
  refine ⟨vals, ?_, z1, fun k hk => z2 k (by omega), fun k hk1 hk2 => z3 k hk1 (by omega)⟩
  cases hni : create_numerical_integration input.vmesh with
  | error e =>
    rw [hni] at h
    simp only [Option.some.injEq] at h
    rw [← h]
    rfl
  | ok ni =>
    rw [hni] at h
    simp only [Option.bind_eq_some] at h
    obtain ⟨s, hs, h⟩ := h
    have hz := integration_table_zero input.vmesh ni hni
    have hfin := foldlM_inv
      (Asm.zeroed { M with vals := vals } b.force_symmetry)
      _ (fun t i t2 ht hstep => assemble_dof_zero input ni.1 ni.2.1 ni.2.2 t i t2
        { M with vals := vals } b.force_symmetry hz ht hstep)
      _ _ s ⟨rfl, fun x hx => (List.mem_replicate.mp hx).2, rfl⟩ hs
    split at h
    · simp only [Option.some.injEq] at h
      rw [← h]
      exact hfin.1
    · simp only [Option.some.injEq] at h
      rw [← h]
      exact hfin.1

theorem slice_owner (f : Nat → Nat) (hmono : ∀ p q, p ≤ q → f p ≤ f q) (h0 : f 0 = 0)
    (N k : Nat) (hk : k < f N) :
    ∃ p, p < N ∧ f p ≤ k ∧ k < f (p + 1) ∧
      ∀ q, q < N → f q ≤ k → k < f (q + 1) → q = p := by
  have key : ∀ n, k < f n → ∃ p, p < n ∧ f p ≤ k ∧ k < f (p + 1) := by
    intro n
    induction n with
    | zero => intro hz; rw [h0] at hz; omega
    | succ n ih =>
      intro hn
      by_cases hlt : k < f n
      · obtain ⟨p, hp, h1, h2⟩ := ih hlt
        exact ⟨p, by omega, h1, h2⟩
      · exact ⟨n, by omega, by omega, hn⟩
  obtain ⟨p, hp, h1, h2⟩ := key N hk
  refine ⟨p, hp, h1, h2, ?_⟩
  intro q _ hq1 hq2
  by_contra hne
  rcases Nat.lt_or_gt_of_ne hne with hlt | hgt
  · have := hmono (q + 1) p (by omega)
    omega
  · have := hmono (p + 1) q (by omega)
    omega

/-! ## The symmetrisation at the end of `build_matrix` -/

theorem build_matrix_finish (b : FEMBuilder) (input : Field) (ctable : Option DenseMatrix)
    (output : Option SparseRowMatrix) :
    build_matrix b input ctable output =
      (run_tasks (at_run_tasks b ctable) input).bind (fun r => finish_build r output) := rfl

theorem find_flag_none (sc : List Bool) (h : ∀ j, j < sc.length → rd sc j = some true) :
    (List.range sc.length).find? (fun j => decide (rd sc j = some false)) = none := by
  rw [List.find?_eq_none]
  intro j hj
  rw [h j (List.mem_range.mp hj)]
  simp

/-- C17: `build_matrix` is the run of the workers followed by the step of lines 258-285,
and for every builder `r` that a run leaves with every success flag true and a square
assembled matrix `A` in `fematrix_` (whatever the values of `A` are): with ForceSymmetry
enabled the step returns true with an output `O` that satisfies
`O[i][j] = 0.5·(A[i][j] + A[j][i])` for all `i`, `j`, hence `O[i][j] = O[j][i]` and
`O[i][j] = 0.5·(O[i][j] + O[j][i])`; with ForceSymmetry disabled it returns true with `A`
itself as output. -/
theorem forced_symmetry (b : FEMBuilder) (input : Field) (ctable : Option DenseMatrix)
    (output : Option SparseRowMatrix) (r : FEMBuilder) (A : SparseRowMatrix)
    (hflags : ∀ j, j < r.success_.length → rd r.success_ j = some true)
    (hA : r.fematrix_ = some A) (hsq : A.nrows = A.ncols) :
    build_matrix b input ctable output =
      (run_tasks (at_run_tasks b ctable) input).bind (fun r => finish_build r output) ∧
    (r.force_symmetry = false → finish_build r output = some (true, r, some A)) ∧
    (r.force_symmetry = true → ∃ O, finish_build r output = some (true, r, some O) ∧
      O.nrows = A.nrows ∧ O.ncols = A.ncols ∧
      ∀ i j, i < A.nrows → j < A.nrows →
        O.coeff i j = (1 / 2 : ℚ) * (A.coeff i j + A.coeff j i) ∧
        O.coeff i j = O.coeff j i ∧
        O.coeff i j = (1 / 2 : ℚ) * (O.coeff i j + O.coeff j i)) := by
  refine ⟨rfl, fun hf => ?_, fun hf => ⟨A.symmetrize, ?_, rfl, rfl, fun i j hi hj => ?_⟩⟩
  · simp only [finish_build, find_flag_none _ hflags, hf, hA, Bool.false_eq_true, if_false]
  · simp only [finish_build, find_flag_none _ hflags, hf, hA, if_true, Option.bind_eq_bind,
      Option.some_bind]
  · have c1 := symmetrize_coeff A i j hi (by omega)
    have c2 := symmetrize_coeff A j i hj (by omega)
    refine ⟨by rw [c1]; ring, by rw [c1, c2]; ring, by rw [c1, c2]; ring⟩

set_option maxRecDepth 100000 in
theorem forced_symmetry_witness :
    (tet_matrix [1, 2, 3, 4, 5, 6, 7, 8, 9, 10, 11, 12, 13, 14, 15, 16]).coeff 0 1 = 2 ∧
    (tet_matrix [1, 2, 3, 4, 5, 6, 7, 8, 9, 10, 11, 12, 13, 14, 15, 16]).coeff 1 0 = 5 ∧
    ((finish_build (builder_assembled true) none).bind (fun x => x.2.2)).map
      (fun O => (O.coeff 0 1, O.coeff 1 0)) = some (7 / 2, 7 / 2) ∧
    ((finish_build (builder_assembled false) none).bind (fun x => x.2.2)).map
      (fun O => (O.coeff 0 1, O.coeff 1 0)) = some (2, 5) ∧
    (build_matrix builder_plain (tet_field 3 (-1) 4) none none =
      (run_tasks (at_run_tasks builder_plain none) (tet_field 3 (-1) 4)).bind
        (fun r => finish_build r none) ∧
    ((builder_assembled true).force_symmetry = false →
      finish_build (builder_assembled true) none = some (true, builder_assembled true,
        some (tet_matrix [1, 2, 3, 4, 5, 6, 7, 8, 9, 10, 11, 12, 13, 14, 15, 16]))) ∧
    ((builder_assembled true).force_symmetry = true →
      ∃ O, finish_build (builder_assembled true) none
          = some (true, builder_assembled true, some O) ∧
        O.nrows = (tet_matrix [1, 2, 3, 4, 5, 6, 7, 8, 9, 10, 11, 12, 13, 14, 15, 16]).nrows ∧
        O.ncols = (tet_matrix [1, 2, 3, 4, 5, 6, 7, 8, 9, 10, 11, 12, 13, 14, 15, 16]).ncols ∧
        ∀ i j, i < (tet_matrix [1, 2, 3, 4, 5, 6, 7, 8, 9, 10, 11, 12, 13, 14, 15, 16]).nrows →
          j < (tet_matrix [1, 2, 3, 4, 5, 6, 7, 8, 9, 10, 11, 12, 13, 14, 15, 16]).nrows →
          O.coeff i j = (1 / 2 : ℚ) *
            ((tet_matrix [1, 2, 3, 4, 5, 6, 7, 8, 9, 10, 11, 12, 13, 14, 15, 16]).coeff i j +
              (tet_matrix [1, 2, 3, 4, 5, 6, 7, 8, 9, 10, 11, 12, 13, 14, 15, 16]).coeff j i) ∧
          O.coeff i j = O.coeff j i ∧
          O.coeff i j = (1 / 2 : ℚ) * (O.coeff i j + O.coeff j i))) :=
  ⟨by decide!, by decide!, by decide!, by decide!,
    forced_symmetry builder_plain (tet_field 3 (-1) 4) none none (builder_assembled true)
      (tet_matrix [1, 2, 3, 4, 5, 6, 7, 8, 9, 10, 11, 12, 13, 14, 15, 16])
      (by decide) rfl rfl⟩

/-! ## The reconstruction block of `run` -/

theorem foldlM_sum {α β : Type} (P : β → Prop) (Q : α → Prop) (val : β → Nat → ℚ)
    (inc : α → Nat → ℚ) (f : β → α → Option β) :
    ∀ (l : List α) (x z : β),
      (∀ (x : β) (a : α) (y : β), a ∈ l → P x → f x a = some y →
        P y ∧ Q a ∧ ∀ k, val y k = val x k + inc a k) →
      P x → l.foldlM f x = some z →
      P z ∧ (∀ a, a ∈ l → Q a) ∧ ∀ k, val z k = val x k + (l.map (fun a => inc a k)).sum
  | [], x, z, _, hx, h => by
    simp only [List.foldlM_nil, Option.pure_def, Option.some.injEq] at h
    subst h
    exact ⟨hx, fun a ha => absurd ha (List.not_mem_nil a), fun k => by simp⟩
  | a :: l, x, z, hstep, hx, h => by
    rw [List.foldlM_cons] at h
    obtain ⟨y, hy, h⟩ := Option.bind_eq_some.mp h
    obtain ⟨p1, q1, v1⟩ := hstep x a y (List.mem_cons_self _ _) hx hy
    obtain ⟨p2, q2, v2⟩ := foldlM_sum P Q val inc f l y z
      (fun x1 a1 y1 ha1 => hstep x1 a1 y1 (List.mem_cons_of_mem _ ha1)) p1 h
    refine ⟨p2, ?_, fun k => ?_⟩
    · intro a1 ha1
      rcases List.mem_cons.mp ha1 with h1 | h1
      · rw [h1]; exact q1
      · exact q2 a1 h1
    · rw [v2 k, v1 k, List.map_cons, List.sum_cons]
      ring

theorem rd_eq_getD {α : Type} (v : List α) (i : Nat) (x d : α) (h : rd v i = some x) :
    v.getD i d = x := by
  unfold rd at h
  rw [List.get?_eq_getElem?] at h
  rw [List.getD_eq_getElem?_getD, h]
  rfl

theorem wr_length {α : Type} (l : List α) (j : Nat) (x : α) (l2 : List α)
    (h : wr l j x = some l2) : l2.length = l.length := by
  unfold wr at h
  split at h
  · simp only [Option.some.injEq] at h
    rw [← h, List.length_set]
  · cases h

/-! ## The scatter-add as a sum -/

theorem coeffRef_add_val (M M2 : SparseRowMatrix) (row col : Nat) (x : ℚ)
    (h : M.coeffRef_add row col x = some M2) :
    M2.nrows = M.nrows ∧ M2.ncols = M.ncols ∧ M2.rows = M.rows ∧ M2.cols = M.cols ∧
      M2.vals.length = M.vals.length ∧
      ∀ k, M2.vals.getD k 0 = M.vals.getD k 0 + (if M.find row col = some k then x else 0) := by
  unfold SparseRowMatrix.coeffRef_add at h
  simp only [Option.bind_eq_bind, Option.bind_eq_some, Option.some.injEq] at h
  obtain ⟨pos, hpos, old, hold, vals, hvals, h⟩ := h
  unfold wr at hvals
  split at hvals
  · rename_i hlt
    simp only [Option.some.injEq] at hvals
    rw [← h, ← hvals, hpos]
    refine ⟨rfl, rfl, rfl, rfl, by simp, fun k => ?_⟩
    simp only [Option.some.injEq]
    by_cases hk : pos = k
    · subst hk
      rw [List.getD_eq_getElem?_getD, List.getElem?_set_self hlt, rd_eq_getD _ _ _ 0 hold]
      simp
    · rw [List.getD_eq_getElem?_getD, List.getElem?_set_ne hk, ← List.getD_eq_getElem?_getD,
        if_neg hk, add_zero]
  · cases hvals

theorem add_lcl_gbl_val (M M2 : SparseRowMatrix) (row : Nat) (cols : List Nat)
    (lcl : List ℚ) (h : add_lcl_gbl M row cols lcl = some M2) :
    (M2.nrows = M.nrows ∧ M2.ncols = M.ncols ∧ M2.rows = M.rows ∧ M2.cols = M.cols ∧
      M2.vals.length = M.vals.length) ∧
      ∀ k, M2.vals.getD k 0 = M.vals.getD k 0 + row_contrib M row cols lcl lcl.length k := by
  unfold add_lcl_gbl at h
  obtain ⟨h1, _, h3⟩ := foldlM_sum
    (fun M1 : SparseRowMatrix => M1.nrows = M.nrows ∧ M1.ncols = M.ncols ∧
      M1.rows = M.rows ∧ M1.cols = M.cols ∧ M1.vals.length = M.vals.length)
    (fun _ => True) (fun M1 k => M1.vals.getD k 0)
    (fun l k => if M.find row (cols.getD l 0) = some k then lcl.getD l 0 else 0)
    _ _ M M2
    (fun M1 l M3 _ hM1 hstep => by
      simp only [Option.bind_eq_bind, Option.bind_eq_some] at hstep
      obtain ⟨c, hc, a, ha, hstep⟩ := hstep
      obtain ⟨f0, f1, f2, f3, f4, f5⟩ := coeffRef_add_val M1 M3 row c a hstep
      refine ⟨⟨f0.trans hM1.1, f1.trans hM1.2.1, f2.trans hM1.2.2.1, f3.trans hM1.2.2.2.1,
        f4.trans hM1.2.2.2.2⟩, trivial, fun k => ?_⟩
      dsimp only
      rw [f5 k, find_congr M M1 hM1.2.2.1 hM1.2.2.2.1, rd_eq_getD _ _ _ 0 hc,
        rd_eq_getD _ _ _ 0 ha])
    ⟨rfl, rfl, rfl, rfl, rfl⟩ h
  exact ⟨h1, fun k => h3 k⟩

/-! ## The row buffer of `build_local_matrix` -/

theorem accumulate_point_length (L : Nat) (Ji : Fin 9 → ℚ) (detJ : ℚ) (C : Tensor)
    (di : List ℚ) (row : Nat) (l l2 : List ℚ)
    (h : accumulate_point L Ji detJ C di row l = some l2) : l2.length = l.length := by
  unfold accumulate_point at h
  simp only [Option.bind_eq_bind, Option.bind_eq_some] at h
  obtain ⟨_, _, _, _, _, _, h⟩ := h
  refine foldlM_inv (fun t : List ℚ => t.length = l.length) _ ?_ _ l l2 rfl h
  intro t j t2 ht hstep
  simp only [Option.bind_eq_some] at hstep
  obtain ⟨_, _, _, _, _, _, _, _, hstep⟩ := hstep
  rw [wr_length _ _ _ _ hstep, ht]

theorem quadrature_loop_length (mesh : VMesh) (L : Nat) (C : Tensor) (c_ind row : Nat)
    (vol : ℚ) (p : List (List ℚ)) (w : List ℚ) (d : List (List ℚ)) :
    ∀ (n i : Nat) (l : List ℚ) (r : LocalRow),
      quadrature_loop mesh L C c_ind row vol p w d n i l = some r →
      r.l_stiff.length = l.length
  | 0, i, l, r, h => by
    simp only [quadrature_loop, Option.some.injEq] at h
    rw [← h]
  | n + 1, i, l, r, h => by
    simp only [quadrature_loop, Option.bind_eq_bind, Option.bind_eq_some] at h
    obtain ⟨pi, _, h⟩ := h
    split at h
    · simp only [Option.some.injEq] at h
      rw [← h]
    · simp only [Option.bind_eq_some] at h
      obtain ⟨wi, _, di, _, l1, hl1, h⟩ := h
      rw [quadrature_loop_length mesh L C c_ind row vol p w d n (i + 1) l1 r h,
        accumulate_point_length _ _ _ _ _ _ _ _ hl1]

theorem zero_row_length (L : Nat) (l l2 : List ℚ) (h : zero_row L l = some l2) :
    l2.length = l.length := by
  unfold zero_row at h
  exact foldlM_inv (fun t : List ℚ => t.length = l.length) _
    (fun t j t2 ht hstep => (wr_length _ _ _ _ hstep).trans ht) _ l l2 rfl h

theorem build_local_matrix_length (tensors_ : TensorTable) (L : Nat) (input : Field)
    (c_ind row : Nat) (l : List ℚ) (p : List (List ℚ)) (w : List ℚ) (d : List (List ℚ))
    (r : LocalRow) (h : build_local_matrix tensors_ L input c_ind row l p w d = some r) :
    r.l_stiff.length = l.length := by
  unfold build_local_matrix at h
  simp only [Option.bind_eq_bind, Option.bind_eq_some] at h
  obtain ⟨T, _, h⟩ := h
  split at h
  · simp only [Option.bind_eq_some, Option.some.injEq] at h
    obtain ⟨l1, hl1, h⟩ := h
    rw [← h]
    exact zero_row_length _ _ _ hl1
  · simp only [Option.bind_eq_some] at h
    obtain ⟨l1, hl1, h⟩ := h
    split at h
    · simp only [Option.some.injEq] at h
      rw [← h]
      exact zero_row_length _ _ _ hl1
    · rw [quadrature_loop_length _ _ _ _ _ _ _ _ _ _ _ _ _ h]
      exact zero_row_length _ _ _ hl1

theorem build_local_matrix_buffer (tensors_ : TensorTable) (L : Nat) (input : Field)
    (c_ind row : Nat) (l : List ℚ) (p : List (List ℚ)) (w : List ℚ) (d : List (List ℚ))
    (hl : l.length = L) :
    build_local_matrix tensors_ L input c_ind row l p w d
      = build_local_matrix tensors_ L input c_ind row (List.replicate L 0) p w d := by
  unfold build_local_matrix
  rw [zero_row_eq L l (by omega), zero_row_eq L (List.replicate L 0) (by simp),
    List.drop_eq_nil_of_le (by omega), List.drop_eq_nil_of_le (by simp)]

/-! ## The assembly loop as a sum of contributions -/

theorem row_and_add_val (input : Field) (p : List (List ℚ)) (wt : List ℚ)
    (d : List (List ℚ)) (i c row : Nat) (M : SparseRowMatrix) (b0 : FEMBuilder)
    (s s2 : Asm) (hs : Asm.linear M b0 s)
    (h : row_and_add input p wt d i c row s = some s2) :
    (Asm.linear M b0 s2 ∧ s2.w = s.w) ∧
    (build_local_matrix b0.tensors_ b0.local_dimension input c row
      (List.replicate b0.local_dimension 0) p wt d).isSome = true ∧
    ∀ k, s2.b.value k = s.b.value k + row_contrib M i s.w.neib_dofs
      (local_row_tables b0.tensors_ b0.local_dimension input (p, wt, d) c row)
      b0.local_dimension k := by
  obtain ⟨h1, h2, h3, h4, h5, h6, M1, hM1, g0, g1, g2, g3, g4⟩ := hs
  unfold row_and_add at h
  simp only [Option.bind_eq_bind, Option.bind_eq_some, Option.some.injEq] at h
  obtain ⟨r, hr, M1b, hM1b, M2, hM2, h⟩ := h
  rw [hM1] at hM1b
  cases hM1b
  rw [h3, h4, build_local_matrix_buffer _ _ _ _ _ _ _ _ _ h2] at hr
  have hlen : r.l_stiff.length = b0.local_dimension := by
    rw [build_local_matrix_length _ _ _ _ _ _ _ _ _ r hr, List.length_replicate]
  obtain ⟨⟨f0, f1, f2, f3, f4⟩, f5⟩ := add_lcl_gbl_val M1 M2 i s.w.neib_dofs r.l_stiff hM2
  rw [← h]
  refine ⟨⟨⟨h1, hlen, h3, h4, h5, h6, M2, rfl, f0.trans g0, f1.trans g1, f2.trans g2,
    f3.trans g3, f4.trans g4⟩, rfl⟩, ?_, fun k => ?_⟩
  · rw [hr]
    rfl
  · simp only [FEMBuilder.value, hM1, Option.map_some', Option.getD_some, local_row_tables, hr]
    rw [f5 k, hlen]
    simp only [row_contrib]
    congr 2
    apply List.map_congr_left
    intro l _
    rw [find_congr M M1 g2 g3]

theorem assemble_elem_val (input : Field) (p : List (List ℚ)) (wt : List ℚ)
    (d : List (List ℚ)) (i : Nat) (M : SparseRowMatrix) (b0 : FEMBuilder)
    (s : Asm) (c : Nat) (s2 : Asm) (hs : Asm.linear M b0 s)
    (hlen : (input.vmesh.get_nodes c).length = b0.local_dimension)
    (h : assemble_elem input p wt d i s c = some s2) :
    Asm.linear M b0 s2 ∧
    (∀ kk, rd (input.vmesh.get_nodes c) kk = some i →
      (build_local_matrix b0.tensors_ b0.local_dimension input c kk
        (List.replicate b0.local_dimension 0) p wt d).isSome = true) ∧
    ∀ k, s2.b.value k = s.b.value k
      + elem_contrib M b0.tensors_ b0.local_dimension input (p, wt, d) i c k := by
  have hthrown : s.thrown = false := hs.1
  have hGa : s.b.global_dimension_add_nodes = 0 := hs.2.2.2.2.2.1
  have hL : s.b.local_dimension = b0.local_dimension := hs.2.2.2.1
  unfold assemble_elem at h
  simp only [hthrown, hGa, ne_eq, not_true_eq_false, decide_False, Bool.false_eq_true,
    if_false, List.append_nil, hlen, hL, decide_True, Bool.and_false, Option.bind_eq_bind,
    Option.bind_some] at h
  obtain ⟨h1, h2, h3⟩ := foldlM_sum
    (fun t : Asm => Asm.linear M b0 t ∧ t.w.neib_dofs = input.vmesh.get_nodes c)
    (fun kk => rd (input.vmesh.get_nodes c) kk = some i →
      (build_local_matrix b0.tensors_ b0.local_dimension input c kk
        (List.replicate b0.local_dimension 0) p wt d).isSome = true)
    (fun t k => t.b.value k)
    (fun kk k => if rd (input.vmesh.get_nodes c) kk = some i then
      row_contrib M i (input.vmesh.get_nodes c)
        (local_row_tables b0.tensors_ b0.local_dimension input (p, wt, d) c kk)
        b0.local_dimension k else 0)
    (fun (t : Asm) kk => if rd (input.vmesh.get_nodes c) kk = some i
      then row_and_add input p wt d i c kk t else some t) _ _ s2
    (fun t kk t2 _ ht hstep => by
      dsimp only at ht hstep ⊢
      by_cases hk : rd (input.vmesh.get_nodes c) kk = some i
      · rw [if_pos hk] at hstep
        obtain ⟨⟨e1, e2⟩, e3, e4⟩ := row_and_add_val input p wt d i c kk M b0 t t2 ht.1 hstep
        refine ⟨⟨e1, by rw [e2]; exact ht.2⟩, fun _ => e3, fun k => ?_⟩
        rw [e4 k, ht.2, if_pos hk]
      · rw [if_neg hk] at hstep
        simp only [Option.some.injEq] at hstep
        rw [← hstep]
        exact ⟨ht, fun hk2 => absurd hk2 hk, fun k => by rw [if_neg hk, add_zero]⟩)
    (by exact ⟨⟨rfl, hs.2⟩, rfl⟩) h
  refine ⟨h1.1, fun kk hkk => h2 kk ?_ hkk, fun k => ?_⟩
  · rw [List.mem_range, ← hlen]
    unfold rd at hkk
    rw [List.get?_eq_getElem?] at hkk
    exact (List.getElem?_eq_some_iff.mp hkk).1
  · rw [h3 k]
    simp only [elem_contrib, hlen]

/-! ## The assembly loop on a regular mesh -/

theorem jacobian_cache_uniform (mesh : VMesh) (c : Nat) (vol : ℚ) (p : List (List ℚ))
    (w : List ℚ) (n : Nat)
    (huni : ∀ q, q < n → ∀ e, mesh.inverse_jacobian (p.getD q []) e
      = mesh.inverse_jacobian (p.getD q []) 0) :
    jacobian_cache mesh c vol p w n = jacobian_cache mesh 0 vol p w n := by
  unfold jacobian_cache
  apply List.map_congr_left
  intro q hq
  unfold cache_line
  rw [huni q (List.mem_range.mp hq) c]

theorem regular_resolves (t : TensorTable) (L : Nat) (input : Field) (c row : Nat)
    (l : List ℚ) (p : List (List ℚ)) (w : List ℚ) (d : List (List ℚ))
    (pre : List (List ℚ)) (r : RegularRow)
    (h : build_local_matrix_regular t L input c row l p w d pre = some r) :
    ∃ T, resolve_tensor t input.vfield c = some T := by
  unfold build_local_matrix_regular at h
  simp only [Option.bind_eq_bind, Option.bind_eq_some] at h
  obtain ⟨T, hT, _⟩ := h
  exact ⟨T, hT⟩

theorem row_and_add_regular_val (input : Field) (p : List (List ℚ)) (wt : List ℚ)
    (d : List (List ℚ)) (i c row : Nat) (M : SparseRowMatrix) (b0 : FEMBuilder)
    (s s2 : Asm) (hs : Asm.linear M b0 s) (hc : Asm.cached input (p, wt, d) s)
    (hok : regular_tables input (p, wt, d) b0.local_dimension)
    (hrow : row < b0.local_dimension)
    (h : row_and_add_regular input p wt d i c row s = some s2) :
    (Asm.linear M b0 s2 ∧ Asm.cached input (p, wt, d) s2 ∧
      s2.w.neib_dofs = s.w.neib_dofs) ∧
    (build_local_matrix b0.tensors_ b0.local_dimension input c row
      (List.replicate b0.local_dimension 0) p wt d).isSome = true ∧
    ∀ k, s2.b.value k = s.b.value k + row_contrib M i s.w.neib_dofs
      (local_row_tables b0.tensors_ b0.local_dimension input (p, wt, d) c row)
      b0.local_dimension k := by
  obtain ⟨h1, h2, h3, h4, h5, h6, M1, hM1, g0, g1, g2, g3, g4⟩ := hs
  obtain ⟨hdim, hp, hw, hd, huni, hdet⟩ := hok
  simp only at hp hw hd huni hdet
  unfold row_and_add_regular at h
  simp only [Option.bind_eq_bind, Option.bind_eq_some, Option.some.injEq] at h
  obtain ⟨r, hr, M1b, hM1b, M2, hM2, h⟩ := h
  rw [hM1] at hM1b
  cases hM1b
  rw [h3, h4] at hr
  obtain ⟨T, hT⟩ := regular_resolves _ _ _ _ _ _ _ _ _ _ _ hr
  have hdetc : ∀ q, q < d.length → 0 < det_at input.vmesh c p q := by
    intro q hq
    have := hdet q hq
    unfold det_at at this ⊢
    rwa [huni q hq c]
  have key : ∃ g, build_local_matrix b0.tensors_ b0.local_dimension input c row s.lsml p wt d
        = some g ∧ r.l_stiff = g.l_stiff ∧
      (r.precompute = [] ∨ r.precompute
        = jacobian_cache input.vmesh 0 input.vmesh.get_element_size p wt d.length) := by
    rcases hc with hc | hc
    · obtain ⟨g, hg1, hg2⟩ := regular_first_call b0.tensors_ b0.local_dimension input c row
        s.lsml p wt d T hT hdim hrow (by omega) hp hw hd hdetc
      rw [hc, hg2] at hr
      simp only [Option.some.injEq] at hr
      rw [← hr]
      refine ⟨g, hg1, rfl, ?_⟩
      simp only
      split
      · exact Or.inl rfl
      · exact Or.inr (jacobian_cache_uniform _ _ _ _ _ _ huni)
    · obtain ⟨g, hg1, hg2⟩ := regular_later_call b0.tensors_ b0.local_dimension input 0 c row
        s.lsml p wt d T hT hdim hrow (by omega) hp hw hd huni hdet
      rw [hc, hg2] at hr
      simp only [Option.some.injEq] at hr
      rw [← hr]
      exact ⟨g, hg1, rfl, Or.inr rfl⟩
  obtain ⟨g, hg, hrg, hcache⟩ := key
  rw [build_local_matrix_buffer _ _ _ _ _ _ _ _ _ h2] at hg
  have hlen : r.l_stiff.length = b0.local_dimension := by
    rw [hrg, build_local_matrix_length _ _ _ _ _ _ _ _ _ g hg, List.length_replicate]
  obtain ⟨⟨f0, f1, f2, f3, f4⟩, f5⟩ := add_lcl_gbl_val M1 M2 i s.w.neib_dofs r.l_stiff hM2
  rw [← h]
  refine ⟨⟨⟨h1, hlen, h3, h4, h5, h6, M2, rfl, f0.trans g0, f1.trans g1, f2.trans g2,
    f3.trans g3, f4.trans g4⟩, hcache, rfl⟩, ?_, fun k => ?_⟩
  · rw [hg]
    rfl
  · simp only [FEMBuilder.value, hM1, Option.map_some', Option.getD_some, local_row_tables, hg]
    rw [f5 k, hlen, hrg]
    simp only [row_contrib]
    congr 2
    apply List.map_congr_left
    intro l _
    rw [find_congr M M1 g2 g3]

theorem assemble_elem_regular_val (input : Field) (p : List (List ℚ)) (wt : List ℚ)
    (d : List (List ℚ)) (i : Nat) (M : SparseRowMatrix) (b0 : FEMBuilder)
    (s : Asm) (c : Nat) (s2 : Asm) (hs : Asm.linear M b0 s)
    (hc : Asm.cached input (p, wt, d) s)
    (hok : regular_tables input (p, wt, d) b0.local_dimension)
    (hlen : (input.vmesh.get_nodes c).length = b0.local_dimension)
    (h : assemble_elem_regular input p wt d i s c = some s2) :
    (Asm.linear M b0 s2 ∧ Asm.cached input (p, wt, d) s2) ∧
    (∀ kk, rd (input.vmesh.get_nodes c) kk = some i →
      (build_local_matrix b0.tensors_ b0.local_dimension input c kk
        (List.replicate b0.local_dimension 0) p wt d).isSome = true) ∧
    ∀ k, s2.b.value k = s.b.value k
      + elem_contrib M b0.tensors_ b0.local_dimension input (p, wt, d) i c k := by
  have hthrown : s.thrown = false := hs.1
  unfold assemble_elem_regular at h
  simp only [hthrown, Bool.false_eq_true, if_false] at h
  obtain ⟨h1, h2, h3⟩ := foldlM_sum
    (fun t : Asm => Asm.linear M b0 t ∧ Asm.cached input (p, wt, d) t ∧
      t.w.neib_dofs = input.vmesh.get_nodes c)
    (fun kk => rd (input.vmesh.get_nodes c) kk = some i →
      (build_local_matrix b0.tensors_ b0.local_dimension input c kk
        (List.replicate b0.local_dimension 0) p wt d).isSome = true)
    (fun t k => t.b.value k)
    (fun kk k => if rd (input.vmesh.get_nodes c) kk = some i then
      row_contrib M i (input.vmesh.get_nodes c)
        (local_row_tables b0.tensors_ b0.local_dimension input (p, wt, d) c kk)
        b0.local_dimension k else 0)
    (fun (t : Asm) kk => if rd (input.vmesh.get_nodes c) kk = some i
      then row_and_add_regular input p wt d i c kk t else some t) _ _ s2
    (fun t kk t2 hkk ht hstep => by
      dsimp only at ht hstep ⊢
      by_cases hk : rd (input.vmesh.get_nodes c) kk = some i
      · rw [if_pos hk] at hstep
        obtain ⟨⟨e1, e2, e3⟩, e4, e5⟩ := row_and_add_regular_val input p wt d i c kk M b0 t t2
          ht.1 ht.2.1 hok (by rw [← hlen]; exact List.mem_range.mp hkk) hstep
        refine ⟨⟨e1, e2, by rw [e3]; exact ht.2.2⟩, fun _ => e4, fun k => ?_⟩
        rw [e5 k, ht.2.2, if_pos hk]
      · rw [if_neg hk] at hstep
        simp only [Option.some.injEq] at hstep
        rw [← hstep]
        exact ⟨ht, fun hk2 => absurd hk2 hk, fun k => by rw [if_neg hk, add_zero]⟩)
    (by exact ⟨⟨rfl, hs.2⟩, hc, rfl⟩) h
  refine ⟨⟨h1.1, h1.2.1⟩, fun kk hkk => h2 kk ?_ hkk, fun k => ?_⟩
  · rw [List.mem_range]
    unfold rd at hkk
    rw [List.get?_eq_getElem?] at hkk
    exact (List.getElem?_eq_some_iff.mp hkk).1
  · rw [h3 k]
    simp only [elem_contrib]

theorem assemble_dof_val (input : Field) (p : List (List ℚ)) (wt : List ℚ)
    (d : List (List ℚ)) (M : SparseRowMatrix) (b0 : FEMBuilder) (s : Asm) (i : Nat)
    (s2 : Asm) (hs : Asm.linear M b0 s)
    (hc : input.vmesh.is_regularmesh = true → Asm.cached input (p, wt, d) s)
    (hmesh : input.vmesh.is_regularmesh = true →
      regular_tables input (p, wt, d) b0.local_dimension)
    (hi : i < b0.global_dimension_nodes)
    (hnodes : ∀ c, c ∈ input.vmesh.get_elems_node i →
      (input.vmesh.get_nodes c).length = b0.local_dimension)
    (h : assemble_dof input p wt d s i = some s2) :
    (Asm.linear M b0 s2 ∧
      (input.vmesh.is_regularmesh = true → Asm.cached input (p, wt, d) s2)) ∧
    rows_defined b0.tensors_ b0.local_dimension input (p, wt, d) i ∧
    ∀ k, s2.b.value k = s.b.value k
      + dof_contrib M b0.tensors_ b0.local_dimension input (p, wt, d) i k := by
  have hthrown : s.thrown = false := hs.1
  have hGn : s.b.global_dimension_nodes = b0.global_dimension_nodes := hs.2.2.2.2.1
  unfold assemble_dof at h
  by_cases hr : input.vmesh.is_regularmesh = true
  · simp only [hthrown, select_elems, hGn, hi, hr, Bool.false_eq_true, if_false, if_true] at h
    obtain ⟨h1, h2, h3⟩ := foldlM_sum
      (fun t : Asm => Asm.linear M b0 t ∧ Asm.cached input (p, wt, d) t)
      (fun c => ∀ kk, rd (input.vmesh.get_nodes c) kk = some i →
        (build_local_matrix b0.tensors_ b0.local_dimension input c kk
          (List.replicate b0.local_dimension 0) p wt d).isSome = true)
      (fun t k => t.b.value k)
      (fun c k => elem_contrib M b0.tensors_ b0.local_dimension input (p, wt, d) i c k)
      (assemble_elem_regular input p wt d i) _ _ s2
      (fun t c t2 hcm ht hstep =>
        assemble_elem_regular_val input p wt d i M b0 t c t2 ht.1 ht.2 (hmesh hr)
          (hnodes c hcm) hstep)
      (by exact ⟨⟨rfl, hs.2⟩, hc hr⟩) h
    exact ⟨⟨h1.1, fun _ => h1.2⟩, fun c hcm kk hkk => h2 c hcm kk hkk, fun k => h3 k⟩
  have hreg : input.vmesh.is_regularmesh = false := by
    cases hx : input.vmesh.is_regularmesh
    · rfl
    · exact absurd hx hr
  simp only [hthrown, select_elems, hGn, hi, hreg, Bool.false_eq_true, if_false, if_true] at h
  obtain ⟨h1, h2, h3⟩ := foldlM_sum (Asm.linear M b0)
    (fun c => ∀ kk, rd (input.vmesh.get_nodes c) kk = some i →
      (build_local_matrix b0.tensors_ b0.local_dimension input c kk
        (List.replicate b0.local_dimension 0) p wt d).isSome = true)
    (fun t k => t.b.value k)
    (fun c k => elem_contrib M b0.tensors_ b0.local_dimension input (p, wt, d) i c k)
    (assemble_elem input p wt d i) _ _ s2
    (fun t c t2 hcm ht hstep =>
      assemble_elem_val input p wt d i M b0 t c t2 ht (hnodes c hcm) hstep)
    (by exact ⟨rfl, hs.2⟩) h
  exact ⟨⟨h1, fun hx => absurd hx hr⟩, fun c hcm kk hkk => h2 c hcm kk hkk, fun k => h3 k⟩

theorem assemble_loop_val (input : Field) (p : List (List ℚ)) (wt : List ℚ)
    (d : List (List ℚ)) (M : SparseRowMatrix) (b0 : FEMBuilder)
    (hmesh : input.vmesh.is_regularmesh = true →
      regular_tables input (p, wt, d) b0.local_dimension)
    (hnodes : ∀ i, i < b0.global_dimension_nodes → ∀ c, c ∈ input.vmesh.get_elems_node i →
      (input.vmesh.get_nodes c).length = b0.local_dimension)
    (start n : Nat) (s s2 : Asm) (hn : start + n ≤ b0.global_dimension_nodes)
    (hs : Asm.linear M b0 s)
    (hc : input.vmesh.is_regularmesh = true → Asm.cached input (p, wt, d) s)
    (h : (List.range' start n).foldlM (assemble_dof input p wt d) s = some s2) :
    Asm.linear M b0 s2 ∧
    (∀ i, start ≤ i → i < start + n →
      rows_defined b0.tensors_ b0.local_dimension input (p, wt, d) i) ∧
    ∀ k, s2.b.value k = s.b.value k + ((List.range' start n).map (fun i =>
      dof_contrib M b0.tensors_ b0.local_dimension input (p, wt, d) i k)).sum := by
  obtain ⟨h1, h2, h3⟩ := foldlM_sum
    (fun t : Asm => Asm.linear M b0 t ∧
      (input.vmesh.is_regularmesh = true → Asm.cached input (p, wt, d) t))
    (fun i => rows_defined b0.tensors_ b0.local_dimension input (p, wt, d) i)
    (fun t k => t.b.value k)
    (fun i k => dof_contrib M b0.tensors_ b0.local_dimension input (p, wt, d) i k)
    (assemble_dof input p wt d) _ _ s2
    (fun t i t2 hi ht hstep => by
      rw [List.mem_range'_1] at hi
      exact assemble_dof_val input p wt d M b0 t i t2 ht.1 ht.2 hmesh (by omega)
        (hnodes i (by omega)) hstep)
    ⟨hs, hc⟩ h
  exact ⟨h1.1, fun i hi1 hi2 => h2 i (List.mem_range'_1.mpr ⟨hi1, hi2⟩), fun k => h3 k⟩

theorem zero_fold_getD (n ns : Nat) (v v2 : List ℚ)
    (h : (List.range' ns n).foldlM (fun v k => wr v k 0) v = some v2) :
    v2.length = v.length ∧
      ∀ k, v2.getD k 0 = if ns ≤ k ∧ k < ns + n then 0 else v.getD k 0 := by
  obtain ⟨z1, z2, z3⟩ := zero_fold_spec n ns v v2 h
  refine ⟨z1, fun k => ?_⟩
  by_cases hk : ns ≤ k ∧ k < ns + n
  · rw [if_pos hk, List.getD_eq_getElem?_getD, z3 k hk.1 hk.2]
    rfl
  · rw [if_neg hk, List.getD_eq_getElem?_getD, z2 k (by omega), ← List.getD_eq_getElem?_getD]

theorem phase_assemble_tables_static {γ : Type} (f : FEMBuilder → γ)
    (hf : ∀ (b : FEMBuilder) (M : Option SparseRowMatrix) (l : List Msg) (sc : List Bool),
      f { b with fematrix_ := M, log := l, success_ := sc } = f b)
    (input : Field) (ni : List (List ℚ) × List ℚ × List (List ℚ)) (proc_num : Nat)
    (b : FEMBuilder) (w : Worker) (r : FEMBuilder × Worker)
    (h : phase_assemble_tables input ni proc_num b w = some r) : f r.1 = f b := by
  have hf2 : ∀ (b : FEMBuilder) (M : Option SparseRowMatrix) (l : List Msg),
      f { b with fematrix_ := M, log := l } = f b := fun b M l => hf b M l b.success_
  unfold phase_assemble_tables at h
  simp only [Option.bind_eq_bind, Option.bind_eq_some] at h
  obtain ⟨ns, _, ne, _, M1, _, vals, _, s, hs, h⟩ := h
  have e1 := foldlM_inv (fun t : Asm => f t.b = f b) _
    (fun t i t2 ht hstep =>
      (assemble_dof_static f hf2 input ni.1 ni.2.1 ni.2.2 t i t2 hstep).trans ht)
    _ _ s (hf b _ b.log b.success_) hs
  split at h
  · simp only [Option.some.injEq] at h
    rw [← h]
    exact (hf s.b _ _ _).trans e1
  · simp only [Option.some.injEq] at h
    rw [← h]
    exact (hf s.b s.b.fematrix_ s.b.log _).trans e1

theorem phase_assemble_tables_val (input : Field)
    (ni : List (List ℚ) × List ℚ × List (List ℚ)) (proc_num : Nat) (b : FEMBuilder)
    (w : Worker) (r : FEMBuilder × Worker) (M : SparseRowMatrix) (vals0 : List ℚ)
    (ns ne : Nat) (hM : b.fematrix_ = some { M with vals := vals0 })
    (hv : vals0.length = M.vals.length)
    (hGa : b.global_dimension_add_nodes = 0)
    (hmesh : input.vmesh.is_regularmesh = true →
      regular_tables input ni b.local_dimension ∧ w.precompute = [])
    (hnodes : ∀ i, i < b.global_dimension_nodes → ∀ c, c ∈ input.vmesh.get_elems_node i →
      (input.vmesh.get_nodes c).length = b.local_dimension)
    (hns : rd b.colidx_ proc_num = some ns) (hne : rd b.colidx_ (proc_num + 1) = some ne)
    (hse : start_gd b proc_num ≤ end_gd b proc_num)
    (hend : end_gd b proc_num ≤ b.global_dimension_nodes)
    (h : phase_assemble_tables input ni proc_num b w = some r) :
    (∃ vals, r.1.fematrix_ = some { M with vals := vals } ∧ vals.length = M.vals.length ∧
      ∀ k, vals.getD k 0 = (if ns ≤ k ∧ k < ne then 0 else vals0.getD k 0)
        + ((List.range' (start_gd b proc_num) (end_gd b proc_num - start_gd b proc_num)).map
            (fun i => dof_contrib M b.tensors_ b.local_dimension input ni i k)).sum) ∧
    (∀ i, start_gd b proc_num ≤ i → i < end_gd b proc_num →
      rows_defined b.tensors_ b.local_dimension input ni i) := by
  unfold phase_assemble_tables at h
  simp only [Option.bind_eq_bind, Option.bind_eq_some] at h
  obtain ⟨ns1, hns1, ne1, hne1, M1, hM1, vals, hvals, s, hs, h⟩ := h
  rw [hns] at hns1
  rw [hne] at hne1
  rw [hM] at hM1
  cases hns1
  cases hne1
  cases hM1
  obtain ⟨z1, z2⟩ := zero_fold_getD (ne - ns) ns vals0 vals hvals
  obtain ⟨⟨_, _, _, _, _, _, M2, hM2, g0, g1, g2, g3, g4⟩, e2, e3⟩ :=
    assemble_loop_val input ni.1 ni.2.1 ni.2.2 M b (fun hr => (hmesh hr).1) hnodes
    (start_gd b proc_num) (end_gd b proc_num - start_gd b proc_num) _ s (by omega)
    (by exact ⟨rfl, by simp, rfl, rfl, rfl, hGa, _, rfl, rfl, rfl, rfl, rfl,
      by simp only; rw [z1, hv]⟩) (fun hr => Or.inl (hmesh hr).2) hs
  have hfm : r.1.fematrix_ = s.b.fematrix_ := by
    split at h
    · simp only [Option.some.injEq] at h
      rw [← h]
      rfl
    · simp only [Option.some.injEq] at h
      rw [← h]
  have hM2eq : M2 = { M with vals := M2.vals } := by
    cases M2
    cases M
    simp only at g0 g1 g2 g3
    simp only [SparseRowMatrix.mk.injEq]
    exact ⟨g0, g1, g2, g3, trivial⟩
  refine ⟨⟨M2.vals, ?_, g4, fun k => ?_⟩, fun i hi1 hi2 => e2 i hi1 (by omega)⟩
  · rw [hfm, hM2, ← hM2eq]
  · have := e3 k
    simp only [FEMBuilder.value, hM2, Option.map_some', Option.getD_some] at this
    have hc : (ns ≤ k ∧ k < ns + (ne - ns)) ↔ (ns ≤ k ∧ k < ne) := by omega
    rw [this, z2 k, if_congr hc rfl rfl]

/-! ## The assembly of all workers -/

theorem each_worker_opt_ind (step : Nat → FEMBuilder → Worker → Option (FEMBuilder × Worker))
    (N : Nat) (Inv : Nat → FEMBuilder → Prop)
    (hstep : ∀ p b w r, p < N → Inv p b → step p b w = some r → Inv (p + 1) r.1) :
    ∀ (ws : List Worker) (p : Nat) (b : FEMBuilder) (r : FEMBuilder × List Worker),
      p + ws.length = N → Inv p b → each_worker_opt step p b ws = some r → Inv N r.1
  | [], p, b, r, hlen, hinv, h => by
    have hp : p = N := by simpa using hlen
    subst hp
    simp only [each_worker_opt, Option.some.injEq] at h
    rw [← h]
    exact hinv
  | w :: ws, p, b, r, hlen, hinv, h => by
    simp only [each_worker_opt, Option.bind_eq_bind, Option.bind_eq_some,
      Option.some.injEq] at h
    obtain ⟨r1, hr1, rs, hrs, h⟩ := h
    rw [← h]
    have hpN : p < N := by simp at hlen; omega
    exact each_worker_opt_ind step N Inv hstep ws (p + 1) r1.1 rs (by simp at hlen; omega)
      (hstep p b w r1 hpN hinv hr1) hrs

theorem discover_fold_locals (mesh : VMesh) : ∀ (l : List Nat) (s : FEMBuilder × Worker),
    ((l.foldl (discover_row mesh) s).1.tensors_, (l.foldl (discover_row mesh) s).1.local_dimension)
      = (s.1.tensors_, s.1.local_dimension)
  | [], _ => rfl
  | i :: l, s => by
    rw [List.foldl_cons, discover_fold_locals mesh l (discover_row mesh s i)]
    simp only [discover_row]
    split <;> rfl

theorem after_create_locals (b : FEMBuilder) (input : Field) (hN : 0 < b.numprocessors_)
    (hd : 1 ≤ input.vmesh.dimensionality) :
    (after_create b input).1.tensors_ = b.tensors_ ∧
    (after_create b input).1.local_dimension = local_dofs input := by
  have hd2 : ¬ input.vmesh.dimensionality < 1 := by omega
  have h := each_worker_ind (phase_setup input) b.numprocessors_
    (fun p b1 => if p = 0 then b1 = b else
      (b1.tensors_ = b.tensors_ ∧ b1.local_dimension = local_dofs input))
    (fun _ _ => True) (fun _ _ => True)
    (fun p b1 w hp hinv _ => by
      have hp1 : ¬ p + 1 = 0 := by omega
      dsimp only at hinv ⊢
      rw [if_neg hp1]
      refine ⟨?_, trivial⟩
      by_cases hp0 : p = 0
      · subst hp0
        rw [if_pos rfl] at hinv
        subst hinv
        simp only [phase_setup, setup, hd2, if_true, if_false]
        constructor <;> split <;> simp [FEMBuilder.error, local_dofs]
      · rw [if_neg hp0] at hinv
        have hb : (phase_setup input p b1 w)
            = ({ b1 with success_ := b1.success_.set p true }, w) := by
          simp [phase_setup, hp0]
        rw [hb]
        exact hinv)
    (List.replicate b.numprocessors_ Worker.new) 0 b (by simp) (by simp)
    (fun _ _ _ => trivial)
  have hN0 : ¬ b.numprocessors_ = 0 := by omega
  dsimp only at h
  rw [if_neg hN0] at h
  have k := each_worker_keeps (fun b : FEMBuilder => (b.tensors_, b.local_dimension))
  unfold after_create
  simp only
  have k4 := k phase_create (fun p b w => by simp only [phase_create]; split <;> rfl)
  have k3 := k phase_copy (fun p b w => rfl)
  have k2 := k phase_offsets (fun p b w => by simp only [phase_offsets]; split <;> rfl)
  have k1 := k (phase_discover input) (fun p b w => by
    simp only [phase_discover]
    exact discover_fold_locals input.vmesh _ _)
  generalize each_worker (phase_setup input) 0 b (List.replicate b.numprocessors_ Worker.new)
    = s0 at h ⊢
  have e1 := k1 s0.2 0 s0.1
  generalize each_worker (phase_discover input) 0 s0.1 s0.2 = s1 at e1 ⊢
  have e2 := k2 s1.2 0 s1.1
  generalize each_worker phase_offsets 0 s1.1 s1.2 = s2 at e2 ⊢
  have e3 := k3 s2.2 0 s2.1
  generalize each_worker phase_copy 0 s2.1 s2.2 = s3 at e3 ⊢
  have e4 := k4 s3.2 0 s3.1
  simp only [Prod.mk.injEq] at e1 e2 e3 e4
  exact ⟨e4.1.trans (e3.1.trans (e2.1.trans (e1.1.trans h.1.1))),
    e4.2.trans (e3.2.trans (e2.2.trans (e1.2.trans h.1.2)))⟩

theorem each_worker_opt_ind_mem
    (step : Nat → FEMBuilder → Worker → Option (FEMBuilder × Worker))
    (N : Nat) (Inv : Nat → FEMBuilder → Prop) (Win : Worker → Prop)
    (hstep : ∀ p b w r, p < N → Inv p b → Win w → step p b w = some r → Inv (p + 1) r.1) :
    ∀ (ws : List Worker) (p : Nat) (b : FEMBuilder) (r : FEMBuilder × List Worker),
      p + ws.length = N → Inv p b → (∀ w, w ∈ ws → Win w) →
      each_worker_opt step p b ws = some r → Inv N r.1
  | [], p, b, r, hlen, hinv, _, h => by
    have hp : p = N := by simpa using hlen
    subst hp
    simp only [each_worker_opt, Option.some.injEq] at h
    rw [← h]
    exact hinv
  | w :: ws, p, b, r, hlen, hinv, hw, h => by
    simp only [each_worker_opt, Option.bind_eq_bind, Option.bind_eq_some,
      Option.some.injEq] at h
    obtain ⟨r1, hr1, rs, hrs, h⟩ := h
    rw [← h]
    have hpN : p < N := by simp at hlen; omega
    exact each_worker_opt_ind_mem step N Inv Win hstep ws (p + 1) r1.1 rs
      (by simp at hlen; omega)
      (hstep p b w r1 hpN hinv (hw w (List.mem_cons_self _ _)) hr1)
      (fun v hv => hw v (List.mem_cons_of_mem _ hv)) hrs

theorem after_create_caches (b : FEMBuilder) (input : Field) :
    ∀ w, w ∈ (after_create b input).2 → w.precompute = [] := by
  unfold after_create
  simp only
  generalize each_worker (phase_discover input) 0 _ _ = s1
  have e2 := (each_worker_ind phase_offsets s1.2.length (fun _ _ => True)
    (fun _ _ => True) (fun _ w => w.precompute = [])
    (fun p b w _ _ _ => ⟨trivial, by simp only [phase_offsets]; split <;> rfl⟩)
    s1.2 0 s1.1 (by simp) trivial (fun _ _ _ => trivial)).2.2
  generalize each_worker phase_offsets 0 s1.1 s1.2 = s2 at e2 ⊢
  have e3 := (each_worker_ind phase_copy s2.2.length (fun _ _ => True)
    (fun _ w => w.precompute = []) (fun _ w => w.precompute = [])
    (fun p b w _ _ hw => ⟨trivial, hw⟩)
    s2.2 0 s2.1 (by simp) trivial e2).2.2
  generalize each_worker phase_copy 0 s2.1 s2.2 = s3 at e3 ⊢
  have e4 := (each_worker_ind phase_create s3.2.length (fun _ _ => True)
    (fun _ w => w.precompute = []) (fun _ w => w.precompute = [])
    (fun p b w _ _ hw => ⟨trivial, by simp only [phase_create]; split <;> exact hw⟩)
    s3.2 0 s3.1 (by simp) trivial e3).2.2
  intro w hw
  obtain ⟨k, hk⟩ := List.mem_iff_getElem?.mp hw
  exact e4 k w hk

theorem row_contrib_zero (M : SparseRowMatrix) (i : Nat) (cols : List Nat) (lcl : List ℚ)
    (L k : Nat) (h : ∀ j, M.find i j ≠ some k) : row_contrib M i cols lcl L k = 0 := by
  unfold row_contrib
  apply List.sum_eq_zero
  intro x hx
  simp only [List.mem_map] at hx
  obtain ⟨l, _, hx⟩ := hx
  rw [← hx, if_neg (h _)]

theorem dof_contrib_zero (M : SparseRowMatrix) (tensors_ : TensorTable) (L : Nat)
    (input : Field) (ni : List (List ℚ) × List ℚ × List (List ℚ)) (i k : Nat)
    (h : ∀ j, M.find i j ≠ some k) : dof_contrib M tensors_ L input ni i k = 0 := by
  unfold dof_contrib
  apply List.sum_eq_zero
  intro x hx
  simp only [List.mem_map] at hx
  obtain ⟨c, _, hx⟩ := hx
  rw [← hx]
  unfold elem_contrib
  apply List.sum_eq_zero
  intro y hy
  simp only [List.mem_map] at hy
  obtain ⟨kk, _, hy⟩ := hy
  rw [← hy, row_contrib_zero M i _ _ L k h]
  simp

theorem pattern_find_bounds (Gn Ga : Nat) (mesh : VMesh) (i j k : Nat) (hi : i < Gn + Ga)
    (h : (pattern_matrix Gn Ga mesh).find i j = some k) :
    rows_before (row_cols Gn Ga (Gn + Ga) mesh) i ≤ k ∧
      k < rows_before (row_cols Gn Ga (Gn + Ga) mesh) (i + 1) := by
  obtain ⟨s, e, hs, he, h1, h2, _⟩ := find_bounds _ i j k h
  rw [pattern_rd_rows Gn Ga mesh i (by omega)] at hs
  rw [pattern_rd_rows Gn Ga mesh (i + 1) (by omega)] at he
  cases hs
  cases he
  exact ⟨h1, h2⟩

theorem dof_contrib_outside (Gn Ga : Nat) (mesh : VMesh) (tensors_ : TensorTable) (L : Nat)
    (input : Field) (ni : List (List ℚ) × List ℚ × List (List ℚ)) (i k : Nat)
    (hi : i < Gn + Ga)
    (hk : k < rows_before (row_cols Gn Ga (Gn + Ga) mesh) i ∨
      rows_before (row_cols Gn Ga (Gn + Ga) mesh) (i + 1) ≤ k) :
    dof_contrib (pattern_matrix Gn Ga mesh) tensors_ L input ni i k = 0 := by
  apply dof_contrib_zero
  intro j hj
  obtain ⟨h1, h2⟩ := pattern_find_bounds Gn Ga mesh i j k hi hj
  omega

theorem sum_range_split (f : Nat → ℚ) (a b : Nat) (h : a ≤ b) :
    ((List.range b).map f).sum
      = ((List.range a).map f).sum + ((List.range' a (b - a)).map f).sum := by
  have e : List.range b = List.range a ++ List.range' a (b - a) := by
    rw [List.range_eq_range', List.range_eq_range']
    have := List.range'_append 0 a (b - a) 1
    simp only [Nat.one_mul, Nat.zero_add] at this
    rw [this, show b - a + a = b by omega]
  rw [e, List.map_append, List.sum_append]

theorem sum_range_single (f : Nat → ℚ) (n i : Nat) (hi : i < n)
    (h : ∀ j, j < n → j ≠ i → f j = 0) : ((List.range n).map f).sum = f i := by
  rw [sum_range_split f i n (by omega), sum_range_split f 0 i (by omega)]
  have h1 : ((List.range' i (n - i)).map f).sum = f i := by
    rw [show n - i = (n - i - 1) + 1 by omega, List.range'_succ, List.map_cons, List.sum_cons]
    have : ((List.range' (i + 1) (n - i - 1)).map f).sum = 0 := by
      apply List.sum_eq_zero
      intro x hx
      simp only [List.mem_map, List.mem_range'_1] at hx
      obtain ⟨j, hj, hx⟩ := hx
      rw [← hx]
      exact h j (by omega) (by omega)
    rw [this, add_zero]
  have h2 : ((List.range' 0 (i - 0)).map f).sum = 0 := by
    apply List.sum_eq_zero
    intro x hx
    simp only [List.mem_map, List.mem_range'_1] at hx
    obtain ⟨j, hj, hx⟩ := hx
    rw [← hx]
    exact h j (by omega) (by omega)
  rw [h1, h2]
  simp

theorem assemble_tables_val (b : FEMBuilder) (input : Field)
    (ni : List (List ℚ) × List ℚ × List (List ℚ)) (hN : 0 < b.numprocessors_)
    (hd : 1 ≤ input.vmesh.dimensionality) (hlin : edge_dofs input = 0)
    (hmesh : input.vmesh.is_regularmesh = true →
      regular_tables input ni (local_dofs input))
    (hnodes : ∀ i, i < input.vmesh.num_nodes → ∀ c, c ∈ input.vmesh.get_elems_node i →
      (input.vmesh.get_nodes c).length = local_dofs input)
    (r : FEMBuilder) (h : assemble_tables input ni b = some r) :
    (∃ vals, r.fematrix_
        = some { pattern_matrix input.vmesh.num_nodes 0 input.vmesh with vals := vals } ∧
      vals.length = (pattern_matrix input.vmesh.num_nodes 0 input.vmesh).vals.length ∧
      ∀ k, k < vals.length → vals.getD k 0 = ((List.range input.vmesh.num_nodes).map (fun i =>
        dof_contrib (pattern_matrix input.vmesh.num_nodes 0 input.vmesh) b.tensors_
          (local_dofs input) input ni i k)).sum) ∧
    ∀ i, i < input.vmesh.num_nodes → rows_defined b.tensors_ (local_dofs input) input ni i := by
  obtain ⟨hdims, hcol⟩ := after_create_layout b input hN hd
  obtain ⟨hT, hL⟩ := after_create_locals b input hN hd
  have hM := after_create_spec b input hN hd
  rw [hlin] at hdims hcol hM
  obtain ⟨d1, d2, d3, d4⟩ := hdims
  simp only [Nat.add_zero] at d3 hcol
  unfold assemble_tables at h
  obtain ⟨r1, hr1, hr⟩ := Option.map_eq_some'.mp h
  have hlen : (after_create b input).2.length = b.numprocessors_ := by
    unfold after_create
    simp only [each_worker_length, List.length_replicate]
  have key := each_worker_opt_ind_mem (phase_assemble_tables input ni) b.numprocessors_
    (fun p b1 =>
      (b1.tensors_ = b.tensors_ ∧ b1.local_dimension = local_dofs input ∧
        b1.colidx_ = (after_create b input).1.colidx_ ∧
        b1.global_dimension_nodes = input.vmesh.num_nodes ∧
        b1.global_dimension_add_nodes = 0 ∧ b1.global_dimension = input.vmesh.num_nodes ∧
        b1.numprocessors_ = b.numprocessors_) ∧
      (∃ vals, b1.fematrix_
          = some { pattern_matrix input.vmesh.num_nodes 0 input.vmesh with vals := vals } ∧
        vals.length = (pattern_matrix input.vmesh.num_nodes 0 input.vmesh).vals.length ∧
        ∀ k, k < rows_before (row_cols input.vmesh.num_nodes 0 (input.vmesh.num_nodes + 0)
              input.vmesh) (part_start input.vmesh.num_nodes b.numprocessors_ p) →
          vals.getD k 0 = ((List.range (part_start input.vmesh.num_nodes b.numprocessors_ p)).map
            (fun i => dof_contrib (pattern_matrix input.vmesh.num_nodes 0 input.vmesh)
              b.tensors_ (local_dofs input) input ni i k)).sum) ∧
      ∀ i, i < part_start input.vmesh.num_nodes b.numprocessors_ p →
        rows_defined b.tensors_ (local_dofs input) input ni i)
    (fun w => w.precompute = [])
    (fun p b1 w r2 hp hinv hw hstep => by
      dsimp only at hinv ⊢
      obtain ⟨⟨s1, s2, s3, s4, s5, s6, s7⟩, ⟨vals, v1, v2, v3⟩, hrd⟩ := hinv
      have hst := phase_assemble_tables_static
        (fun b : FEMBuilder => (b.tensors_, b.local_dimension, b.colidx_,
          b.global_dimension_nodes, b.global_dimension_add_nodes, b.global_dimension,
          b.numprocessors_)) (fun _ _ _ _ => rfl) input ni p b1 w r2 hstep
      simp only [Prod.mk.injEq] at hst
      obtain ⟨t1, t2, t3, t4, t5, t6, t7⟩ := hst
      obtain ⟨gs, ge⟩ := start_gd_eq b1 input.vmesh.num_nodes 0 b.numprocessors_
        ⟨s4, s5, by simpa using s6, s7⟩ p
      simp only [Nat.add_zero] at gs ge
      have hps : part_start input.vmesh.num_nodes b.numprocessors_ p
          ≤ part_start input.vmesh.num_nodes b.numprocessors_ (p + 1) :=
        part_start_mono _ _ (by omega)
      have hpe : part_start input.vmesh.num_nodes b.numprocessors_ (p + 1)
          ≤ input.vmesh.num_nodes :=
        part_start_le _ _ hN (by omega)
      obtain ⟨⟨vals2, w1, w2, w3⟩, hrd2⟩ := phase_assemble_tables_val input ni p b1 w r2
        (pattern_matrix input.vmesh.num_nodes 0 input.vmesh) vals _ _ v1 v2 s5
        (fun hr => ⟨by rw [s2]; exact hmesh hr, hw⟩)
        (by rw [s4, s2]; exact hnodes)
        (by rw [s3]; exact hcol p (by omega)) (by rw [s3]; exact hcol (p + 1) (by omega))
        (by rw [gs, ge]; exact hps) (by rw [ge, s4]; exact hpe) hstep
      rw [gs, ge, s1, s2] at w3 hrd2
      refine ⟨⟨t1.trans s1, t2.trans s2, t3.trans s3, t4.trans s4, t5.trans s5, t6.trans s6,
        t7.trans s7⟩, ⟨vals2, w1, w2, fun k hk => ?_⟩, fun i hi => ?_⟩
      · rw [w3 k, sum_range_split _ _ _ hps]
        congr 1
        by_cases hin : rows_before (row_cols input.vmesh.num_nodes 0
            (input.vmesh.num_nodes + 0) input.vmesh)
            (part_start input.vmesh.num_nodes b.numprocessors_ p) ≤ k
        · rw [if_pos ⟨hin, hk⟩]
          symm
          apply List.sum_eq_zero
          intro x hx
          simp only [List.mem_map, List.mem_range] at hx
          obtain ⟨i, hi, hx⟩ := hx
          rw [← hx]
          refine dof_contrib_outside _ 0 _ _ _ _ _ i k (by omega) (Or.inr ?_)
          exact le_trans (rows_before_mono _ (by omega)) hin
        · rw [if_neg (fun hc => hin hc.1)]
          exact v3 k (by omega)
      · by_cases hi2 : i < part_start input.vmesh.num_nodes b.numprocessors_ p
        · exact hrd i hi2
        · exact hrd2 i (by omega) hi)
    (after_create b input).2 0 (after_create b input).1 r1 (by omega)
    (by
      dsimp only
      refine ⟨⟨hT, hL, rfl, d1, d2, d3, d4⟩, ⟨_, hM, rfl, fun k hk => ?_⟩, fun i hi => ?_⟩
      · rw [part_start_zero, rows_before_zero] at hk
        omega
      · rw [part_start_zero] at hi
        omega)
    (after_create_caches b input) hr1
  dsimp only at key
  rw [part_start_last _ _ hN] at key
  obtain ⟨_, ⟨vals, v1, v2, v3⟩, hrd⟩ := key
  rw [← hr]
  refine ⟨⟨vals, v1, v2, fun k hk => v3 k ?_⟩, hrd⟩
  rw [v2] at hk
  simpa [pattern_matrix] using hk

/-! ## The value of a cell -/

theorem sum_filter_ite {α : Type} (p : α → Bool) (f : α → ℚ) :
    ∀ (l : List α), ((l.filter p).map f).sum = (l.map (fun x => if p x = true then f x else 0)).sum
  | [] => rfl
  | x :: l => by
    rw [List.filter_cons, List.map_cons, List.sum_cons, ← sum_filter_ite p f l]
    split
    · rw [List.map_cons, List.sum_cons]
    · rw [zero_add]

theorem find_same_slot (M : SparseRowMatrix) (i j j2 k : Nat) (h : M.find i j = some k)
    (h2 : M.find i j2 = some k) : j2 = j := by
  obtain ⟨_, _, _, _, _, _, c1⟩ := find_bounds M i j k h
  obtain ⟨_, _, _, _, _, _, c2⟩ := find_bounds M i j2 k h2
  rw [c1] at c2
  exact (Option.some.inj c2).symm

theorem dof_contrib_cell (M : SparseRowMatrix) (tensors_ : TensorTable) (input : Field)
    (ni : List (List ℚ) × List ℚ × List (List ℚ)) (i j k : Nat)
    (hfind : M.find i j = some k)
    (hlen : ∀ c, c ∈ input.vmesh.get_elems_node i →
      (input.vmesh.get_nodes c).length = local_dofs input) :
    dof_contrib M tensors_ (local_dofs input) input ni i k
      = assembled_sum_tables tensors_ input ni i j := by
  unfold dof_contrib assembled_sum_tables
  congr 1
  apply List.map_congr_left
  intro c hc
  unfold elem_contrib
  rw [sum_filter_ite]
  congr 1
  apply List.map_congr_left
  intro kk _
  simp only [decide_eq_true_eq]
  by_cases hkk : rd (input.vmesh.get_nodes c) kk = some i
  · rw [if_pos hkk, if_pos hkk, sum_filter_ite]
    unfold row_contrib
    rw [hlen c hc]
    congr 1
    apply List.map_congr_left
    intro l hl
    simp only [decide_eq_true_eq]
    have hl2 : l < (input.vmesh.get_nodes c).length := by
      rw [hlen c hc]
      exact List.mem_range.mp hl
    have hrd := rd_getD (input.vmesh.get_nodes c) l 0 hl2
    by_cases hj : rd (input.vmesh.get_nodes c) l = some j
    · rw [if_pos hj, rd_eq_getD _ _ _ 0 hj, if_pos hfind]
    · rw [if_neg hj, if_neg]
      intro hcon
      apply hj
      rw [hrd, find_same_slot M i j _ k hfind hcon]
  · rw [if_neg hkk, if_neg hkk]

theorem sum_nodup_single {α : Type} (f : α → ℚ) (x : α) :
    ∀ (l : List α), l.Nodup → x ∈ l → (∀ y, y ∈ l → y ≠ x → f y = 0) → (l.map f).sum = f x
  | [], _, hx, _ => absurd hx (List.not_mem_nil x)
  | a :: l, hnd, hx, h => by
    rw [List.map_cons, List.sum_cons]
    rw [List.nodup_cons] at hnd
    rcases List.mem_cons.mp hx with h1 | h1
    · subst h1
      have : (l.map f).sum = 0 := by
        apply List.sum_eq_zero
        intro z hz
        simp only [List.mem_map] at hz
        obtain ⟨y, hy, hz⟩ := hz
        rw [← hz]
        exact h y (List.mem_cons_of_mem _ hy) (fun hc => hnd.1 (hc ▸ hy))
      rw [this, add_zero]
    · rw [sum_nodup_single f x l hnd.2 h1 (fun y hy => h y (List.mem_cons_of_mem _ hy)),
        h a (List.mem_cons_self _ _) (fun hc => hnd.1 (hc ▸ h1)), zero_add]

theorem slot_of_cell (input : Field) (tensors_ : TensorTable)
    (ni : List (List ℚ) × List ℚ × List (List ℚ)) (i j k : Nat) (l : List Nat)
    (hi : i < input.vmesh.num_nodes) (hl : l.Nodup) (hil : i ∈ l)
    (hlt : ∀ y, y ∈ l → y < input.vmesh.num_nodes)
    (hfind : (pattern_matrix input.vmesh.num_nodes 0 input.vmesh).find i j = some k)
    (hlen : ∀ c, c ∈ input.vmesh.get_elems_node i →
      (input.vmesh.get_nodes c).length = local_dofs input) :
    (l.map (fun y => dof_contrib (pattern_matrix input.vmesh.num_nodes 0 input.vmesh) tensors_
      (local_dofs input) input ni y k)).sum = assembled_sum_tables tensors_ input ni i j := by
  obtain ⟨b1, b2⟩ := pattern_find_bounds _ 0 _ i j k (by omega) hfind
  rw [sum_nodup_single _ i l hl hil, dof_contrib_cell _ _ _ _ i j k hfind hlen]
  intro y hy hne
  refine dof_contrib_outside _ 0 _ _ _ _ _ y k (by have := hlt y hy; omega) ?_
  rcases Nat.lt_or_gt_of_ne hne with h1 | h1
  · right
    exact le_trans (rows_before_mono _ (show y + 1 ≤ i by omega)) b1
  · left
    exact lt_of_lt_of_le b2 (rows_before_mono _ (show i + 1 ≤ y by omega))

theorem assembled_sum_unstored (input : Field) (tensors_ : TensorTable)
    (ni : List (List ℚ) × List ℚ × List (List ℚ)) (i j : Nat)
    (hi : i < input.vmesh.num_nodes)
    (hfind : (pattern_matrix input.vmesh.num_nodes 0 input.vmesh).find i j = none) :
    assembled_sum_tables tensors_ input ni i j = 0 := by
  have hns : ¬ (pattern_matrix input.vmesh.num_nodes 0 input.vmesh).stored i j := by
    unfold SparseRowMatrix.stored
    rw [hfind]
    simp
  rw [pattern_stored_iff _ _ _ i j (by omega), mem_row_cols] at hns
  unfold assembled_sum_tables
  apply List.sum_eq_zero
  intro x hx
  simp only [List.mem_map] at hx
  obtain ⟨c, hc, hx⟩ := hx
  rw [← hx]
  apply List.sum_eq_zero
  intro y hy
  simp only [List.mem_map] at hy
  obtain ⟨kk, _, hy⟩ := hy
  rw [← hy]
  apply List.sum_eq_zero
  intro z hz
  simp only [List.mem_map, List.mem_filter, decide_eq_true_eq] at hz
  obtain ⟨l, ⟨_, hl⟩, _⟩ := hz
  exfalso
  apply hns
  refine ⟨c, by simpa [dof_elems, hi] using hc, ?_⟩
  simp only [elem_dofs, ne_eq, not_true_eq_false, if_false, List.append_nil]
  exact rd_mem _ _ _ hl

theorem phase_tables_eq (input : Field) (ni : List (List ℚ) × List ℚ × List (List ℚ))
    (h : create_numerical_integration input.vmesh = .ok ni) :
    phase_assemble input = phase_assemble_tables input ni := by
  funext p b w
  simp only [phase_assemble, phase_assemble_tables, h]

theorem run_tasks_tables (b : FEMBuilder) (input : Field)
    (ni : List (List ℚ) × List ℚ × List (List ℚ))
    (hs : b.success_.length = b.numprocessors_) (hd : 1 ≤ input.vmesh.dimensionality)
    (h : create_numerical_integration input.vmesh = .ok ni) :
    run_tasks b input = assemble_tables input ni b := by
  rw [run_tasks_eq b input hs hd, phase_tables_eq input ni h]
  rfl

theorem linear_of_order (input : Field) (h0 : input.vfield.basis_order = 0) :
    edge_dofs input = 0 ∧ local_dofs input = input.vmesh.num_nodes_per_elem := by
  simp [edge_dofs, local_dofs, h0]

/-- C30: for a field of basis order 0 (linear DOFs only) on a mesh that passes `setup`,
whose elements returned for a node all have `num_nodes_per_elem` nodes, with at least one
worker, and for any quadrature tables `ni` on which the ZeroInit and Assembly phases of
the workers are defined (on a regular mesh the tables satisfy `regular_tables`, the
conditions under which the cached variant `build_local_matrix_regular` computes the row
of `build_local_matrix`): the phases leave a matrix `A` with the
pattern of the MatrixAlloc phase, and for every node `i` and every `j` the value of cell
`(i, j)` of `A` is the sum, over every element `c` returned for node `i`, every local
position `k` with `nodes(c)[k] = i` and every local position `l` with `nodes(c)[l] = j`,
of entry `l` of the row `build_local_matrix(c, k)` computed on `ni`; a cell without
contribution holds 0.  With the tables that `create_numerical_integration` returns,
these phases are the end of the run of the workers. -/
theorem assembled_values (b : FEMBuilder) (input : Field)
    (ni : List (List ℚ) × List ℚ × List (List ℚ)) (hN : 0 < b.numprocessors_)
    (hd : 1 ≤ input.vmesh.dimensionality) (h0 : input.vfield.basis_order = 0)
    (hmesh : input.vmesh.is_regularmesh = true →
      regular_tables input ni input.vmesh.num_nodes_per_elem)
    (hnodes : ∀ i, i < input.vmesh.num_nodes → ∀ c, c ∈ input.vmesh.get_elems_node i →
      (input.vmesh.get_nodes c).length = input.vmesh.num_nodes_per_elem)
    (hdef : (assemble_tables input ni b).isSome = true) :
    (create_numerical_integration input.vmesh = .ok ni →
      b.success_.length = b.numprocessors_ →
      run_tasks b input = assemble_tables input ni b) ∧
    ∃ r A P, assemble_tables input ni b = some r ∧ r.fematrix_ = some A ∧
      (after_create b input).1.fematrix_ = some P ∧ A.rows = P.rows ∧ A.cols = P.cols ∧
      ∀ i j, i < input.vmesh.num_nodes →
        A.coeff i j = assembled_sum_tables b.tensors_ input ni i j := by
  obtain ⟨hlin, hL⟩ := linear_of_order input h0
  refine ⟨fun hni hs => run_tasks_tables b input ni hs hd hni, ?_⟩
  obtain ⟨r, hr⟩ := Option.isSome_iff_exists.mp hdef
  obtain ⟨⟨vals, v1, v2, v3⟩, _⟩ := assemble_tables_val b input ni hN hd hlin
    (by rw [hL]; exact hmesh)
    (by rw [hL]; exact hnodes) r hr
  have hP := after_create_spec b input hN hd
  rw [hlin] at hP
  refine ⟨r, _, _, hr, v1, hP, rfl, rfl, fun i j hi => ?_⟩
  unfold SparseRowMatrix.coeff
  have hfc := find_congr (pattern_matrix input.vmesh.num_nodes 0 input.vmesh)
    { pattern_matrix input.vmesh.num_nodes 0 input.vmesh with vals := vals } rfl rfl i j
  dsimp only at hfc ⊢
  rw [hfc]
  cases hfind : (pattern_matrix input.vmesh.num_nodes 0 input.vmesh).find i j with
  | none =>
    rw [assembled_sum_unstored input _ ni i j hi hfind]
    rfl
  | some k =>
    obtain ⟨_, b2⟩ := pattern_find_bounds _ 0 _ i j k (by omega) hfind
    have hk : k < vals.length := by
      rw [v2]
      simp only [pattern_matrix, List.length_replicate]
      exact lt_of_lt_of_le b2 (rows_before_mono _ (by omega))
    simp only [Option.some_bind, rd_getD vals k 0 hk, Option.getD_some]
    rw [v3 k hk]
    exact slot_of_cell input _ ni i j k _ hi (List.nodup_range _) (List.mem_range.mpr hi)
      (fun y hy => List.mem_range.mp hy) hfind
      (fun c hc => by rw [hL]; exact hnodes i hi c hc)

set_option maxRecDepth 100000 in
theorem assembled_values_witness :
    ((assemble_tables (tet_field 3 1 4) tet_tables builder_plain).map
        (fun r => r.fematrix_) = some (some (tet_matrix
          [1 / 2, -1 / 6, -1 / 6, -1 / 6, -1 / 6, 1 / 6, 0, 0,
           -1 / 6, 0, 1 / 6, 0, -1 / 6, 0, 0, 1 / 6])) ∧
      assembled_sum_tables builder_plain.tensors_ (tet_field 3 1 4) tet_tables 0 1 = -1 / 6) ∧
    ((create_numerical_integration (tet_field 3 1 4).vmesh = .ok tet_tables →
      builder_plain.success_.length = builder_plain.numprocessors_ →
      run_tasks builder_plain (tet_field 3 1 4)
        = assemble_tables (tet_field 3 1 4) tet_tables builder_plain) ∧
    ∃ r A P, assemble_tables (tet_field 3 1 4) tet_tables builder_plain = some r ∧
      r.fematrix_ = some A ∧
      (after_create builder_plain (tet_field 3 1 4)).1.fematrix_ = some P ∧
      A.rows = P.rows ∧ A.cols = P.cols ∧
      ∀ i j, i < (tet_field 3 1 4).vmesh.num_nodes →
        A.coeff i j
          = assembled_sum_tables builder_plain.tensors_ (tet_field 3 1 4) tet_tables i j) :=
  ⟨⟨by decide!, by decide!⟩,
    assembled_values builder_plain (tet_field 3 1 4) tet_tables (by decide) (by decide)
      (by decide) (fun h => absurd h (by decide)) (fun i _ c _ => rfl) (by decide!)⟩

theorem list_eq_of_getD (l1 l2 : List ℚ) (hlen : l1.length = l2.length)
    (h : ∀ k, k < l1.length → l1.getD k 0 = l2.getD k 0) : l1 = l2 := by
  apply List.ext_getElem hlen
  intro k h1 h2
  have := h k h1
  rw [List.getD_eq_getElem?_getD, List.getD_eq_getElem?_getD, List.getElem?_eq_getElem h1,
    List.getElem?_eq_getElem h2] at this
  exact this

set_option maxRecDepth 100000 in
theorem regular_tet_tables : regular_tables regular_tet tet_tables 4 := by
  refine ⟨by decide, by decide, by decide, ?_, fun q _ e => rfl, ?_⟩
  · intro q hq
    have hq0 : q = 0 := by
      simp only [tet_tables, List.length_singleton] at hq
      omega
    subst hq0
    decide
  · intro q hq
    have hq0 : q = 0 := by
      simp only [tet_tables, List.length_singleton] at hq
      omega
    subst hq0
    decide!

/-- C21: for a field of basis order 0 on a mesh that passes `setup`, whose elements
returned for a node all have `num_nodes_per_elem` nodes, for a builder with `N ≥ 1`
workers and a builder with 1 worker that hold the same tensors, and for any quadrature
tables `ni` on which the assemblies are defined (on a regular mesh the tables satisfy
`regular_tables`, the conditions under which the cached variant
`build_local_matrix_regular` computes the row of `build_local_matrix`, whatever cache
each worker has filled): the matrix that the ZeroInit
and Assembly phases of the `N` workers leave equals the one that the single worker
leaves, in the row-pointer array, in the column array and in the value at every slot
(every slot is the sum of the contributions of the DOFs of its row, whoever owns the
row).  With the tables that `create_numerical_integration` returns, these phases are the
end of the run of the workers of any builder. -/
theorem workers_agree (b1 bN : FEMBuilder) (input : Field)
    (ni : List (List ℚ) × List ℚ × List (List ℚ)) (h1 : b1.numprocessors_ = 1)
    (hN : 1 ≤ bN.numprocessors_) (ht : b1.tensors_ = bN.tensors_)
    (hd : 1 ≤ input.vmesh.dimensionality) (h0 : input.vfield.basis_order = 0)
    (hmesh : input.vmesh.is_regularmesh = true →
      regular_tables input ni input.vmesh.num_nodes_per_elem)
    (hnodes : ∀ i, i < input.vmesh.num_nodes → ∀ c, c ∈ input.vmesh.get_elems_node i →
      (input.vmesh.get_nodes c).length = input.vmesh.num_nodes_per_elem)
    (hd1 : (assemble_tables input ni b1).isSome = true)
    (hdN : (assemble_tables input ni bN).isSome = true) :
    (∀ b : FEMBuilder, create_numerical_integration input.vmesh = .ok ni →
      b.success_.length = b.numprocessors_ →
      run_tasks b input = assemble_tables input ni b) ∧
    ∃ r1 rN M1 MN, assemble_tables input ni b1 = some r1 ∧
      assemble_tables input ni bN = some rN ∧
      r1.fematrix_ = some M1 ∧ rN.fematrix_ = some MN ∧
      M1.rows = MN.rows ∧ M1.cols = MN.cols ∧ M1.vals = MN.vals := by
  obtain ⟨hlin, hL⟩ := linear_of_order input h0
  refine ⟨fun b hni hs => run_tasks_tables b input ni hs hd hni, ?_⟩
  obtain ⟨r1, hr1⟩ := Option.isSome_iff_exists.mp hd1
  obtain ⟨rN, hrN⟩ := Option.isSome_iff_exists.mp hdN
  obtain ⟨⟨v, v1, v2, v3⟩, _⟩ := assemble_tables_val b1 input ni
    (by omega) hd hlin (by rw [hL]; exact hmesh) (by rw [hL]; exact hnodes) r1 hr1
  obtain ⟨⟨u, u1, u2, u3⟩, _⟩ := assemble_tables_val bN input ni
    hN hd hlin (by rw [hL]; exact hmesh) (by rw [hL]; exact hnodes) rN hrN
  rw [ht] at v3
  refine ⟨r1, rN, _, _, hr1, hrN, v1, u1, rfl, rfl, ?_⟩
  exact list_eq_of_getD v u (v2.trans u2.symm)
    (fun k hk => (v3 k hk).trans (u3 k (by rw [u2, ← v2]; exact hk)).symm)

set_option maxRecDepth 100000 in
theorem workers_agree_witness :
    ((assemble_tables regular_tet tet_tables builder_plain).map (fun r => r.fematrix_)
      = some (some (tet_matrix
          [1 / 2, -1 / 6, -1 / 6, -1 / 6, -1 / 6, 1 / 6, 0, 0,
           -1 / 6, 0, 1 / 6, 0, -1 / 6, 0, 0, 1 / 6])) ∧
      regular_tet.vmesh.is_regularmesh = true) ∧
    ((∀ b : FEMBuilder, create_numerical_integration regular_tet.vmesh = .ok tet_tables →
      b.success_.length = b.numprocessors_ →
      run_tasks b regular_tet = assemble_tables regular_tet tet_tables b) ∧
    ∃ r1 rN M1 MN,
      assemble_tables regular_tet tet_tables (FEMBuilder.new 1 false true []) = some r1 ∧
      assemble_tables regular_tet tet_tables builder_plain = some rN ∧
      r1.fematrix_ = some M1 ∧ rN.fematrix_ = some MN ∧
      M1.rows = MN.rows ∧ M1.cols = MN.cols ∧ M1.vals = MN.vals) :=
  ⟨⟨by decide!, rfl⟩,
    workers_agree (FEMBuilder.new 1 false true []) builder_plain regular_tet tet_tables
      rfl (by decide) rfl (by decide) (by decide) (fun _ => regular_tet_tables)
      (fun i _ c _ => rfl) (by decide!) (by decide!)⟩

theorem getElem_of_getD (l : List ℚ) (k : Nat) (x : ℚ) (hk : k < l.length)
    (h : l.getD k 0 = x) : l[k]? = some x := by
  rw [List.getD_eq_getElem?_getD, List.getElem?_eq_getElem hk] at h
  rw [List.getElem?_eq_getElem hk]
  exact congrArg some h

theorem phase_tables_slice (b : FEMBuilder) (input : Field)
    (ni : List (List ℚ) × List ℚ × List (List ℚ)) (p : Nat) (hN : 0 < b.numprocessors_)
    (hp : p < b.numprocessors_)
    (hd : 1 ≤ input.vmesh.dimensionality) (h0 : input.vfield.basis_order = 0)
    (hnodes : ∀ i, i < input.vmesh.num_nodes → ∀ c, c ∈ input.vmesh.get_elems_node i →
      (input.vmesh.get_nodes c).length = input.vmesh.num_nodes_per_elem)
    (vals0 : List ℚ)
    (hv : vals0.length = (pattern_matrix input.vmesh.num_nodes 0 input.vmesh).vals.length)
    (w : Worker) (r : FEMBuilder × Worker)
    (hmesh : input.vmesh.is_regularmesh = true →
      regular_tables input ni input.vmesh.num_nodes_per_elem ∧ w.precompute = [])
    (h : phase_assemble_tables input ni p
      ((after_create b input).1.with_values
        (pattern_matrix input.vmesh.num_nodes 0 input.vmesh) vals0) w
        = some r) :
    ∃ vals, r.1.fematrix_
        = some { pattern_matrix input.vmesh.num_nodes 0 input.vmesh with vals := vals } ∧
      vals.length = (pattern_matrix input.vmesh.num_nodes 0 input.vmesh).vals.length ∧
      (∀ k, (k < rows_before (row_cols input.vmesh.num_nodes 0 (input.vmesh.num_nodes + 0)
              input.vmesh) (part_start (input.vmesh.num_nodes + 0) b.numprocessors_ p) ∨
          rows_before (row_cols input.vmesh.num_nodes 0 (input.vmesh.num_nodes + 0)
              input.vmesh) (part_start (input.vmesh.num_nodes + 0) b.numprocessors_ (p + 1))
            ≤ k) → vals[k]? = vals0[k]?) ∧
      ∀ i, start_gd (after_create b input).1 p ≤ i → i < end_gd (after_create b input).1 p →
        ∀ j k, (pattern_matrix input.vmesh.num_nodes 0 input.vmesh).find i j = some k →
          vals[k]? = some (assembled_sum_tables b.tensors_ input ni i j) := by
  obtain ⟨hlin, hL⟩ := linear_of_order input h0
  obtain ⟨hdims, hcol⟩ := after_create_layout b input hN hd
  obtain ⟨hT, hLd⟩ := after_create_locals b input hN hd
  rw [hlin] at hdims hcol
  obtain ⟨gs, ge⟩ := start_gd_eq _ _ _ _ hdims p
  obtain ⟨d1, d2, d3, d4⟩ := hdims
  have hps : part_start (input.vmesh.num_nodes + 0) b.numprocessors_ p
      ≤ part_start (input.vmesh.num_nodes + 0) b.numprocessors_ (p + 1) :=
    part_start_mono _ _ (by omega)
  have hpe : part_start (input.vmesh.num_nodes + 0) b.numprocessors_ (p + 1)
      ≤ input.vmesh.num_nodes + 0 :=
    part_start_le _ _ hN (by omega)
  obtain ⟨⟨vals, w1, w2, w3⟩, _⟩ := phase_assemble_tables_val input ni p
    ((after_create b input).1.with_values
        (pattern_matrix input.vmesh.num_nodes 0 input.vmesh) vals0) w r
    (pattern_matrix input.vmesh.num_nodes 0 input.vmesh) vals0 _ _ rfl hv d2
    (fun hr => ⟨by
      show regular_tables input ni (after_create b input).1.local_dimension
      rw [hLd, hL]
      exact (hmesh hr).1, (hmesh hr).2⟩)
    (by
      intro i hi c hc
      have hi2 : i < input.vmesh.num_nodes := by
        have : i < (after_create b input).1.global_dimension_nodes := hi
        omega
      exact ((hnodes i hi2 c hc).trans hL.symm).trans hLd.symm)
    (hcol p (by omega)) (hcol (p + 1) (by omega))
    (by
      show start_gd (after_create b input).1 p ≤ end_gd (after_create b input).1 p
      rw [gs, ge]
      exact hps)
    (by
      show end_gd (after_create b input).1 p ≤ (after_create b input).1.global_dimension_nodes
      rw [ge, d1]
      omega) h
  have w4 : ∀ k, vals.getD k 0 = (if rows_before (row_cols input.vmesh.num_nodes 0
        (input.vmesh.num_nodes + 0) input.vmesh)
        (part_start (input.vmesh.num_nodes + 0) b.numprocessors_ p) ≤ k ∧
      k < rows_before (row_cols input.vmesh.num_nodes 0
        (input.vmesh.num_nodes + 0) input.vmesh)
        (part_start (input.vmesh.num_nodes + 0) b.numprocessors_ (p + 1)) then 0
        else vals0.getD k 0)
      + ((List.range' (part_start (input.vmesh.num_nodes + 0) b.numprocessors_ p)
          (part_start (input.vmesh.num_nodes + 0) b.numprocessors_ (p + 1)
            - part_start (input.vmesh.num_nodes + 0) b.numprocessors_ p)).map
          (fun i => dof_contrib (pattern_matrix input.vmesh.num_nodes 0 input.vmesh)
            b.tensors_ (local_dofs input) input ni i k)).sum := by
    intro k
    have := w3 k
    rw [show start_gd ((after_create b input).1.with_values
        (pattern_matrix input.vmesh.num_nodes 0 input.vmesh) vals0) p
        = start_gd (after_create b input).1 p from rfl,
      show end_gd ((after_create b input).1.with_values
        (pattern_matrix input.vmesh.num_nodes 0 input.vmesh) vals0) p
        = end_gd (after_create b input).1 p from rfl, gs, ge] at this
    rw [this]
    show _ + (List.map (fun i => dof_contrib _ (after_create b input).1.tensors_
      (after_create b input).1.local_dimension input ni i k) _).sum = _
    rw [hT, hLd]
  refine ⟨vals, w1, w2, fun k hk => ?_, fun i hi1 hi2 j k hfind => ?_⟩
  · have hsum : ((List.range' (part_start (input.vmesh.num_nodes + 0) b.numprocessors_ p)
          (part_start (input.vmesh.num_nodes + 0) b.numprocessors_ (p + 1)
            - part_start (input.vmesh.num_nodes + 0) b.numprocessors_ p)).map
          (fun i => dof_contrib (pattern_matrix input.vmesh.num_nodes 0 input.vmesh)
            b.tensors_ (local_dofs input) input ni i k)).sum = 0 := by
      apply List.sum_eq_zero
      intro x hx
      simp only [List.mem_map, List.mem_range'_1] at hx
      obtain ⟨i, hi, hx⟩ := hx
      rw [← hx]
      refine dof_contrib_outside _ 0 _ _ _ _ _ i k (by omega) ?_
      rcases hk with hk | hk
      · left
        exact lt_of_lt_of_le hk (rows_before_mono _ hi.1)
      · right
        exact le_trans (rows_before_mono _ (by omega)) hk
    have hget := w4 k
    rw [hsum, add_zero, if_neg (by omega)] at hget
    by_cases hkl : k < vals.length
    · rw [getElem_of_getD vals k _ hkl hget]
      symm
      exact getElem_of_getD vals0 k _ (by rw [hv, ← w2]; exact hkl) rfl
    · rw [List.getElem?_eq_none (by omega), List.getElem?_eq_none (by rw [hv, ← w2]; omega)]
  · rw [gs] at hi1
    rw [ge] at hi2
    have hi : i < input.vmesh.num_nodes := by omega
    obtain ⟨b1, b2⟩ := pattern_find_bounds _ 0 _ i j k (by omega) hfind
    have hlo := le_trans (rows_before_mono (row_cols input.vmesh.num_nodes 0
      (input.vmesh.num_nodes + 0) input.vmesh) hi1) b1
    have hhi := lt_of_lt_of_le b2 (rows_before_mono (row_cols input.vmesh.num_nodes 0
      (input.vmesh.num_nodes + 0) input.vmesh) (show i + 1 ≤ _ from hi2))
    have hkl : k < vals.length := by
      rw [w2]
      simp only [pattern_matrix, List.length_replicate]
      exact lt_of_lt_of_le b2 (rows_before_mono _ (by omega))
    apply getElem_of_getD vals k _ hkl
    rw [w4 k, if_pos ⟨hlo, hhi⟩, zero_add]
    exact slot_of_cell input _ ni i j k _ hi (List.nodup_range' _ _)
      (List.mem_range'_1.mpr ⟨hi1, by omega⟩)
      (fun y hy => by
        rw [List.mem_range'_1] at hy
        omega) hfind
      (fun c hc => by rw [hL]; exact hnodes i hi c hc)

/-- C31: for at least one worker and a mesh that passes `setup`, let `M` be the matrix
created by the MatrixAlloc phase and `sl p` the entry `colidx[p]`.  The slices
`[sl p, sl (p+1))` of the workers are consecutive, start at 0 and end at the number of
values, so they are pairwise disjoint and cover the value array: every slot lies in the
slice of exactly one worker.  For every worker `p`: its ZeroInit and Assembly phases,
started on any content of the value array, leave every slot outside its slice as it was
and the pattern as it is (with the tables of `create_numerical_integration` every slot of
the slice holds 0 afterwards); for every DOF `i` of the worker's range every cell of row
`i` has its slot in the slice, and the scatter-add `add_lcl_gbl(i, cols, lsml)` of any
row buffer changes no slot outside the slice; and, for a field of basis order 0 on a
mesh whose elements have `num_nodes_per_elem` nodes and for any quadrature tables (on a
regular mesh: tables that satisfy `regular_tables` and a worker whose cache is still
empty), the phases started on ANY content `vals0` of the value array leave the slots
outside the slice as they were and, in the slot of every cell `(i, j)` of a row of the
worker, exactly the sum of the contributions to that cell, whatever the slot held
before: the slot is zeroed before its owner accumulates into it. -/
theorem value_slices_disjoint (b : FEMBuilder) (input : Field) (hN : 0 < b.numprocessors_)
    (hd : 1 ≤ input.vmesh.dimensionality) :
    ∃ (M : SparseRowMatrix) (sl : Nat → Nat),
      (after_create b input).1.fematrix_ = some M ∧
      (∀ p, p ≤ b.numprocessors_ → rd (after_create b input).1.colidx_ p = some (sl p)) ∧
      sl 0 = 0 ∧ sl b.numprocessors_ = M.vals.length ∧
      (∀ p q, p ≤ q → sl p ≤ sl q) ∧
      (∀ k, k < M.vals.length → ∃ p, p < b.numprocessors_ ∧ sl p ≤ k ∧ k < sl (p + 1) ∧
        ∀ q, q < b.numprocessors_ → sl q ≤ k → k < sl (q + 1) → q = p) ∧
      ∀ p, p < b.numprocessors_ →
        (∀ (b1 : FEMBuilder) (M1 : SparseRowMatrix) (w : Worker) (r : FEMBuilder × Worker),
          b1.colidx_ = (after_create b input).1.colidx_ → b1.fematrix_ = some M1 →
          phase_assemble input p b1 w = some r →
          ∃ vals, r.1.fematrix_ = some { M1 with vals := vals } ∧
            vals.length = M1.vals.length ∧
            (∀ k, (k < sl p ∨ sl (p + 1) ≤ k) → vals[k]? = M1.vals[k]?) ∧
            (∀ k, sl p ≤ k → k < sl (p + 1) → vals[k]? = some 0)) ∧
        (∀ i, start_gd (after_create b input).1 p ≤ i →
          i < end_gd (after_create b input).1 p →
          (∀ j k, M.find i j = some k → sl p ≤ k ∧ k < sl (p + 1)) ∧
          ∀ (M1 M2 : SparseRowMatrix) (cols : List Nat) (lcl : List ℚ),
            M1.rows = M.rows → add_lcl_gbl M1 i cols lcl = some M2 →
            M2.rows = M1.rows ∧ M2.cols = M1.cols ∧ M2.vals.length = M1.vals.length ∧
            ∀ k, (k < sl p ∨ sl (p + 1) ≤ k) → M2.vals[k]? = M1.vals[k]?) ∧
        (input.vfield.basis_order = 0 →
          (∀ i, i < input.vmesh.num_nodes → ∀ c, c ∈ input.vmesh.get_elems_node i →
            (input.vmesh.get_nodes c).length = input.vmesh.num_nodes_per_elem) →
          ∀ (ni : List (List ℚ) × List ℚ × List (List ℚ)) (vals0 : List ℚ) (w : Worker)
            (r : FEMBuilder × Worker), vals0.length = M.vals.length →
            (input.vmesh.is_regularmesh = true →
              regular_tables input ni input.vmesh.num_nodes_per_elem ∧ w.precompute = []) →
            phase_assemble_tables input ni p ((after_create b input).1.with_values M vals0) w
              = some r →
            ∃ vals, r.1.fematrix_ = some { M with vals := vals } ∧
              vals.length = M.vals.length ∧
              (∀ k, (k < sl p ∨ sl (p + 1) ≤ k) → vals[k]? = vals0[k]?) ∧
              ∀ i, start_gd (after_create b input).1 p ≤ i →
                i < end_gd (after_create b input).1 p →
                ∀ j k, M.find i j = some k →
                  vals[k]? = some (assembled_sum_tables b.tensors_ input ni i j)) := by
  obtain ⟨hdims, hcol⟩ := after_create_layout b input hN hd
  have hmono : ∀ p q, p ≤ q →
      rows_before (row_cols input.vmesh.num_nodes (edge_dofs input)
          (input.vmesh.num_nodes + edge_dofs input) input.vmesh)
        (part_start (input.vmesh.num_nodes + edge_dofs input) b.numprocessors_ p)
      ≤ rows_before (row_cols input.vmesh.num_nodes (edge_dofs input)
          (input.vmesh.num_nodes + edge_dofs input) input.vmesh)
        (part_start (input.vmesh.num_nodes + edge_dofs input) b.numprocessors_ q) :=
    fun p q hpq => rows_before_mono _ (part_start_mono _ _ hpq)
  have h0 : rows_before (row_cols input.vmesh.num_nodes (edge_dofs input)
          (input.vmesh.num_nodes + edge_dofs input) input.vmesh)
        (part_start (input.vmesh.num_nodes + edge_dofs input) b.numprocessors_ 0) = 0 := by
    rw [part_start_zero, rows_before_zero]
  have hlast : rows_before (row_cols input.vmesh.num_nodes (edge_dofs input)
          (input.vmesh.num_nodes + edge_dofs input) input.vmesh)
        (part_start (input.vmesh.num_nodes + edge_dofs input) b.numprocessors_
          b.numprocessors_)
      = (pattern_matrix input.vmesh.num_nodes (edge_dofs input) input.vmesh).vals.length := by
    rw [part_start_last _ _ hN]
    simp [pattern_matrix]
  refine ⟨_, fun p => rows_before (row_cols input.vmesh.num_nodes (edge_dofs input)
      (input.vmesh.num_nodes + edge_dofs input) input.vmesh)
    (part_start (input.vmesh.num_nodes + edge_dofs input) b.numprocessors_ p),
    after_create_spec b input hN hd, hcol, h0, hlast, hmono, ?_, ?_⟩
  · intro k hk
    exact slice_owner _ hmono h0 b.numprocessors_ k (by rw [hlast]; exact hk)
  · intro p hp
    refine ⟨?_, ?_, ?_⟩
    · intro b1 M1 w r hc hM1 hr
      exact phase_assemble_frame input p b1 w r M1 _ _
        (by rw [hc]; exact hcol p (by omega)) (by rw [hc]; exact hcol (p + 1) (by omega))
        hM1 hr
    · intro i hi1 hi2
      obtain ⟨hs, he⟩ := start_gd_eq _ _ _ _ hdims p
      rw [hs] at hi1
      rw [he] at hi2
      have hiG : i + 1 ≤ input.vmesh.num_nodes + edge_dofs input := by
        have := part_start_le (input.vmesh.num_nodes + edge_dofs input) b.numprocessors_ hN
          (show p + 1 ≤ b.numprocessors_ by omega)
        omega
      have hrs := pattern_rd_rows input.vmesh.num_nodes (edge_dofs input) input.vmesh i
        (by omega)
      have hre := pattern_rd_rows input.vmesh.num_nodes (edge_dofs input) input.vmesh (i + 1)
        hiG
      have hlo : rows_before (row_cols input.vmesh.num_nodes (edge_dofs input)
            (input.vmesh.num_nodes + edge_dofs input) input.vmesh)
          (part_start (input.vmesh.num_nodes + edge_dofs input) b.numprocessors_ p)
          ≤ rows_before (row_cols input.vmesh.num_nodes (edge_dofs input)
            (input.vmesh.num_nodes + edge_dofs input) input.vmesh) i :=
        rows_before_mono _ hi1
      have hhi : rows_before (row_cols input.vmesh.num_nodes (edge_dofs input)
            (input.vmesh.num_nodes + edge_dofs input) input.vmesh) (i + 1)
          ≤ rows_before (row_cols input.vmesh.num_nodes (edge_dofs input)
            (input.vmesh.num_nodes + edge_dofs input) input.vmesh)
          (part_start (input.vmesh.num_nodes + edge_dofs input) b.numprocessors_ (p + 1)) :=
        rows_before_mono _ (by omega)
      constructor
      · intro j k hfind
        obtain ⟨s1, e1, hs1, he1, l1, l2, _⟩ := find_bounds _ i j k hfind
        rw [hrs] at hs1
        rw [hre] at he1
        cases hs1
        cases he1
        exact ⟨le_trans hlo l1, lt_of_lt_of_le l2 hhi⟩
      · intro M1 M2 cols lcl hrows hadd
        obtain ⟨f1, f2, f3, f4⟩ := add_lcl_gbl_frame M1 M2 i cols lcl _ _
          (by rw [hrows]; exact hrs) (by rw [hrows]; exact hre) hadd
        exact ⟨f1, f2, f3, fun k hk => f4 k (hk.elim
          (fun h => Or.inl (lt_of_lt_of_le h hlo)) (fun h => Or.inr (le_trans hhi h)))⟩
    · intro h0 hnodes
      have hlin := (linear_of_order input h0).1
      simp only [hlin]
      intro ni vals0 w r hv hmesh hr
      exact phase_tables_slice b input ni p hN hp hd h0 hnodes vals0 hv w r hmesh hr

set_option maxRecDepth 100000 in
theorem value_slices_disjoint_witness :
    ((phase_assemble_tables (tet_field 3 1 4) tet_tables 0
        ((after_create builder_plain (tet_field 3 1 4)).1.with_values
          (tet_matrix (List.replicate 16 0)) (List.replicate 16 7)) Worker.new).map
        (fun r => r.1.fematrix_)
      = some (some (tet_matrix [1 / 2, -1 / 6, -1 / 6, -1 / 6, -1 / 6, 1 / 6, 0, 0,
          7, 7, 7, 7, 7, 7, 7, 7]))) ∧
    ∃ (M : SparseRowMatrix) (sl : Nat → Nat),
      (after_create builder_plain (tet_field 3 1 4)).1.fematrix_ = some M ∧
      (∀ p, p ≤ builder_plain.numprocessors_ →
        rd (after_create builder_plain (tet_field 3 1 4)).1.colidx_ p = some (sl p)) ∧
      sl 0 = 0 ∧ sl builder_plain.numprocessors_ = M.vals.length ∧
      (∀ p q, p ≤ q → sl p ≤ sl q) ∧
      (∀ k, k < M.vals.length → ∃ p, p < builder_plain.numprocessors_ ∧ sl p ≤ k ∧
        k < sl (p + 1) ∧
        ∀ q, q < builder_plain.numprocessors_ → sl q ≤ k → k < sl (q + 1) → q = p) ∧
      ∀ p, p < builder_plain.numprocessors_ →
        (∀ (b1 : FEMBuilder) (M1 : SparseRowMatrix) (w : Worker) (r : FEMBuilder × Worker),
          b1.colidx_ = (after_create builder_plain (tet_field 3 1 4)).1.colidx_ →
          b1.fematrix_ = some M1 →
          phase_assemble (tet_field 3 1 4) p b1 w = some r →
          ∃ vals, r.1.fematrix_ = some { M1 with vals := vals } ∧
            vals.length = M1.vals.length ∧
            (∀ k, (k < sl p ∨ sl (p + 1) ≤ k) → vals[k]? = M1.vals[k]?) ∧
            (∀ k, sl p ≤ k → k < sl (p + 1) → vals[k]? = some 0)) ∧
        (∀ i, start_gd (after_create builder_plain (tet_field 3 1 4)).1 p ≤ i →
          i < end_gd (after_create builder_plain (tet_field 3 1 4)).1 p →
          (∀ j k, M.find i j = some k → sl p ≤ k ∧ k < sl (p + 1)) ∧
          ∀ (M1 M2 : SparseRowMatrix) (cols : List Nat) (lcl : List ℚ),
            M1.rows = M.rows → add_lcl_gbl M1 i cols lcl = some M2 →
            M2.rows = M1.rows ∧ M2.cols = M1.cols ∧ M2.vals.length = M1.vals.length ∧
            ∀ k, (k < sl p ∨ sl (p + 1) ≤ k) → M2.vals[k]? = M1.vals[k]?) ∧
        ((tet_field 3 1 4).vfield.basis_order = 0 →
          (∀ i, i < (tet_field 3 1 4).vmesh.num_nodes →
            ∀ c, c ∈ (tet_field 3 1 4).vmesh.get_elems_node i →
            ((tet_field 3 1 4).vmesh.get_nodes c).length
              = (tet_field 3 1 4).vmesh.num_nodes_per_elem) →
          ∀ (ni : List (List ℚ) × List ℚ × List (List ℚ)) (vals0 : List ℚ) (w : Worker)
            (r : FEMBuilder × Worker), vals0.length = M.vals.length →
            ((tet_field 3 1 4).vmesh.is_regularmesh = true →
              regular_tables (tet_field 3 1 4) ni (tet_field 3 1 4).vmesh.num_nodes_per_elem ∧
                w.precompute = []) →
            phase_assemble_tables (tet_field 3 1 4) ni p
              ((after_create builder_plain (tet_field 3 1 4)).1.with_values M vals0) w
              = some r →
            ∃ vals, r.1.fematrix_ = some { M with vals := vals } ∧
              vals.length = M.vals.length ∧
              (∀ k, (k < sl p ∨ sl (p + 1) ≤ k) → vals[k]? = vals0[k]?) ∧
              ∀ i, start_gd (after_create builder_plain (tet_field 3 1 4)).1 p ≤ i →
                i < end_gd (after_create builder_plain (tet_field 3 1 4)).1 p →
                ∀ j k, M.find i j = some k →
                  vals[k]? = some (assembled_sum_tables builder_plain.tensors_
                    (tet_field 3 1 4) ni i j)) :=
  ⟨by decide!,
    value_slices_disjoint builder_plain (tet_field 3 1 4) (by decide) (by decide)⟩

/-! ## The local row is homogeneous in the tensor -/

theorem foldlM_rel {α β γ : Type} (R : β → γ → Prop) (f : β → α → Option β)
    (g : γ → α → Option γ)
    (hstep : ∀ x y a x2 y2, R x y → f x a = some x2 → g y a = some y2 → R x2 y2) :
    ∀ (l : List α) (x : β) (y : γ) (x2 : β) (y2 : γ), R x y →
      l.foldlM f x = some x2 → l.foldlM g y = some y2 → R x2 y2
  | [], x, y, x2, y2, h, hx, hy => by
    simp only [List.foldlM_nil, Option.pure_def, Option.some.injEq] at hx hy
    rw [← hx, ← hy]
    exact h
  | a :: l, x, y, x2, y2, h, hx, hy => by
    rw [List.foldlM_cons] at hx hy
    obtain ⟨x1, hx1, hx⟩ := Option.bind_eq_some.mp hx
    obtain ⟨y1, hy1, hy⟩ := Option.bind_eq_some.mp hy
    exact foldlM_rel R f g hstep l x1 y1 x2 y2 (hstep x y a x1 y1 h hx1 hy1) hx hy

theorem wr_eq_set {α : Type} (l : List α) (j : Nat) (x : α) (l2 : List α)
    (h : wr l j x = some l2) : j < l.length ∧ l2 = l.set j x := by
  unfold wr at h
  split at h
  · rename_i hlt
    simp only [Option.some.injEq] at h
    exact ⟨hlt, h.symm⟩
  · cases h

theorem accumulate_point_scale (L : Nat) (Ji : Fin 9 → ℚ) (detJ : ℚ) (C1 C2 : Tensor)
    (a : ℚ) (hC : ∀ r c, C1.mat_ r c = a * C2.mat_ r c)
    (di : List ℚ) (row : Nat) (l1 l2 m1 m2 : List ℚ)
    (hR : l1.length = l2.length ∧ ∀ j, l1.getD j 0 = a * l2.getD j 0)
    (h1 : accumulate_point L Ji detJ C1 di row l1 = some m1)
    (h2 : accumulate_point L Ji detJ C2 di row l2 = some m2) :
    m1.length = m2.length ∧ ∀ j, m1.getD j 0 = a * m2.getD j 0 := by
  unfold accumulate_point at h1 h2
  simp only [Option.bind_eq_bind, Option.bind_eq_some] at h1 h2
  obtain ⟨x1, hx1, y1, hy1, z1, hz1, h1⟩ := h1
  obtain ⟨x2, hx2, y2, hy2, z2, hz2, h2⟩ := h2
  rw [hx1] at hx2
  rw [hy1] at hy2
  rw [hz1] at hz2
  cases hx2
  cases hy2
  cases hz2
  refine foldlM_rel
    (fun t1 t2 : List ℚ => t1.length = t2.length ∧ ∀ j, t1.getD j 0 = a * t2.getD j 0)
    _ _ ?_ _ l1 l2 m1 m2 hR h1 h2
  intro t1 t2 j u1 u2 ht hs1 hs2
  simp only [Option.bind_eq_some] at hs1 hs2
  obtain ⟨p1, hp1, q1, hq1, r1, hr1, o1, ho1, hs1⟩ := hs1
  obtain ⟨p2, hp2, q2, hq2, r2, hr2, o2, ho2, hs2⟩ := hs2
  rw [hp1] at hp2
  rw [hq1] at hq2
  rw [hr1] at hr2
  cases hp2
  cases hq2
  cases hr2
  obtain ⟨hj1, e1⟩ := wr_eq_set _ _ _ _ hs1
  obtain ⟨hj2, e2⟩ := wr_eq_set _ _ _ _ hs2
  have ho : o1 = a * o2 := by
    rw [← rd_eq_getD _ _ _ 0 ho1, ← rd_eq_getD _ _ _ 0 ho2]
    exact ht.2 j
  rw [e1, e2]
  refine ⟨by rw [List.length_set, List.length_set]; exact ht.1, fun k => ?_⟩
  by_cases hk : j = k
  · subst hk
    rw [List.getD_eq_getElem?_getD, List.getElem?_set_self hj1, List.getD_eq_getElem?_getD,
      List.getElem?_set_self hj2]
    simp only [Option.getD_some]
    rw [ho, hC 0 0, hC 0 1, hC 0 2, hC 1 1, hC 1 2, hC 2 2]
    ring
  · rw [List.getD_eq_getElem?_getD, List.getElem?_set_ne hk, List.getD_eq_getElem?_getD,
      List.getElem?_set_ne hk, ← List.getD_eq_getElem?_getD, ← List.getD_eq_getElem?_getD]
    exact ht.2 k

theorem quadrature_loop_scale (mesh : VMesh) (L : Nat) (C1 C2 : Tensor) (a : ℚ)
    (hC : ∀ r c, C1.mat_ r c = a * C2.mat_ r c) (c_ind row : Nat) (vol : ℚ)
    (p : List (List ℚ)) (w : List ℚ) (d : List (List ℚ)) :
    ∀ (n i : Nat) (l1 l2 : List ℚ) (r1 r2 : LocalRow),
      (l1.length = l2.length ∧ ∀ j, l1.getD j 0 = a * l2.getD j 0) →
      quadrature_loop mesh L C1 c_ind row vol p w d n i l1 = some r1 →
      quadrature_loop mesh L C2 c_ind row vol p w d n i l2 = some r2 →
      r1.l_stiff.length = r2.l_stiff.length ∧
        ∀ j, r1.l_stiff.getD j 0 = a * r2.l_stiff.getD j 0
  | 0, i, l1, l2, r1, r2, hR, h1, h2 => by
    simp only [quadrature_loop, Option.some.injEq] at h1 h2
    rw [← h1, ← h2]
    exact hR
  | n + 1, i, l1, l2, r1, r2, hR, h1, h2 => by
    simp only [quadrature_loop, Option.bind_eq_bind, Option.bind_eq_some] at h1 h2
    obtain ⟨pi1, hpi1, h1⟩ := h1
    obtain ⟨pi2, hpi2, h2⟩ := h2
    rw [hpi1] at hpi2
    cases hpi2
    by_cases hJ : (mesh.inverse_jacobian pi1 c_ind).1 ≤ 0
    · rw [if_pos hJ] at h1 h2
      simp only [Option.some.injEq] at h1 h2
      rw [← h1, ← h2]
      exact hR
    · rw [if_neg hJ] at h1 h2
      simp only [Option.bind_eq_some] at h1 h2
      obtain ⟨w1, hw1, d1, hd1, m1, hm1, h1⟩ := h1
      obtain ⟨w2, hw2, d2, hd2, m2, hm2, h2⟩ := h2
      rw [hw1] at hw2
      rw [hd1] at hd2
      cases hw2
      cases hd2
      exact quadrature_loop_scale mesh L C1 C2 a hC c_ind row vol p w d n (i + 1) m1 m2 r1 r2
        (accumulate_point_scale L _ _ C1 C2 a hC d1 row l1 l2 m1 m2 hR hm1 hm2) h1 h2

theorem build_local_matrix_scale (t1 t2 : TensorTable) (L : Nat) (input : Field)
    (c_ind row : Nat) (p : List (List ℚ)) (w : List ℚ) (d : List (List ℚ))
    (T1 T2 : Tensor) (a : ℚ) (r1 r2 : LocalRow)
    (hT1 : resolve_tensor t1 input.vfield c_ind = some T1)
    (hT2 : resolve_tensor t2 input.vfield c_ind = some T2)
    (hC : ∀ r c, T1.mat_ r c = a * T2.mat_ r c)
    (h1 : build_local_matrix t1 L input c_ind row (List.replicate L 0) p w d = some r1)
    (h2 : build_local_matrix t2 L input c_ind row (List.replicate L 0) p w d = some r2) :
    ∀ j, r1.l_stiff.getD j 0 = a * r2.l_stiff.getD j 0 := by
  have hz : zero_row L (List.replicate L 0) = some (List.replicate L 0) := by
    rw [zero_row_eq L _ (by simp), List.drop_eq_nil_of_le (by simp), List.append_nil]
  have hzero : ∀ j, (List.replicate L (0 : ℚ)).getD j 0 = 0 := fun j =>
    getD_of_zero _ (fun x hx => (List.mem_replicate.mp hx).2) j
  unfold build_local_matrix at h1 h2
  rw [hT1] at h1
  rw [hT2] at h2
  simp only [Option.bind_eq_bind, Option.some_bind, hz] at h1 h2
  by_cases hz1 : T1.all_zero = true
  · rw [if_pos hz1] at h1
    simp only [Option.some.injEq] at h1
    by_cases hz2 : T2.all_zero = true
    · rw [if_pos hz2] at h2
      simp only [Option.some.injEq] at h2
      intro j
      rw [← h1, ← h2]
      simp only [hzero, mul_zero]
    · have ha : a = 0 := by
        by_contra hne
        apply hz2
        rw [all_zero_iff] at hz1 ⊢
        obtain ⟨e1, e2, e3, e4, e5, e6⟩ := hz1
        rw [hC] at e1 e2 e3 e4 e5 e6
        exact ⟨(mul_eq_zero.mp e1).resolve_left hne, (mul_eq_zero.mp e2).resolve_left hne,
          (mul_eq_zero.mp e3).resolve_left hne, (mul_eq_zero.mp e4).resolve_left hne,
          (mul_eq_zero.mp e5).resolve_left hne, (mul_eq_zero.mp e6).resolve_left hne⟩
      intro j
      rw [← h1, ha]
      simp only [hzero, zero_mul]
  · have hz2 : ¬ T2.all_zero = true := by
      intro hcon
      apply hz1
      rw [all_zero_iff] at hcon ⊢
      obtain ⟨e1, e2, e3, e4, e5, e6⟩ := hcon
      simp only [hC, e1, e2, e3, e4, e5, e6, mul_zero, and_self]
    rw [if_neg hz1] at h1
    rw [if_neg hz2] at h2
    by_cases hdim : input.vmesh.dimensionality < 1 ∨ input.vmesh.dimensionality > 3
    · rw [if_pos hdim] at h1 h2
      simp only [Option.some.injEq] at h1 h2
      intro j
      rw [← h1, ← h2]
      simp only [hzero, mul_zero]
    · rw [if_neg hdim] at h1 h2
      exact (quadrature_loop_scale input.vmesh L T1 T2 a hC c_ind row _ p w d _ 0 _ _ r1 r2
        ⟨rfl, fun j => by rw [hzero, mul_zero]⟩ h1 h2).2

/-! ## Superposition over the tissue types -/

theorem fill_isotropic_scale (a : ℚ) (r c : Fin 3) :
    (fill_isotropic Tensor.zero a).mat_ r c = a * (fill_isotropic Tensor.zero 1).mat_ r c := by
  fin_cases r <;> fin_cases c <;> simp [fill_isotropic, Tensor.set, Tensor.zero]

theorem resolve_table_one (ts : TensorTable) (mat : DenseMatrix) (field : VField) (c : Nat)
    (T : Tensor) (h1 : mat.ncols = 1) (h0 : 0 < mat.nrows)
    (h : resolve_tensor (convert_table ts (some mat)) field c = some T) :
    ∃ idx, idx < mat.nrows ∧ field.get_value_int c = (idx : Int) ∧
      T = fill_isotropic Tensor.zero (mat.data.getD (idx * mat.ncols) 0) := by
  rw [convert_table_one ts mat h1] at h
  unfold resolve_tensor at h
  have hne : ((List.finRange mat.nrows).map
      (fun p => (("", fill_isotropic Tensor.zero (mat.at p 0 (by omega))) : String × Tensor))).isEmpty
      = false := by
    rw [List.isEmpty_eq_false]
    intro hcon
    have := congrArg List.length hcon
    simp at this
    omega
  rw [hne] at h
  simp only [Bool.false_eq_true, if_false] at h
  split at h
  · rename_i hpos
    obtain ⟨x, hx, hxT⟩ := Option.map_eq_some'.mp h
    have hlt : (field.get_value_int c).toNat < mat.nrows := by
      by_contra hcon
      unfold rd at hx
      rw [List.get?_eq_getElem?, List.getElem?_eq_none (by simp; omega)] at hx
      cases hx
    rw [rd_map_finRange _ _ _ hlt] at hx
    simp only [Option.some.injEq] at hx
    refine ⟨(field.get_value_int c).toNat, hlt, (Int.toNat_of_nonneg hpos).symm, ?_⟩
    rw [← hxT, ← hx]
    simp only
    congr 1
    have := rd_at mat ⟨(field.get_value_int c).toNat, hlt⟩ 0 (by omega)
    rw [Nat.zero_add] at this
    exact (rd_eq_getD _ _ _ 0 this).symm
  · cases h

theorem unit_table_data (N s idx : Nat) (hidx : idx < N) :
    (unit_table N s).data.getD (idx * (unit_table N s).ncols) 0 = if idx = s then 1 else 0 := by
  simp only [unit_table, DenseMatrix.set_entry, DenseMatrix.zeros, Nat.mul_one]
  by_cases h : idx = s
  · subst h
    rw [if_pos rfl, List.getD_eq_getElem?_getD, List.getElem?_set_self (by simpa using hidx)]
    rfl
  · rw [if_neg h, List.getD_eq_getElem?_getD, List.getElem?_set_ne (fun hc => h hc.symm),
      ← List.getD_eq_getElem?_getD]
    exact getD_of_zero _ (fun x hx => (List.mem_replicate.mp hx).2) idx

theorem build_local_matrix_resolves (t : TensorTable) (L : Nat) (input : Field)
    (c row : Nat) (l : List ℚ) (p : List (List ℚ)) (w : List ℚ) (d : List (List ℚ))
    (r : LocalRow) (h : build_local_matrix t L input c row l p w d = some r) :
    ∃ T, resolve_tensor t input.vfield c = some T := by
  unfold build_local_matrix at h
  simp only [Option.bind_eq_bind, Option.bind_eq_some] at h
  obtain ⟨T, hT, _⟩ := h
  exact ⟨T, hT⟩

theorem local_row_superposition (ts : TensorTable) (w : DenseMatrix) (L : Nat)
    (input : Field) (ni : List (List ℚ) × List ℚ × List (List ℚ)) (c kk : Nat)
    (hw1 : w.ncols = 1) (hw0 : 0 < w.nrows)
    (hD : (build_local_matrix (convert_table ts (some w)) L input c kk
      (List.replicate L 0) ni.1 ni.2.1 ni.2.2).isSome = true)
    (hB : ∀ s, s < w.nrows →
      (build_local_matrix (convert_table ts (some (unit_table w.nrows s))) L input c kk
        (List.replicate L 0) ni.1 ni.2.1 ni.2.2).isSome = true) (l : Nat) :
    ((List.range w.nrows).map (fun s => w.data.getD (s * w.ncols) 0 *
      (local_row_tables (convert_table ts (some (unit_table w.nrows s))) L input ni c kk).getD
        l 0)).sum
      = (local_row_tables (convert_table ts (some w)) L input ni c kk).getD l 0 := by
  obtain ⟨rD, hrD⟩ := Option.isSome_iff_exists.mp hD
  obtain ⟨TD, hTD⟩ := build_local_matrix_resolves _ _ _ _ _ _ _ _ _ _ hrD
  obtain ⟨idx, hidx, hint, hTDeq⟩ := resolve_table_one ts w input.vfield c TD hw1 hw0 hTD
  have hrow : ∀ s, s < w.nrows → ∃ rs Ts,
      build_local_matrix (convert_table ts (some (unit_table w.nrows s))) L input c kk
        (List.replicate L 0) ni.1 ni.2.1 ni.2.2 = some rs ∧
      resolve_tensor (convert_table ts (some (unit_table w.nrows s))) input.vfield c = some Ts ∧
      Ts = fill_isotropic Tensor.zero (if idx = s then 1 else 0) := by
    intro s hs
    obtain ⟨rs, hrs⟩ := Option.isSome_iff_exists.mp (hB s hs)
    obtain ⟨Ts, hTs⟩ := build_local_matrix_resolves _ _ _ _ _ _ _ _ _ _ hrs
    obtain ⟨idx2, hidx2, hint2, hTseq⟩ := resolve_table_one ts (unit_table w.nrows s)
      input.vfield c Ts rfl hw0 hTs
    have he : idx2 = idx := by
      rw [hint] at hint2
      exact (Int.ofNat_inj.mp hint2).symm
    subst he
    refine ⟨rs, Ts, hrs, hTs, ?_⟩
    rw [hTseq, unit_table_data w.nrows s idx2 hidx]
  obtain ⟨re, Te, hre, hTe, hTeeq⟩ := hrow idx hidx
  rw [if_pos rfl] at hTeeq
  have hDrow := build_local_matrix_scale _ _ L input c kk ni.1 ni.2.1 ni.2.2 TD Te
    (w.data.getD (idx * w.ncols) 0) rD re hTD hTe
    (fun r c => by rw [hTDeq, hTeeq]; exact fill_isotropic_scale _ r c) hrD hre l
  simp only [local_row_tables, hrD, Option.map_some', Option.getD_some]
  rw [hDrow]
  rw [sum_range_single _ w.nrows idx hidx]
  · simp only [hre, Option.map_some', Option.getD_some]
  · intro s hs hne
    obtain ⟨rs, Ts, hrs, hTs, hTseq⟩ := hrow s hs
    rw [if_neg (fun hc => hne hc.symm)] at hTseq
    have := build_local_matrix_scale _ _ L input c kk ni.1 ni.2.1 ni.2.2 Ts Te 0 rs re hTs hTe
      (fun r c => by rw [hTseq, hTeeq]; exact fill_isotropic_scale _ r c) hrs hre l
    simp only [hrs, Option.map_some', Option.getD_some, this, zero_mul, mul_zero]

theorem weighted_sum_map {α : Type} (S : List Nat) (a : Nat → ℚ) (f : Nat → α → ℚ)
    (g : α → ℚ) : ∀ (X : List α),
    (∀ x, x ∈ X → (S.map (fun s => a s * f s x)).sum = g x) →
    (S.map (fun s => a s * (X.map (f s)).sum)).sum = (X.map g).sum
  | [], _ => by simp
  | x :: X, h => by
    have e : (fun s => a s * ((x :: X).map (f s)).sum)
        = fun s => a s * f s x + a s * (X.map (f s)).sum := by
      funext s
      rw [List.map_cons, List.sum_cons, mul_add]
    rw [e, List.sum_map_add, h x (List.mem_cons_self _ _),
      weighted_sum_map S a f g X (fun y hy => h y (List.mem_cons_of_mem _ hy)),
      List.map_cons, List.sum_cons]

theorem weighted_sum_ite (S : List Nat) (a : Nat → ℚ) (c : Prop) [Decidable c]
    (f : Nat → ℚ) (g : ℚ) (h : c → (S.map (fun s => a s * f s)).sum = g) :
    (S.map (fun s => a s * (if c then f s else 0))).sum = if c then g else 0 := by
  by_cases hc : c
  · simp only [if_pos hc]
    exact h hc
  · simp only [if_neg hc, mul_zero]
    apply List.sum_eq_zero
    intro x hx
    simp only [List.mem_map] at hx
    obtain ⟨_, _, hx⟩ := hx
    exact hx.symm

theorem dof_contrib_superposition (M : SparseRowMatrix) (ts : TensorTable)
    (w : DenseMatrix) (L : Nat) (input : Field)
    (ni : List (List ℚ) × List ℚ × List (List ℚ)) (i k : Nat)
    (hw1 : w.ncols = 1) (hw0 : 0 < w.nrows)
    (hD : rows_defined (convert_table ts (some w)) L input ni i)
    (hB : ∀ s, s < w.nrows →
      rows_defined (convert_table ts (some (unit_table w.nrows s))) L input ni i) :
    ((List.range w.nrows).map (fun s => w.data.getD (s * w.ncols) 0 *
      dof_contrib M (convert_table ts (some (unit_table w.nrows s))) L input ni i k)).sum
      = dof_contrib M (convert_table ts (some w)) L input ni i k := by
  unfold dof_contrib
  apply weighted_sum_map
  intro c hc
  unfold elem_contrib
  apply weighted_sum_map
  intro kk _
  apply weighted_sum_ite
  intro hkk
  unfold row_contrib
  apply weighted_sum_map
  intro l _
  apply weighted_sum_ite
  intro _
  exact local_row_superposition ts w L input ni c kk hw1 hw0 (hD c hc kk hkk)
    (fun s hs => hB s hs c hc kk hkk) l

/-- C18: for a field of basis order 0 with tissue indices on a mesh that passes `setup`,
whose elements returned for a node all have `num_nodes_per_elem` nodes, a one-column
table `w` of `N ≥ 1` weights, builders with at least one worker and any quadrature tables
`ni` (on a regular mesh the tables satisfy `regular_tables`, the conditions under which
the cached variant `build_local_matrix_regular` computes the row of
`build_local_matrix`): let `B s` be the matrix that the ZeroInit and Assembly phases
leave for the `N×1` table that is 1 in row `s` and 0 elsewhere, and `D` the matrix they
leave for `w` itself (each builder prepared as `build_matrix` prepares it for its
table).  Then every `B s` has the pattern of `D`, and for every slot `p` the sum
`Σ_s w[s]·(B s).vals[p]` is the value of `D` at `p`.  With the tables that
`create_numerical_integration` returns, these phases are the end of the run of the
workers. -/
theorem basis_superposition (b : FEMBuilder) (bld : Nat → FEMBuilder) (input : Field)
    (w : DenseMatrix) (ni : List (List ℚ) × List ℚ × List (List ℚ)) (D : SparseRowMatrix)
    (B : Nat → SparseRowMatrix) (hN : 0 < b.numprocessors_)
    (hNs : ∀ s, 0 < (bld s).numprocessors_)
    (hd : 1 ≤ input.vmesh.dimensionality) (h0 : input.vfield.basis_order = 0)
    (hmesh : input.vmesh.is_regularmesh = true →
      regular_tables input ni input.vmesh.num_nodes_per_elem)
    (hnodes : ∀ i, i < input.vmesh.num_nodes → ∀ c, c ∈ input.vmesh.get_elems_node i →
      (input.vmesh.get_nodes c).length = input.vmesh.num_nodes_per_elem)
    (hw1 : w.ncols = 1) (hw0 : 0 < w.nrows)
    (hD : (assemble_tables input ni (at_run_tasks b (some w))).bind (fun r => r.fematrix_)
      = some D)
    (hB : ∀ s, s < w.nrows →
      (assemble_tables input ni (at_run_tasks (bld s) (some (unit_table w.nrows s)))).bind
        (fun r => r.fematrix_) = some (B s)) :
    (create_numerical_integration input.vmesh = .ok ni →
      ∀ (b0 : FEMBuilder) (t : Option DenseMatrix),
      run_tasks (at_run_tasks b0 t) input = assemble_tables input ni (at_run_tasks b0 t)) ∧
    (∀ s, s < w.nrows → (B s).rows = D.rows ∧ (B s).cols = D.cols ∧
      (B s).vals.length = D.vals.length) ∧
    ∀ p, p < D.vals.length →
      ((List.range w.nrows).map (fun s =>
        w.data.getD (s * w.ncols) 0 * (B s).vals.getD p 0)).sum = D.vals.getD p 0 := by
  obtain ⟨hlin, hL⟩ := linear_of_order input h0
  obtain ⟨rD, hrD, hfD⟩ := Option.bind_eq_some.mp hD
  obtain ⟨⟨v, v1, v2, v3⟩, dD⟩ := assemble_tables_val (at_run_tasks b (some w)) input ni
    hN hd hlin (by rw [hL]; exact hmesh) (by rw [hL]; exact hnodes) rD hrD
  rw [hfD] at v1
  have hDeq := Option.some.inj v1
  have key : ∀ s, s < w.nrows → ∃ u, B s
      = { pattern_matrix input.vmesh.num_nodes 0 input.vmesh with vals := u } ∧
      u.length = (pattern_matrix input.vmesh.num_nodes 0 input.vmesh).vals.length ∧
      (∀ k, k < u.length → u.getD k 0 = ((List.range input.vmesh.num_nodes).map (fun i =>
        dof_contrib (pattern_matrix input.vmesh.num_nodes 0 input.vmesh)
          (convert_table b.tensors_ (some (unit_table w.nrows s)))
          (local_dofs input) input ni i k)).sum) ∧
      ∀ i, i < input.vmesh.num_nodes →
        rows_defined (convert_table b.tensors_ (some (unit_table w.nrows s)))
          (local_dofs input) input ni i := by
    intro s hs
    obtain ⟨rs, hrs, hfs⟩ := Option.bind_eq_some.mp (hB s hs)
    obtain ⟨⟨u, u1, u2, u3⟩, dB⟩ := assemble_tables_val
      (at_run_tasks (bld s) (some (unit_table w.nrows s))) input ni
      (hNs s) hd hlin (by rw [hL]; exact hmesh) (by rw [hL]; exact hnodes) rs hrs
    rw [hfs] at u1
    have hts : (at_run_tasks (bld s) (some (unit_table w.nrows s))).tensors_
        = convert_table b.tensors_ (some (unit_table w.nrows s)) :=
      (convert_table_one (bld s).tensors_ _ rfl).trans
        (convert_table_one b.tensors_ _ rfl).symm
    rw [hts] at u3 dB
    exact ⟨u, Option.some.inj u1, u2, u3, dB⟩
  refine ⟨fun hni b0 t => run_tasks_tables _ input ni (length_resize _ _ _) hd hni,
    fun s hs => ?_, fun p hp => ?_⟩
  · obtain ⟨u, e1, e2, _⟩ := key s hs
    rw [e1, hDeq]
    exact ⟨rfl, rfl, by simp only; rw [e2, v2]⟩
  · rw [hDeq] at hp ⊢
    simp only at hp ⊢
    rw [v3 p hp]
    have hmap : (List.range w.nrows).map (fun s =>
          w.data.getD (s * w.ncols) 0 * (B s).vals.getD p 0)
        = (List.range w.nrows).map (fun s => w.data.getD (s * w.ncols) 0 *
          ((List.range input.vmesh.num_nodes).map (fun i =>
            dof_contrib (pattern_matrix input.vmesh.num_nodes 0 input.vmesh)
              (convert_table b.tensors_ (some (unit_table w.nrows s)))
              (local_dofs input) input ni i p)).sum) := by
      apply List.map_congr_left
      intro s hs
      obtain ⟨u, e1, e2, e3, _⟩ := key s (List.mem_range.mp hs)
      rw [e1]
      simp only
      rw [e3 p (by rw [e2, ← v2]; exact hp)]
    rw [hmap]
    apply weighted_sum_map
    intro i hi
    exact dof_contrib_superposition _ b.tensors_ w (local_dofs input) input ni i p hw1 hw0
      (dD i (List.mem_range.mp hi)) (fun s hs => (key s hs).choose_spec.2.2.2 i
        (List.mem_range.mp hi))

set_option maxRecDepth 100000 in
theorem basis_superposition_witness :
    (create_numerical_integration (tet_field 3 1 4).vmesh = .ok tet_tables →
      ∀ (b0 : FEMBuilder) (t : Option DenseMatrix),
      run_tasks (at_run_tasks b0 t) (tet_field 3 1 4)
        = assemble_tables (tet_field 3 1 4) tet_tables (at_run_tasks b0 t)) ∧
    (∀ s, s < table_iso.nrows →
      ((fun s : Nat => if s = 0 then tet_matrix
          [1 / 2, -1 / 6, -1 / 6, -1 / 6, -1 / 6, 1 / 6, 0, 0,
           -1 / 6, 0, 1 / 6, 0, -1 / 6, 0, 0, 1 / 6]
        else tet_matrix (List.replicate 16 0)) s).rows
        = (tet_matrix [3 / 2, -1 / 2, -1 / 2, -1 / 2, -1 / 2, 1 / 2, 0, 0,
           -1 / 2, 0, 1 / 2, 0, -1 / 2, 0, 0, 1 / 2]).rows ∧
      ((fun s : Nat => if s = 0 then tet_matrix
          [1 / 2, -1 / 6, -1 / 6, -1 / 6, -1 / 6, 1 / 6, 0, 0,
           -1 / 6, 0, 1 / 6, 0, -1 / 6, 0, 0, 1 / 6]
        else tet_matrix (List.replicate 16 0)) s).cols
        = (tet_matrix [3 / 2, -1 / 2, -1 / 2, -1 / 2, -1 / 2, 1 / 2, 0, 0,
           -1 / 2, 0, 1 / 2, 0, -1 / 2, 0, 0, 1 / 2]).cols ∧
      ((fun s : Nat => if s = 0 then tet_matrix
          [1 / 2, -1 / 6, -1 / 6, -1 / 6, -1 / 6, 1 / 6, 0, 0,
           -1 / 6, 0, 1 / 6, 0, -1 / 6, 0, 0, 1 / 6]
        else tet_matrix (List.replicate 16 0)) s).vals.length
        = (tet_matrix [3 / 2, -1 / 2, -1 / 2, -1 / 2, -1 / 2, 1 / 2, 0, 0,
           -1 / 2, 0, 1 / 2, 0, -1 / 2, 0, 0, 1 / 2]).vals.length) ∧
    ∀ p, p < (tet_matrix [3 / 2, -1 / 2, -1 / 2, -1 / 2, -1 / 2, 1 / 2, 0, 0,
           -1 / 2, 0, 1 / 2, 0, -1 / 2, 0, 0, 1 / 2]).vals.length →
      ((List.range table_iso.nrows).map (fun s =>
        table_iso.data.getD (s * table_iso.ncols) 0 *
          ((fun s : Nat => if s = 0 then tet_matrix
              [1 / 2, -1 / 6, -1 / 6, -1 / 6, -1 / 6, 1 / 6, 0, 0,
               -1 / 6, 0, 1 / 6, 0, -1 / 6, 0, 0, 1 / 6]
            else tet_matrix (List.replicate 16 0)) s).vals.getD p 0)).sum
        = (tet_matrix [3 / 2, -1 / 2, -1 / 2, -1 / 2, -1 / 2, 1 / 2, 0, 0,
           -1 / 2, 0, 1 / 2, 0, -1 / 2, 0, 0, 1 / 2]).vals.getD p 0 :=
  basis_superposition builder_plain (fun _ => builder_plain) (tet_field 3 1 4) table_iso
    tet_tables
    (tet_matrix [3 / 2, -1 / 2, -1 / 2, -1 / 2, -1 / 2, 1 / 2, 0, 0,
      -1 / 2, 0, 1 / 2, 0, -1 / 2, 0, 0, 1 / 2])
    (fun s : Nat => if s = 0 then tet_matrix
        [1 / 2, -1 / 6, -1 / 6, -1 / 6, -1 / 6, 1 / 6, 0, 0,
         -1 / 6, 0, 1 / 6, 0, -1 / 6, 0, 0, 1 / 6]
      else tet_matrix (List.replicate 16 0))
    (by decide) (fun _ => (by decide : 0 < builder_plain.numprocessors_)) (by decide)
    (by decide) (fun h => absurd h (by decide)) (fun i _ c _ => rfl) rfl (by decide)
    (by decide!)
    (fun s hs => by
      have hs2 : s < 2 := hs
      have h01 : s = 0 ∨ s = 1 := by omega
      rcases h01 with h | h
      · subst h
        decide!
      · subst h
        decide!)

/-! ## The checks of the success flags when allocations fail -/

theorem phase_env_none (input : Field) :
    phase_discover_env no_failure input = phase_discover input ∧
    phase_offsets_env no_failure = phase_offsets ∧
    phase_create_env no_failure = phase_create := by
  refine ⟨?_, ?_, ?_⟩
  · funext p b w
    simp [phase_discover_env, no_failure]
  · funext p b w
    simp [phase_offsets_env, no_failure]
  · funext p b w
    simp [phase_create_env, no_failure]

theorem run_tasks_env_none (b : FEMBuilder) (input : Field) :
    run_tasks b input = run_tasks_env no_failure b input := by
  obtain ⟨e1, e2, e3⟩ := phase_env_none input
  simp only [run_tasks_env, run_from, run_from_setup, run_from_discover, run_from_offsets,
    run_from_copy, run_from_create, e1, e2, e3]
  rfl

theorem build_matrix_env_none (b : FEMBuilder) (input : Field) (ctable : Option DenseMatrix)
    (output : Option SparseRowMatrix) :
    build_matrix b input ctable output = build_matrix_env no_failure b input ctable output := by
  unfold build_matrix_env
  rw [← run_tasks_env_none]
  rfl

theorem run_from_stops (env : Nat → Nat → Bool) (input : Field) (k : Nat)
    (s : FEMBuilder × List Worker) (hk : k ≤ 4) (hfail : (first_failed s.1).isSome = true) :
    ∃ l, run_from env input k s = some { s.1 with log := l } := by
  obtain ⟨q, hq⟩ := Option.isSome_iff_exists.mp hfail
  interval_cases k
  · exact ⟨s.1.log ++ List.replicate s.1.numprocessors_
      (Msg.error ("FEMBuilder::setup failed in thread " ++ toString q)),
      by simp only [run_from, run_from_setup, hq]⟩
  · exact ⟨s.1.log, by simp only [run_from, run_from_discover, hfail, if_true]⟩
  · exact ⟨s.1.log, by simp only [run_from, run_from_offsets, hfail, if_true]⟩
  · exact ⟨s.1.log, by simp only [run_from, run_from_copy, hfail, if_true]⟩
  · exact ⟨s.1.log, by simp only [run_from, run_from_create, hfail, if_true]⟩

theorem run_from_passes (env : Nat → Nat → Bool) (input : Field)
    (s : FEMBuilder × List Worker) (hpass : first_failed s.1 = none) :
    (∀ k, k < 4 → run_from env input k s = run_from env input (k + 1) (next_phase env input k s)) ∧
    run_from env input 4 s = (each_worker_opt (phase_assemble input) 0 s.1 s.2).map Prod.fst := by
  constructor
  · intro k hk
    interval_cases k
    · simp only [run_from, run_from_setup, hpass, next_phase]
    · simp [run_from, run_from_discover, hpass, next_phase]
    · simp [run_from, run_from_offsets, hpass, next_phase]
    · simp [run_from, run_from_copy, hpass, next_phase]
  · simp [run_from, run_from_create, hpass]

theorem env_phase_sizes (env : Nat → Nat → Bool) (input : Field) :
    (∀ p b w, ((phase_discover_env env input p b w).1.success_.length,
        (phase_discover_env env input p b w).1.numprocessors_)
      = (b.success_.length, b.numprocessors_)) ∧
    (∀ p b w, ((phase_offsets_env env p b w).1.success_.length,
        (phase_offsets_env env p b w).1.numprocessors_)
      = (b.success_.length, b.numprocessors_)) ∧
    (∀ p b w, ((phase_copy p b w).1.success_.length, (phase_copy p b w).1.numprocessors_)
      = (b.success_.length, b.numprocessors_)) ∧
    (∀ p b w, ((phase_create_env env p b w).1.success_.length,
        (phase_create_env env p b w).1.numprocessors_)
      = (b.success_.length, b.numprocessors_)) := by
  refine ⟨fun p b w => ?_, fun p b w => ?_, fun p b w => ?_, fun p b w => ?_⟩
  · unfold phase_discover_env
    split
    · simp [FEMBuilder.error]
    · have := phase_discover_flags input p b w
      rw [this.1, this.2, List.length_set]
  · unfold phase_offsets_env
    split
    · simp [FEMBuilder.error]
    · have := phase_offsets_flags p b w
      rw [this.1, this.2, List.length_set]
  · have := phase_copy_flags p b w
    rw [this.1, this.2, List.length_set]
  · unfold phase_create_env
    split
    · simp [FEMBuilder.error]
    · have := phase_create_flags p b w
      rw [this.1, this.2, List.length_set]

theorem phase_assemble_matrix (input : Field) (p : Nat) (b : FEMBuilder) (w : Worker)
    (r : FEMBuilder × Worker) (h : phase_assemble input p b w = some r) :
    r.1.fematrix_.isSome = true ∧ r.1.success_.length = b.success_.length ∧
      r.1.numprocessors_ = b.numprocessors_ := by
  have h2 := h
  unfold phase_assemble at h2
  simp only [Option.bind_eq_bind, Option.bind_eq_some] at h2
  obtain ⟨ns, hns, ne, hne, M, hM, _⟩ := h2
  obtain ⟨vals, hv, _⟩ := phase_assemble_frame input p b w r M ns ne hns hne hM h
  obtain ⟨e1, flag, e2⟩ := phase_assemble_static
    (fun b : FEMBuilder => b.numprocessors_) (fun _ _ _ _ => rfl) input p b w r h
  refine ⟨by rw [hv]; rfl, by rw [e2, List.length_set], e1⟩

theorem each_worker_opt_last (Q : FEMBuilder → Prop)
    (step : Nat → FEMBuilder → Worker → Option (FEMBuilder × Worker))
    (hstep : ∀ p b w r, step p b w = some r → Q r.1) :
    ∀ (ws : List Worker) (p : Nat) (b : FEMBuilder) (r : FEMBuilder × List Worker),
      0 < ws.length → each_worker_opt step p b ws = some r → Q r.1
  | [], _, _, _, hlen, _ => by simp at hlen
  | w :: ws, p, b, r, _, h => by
    have h2 : (step p b w).bind (fun r1 => (each_worker_opt step (p + 1) r1.1 ws).bind
        (fun rs => some (rs.1, r1.2 :: rs.2))) = some r := h
    obtain ⟨r1, hr1, h3⟩ := Option.bind_eq_some.mp h2
    obtain ⟨rs, hrs, h4⟩ := Option.bind_eq_some.mp h3
    simp only [Option.some.injEq] at h4
    rw [← h4]
    by_cases hws : 0 < ws.length
    · exact each_worker_opt_last Q step hstep ws (p + 1) r1.1 rs hws hrs
    · have hnil : ws = [] := List.length_eq_zero.mp (by omega)
      subst hnil
      simp only [each_worker_opt, Option.some.injEq] at hrs
      rw [← hrs]
      exact hstep p b w r1 hr1

/-- The run from any check on: the number of flags and of workers stays, and when no
flag is false at the end (with at least one worker) the run has gone through the
Assembly phase and holds a matrix. -/
theorem run_from_end (env : Nat → Nat → Bool) (input : Field) (k : Nat)
    (s : FEMBuilder × List Worker) (r : FEMBuilder) (hk : k ≤ 4)
    (h : run_from env input k s = some r) :
    (r.success_.length = s.1.success_.length ∧ r.numprocessors_ = s.1.numprocessors_) ∧
    (first_failed r = none → 0 < s.2.length → r.fematrix_.isSome = true) := by
  obtain ⟨z1, z2, z3, z4⟩ := env_phase_sizes env input
  have keep : ∀ (step : Nat → FEMBuilder → Worker → FEMBuilder × Worker),
      (∀ p b w, ((step p b w).1.success_.length, (step p b w).1.numprocessors_)
        = (b.success_.length, b.numprocessors_)) →
      ∀ (t : FEMBuilder × List Worker),
        ((each_worker step 0 t.1 t.2).1.success_.length = t.1.success_.length ∧
          (each_worker step 0 t.1 t.2).1.numprocessors_ = t.1.numprocessors_) ∧
        (each_worker step 0 t.1 t.2).2.length = t.2.length := by
    intro step hstep t
    have := each_worker_keeps
      (fun b : FEMBuilder => (b.success_.length, b.numprocessors_)) step hstep t.2 0 t.1
    simp only [Prod.mk.injEq] at this
    exact ⟨this, each_worker_length step t.2 0 t.1⟩
  have c4 : ∀ (t : FEMBuilder × List Worker) (r : FEMBuilder),
      run_from_create input t = some r →
      (r.success_.length = t.1.success_.length ∧ r.numprocessors_ = t.1.numprocessors_) ∧
      (first_failed r = none → 0 < t.2.length → r.fematrix_.isSome = true) := by
    intro t r ht
    unfold run_from_create at ht
    split at ht
    · rename_i hf
      simp only [Option.some.injEq] at ht
      rw [← ht]
      refine ⟨⟨rfl, rfl⟩, fun hn _ => ?_⟩
      rw [hn] at hf
      cases hf
    · obtain ⟨rr, hrr, hrr1⟩ := Option.map_eq_some'.mp ht
      rw [← hrr1]
      have k5 := each_worker_opt_keeps
        (fun b : FEMBuilder => (b.success_.length, b.numprocessors_)) (phase_assemble input)
        (fun p b1 w r1 hr1 => by
          obtain ⟨_, e2, e3⟩ := phase_assemble_matrix input p b1 w r1 hr1
          simp only [e2, e3]) _ 0 _ rr hrr
      simp only [Prod.mk.injEq] at k5
      exact ⟨k5, fun _ hlen => each_worker_opt_last (fun b => b.fematrix_.isSome = true)
        (phase_assemble input)
        (fun p b1 w r1 hr1 => (phase_assemble_matrix input p b1 w r1 hr1).1) _ 0 _ rr hlen hrr⟩
  have c3 : ∀ (t : FEMBuilder × List Worker) (r : FEMBuilder),
      run_from_copy env input t = some r →
      (r.success_.length = t.1.success_.length ∧ r.numprocessors_ = t.1.numprocessors_) ∧
      (first_failed r = none → 0 < t.2.length → r.fematrix_.isSome = true) := by
    intro t r ht
    unfold run_from_copy at ht
    split at ht
    · rename_i hf
      simp only [Option.some.injEq] at ht
      rw [← ht]
      refine ⟨⟨rfl, rfl⟩, fun hn _ => ?_⟩
      rw [hn] at hf
      cases hf
    · obtain ⟨⟨e1, e2⟩, e3⟩ := c4 _ r ht
      obtain ⟨⟨f1, f2⟩, f3⟩ := keep (phase_create_env env) z4 t
      exact ⟨⟨e1.trans f1, e2.trans f2⟩, fun hn hlen => e3 hn (by rw [f3]; exact hlen)⟩
  have c2 : ∀ (t : FEMBuilder × List Worker) (r : FEMBuilder),
      run_from_offsets env input t = some r →
      (r.success_.length = t.1.success_.length ∧ r.numprocessors_ = t.1.numprocessors_) ∧
      (first_failed r = none → 0 < t.2.length → r.fematrix_.isSome = true) := by
    intro t r ht
    unfold run_from_offsets at ht
    split at ht
    · rename_i hf
      simp only [Option.some.injEq] at ht
      rw [← ht]
      refine ⟨⟨rfl, rfl⟩, fun hn _ => ?_⟩
      rw [hn] at hf
      cases hf
    · obtain ⟨⟨e1, e2⟩, e3⟩ := c3 _ r ht
      obtain ⟨⟨f1, f2⟩, f3⟩ := keep phase_copy z3 t
      exact ⟨⟨e1.trans f1, e2.trans f2⟩, fun hn hlen => e3 hn (by rw [f3]; exact hlen)⟩
  have c1 : ∀ (t : FEMBuilder × List Worker) (r : FEMBuilder),
      run_from_discover env input t = some r →
      (r.success_.length = t.1.success_.length ∧ r.numprocessors_ = t.1.numprocessors_) ∧
      (first_failed r = none → 0 < t.2.length → r.fematrix_.isSome = true) := by
    intro t r ht
    unfold run_from_discover at ht
    split at ht
    · rename_i hf
      simp only [Option.some.injEq] at ht
      rw [← ht]
      refine ⟨⟨rfl, rfl⟩, fun hn _ => ?_⟩
      rw [hn] at hf
      cases hf
    · obtain ⟨⟨e1, e2⟩, e3⟩ := c2 _ r ht
      obtain ⟨⟨f1, f2⟩, f3⟩ := keep (phase_offsets_env env) z2 t
      exact ⟨⟨e1.trans f1, e2.trans f2⟩, fun hn hlen => e3 hn (by rw [f3]; exact hlen)⟩
  have c0 : ∀ (t : FEMBuilder × List Worker) (r : FEMBuilder),
      run_from_setup env input t = some r →
      (r.success_.length = t.1.success_.length ∧ r.numprocessors_ = t.1.numprocessors_) ∧
      (first_failed r = none → 0 < t.2.length → r.fematrix_.isSome = true) := by
    intro t r ht
    unfold run_from_setup at ht
    split at ht
    · rename_i q hf
      simp only [Option.some.injEq] at ht
      rw [← ht]
      refine ⟨⟨rfl, rfl⟩, fun hn _ => ?_⟩
      have hn2 : first_failed t.1 = none := hn
      rw [hf] at hn2
      cases hn2
    · obtain ⟨⟨e1, e2⟩, e3⟩ := c1 _ r ht
      obtain ⟨⟨f1, f2⟩, f3⟩ := keep (phase_discover_env env input) z1 t
      exact ⟨⟨e1.trans f1, e2.trans f2⟩, fun hn hlen => e3 hn (by rw [f3]; exact hlen)⟩
  interval_cases k
  · exact c0 s r h
  · exact c1 s r h
  · exact c2 s r h
  · exact c3 s r h
  · exact c4 s r h

theorem first_failed_iff (b : FEMBuilder) :
    (first_failed b).isSome = true ↔ ∃ q, q < b.numprocessors_ ∧ rd b.success_ q = some false := by
  unfold first_failed
  rw [List.find?_isSome]
  constructor
  · rintro ⟨q, hq, hp⟩
    exact ⟨q, List.mem_range.mp hq, by simpa using hp⟩
  · rintro ⟨q, hq, hp⟩
    exact ⟨q, List.mem_range.mpr hq, by simpa using hp⟩

theorem first_failed_none_iff (b : FEMBuilder) :
    first_failed b = none ↔ ¬ ∃ q, q < b.numprocessors_ ∧ rd b.success_ q = some false := by
  rw [← first_failed_iff]
  cases first_failed b <;> simp

/-- C32: the run of the workers is a sequence of phases, each followed by the barrier and
the check of the success flags; `env` tells which allocations of the phases throw (their
handlers clear the flag of the worker).  For every check `k` (0 after Setup, 1 to 3
after the sparsity phases, 4 after MatrixAlloc) and every state of the builder and the
workers at that check: if some worker's flag is false, the rest of the run ends in that
state, only messages being added, so no later phase is executed and the row, column and
value arrays are not written again; if no flag is false, the rest of the run is the next
phase followed by the rest from the next check on, and after check 4 the ZeroInit and
Assembly phases.  The run is the Setup phase followed by the rest from check 0, and
without failing allocations it is the run of `run_tasks` (and of `build_matrix`).  When
the run inside `build_matrix` ends, `success_` has one flag per worker, `build_matrix`
returns false if and only if one of them is false, and (for at least one worker) it
returns true when none is. -/
theorem fail_fast (env : Nat → Nat → Bool) (b : FEMBuilder) (input : Field)
    (ctable : Option DenseMatrix) (output : Option SparseRowMatrix)
    (hrun : (run_tasks_env env (at_run_tasks b ctable) input).isSome = true) :
    (∀ (k : Nat) (s : FEMBuilder × List Worker), k ≤ 4 →
      (∃ q, q < s.1.numprocessors_ ∧ rd s.1.success_ q = some false) →
      ∃ l, run_from env input k s = some { s.1 with log := l }) ∧
    (∀ (k : Nat) (s : FEMBuilder × List Worker),
      (¬ ∃ q, q < s.1.numprocessors_ ∧ rd s.1.success_ q = some false) →
      (k < 4 →
        run_from env input k s = run_from env input (k + 1) (next_phase env input k s)) ∧
      run_from env input 4 s
        = (each_worker_opt (phase_assemble input) 0 s.1 s.2).map Prod.fst) ∧
    (∀ b0 : FEMBuilder, run_tasks_env env b0 input = run_from env input 0
      (each_worker (phase_setup input) 0 b0 (List.replicate b0.numprocessors_ Worker.new))) ∧
    (∀ b0 : FEMBuilder, run_tasks b0 input = run_tasks_env no_failure b0 input) ∧
    build_matrix b input ctable output = build_matrix_env no_failure b input ctable output ∧
    ∃ r, run_tasks_env env (at_run_tasks b ctable) input = some r ∧
      r.success_.length = b.numprocessors_ ∧
      ((build_matrix_env env b input ctable output).map (fun x => x.1) = some false ↔
        ∃ j, j < b.numprocessors_ ∧ rd r.success_ j = some false) ∧
      (0 < b.numprocessors_ →
        (¬ ∃ j, j < b.numprocessors_ ∧ rd r.success_ j = some false) →
        (build_matrix_env env b input ctable output).map (fun x => x.1) = some true) := by
  refine ⟨fun k s hk hf => run_from_stops env input k s hk ((first_failed_iff s.1).mpr hf),
    fun k s hp => ?_, fun b0 => rfl, fun b0 => run_tasks_env_none b0 input,
    build_matrix_env_none b input ctable output, ?_⟩
  · obtain ⟨p1, p2⟩ := run_from_passes env input s ((first_failed_none_iff s.1).mpr hp)
    exact ⟨fun hk => p1 k hk, p2⟩
  obtain ⟨r, hr⟩ := Option.isSome_iff_exists.mp hrun
  obtain ⟨⟨hl1, hn1⟩, hfin⟩ := run_from_end env input 0 _ r (by omega) hr
  have k0 := each_worker_keeps
    (fun b : FEMBuilder => (b.success_.length, b.numprocessors_)) (phase_setup input)
    (fun p b w => by
      have := phase_setup_lengths input p b w
      simp only [this.1, this.2])
    (List.replicate (at_run_tasks b ctable).numprocessors_ Worker.new) 0 (at_run_tasks b ctable)
  simp only [Prod.mk.injEq] at k0
  have hlen : r.success_.length = b.numprocessors_ := by
    rw [hl1, k0.1]
    simp only [at_run_tasks]
    exact length_resize _ _ _
  have hnum : r.numprocessors_ = b.numprocessors_ := by
    rw [hn1, k0.2]
    rfl
  have hiff : (build_matrix_env env b input ctable output).map (fun x => x.1) = some false ↔
      ∃ j, j < b.numprocessors_ ∧ rd r.success_ j = some false := by
    unfold build_matrix_env
    rw [hr, ← hlen, ← find_flag]
    simp only [Option.some_bind, finish_build]
    cases hfind : (List.range r.success_.length).find?
        (fun j => decide (rd r.success_ j = some false)) with
    | some j => simp
    | none =>
      simp only [Option.isSome_none, Bool.false_eq_true, iff_false]
      by_cases hfs : r.force_symmetry = true
      · cases hA : r.fematrix_ <;> simp [hfs, hA]
      · simp [hfs]
  refine ⟨r, hr, hlen, hiff, ?_⟩
  intro hN hno
  have hnone : first_failed r = none := by
    rw [first_failed_none_iff, hnum]
    exact hno
  have hsome := hfin hnone (by
    rw [each_worker_length, List.length_replicate]
    exact hN)
  obtain ⟨A, hA⟩ := Option.isSome_iff_exists.mp hsome
  have hfind : (List.range r.success_.length).find?
      (fun j => decide (rd r.success_ j = some false)) = none := by
    cases hf : (List.range r.success_.length).find?
        (fun j => decide (rd r.success_ j = some false)) with
    | none => rfl
    | some j =>
      exfalso
      apply hno
      rw [← hlen, ← find_flag, hf]
      rfl
  unfold build_matrix_env
  rw [hr]
  simp only [Option.some_bind, finish_build, hfind, hA]
  by_cases hfs : r.force_symmetry = true
  · simp [hfs]
  · simp [hfs]

set_option maxRecDepth 100000 in
theorem fail_fast_witness :
    ((build_matrix_env reserve_fails builder_plain (tet_field 3 1 4) none none).map
        (fun x => (x.1, x.2.2, x.2.1.log))
      = some (false, none,
          [Msg.error "BuildFEMatrix crashed mapping out stiffness matrix",
           Msg.error "Algorithm failed in thread 1"]) ∧
     (build_matrix_env reserve_fails builder_plain (tet_field 3 1 4) none none).map
        (fun x => (x.2.1.success_, x.2.1.fematrix_, x.2.1.allcols_))
      = some ([true, false], none, []) ∧
     (build_matrix_env matrix_alloc_fails builder_plain (tet_field 3 1 4) none none).map
        (fun x => (x.1, x.2.2, x.2.1.log))
      = some (false, none,
          [Msg.remark "Creating fematrix on main thread.",
           Msg.error "BuildFEMatrix crashed while creating final stiffness matrix",
           Msg.error "Algorithm failed in thread 0"]) ∧
     (build_matrix_env matrix_alloc_fails builder_plain (tet_field 3 1 4) none none).map
        (fun x => (x.2.1.success_, x.2.1.fematrix_))
      = some ([false, true], none)) ∧
    ((∀ (k : Nat) (s : FEMBuilder × List Worker), k ≤ 4 →
      (∃ q, q < s.1.numprocessors_ ∧ rd s.1.success_ q = some false) →
      ∃ l, run_from reserve_fails (tet_field 3 1 4) k s = some { s.1 with log := l }) ∧
    (∀ (k : Nat) (s : FEMBuilder × List Worker),
      (¬ ∃ q, q < s.1.numprocessors_ ∧ rd s.1.success_ q = some false) →
      (k < 4 → run_from reserve_fails (tet_field 3 1 4) k s
        = run_from reserve_fails (tet_field 3 1 4) (k + 1)
            (next_phase reserve_fails (tet_field 3 1 4) k s)) ∧
      run_from reserve_fails (tet_field 3 1 4) 4 s
        = (each_worker_opt (phase_assemble (tet_field 3 1 4)) 0 s.1 s.2).map Prod.fst) ∧
    (∀ b0 : FEMBuilder, run_tasks_env reserve_fails b0 (tet_field 3 1 4)
      = run_from reserve_fails (tet_field 3 1 4) 0
        (each_worker (phase_setup (tet_field 3 1 4)) 0 b0
          (List.replicate b0.numprocessors_ Worker.new))) ∧
    (∀ b0 : FEMBuilder, run_tasks b0 (tet_field 3 1 4)
      = run_tasks_env no_failure b0 (tet_field 3 1 4)) ∧
    build_matrix builder_plain (tet_field 3 1 4) none none
      = build_matrix_env no_failure builder_plain (tet_field 3 1 4) none none ∧
    ∃ r, run_tasks_env reserve_fails (at_run_tasks builder_plain none) (tet_field 3 1 4)
        = some r ∧
      r.success_.length = builder_plain.numprocessors_ ∧
      ((build_matrix_env reserve_fails builder_plain (tet_field 3 1 4) none none).map
          (fun x => x.1) = some false ↔
        ∃ j, j < builder_plain.numprocessors_ ∧ rd r.success_ j = some false) ∧
      (0 < builder_plain.numprocessors_ →
        (¬ ∃ j, j < builder_plain.numprocessors_ ∧ rd r.success_ j = some false) →
        (build_matrix_env reserve_fails builder_plain (tet_field 3 1 4) none none).map
          (fun x => x.1) = some true)) :=
  ⟨⟨by decide!, by decide!, by decide!, by decide!⟩,
    fail_fast reserve_fails builder_plain (tet_field 3 1 4) none none (by decide!)⟩

end BuildFEMatrix
